import Mathlib

/-!
# FileManager: upload / extract / commit-or-rollback pipeline

A shallow embedding of `handlers/upload-helpers.go` and
`handlers/upload-handler.go`.

* Go strings are lists of characters (`Str`).
* The standard-library path functions the code calls (`filepath.Clean`,
  `filepath.Join`, `filepath.Dir`, `filepath.Ext`, `strings.HasPrefix`) are
  modelled on `Str` for the Unix separator.
* The file system is a map from lexically resolved paths to nodes; every
  `os.*` call of the code is a state-passing function on a `World`
  that also appends the call to a trace.
* Remote services are oracles that answer from the list of calls made so far.
* Goroutines are threads of an interleaving machine driven by a schedule.
-/

namespace FileManager

/-- Go `string`, as a list of characters. -/
abbrev Str := List Char

/-- Go `error`: `none` is `nil`, `some msg` is an error whose `Error()` is `msg`. -/
abbrev GoErr := Option Str

/-! ## Paths -/

/-- Lexically resolved path: rootedness and the list of path elements. -/
structure CPath where
  abs : Bool
  segs : List Str
deriving DecidableEq, Repr

/-- The element `..`. -/
def dotdot : Str := ['.', '.']

/-- Split at every `/` (the pieces may be empty). -/
def splitSlash : Str → List Str
  | [] => [[]]
  | c :: cs =>
    if c = '/' then [] :: splitSlash cs
    else
      match splitSlash cs with
      | [] => [[c]]
      | h :: t => (c :: h) :: t

/-- One element of the cleaning loop of `filepath.Clean`, on the stack of
elements kept so far (top first): empty elements and `.` are skipped, `..`
removes the last real element, is dropped at the root, and is kept in a
leading `../..` run of a relative path. -/
def cleanStep (abs : Bool) (st : List Str) (c : Str) : List Str :=
  if c = [] ∨ c = ['.'] then st
  else if c = dotdot then
    match st with
    | [] => if abs then [] else [c]
    | t :: rest => if t = dotdot then c :: st else rest
  else c :: st

/-- Lexical resolution of a path string. -/
def parse (s : Str) : CPath :=
  let abs : Bool := s.head? = some '/'
  ⟨abs, ((splitSlash s).foldl (cleanStep abs) []).reverse⟩

/-- Elements joined by `/`. -/
def joinSlash : List Str → Str
  | [] => []
  | [a] => a
  | a :: b :: t => a ++ '/' :: joinSlash (b :: t)

/-- The path string of a resolved path: `/` for the root, `.` for the empty
relative path. -/
def render (p : CPath) : Str :=
  if p.abs then '/' :: joinSlash p.segs
  else if p.segs = [] then ['.'] else joinSlash p.segs

/-- The resolved path `a` is `p` or one of its ancestors. -/
def CPath.contains (a p : CPath) : Bool :=
  a.abs == p.abs && a.segs.isPrefixOf p.segs

/-- The path one element up. -/
def CPath.parent (p : CPath) : CPath := ⟨p.abs, p.segs.dropLast⟩

/-- The path one element down. -/
def CPath.child (p : CPath) (name : Str) : CPath := ⟨p.abs, p.segs ++ [name]⟩

/-- The path and all its ancestors, top first. -/
def CPath.ancestors (p : CPath) : List CPath :=
  (List.inits p.segs).map (CPath.mk p.abs)

end FileManager

namespace FileManager.filepath

/-- Go `filepath.Clean` (Unix). -/
def Clean (path : Str) : Str := render (parse path)

/-- Go `filepath.Join` of two elements (Unix): empty leading elements are
ignored, the rest is joined by `/` and cleaned. -/
def Join (a b : Str) : Str :=
  if a ≠ [] then Clean (a ++ '/' :: b)
  else if b ≠ [] then Clean b
  else []

/-- The path up to and including its last `/`. -/
def uptoLastSlash (path : Str) : Str :=
  (path.reverse.dropWhile (fun c => c != '/')).reverse

/-- Go `filepath.Dir` (Unix). -/
def Dir (path : Str) : Str := Clean (uptoLastSlash path)

/-- The backward scan of `filepath.Ext`: `rev` is what is left of the reversed
path, `acc` the characters already passed. -/
def extScan : Str → Str → Str
  | [], _ => []
  | c :: rev, acc =>
    if c = '/' then []
    else if c = '.' then c :: acc
    else extScan rev (c :: acc)

/-- Go `filepath.Ext`: the suffix from the last dot of the last element. -/
def Ext (path : Str) : Str := extScan path.reverse []

end FileManager.filepath

namespace FileManager.strings

/-- Go `strings.HasPrefix`. -/
def HasPrefix (s pre : Str) : Bool := pre.isPrefixOf s

end FileManager.strings

namespace FileManager

/-! ## File system -/

/-- A node of the file system. -/
inductive Node
  | dir
  | file (mode : Nat) (content : List Nat)
deriving DecidableEq, Repr

/-- The file system: what exists at each resolved path. -/
abbrev FS := CPath → Option Node

/-- The empty file system. -/
def FS.empty : FS := fun _ => none

/-- Whether the node is a regular file. -/
def isFile : Option Node → Bool
  | some (Node.file _ _) => true
  | _ => false

/-- The calls into package `os` (and `io.Copy` on an opened file) the code makes. -/
inductive FsOp
  | Stat (path : Str)
  | MkdirAll (path : Str)
  | RemoveAll (path : Str)
  | Rename (oldpath newpath : Str)
  | OpenFile (path : Str)
  | Copy (path : Str)
deriving DecidableEq, Repr

/-- Canonical text of a `uuid.UUID`. -/
structure UUID where
  str : Str
deriving DecidableEq, Repr

/-- The struct `response.IterationResponse`; `ID` is the identifier of the
embedded `entity.BaseEntityModel`. -/
structure IterationResponse where
  ID : UUID
  ProjectID : UUID
  Revision : Option Str
  GeoJSONURL : Option Str
  GeoJSONFileName : Option Str
  OrthoPhotoURL : Option Str
  OrthoPhotoFileName : Option Str
  Tile3DURL : Option Str
  Tile3DFileName : Option Str
deriving DecidableEq, Repr

/-- Modelled from the spec: `request.UpdateIterationRequest` is not under
src/; these are the fields the handlers assign: the identity, the optional
revision and, for each asset slot, an optional URL and an optional file name. -/
structure UpdateIterationRequest where
  ID : UUID
  Revision : Option Str
  GeoJSONURL : Option Str
  GeoJSONFileName : Option Str
  OrthoPhotoURL : Option Str
  OrthoPhotoFileName : Option Str
  Tile3DURL : Option Str
  Tile3DFileName : Option Str
deriving DecidableEq, Repr

/-- The requests sent to the Project service. -/
inductive Call
  | GetCompanyID (projectID : UUID)
  | GetIteration (id : Str)
  | CreateIteration (projectID : UUID) (revision : Str)
  | UpdateIteration (req : UpdateIterationRequest)
  | DeleteIteration (id : UUID)
deriving DecidableEq, Repr

/-- What a handler does to the outside, in order. -/
inductive Event
  | fs (op : FsOp)
  | call (c : Call)
deriving DecidableEq, Repr

/-- The state a request runs in: the file system and the trace of effects. -/
structure World where
  fs : FS
  trace : List Event

/-- Append a file-system call to the trace. -/
def World.logFs (w : World) (op : FsOp) : World :=
  { w with trace := w.trace ++ [Event.fs op] }

/-- The remote calls of a trace, in order. -/
def callsOf (t : List Event) : List Call :=
  t.filterMap (fun e => match e with
    | Event.call c => some c
    | Event.fs _ => none)

/-- The file-system calls of a trace, in order. -/
def fsOpsOf (t : List Event) : List FsOp :=
  t.filterMap (fun e => match e with
    | Event.fs op => some op
    | Event.call _ => none)

end FileManager

namespace FileManager.os

/-- Go `os.PathSeparator` (Unix). -/
def PathSeparator : Char := '/'

/-- The message of `os.ErrNotExist`. -/
def ErrNotExist : Str := "file does not exist".toList

/-- Go `os.Stat`, reduced to its error: `ErrNotExist` when nothing is at the
path, another error when an ancestor is a regular file, `nil` otherwise. -/
def Stat (path : Str) (w : World) : GoErr × World :=
  let k := parse path
  let w1 := w.logFs (FsOp.Stat path)
  if k.parent.ancestors.any (fun a => isFile (w.fs a)) then
    (some "stat: not a directory".toList, w1)
  else if w.fs k = none then (some ErrNotExist, w1)
  else (none, w1)

/-- Go `os.MkdirAll`: fails when the path or an ancestor is a regular file,
otherwise the path and all its ancestors are directories afterwards. -/
def MkdirAll (path : Str) (w : World) : GoErr × World :=
  let k := parse path
  let w1 := w.logFs (FsOp.MkdirAll path)
  if k.ancestors.any (fun a => isFile (w.fs a)) then
    (some "mkdir: not a directory".toList, w1)
  else
    (none, { w1 with fs := fun q => if q.contains k then some Node.dir else w.fs q })

/-- Go `os.RemoveAll`: removes the path and everything below it; a path that
does not exist is not an error. -/
def RemoveAll (path : Str) (w : World) : GoErr × World :=
  let k := parse path
  (none, { w.logFs (FsOp.RemoveAll path) with
    fs := fun q => if k.contains q then none else w.fs q })

/-- Go `os.Rename` of a path onto a path where nothing exists: the subtree
moves. The handlers rename only onto a path they have just removed; a rename
onto an existing path is an error here. -/
def Rename (oldpath newpath : Str) (w : World) : GoErr × World :=
  let o := parse oldpath
  let n := parse newpath
  let w1 := w.logFs (FsOp.Rename oldpath newpath)
  if w.fs o = none then (some "rename: no such file or directory".toList, w1)
  else if w.fs n ≠ none then (some "rename: file exists".toList, w1)
  else if o.contains n then (some "rename: invalid argument".toList, w1)
  else if w.fs n.parent ≠ some Node.dir then
    (some "rename: no such file or directory".toList, w1)
  else
    let moved : FS := fun q =>
      if n.contains q then w.fs ⟨o.abs, o.segs ++ q.segs.drop n.segs.length⟩
      else if o.contains q then none
      else w.fs q
    (none, { w1 with fs := moved })

/-- Go `os.OpenFile` with `O_WRONLY|O_CREATE|O_TRUNC`: the parent must be a
directory and the path must not be one; an existing file is truncated and
keeps its mode, a new file gets `mode`. -/
def OpenFile (path : Str) (mode : Nat) (w : World) : GoErr × World :=
  let k := parse path
  let w1 := w.logFs (FsOp.OpenFile path)
  if w.fs k.parent ≠ some Node.dir then
    (some "open: no such file or directory".toList, w1)
  else
    match w.fs k with
    | some Node.dir => (some "open: is a directory".toList, w1)
    | some (Node.file m _) =>
      (none, { w1 with fs := fun q => if q = k then some (Node.file m []) else w.fs q })
    | none =>
      (none, { w1 with fs := fun q => if q = k then some (Node.file mode []) else w.fs q })

end FileManager.os

namespace FileManager.io

/-- Go `io.Copy` into the file opened at `path`: the file holds `bytes`
afterwards. -/
def Copy (path : Str) (bytes : List Nat) (w : World) : GoErr × World :=
  let k := parse path
  let w1 := w.logFs (FsOp.Copy path)
  match w.fs k with
  | some (Node.file m _) =>
    (none, { w1 with fs := fun q => if q = k then some (Node.file m bytes) else w.fs q })
  | _ => (some "write: file already closed".toList, w1)

end FileManager.io

namespace FileManager

/-! ## Archives -/

/-- One entry of an archive (`zip.File`): its name, whether
`f.FileInfo().IsDir()` holds, `f.Mode()`, and what `f.Open()` followed by
reading it to the end gives. -/
structure ZipFile where
  Name : Str
  IsDir : Bool
  Mode : Nat
  Open : Except Str (List Nat)

/-- An uploaded file (`multipart.FileHeader`): its name, the error of
`file.Open()`, and what `zip.NewReader` gives on its bytes. -/
structure FileHeader where
  Filename : Str
  OpenErr : GoErr
  NewReader : Except Str (List ZipFile)

/-- The function `unzipFile` of upload-helpers.go. -/
def unzipFile (f : ZipFile) (destination : Str) (w : World) : GoErr × World :=
  -- 4. Check if file paths are not vulnerable to Zip Slip
  let filePath := filepath.Join destination f.Name
  if !strings.HasPrefix filePath (filepath.Clean destination ++ [os.PathSeparator]) then
    (some ("invalid file path: ".toList ++ filePath), w)
  -- 5. Create directory tree
  else if f.IsDir then
    match os.MkdirAll filePath w with
    | (some err, w1) => (some err, w1)
    | (none, w1) => (none, w1)
  else
    match os.MkdirAll (filepath.Dir filePath) w with
    | (some err, w1) => (some err, w1)
    | (none, w1) =>
      -- 6. Create a destination file for unzipped content
      match os.OpenFile filePath f.Mode w1 with
      | (some err, w2) => (some err, w2)
      | (none, w2) =>
        -- 7. Unzip the content of a file and copy it to the destination file
        match f.Open with
        | Except.error err => (some err, w2)
        | Except.ok bytes => io.Copy filePath bytes w2

end FileManager

namespace FileManager

/-! ## Remote services, environment, responses -/

/-- The pair `(errCode, err)` a remote call returns when `err != nil`. -/
structure RemoteErr where
  code : Int
  msg : Str
deriving DecidableEq, Repr

/-- The Project service: each answer may depend on the calls made before. -/
structure Remote where
  GetCompanyID : List Call → UUID → Except RemoteErr Str
  GetIteration : List Call → Str → Except RemoteErr IterationResponse
  CreateIteration : List Call → UUID → Str → Except RemoteErr IterationResponse
  UpdateIteration : List Call → UpdateIterationRequest → Except RemoteErr IterationResponse
  DeleteIteration : List Call → UUID → Except RemoteErr Unit

/-- What the code reads from its surroundings: environment variables, the
path of the executable, `uuid.Parse`, the Project service, and the error codes
of package `constants` (their values are not under src/). -/
structure Env where
  UPLOAD_DIRECTORY : Str
  Executable : Str
  uuidParse : Str → Option UUID
  remote : Remote
  ERR_PROJECT_ITERATION_UPLOAD_NOT_ALLOWED : Int
  ERR_PROJECT_ITERATION_DELETE_NOT_ALLOWED : Int
  ERR_PROJECT_NOT_FOUND : Int
  ERR_FILE_TYPE_NOT_ALLOWED : Int
  ERR_COMMON_PERMISSION_NOT_ALLOWED : Int

/-- What a handler sends back. `BadRequest` and `InternalServerError` are the
calls of `helpers.BadRequest` and `helpers.InternalServerError` with their
arguments (the helpers are not under src/), `Created` is status 201 with the
iteration as data, `Success` is status 200 with data "Success", and `Panic` is
an index-out-of-range panic on a missing form field. -/
inductive Response
  | BadRequest (msg : Str) (code : Int)
  | InternalServerError (msg : Str) (code : Option Int)
  | Created (data : IterationResponse)
  | Success
  | Panic
deriving DecidableEq, Repr

/-- A parsed multipart form (`multipart.Form`). -/
structure Form where
  Value : Str → List Str
  File : Str → List FileHeader

/-- An upload request: the `is_root` claim of the token and the result of
`c.MultipartForm()`. The token cookies are fixed for a request and are part of
the remote oracle. -/
structure Request where
  isRoot : Bool
  MultipartForm : Except Str Form

/-- Go `fmt.Sprintf("%s/%s", a, b)`. -/
def slash (a b : Str) : Str := a ++ '/' :: b

/-- The function `GetFileSystemRootLocation` of common-func.go. -/
def GetFileSystemRootLocation (env : Env) : Str :=
  if env.UPLOAD_DIRECTORY.length = 0 then
    filepath.Dir env.Executable ++ "/uploads".toList
  else env.UPLOAD_DIRECTORY

/-- Append a remote call to the trace. -/
def World.logCall (w : World) (c : Call) : World :=
  { w with trace := w.trace ++ [Event.call c] }

/-- The function `callGetProjectIteration` of upload-helpers.go. -/
def callGetProjectIteration (env : Env) (iterationID : Str) (w : World) :
    Except RemoteErr IterationResponse × World :=
  (env.remote.GetIteration (callsOf w.trace) iterationID,
    w.logCall (Call.GetIteration iterationID))

/-- The function `callCreateProjectIteration` of upload-helpers.go. -/
def callCreateProjectIteration (env : Env) (projectID : UUID) (revision : Str) (w : World) :
    Except RemoteErr IterationResponse × World :=
  (env.remote.CreateIteration (callsOf w.trace) projectID revision,
    w.logCall (Call.CreateIteration projectID revision))

/-- The function `callUpdateProjectIteration` of upload-helpers.go. -/
def callUpdateProjectIteration (env : Env) (request : UpdateIterationRequest) (w : World) :
    Except RemoteErr IterationResponse × World :=
  (env.remote.UpdateIteration (callsOf w.trace) request,
    w.logCall (Call.UpdateIteration request))

/-- The function `callDeleteProjectIteration` of upload-helpers.go. -/
def callDeleteProjectIteration (env : Env) (iterationID : UUID) (w : World) :
    Except RemoteErr Unit × World :=
  (env.remote.DeleteIteration (callsOf w.trace) iterationID,
    w.logCall (Call.DeleteIteration iterationID))

/-- The function `callGetCompanyIDFromProjectID` of upload-helpers.go. -/
def callGetCompanyIDFromProjectID (env : Env) (projectID : UUID) (w : World) :
    Except RemoteErr Str × World :=
  (env.remote.GetCompanyID (callsOf w.trace) projectID,
    w.logCall (Call.GetCompanyID projectID))

/-- Modelled from the spec: `mapper.Mapper` (package github.com/devfeel/mapper)
is not under src/. It copies the fields of the fetched iteration to the fields
of the same name of the request: the revision and the URL and file name of
every asset slot, absent values included. The identifier sits in an embedded
struct and is assigned by the handler itself. -/
def Mapper (src : IterationResponse) (dst : UpdateIterationRequest) : UpdateIterationRequest :=
  { dst with
    Revision := src.Revision
    GeoJSONURL := src.GeoJSONURL
    GeoJSONFileName := src.GeoJSONFileName
    OrthoPhotoURL := src.OrthoPhotoURL
    OrthoPhotoFileName := src.OrthoPhotoFileName
    Tile3DURL := src.Tile3DURL
    Tile3DFileName := src.Tile3DFileName }

/-! ## File-type filter -/

/-- The loop of `allowFileTypeCheck` over the files: the extensions that are
not allowed, each once, in order of first occurrence. -/
def notAllowedExtensions (files : List (Option FileHeader)) : List Str :=
  files.foldl (fun notAllowed file =>
    match file with
    | some file =>
      let extension := filepath.Ext file.Filename
      if !([".zip".toList, ".rar".toList, ".7z".toList].contains extension) &&
          !(notAllowed.contains extension) then
        notAllowed ++ [extension]
      else notAllowed
    | none => notAllowed) []

/-- The loop of `allowFileTypeCheck` that writes the extensions to the buffer. -/
def writeExtensions : List Str → Str
  | [] => []
  | [e] => e ++ " ".toList
  | e :: rest => e ++ ", ".toList ++ writeExtensions rest

/-- The function `allowFileTypeCheck` of upload-helpers.go. -/
def allowFileTypeCheck (files : List (Option FileHeader)) : GoErr :=
  let notAllowed := notAllowedExtensions files
  if notAllowed.length ≠ 0 then
    some ("File extensions: ".toList ++ writeExtensions notAllowed ++ "not allowed.".toList)
  else none

/-! ## Goroutines -/

/-- Where a goroutine running `saveAndUnzipFile` stands. -/
inductive TaskSt
  | spawned (file : Option FileHeader)
  | unzipping (rest : List ZipFile)
  | sending (err : Str)
  | done

/-- Whether the goroutine has returned (and so has run `wg.Done()`). -/
def TaskSt.isDone : TaskSt → Bool
  | TaskSt.done => true
  | _ => false

/-- A goroutine running `saveAndUnzipFile(saveDirectory, file, errChannel, &wg)`. -/
structure Task where
  saveDirectory : Str
  st : TaskSt

/-- The function `saveAndUnzipFile` of upload-helpers.go, one step at a time:
opening the archive, one `unzipFile` per entry, and the return. A goroutine
at `errChannel <- err` waits; the send itself is a step of the machine. -/
def saveAndUnzipFile (saveDirectory : Str) (st : TaskSt) (w : World) : TaskSt × World :=
  match st with
  | TaskSt.spawned none => (TaskSt.done, w)
  | TaskSt.spawned (some file) =>
    -- Create new unzipper from mime multipart file
    match file.OpenErr with
    | some err => (TaskSt.sending err, w)
    | none =>
      match file.NewReader with
      | Except.error err => (TaskSt.sending err, w)
      | Except.ok files => (TaskSt.unzipping files, w)
  | TaskSt.unzipping [] => (TaskSt.done, w)
  | TaskSt.unzipping (f :: rest) =>
    -- Unzip files inside of the zipped file
    match unzipFile f saveDirectory w with
    | (some err, w1) => (TaskSt.sending err, w1)
    | (none, w1) => (TaskSt.unzipping rest, w1)
  | TaskSt.sending err => (TaskSt.sending err, w)
  | TaskSt.done => (TaskSt.done, w)

/-- The handler goroutine between spawning the tasks and returning: `recv` is
the receive of `for err := range errChannel` (defined where the handler
stands at the loop), `step` is any other step, given whether the channel is
closed (undefined where the handler is blocked or has returned). -/
structure MainProg (M : Type) where
  recv : M → Str → Option M
  step : Bool → M → World → Option (M × World)

/-- A request in flight: the world, the spawned tasks, whether `errChannel` is
closed, and the handler goroutine. -/
structure Conc (M : Type) where
  world : World
  tasks : List Task
  closed : Bool
  main : M

/-- The threads of a request: the tasks, the goroutine that runs `wg.Wait()`
and `close(errChannel)`, and the handler. -/
inductive Tid
  | task (i : Nat)
  | waiter
  | main
deriving DecidableEq, Repr

/-- One step of the chosen thread; a thread that cannot move leaves the state
as it is. A send on the unbuffered channel happens only together with the
receive of the handler. -/
def Conc.step {M : Type} (P : MainProg M) (c : Conc M) : Tid → Conc M
  | Tid.task i =>
    match c.tasks[i]? with
    | none => c
    | some t =>
      match t.st with
      | TaskSt.sending err =>
        if c.closed then c
        else
          match P.recv c.main err with
          | some m =>
            { c with main := m, tasks := c.tasks.set i { t with st := TaskSt.done } }
          | none => c
      | st =>
        let r := saveAndUnzipFile t.saveDirectory st c.world
        { c with world := r.2, tasks := c.tasks.set i { t with st := r.1 } }
  | Tid.waiter =>
    if !c.closed && c.tasks.all (fun t => t.st.isDone) then { c with closed := true }
    else c
  | Tid.main =>
    match P.step c.closed c.main c.world with
    | some (m, w) => { c with main := m, world := w }
    | none => c

/-- Run a schedule. -/
def Conc.exec {M : Type} (P : MainProg M) (sched : List Tid) (c : Conc M) : Conc M :=
  sched.foldl (Conc.step P) c

end FileManager

namespace FileManager

/-! ## CreateProjectIteration -/

/-- The local variables of `CreateProjectIteration` that are alive once the
tasks are spawned. -/
structure CreateCtx where
  companyID : Str
  projectID : UUID
  projectIteration : IterationResponse
  revision : Str
  saveDirectory : Str
  geoJSONFile : Option FileHeader
  tile3DFile : Option FileHeader
  orthoPhotoFile : Option FileHeader

/-- Where the handler goroutine of `CreateProjectIteration` stands: in the
range loop over `errChannel`, inside the loop body before
`os.RemoveAll(saveDirectory)`, before `callDeleteProjectIteration`, or
returned with its response. -/
inductive CreateMain
  | ranging (x : CreateCtx)
  | gotErr (x : CreateCtx) (err : Str)
  | removed (x : CreateCtx) (err : Str)
  | returned (resp : Response)

/-- The response of a handler that has returned. -/
def CreateMain.response : CreateMain → Option Response
  | CreateMain.returned r => some r
  | _ => none

/-- The update request `CreateProjectIteration` builds after the range loop:
the identifier and the revision, and for every asset that was uploaded its URL
and file name. -/
def createRequest (x : CreateCtx) : UpdateIterationRequest :=
  let r0 : UpdateIterationRequest :=
    { ID := x.projectIteration.ID, Revision := some x.revision,
      GeoJSONURL := none, GeoJSONFileName := none,
      OrthoPhotoURL := none, OrthoPhotoFileName := none,
      Tile3DURL := none, Tile3DFileName := none }
  let baseURL := '/' :: slash (slash x.companyID x.projectID.str) r0.ID.str
  let r1 := match x.geoJSONFile with
    | some file => { r0 with GeoJSONURL := some (slash baseURL "geojson".toList),
                             GeoJSONFileName := some file.Filename }
    | none => r0
  let r2 := match x.tile3DFile with
    | some file => { r1 with Tile3DURL := some (slash baseURL "tile_3d".toList),
                             Tile3DFileName := some file.Filename }
    | none => r1
  match x.orthoPhotoFile with
  | some file => { r2 with OrthoPhotoURL := some (slash baseURL "ortho_photo".toList),
                           OrthoPhotoFileName := some file.Filename }
  | none => r2

/-- The code of `CreateProjectIteration` after the range loop ends without an
error: the update call with the request built from the uploaded assets, and
the rollback when that call fails. -/
def createCommit (env : Env) (x : CreateCtx) (w : World) : Response × World :=
  -- No error, update project iteration on db with project's url and file names
  match callUpdateProjectIteration env (createRequest x) w with
  | (Except.error e, w1) =>
    -- Delete files
    let w2 := (os.RemoveAll x.saveDirectory w1).2
    -- Delete project iteration db record
    match callDeleteProjectIteration env x.projectIteration.ID w2 with
    | (Except.error de, w3) => (Response.InternalServerError de.msg (some de.code), w3)
    | (Except.ok _, w3) => (Response.InternalServerError e.msg (some e.code), w3)
  | (Except.ok updatedProjectIteration, w1) =>
    -- Return created iteration
    (Response.Created updatedProjectIteration, w1)

/-- The handler goroutine of `CreateProjectIteration` from the range loop on.
The body of the loop runs on the first error received and returns. -/
def createProg (env : Env) : MainProg CreateMain where
  recv m err :=
    match m with
    | CreateMain.ranging x => some (CreateMain.gotErr x err)
    | _ => none
  step closed m w :=
    match m with
    | CreateMain.ranging x =>
      if closed then
        let r := createCommit env x w
        some (CreateMain.returned r.1, r.2)
      else none
    | CreateMain.gotErr x err =>
      -- Delete files
      some (CreateMain.removed x err, (os.RemoveAll x.saveDirectory w).2)
    | CreateMain.removed x err =>
      -- Delete project iteration db record
      match callDeleteProjectIteration env x.projectIteration.ID w with
      | (Except.error de, w1) =>
        some (CreateMain.returned (Response.InternalServerError de.msg (some de.code)), w1)
      | (Except.ok _, w1) =>
        -- Return save error
        some (CreateMain.returned (Response.InternalServerError err none), w1)
    | CreateMain.returned _ => none

/-- A handler that returns before any task is spawned. -/
def createReturn (resp : Response) (w : World) : Conc CreateMain :=
  { world := w, tasks := [], closed := false, main := CreateMain.returned resp }

/-- The block "Create save locations" of `CreateProjectIteration`. -/
def createSaveLocations (geoJSONDirectory tile3DDirectory orthoPhotoDirectory : Str)
    (w : World) : GoErr × World :=
  match os.Stat geoJSONDirectory w with
  | (statErr, w0) =>
    if statErr = some os.ErrNotExist then
      match os.MkdirAll geoJSONDirectory w0 with
      | (some err, w1) => (some err, w1)
      | (none, w1) =>
        match os.MkdirAll tile3DDirectory w1 with
        | (some err, w2) => (some err, w2)
        | (none, w2) =>
          match os.MkdirAll orthoPhotoDirectory w2 with
          | (some err, w3) => (some err, w3)
          | (none, w3) => (none, w3)
    else (none, w0)

/-- The handler `CreateProjectIteration` up to "Get file save location":
the privilege check, the form, the project identifier, the company lookup, the
file-type filter and the create-iteration call. It either responds or goes on
with its local variables. -/
def createValidate (env : Env) (req : Request) (w : World) :
    Except Response CreateCtx × World :=
  -- Only allow root to create
  if !req.isRoot then
    (Except.error (Response.BadRequest "field not found".toList
      env.ERR_PROJECT_ITERATION_UPLOAD_NOT_ALLOWED), w)
  else
    match req.MultipartForm with
    | Except.error err => (Except.error (Response.InternalServerError err none), w)
    | Except.ok form =>
      -- Get and validate projectID
      match (form.Value "project_id".toList).head? with
      | none => (Except.error Response.Panic, w)
      | some projectIDString =>
        match env.uuidParse projectIDString with
        | none =>
          (Except.error (Response.BadRequest "invalid project id".toList
            env.ERR_PROJECT_NOT_FOUND), w)
        | some projectID =>
          -- Get company ID from project's ID
          match callGetCompanyIDFromProjectID env projectID w with
          | (Except.error e, w1) => (Except.error (Response.BadRequest e.msg e.code), w1)
          | (Except.ok companyID, w1) =>
            -- Get files
            let geoJSONFile := (form.File "geojson".toList).head?
            let tile3DFile := (form.File "tile_3d".toList).head?
            let orthoPhotoFile := (form.File "ortho_photo".toList).head?
            -- Check for allowed file types
            match allowFileTypeCheck [geoJSONFile, tile3DFile, orthoPhotoFile] with
            | some fileCheckErr =>
              (Except.error (Response.BadRequest fileCheckErr env.ERR_FILE_TYPE_NOT_ALLOWED), w1)
            | none =>
              -- Call project service to create a project iteration first
              let revision := ((form.Value "revision".toList).head?).getD []
              match callCreateProjectIteration env projectID revision w1 with
              | (Except.error e, w2) => (Except.error (Response.BadRequest e.msg e.code), w2)
              | (Except.ok projectIteration, w2) =>
                -- Get file save location
                let fileSystemRoot := GetFileSystemRootLocation env
                let saveDirectory := slash (slash (slash fileSystemRoot companyID)
                  projectID.str) projectIteration.ID.str
                (Except.ok
                  { companyID := companyID, projectID := projectID,
                    projectIteration := projectIteration, revision := revision,
                    saveDirectory := saveDirectory, geoJSONFile := geoJSONFile,
                    tile3DFile := tile3DFile, orthoPhotoFile := orthoPhotoFile }, w2)

/-- The handler `CreateProjectIteration` from "Create save locations" to the
point where the three tasks and the closing goroutine are spawned. -/
def createStage (x : CreateCtx) (w : World) : Conc CreateMain :=
  let geoJSONDirectory := slash x.saveDirectory "geojson".toList
  let tile3DDirectory := slash x.saveDirectory "tile_3d".toList
  let orthoPhotoDirectory := slash x.saveDirectory "ortho_photo".toList
  -- Create save locations
  match createSaveLocations geoJSONDirectory tile3DDirectory orthoPhotoDirectory w with
  | (some err, w1) => createReturn (Response.InternalServerError err none) w1
  | (none, w1) =>
    -- Spawn go processes to save files cocurrenly
    { world := w1
      tasks := [⟨geoJSONDirectory, TaskSt.spawned x.geoJSONFile⟩,
                ⟨tile3DDirectory, TaskSt.spawned x.tile3DFile⟩,
                ⟨orthoPhotoDirectory, TaskSt.spawned x.orthoPhotoFile⟩]
      closed := false
      main := CreateMain.ranging x }

/-- The handler `CreateProjectIteration` up to the range loop. -/
def createInit (env : Env) (req : Request) (w : World) : Conc CreateMain :=
  match createValidate env req w with
  | (Except.error resp, w1) => createReturn resp w1
  | (Except.ok x, w1) => createStage x w1

/-- The handler `CreateProjectIteration` of upload-handler.go under a schedule
of its goroutines. -/
def CreateProjectIteration (env : Env) (req : Request) (sched : List Tid) (w : World) :
    Conc CreateMain :=
  Conc.exec (createProg env) sched (createInit env req w)

/-! ## UpdateProjectIteration -/

/-- The local variables of `UpdateProjectIteration` that are alive once the
tasks are spawned. -/
structure UpdateCtx where
  projectIteration : IterationResponse
  toBeUpdatedProjectIteration : UpdateIterationRequest
  isRemoveGeoJSON : Str
  isRemoveTile3D : Str
  isRemoveOrthoPhoto : Str
  geoJSONFile : Option FileHeader
  tile3DFile : Option FileHeader
  orthoPhotoFile : Option FileHeader
  saveDirectory : Str

/-- Where the handler goroutine of `UpdateProjectIteration` stands: before the
update call, in the range loop over `errChannel` (with the result of the
update call and the last error received), or returned with its response. -/
inductive UpdateMain
  | updating (x : UpdateCtx)
  | ranging (x : UpdateCtx) (updated : Except RemoteErr IterationResponse) (saveFileErr : GoErr)
  | returned (resp : Response)

/-- The response of a handler that has returned. -/
def UpdateMain.response : UpdateMain → Option Response
  | UpdateMain.returned r => some r
  | _ => none

/-- One of the three blocks after "Success" in `UpdateProjectIteration`: with
remove set the final and the temporary directory are deleted and the final one
is made again; with a new file the final directory is deleted and the
temporary one renamed to it; otherwise nothing is done. -/
def promote (isRemove : Str) (file : Option FileHeader) (directory tempDirectory : Str)
    (w : World) : World :=
  if isRemove = "true".toList then
    let w1 := (os.RemoveAll directory w).2
    let w2 := (os.RemoveAll tempDirectory w1).2
    (os.MkdirAll directory w2).2
  else if file.isSome then
    let w1 := (os.RemoveAll directory w).2
    (os.Rename tempDirectory directory w1).2
  else w

/-- The code of `UpdateProjectIteration` after the range loop has ended. -/
def updateFinish (env : Env) (x : UpdateCtx) (updated : Except RemoteErr IterationResponse)
    (saveFileErr : GoErr) (w : World) : Response × World :=
  let geoJSONTempDirectory := slash x.saveDirectory "geojson_temp".toList
  let geoJSONDirectory := slash x.saveDirectory "geojson".toList
  let tile3DTempDirectory := slash x.saveDirectory "tile_3d_temp".toList
  let tile3DDirectory := slash x.saveDirectory "tile_3d".toList
  let orthoPhotoTempDirectory := slash x.saveDirectory "ortho_photo_temp".toList
  let orthoPhotoDirectory := slash x.saveDirectory "ortho_photo".toList
  let rollback (w : World) : Except RemoteErr IterationResponse × World :=
    -- Delete temporary uploaded directories
    let w1 := (os.RemoveAll geoJSONTempDirectory w).2
    let w2 := (os.RemoveAll tile3DTempDirectory w1).2
    let w3 := (os.RemoveAll orthoPhotoTempDirectory w2).2
    -- Update to the old record
    callUpdateProjectIteration env (Mapper x.projectIteration x.toBeUpdatedProjectIteration) w3
  match updated, saveFileErr with
  | Except.error e, _ =>
    -- Failed, revert by deleting the files and update back the old Iteration db record
    match rollback w with
    | (Except.error re, w4) => (Response.InternalServerError re.msg (some re.code), w4)
    | (Except.ok _, w4) => (Response.InternalServerError e.msg (some e.code), w4)
  | Except.ok _, some err =>
    match rollback w with
    | (Except.error re, w4) => (Response.InternalServerError re.msg (some re.code), w4)
    | (Except.ok _, w4) => (Response.InternalServerError err none, w4)
  | Except.ok updatedProjectIteration, none =>
    -- Success
    let w1 := promote x.isRemoveGeoJSON x.geoJSONFile geoJSONDirectory geoJSONTempDirectory w
    let w2 := promote x.isRemoveTile3D x.tile3DFile tile3DDirectory tile3DTempDirectory w1
    let w3 := promote x.isRemoveOrthoPhoto x.orthoPhotoFile orthoPhotoDirectory
      orthoPhotoTempDirectory w2
    -- Return created iteration
    (Response.Created updatedProjectIteration, w3)

/-- The handler goroutine of `UpdateProjectIteration` from the update call on.
The range loop keeps the last error received and ends when the channel is
closed. -/
def updateProg (env : Env) : MainProg UpdateMain where
  recv m err :=
    match m with
    | UpdateMain.ranging x updated _ => some (UpdateMain.ranging x updated (some err))
    | _ => none
  step closed m w :=
    match m with
    | UpdateMain.updating x =>
      -- Update record on db
      let r := callUpdateProjectIteration env x.toBeUpdatedProjectIteration w
      some (UpdateMain.ranging x r.1 none, r.2)
    | UpdateMain.ranging x updated saveFileErr =>
      if closed then
        let r := updateFinish env x updated saveFileErr w
        some (UpdateMain.returned r.1, r.2)
      else none
    | UpdateMain.returned _ => none

/-- A handler that returns before any task is spawned. -/
def updateReturn (resp : Response) (w : World) : Conc UpdateMain :=
  { world := w, tasks := [], closed := false, main := UpdateMain.returned resp }

/-- One of the three blocks "Only save and set URL if isRemove is not true" of
`UpdateProjectIteration`, as far as the spawned task goes. -/
def spawnIfUpload (isRemove : Str) (file : Option FileHeader) (tempDirectory : Str) :
    List Task :=
  if isRemove ≠ "true".toList then
    match file with
    | some f => [⟨tempDirectory, TaskSt.spawned (some f)⟩]
    | none => []
  else []

/-- The block "Create save locations" of `UpdateProjectIteration`. -/
def updateSaveLocations (geoJSONTempDirectory tile3DTempDirectory
    orthoPhotoTempDirectory : Str) (w : World) : GoErr × World :=
  match os.MkdirAll geoJSONTempDirectory w with
  | (some err, w1) => (some err, w1)
  | (none, w1) =>
    match os.MkdirAll tile3DTempDirectory w1 with
    | (some err, w2) => (some err, w2)
    | (none, w2) =>
      match os.MkdirAll orthoPhotoTempDirectory w2 with
      | (some err, w3) => (some err, w3)
      | (none, w3) => (none, w3)

/-- The update request `UpdateProjectIteration` builds from the fetched
iteration, the remove flags, the uploaded files and the revision field. -/
def updateRequest (projectIteration : IterationResponse) (companyID : Str)
    (isRemoveGeoJSON isRemoveTile3D isRemoveOrthoPhoto : Str)
    (geoJSONFile tile3DFile orthoPhotoFile : Option FileHeader)
    (revision : List Str) : UpdateIterationRequest :=
  let r0 : UpdateIterationRequest := Mapper projectIteration
    { ID := projectIteration.ID, Revision := none,
      GeoJSONURL := none, GeoJSONFileName := none,
      OrthoPhotoURL := none, OrthoPhotoFileName := none,
      Tile3DURL := none, Tile3DFileName := none }
  -- Only save and set URL if isRemove is not true
  let baseURL := '/' :: slash (slash companyID projectIteration.ProjectID.str)
    projectIteration.ID.str
  let r1 :=
    if isRemoveGeoJSON ≠ "true".toList then
      match geoJSONFile with
      | some file => { r0 with GeoJSONURL := some (slash baseURL "geojson".toList),
                               GeoJSONFileName := some file.Filename }
      | none => r0
    else { r0 with GeoJSONURL := none, GeoJSONFileName := none }
  -- Same for 3DTile
  let r2 :=
    if isRemoveTile3D ≠ "true".toList then
      match tile3DFile with
      | some file => { r1 with Tile3DURL := some (slash baseURL "tile_3d".toList),
                               Tile3DFileName := some file.Filename }
      | none => r1
    else { r1 with Tile3DURL := none, Tile3DFileName := none }
  -- Same for Ortho Photo
  let r3 :=
    if isRemoveOrthoPhoto ≠ "true".toList then
      match orthoPhotoFile with
      | some file => { r2 with OrthoPhotoURL := some (slash baseURL "ortho_photo".toList),
                               OrthoPhotoFileName := some file.Filename }
      | none => r2
    else { r2 with OrthoPhotoURL := none, OrthoPhotoFileName := none }
  -- Get revision to update
  match revision with
  | rev :: _ => { r3 with Revision := some rev }
  | [] => r3

/-- The handler `UpdateProjectIteration` up to "Get temporary file save
location": the privilege check, the form, the two lookups, the remove flags
and the file-type filter. It either responds or goes on with its local
variables; the update request is the one the code has built when it reaches
the update call. -/
def updateValidate (env : Env) (req : Request) (w : World) :
    Except Response UpdateCtx × World :=
  -- Only allow root to create
  if !req.isRoot then
    (Except.error (Response.BadRequest "no permission to upload".toList
      env.ERR_PROJECT_ITERATION_UPLOAD_NOT_ALLOWED), w)
  else
    match req.MultipartForm with
    | Except.error err => (Except.error (Response.InternalServerError err none), w)
    | Except.ok form =>
      -- Get iteration from Project microservice
      match (form.Value "id".toList).head? with
      | none => (Except.error Response.Panic, w)
      | some iterationID =>
        match callGetProjectIteration env iterationID w with
        | (Except.error e, w1) => (Except.error (Response.BadRequest e.msg e.code), w1)
        | (Except.ok projectIteration, w1) =>
          -- Get company ID from project's ID
          match callGetCompanyIDFromProjectID env projectIteration.ProjectID w1 with
          | (Except.error e, w2) => (Except.error (Response.BadRequest e.msg e.code), w2)
          | (Except.ok companyID, w2) =>
            -- Get if user wants to remove files
            match (form.Value "removeGeoJson".toList).head?,
                  (form.Value "removeTile3D".toList).head?,
                  (form.Value "removeOrthoPhoto".toList).head? with
            | some isRemoveGeoJSON, some isRemoveTile3D, some isRemoveOrthoPhoto =>
              -- Get files
              let geoJSONFile := (form.File "geojson".toList).head?
              let tile3DFile := (form.File "tile_3d".toList).head?
              let orthoPhotoFile := (form.File "ortho_photo".toList).head?
              -- Check for allowed file types
              match allowFileTypeCheck [geoJSONFile, tile3DFile, orthoPhotoFile] with
              | some fileCheckErr =>
                (Except.error
                  (Response.BadRequest fileCheckErr env.ERR_FILE_TYPE_NOT_ALLOWED), w2)
              | none =>
                -- Get temporary file save location
                let fileSystemRoot := GetFileSystemRootLocation env
                let saveDirectory := slash (slash (slash fileSystemRoot companyID)
                  projectIteration.ProjectID.str) projectIteration.ID.str
                (Except.ok
                  { projectIteration := projectIteration
                    toBeUpdatedProjectIteration :=
                      updateRequest projectIteration companyID isRemoveGeoJSON
                        isRemoveTile3D isRemoveOrthoPhoto geoJSONFile tile3DFile
                        orthoPhotoFile (form.Value "revision".toList)
                    isRemoveGeoJSON := isRemoveGeoJSON
                    isRemoveTile3D := isRemoveTile3D
                    isRemoveOrthoPhoto := isRemoveOrthoPhoto
                    geoJSONFile := geoJSONFile
                    tile3DFile := tile3DFile
                    orthoPhotoFile := orthoPhotoFile
                    saveDirectory := saveDirectory }, w2)
            | _, _, _ => (Except.error Response.Panic, w2)

/-- The handler `UpdateProjectIteration` from "Create save locations" to the
update call: the three temporary directories and the spawned tasks. -/
def updateStage (x : UpdateCtx) (w : World) : Conc UpdateMain :=
  let geoJSONTempDirectory := slash x.saveDirectory "geojson_temp".toList
  let tile3DTempDirectory := slash x.saveDirectory "tile_3d_temp".toList
  let orthoPhotoTempDirectory := slash x.saveDirectory "ortho_photo_temp".toList
  -- Create save locations
  match updateSaveLocations geoJSONTempDirectory tile3DTempDirectory
      orthoPhotoTempDirectory w with
  | (some err, w1) => updateReturn (Response.InternalServerError err none) w1
  | (none, w1) =>
    -- Spawn go processes to save files cocurrenly
    { world := w1
      tasks :=
        spawnIfUpload x.isRemoveGeoJSON x.geoJSONFile geoJSONTempDirectory ++
        spawnIfUpload x.isRemoveTile3D x.tile3DFile tile3DTempDirectory ++
        spawnIfUpload x.isRemoveOrthoPhoto x.orthoPhotoFile orthoPhotoTempDirectory
      closed := false
      main := UpdateMain.updating x }

/-- The handler `UpdateProjectIteration` up to the update call. -/
def updateInit (env : Env) (req : Request) (w : World) : Conc UpdateMain :=
  match updateValidate env req w with
  | (Except.error resp, w1) => updateReturn resp w1
  | (Except.ok x, w1) => updateStage x w1

/-- The handler `UpdateProjectIteration` of upload-handler.go under a schedule
of its goroutines. -/
def UpdateProjectIteration (env : Env) (req : Request) (sched : List Tid) (w : World) :
    Conc UpdateMain :=
  Conc.exec (updateProg env) sched (updateInit env req w)

end FileManager

namespace FileManager

/-! ## DeleteProjectIteration -/

/-- A delete request: the `is_root` claim of the token and the result of
`c.BodyParser(&request)`, the parsed identifier or the error. -/
structure DeleteRequest where
  isRoot : Bool
  BodyParser : Except Str UUID

/-- The handler `DeleteProjectIteration` of upload-handler.go. -/
def DeleteProjectIteration (env : Env) (req : DeleteRequest) (w : World) : Response × World :=
  -- Parse request model
  match req.BodyParser with
  | Except.error err => (Response.InternalServerError err none, w)
  | Except.ok id =>
    -- Only allow root to delete
    if !req.isRoot then
      (Response.BadRequest "no permission to delete".toList
        env.ERR_PROJECT_ITERATION_DELETE_NOT_ALLOWED, w)
    else
      -- Get iteration from Project microservice
      match callGetProjectIteration env id.str w with
      | (Except.error e, w1) => (Response.BadRequest e.msg e.code, w1)
      | (Except.ok projectIteration, w1) =>
        -- Get company ID from project's ID
        match callGetCompanyIDFromProjectID env projectIteration.ProjectID w1 with
        | (Except.error e, w2) => (Response.BadRequest e.msg e.code, w2)
        | (Except.ok companyID, w2) =>
          -- Delete project iteration db record
          match callDeleteProjectIteration env id w2 with
          | (Except.error e, w3) => (Response.InternalServerError e.msg (some e.code), w3)
          | (Except.ok _, w3) =>
            -- Get file save location then delete
            let fileSystemRoot := GetFileSystemRootLocation env
            let saveDirectory := slash (slash (slash fileSystemRoot companyID)
              projectIteration.ProjectID.str) id.str
            (Response.Success, (os.RemoveAll saveDirectory w3).2)

end FileManager

namespace FileManager

/-! ## Replies of the other services -/

/-- What `agent.Bytes()` returns: the status code, the bytes of the body and
the transport errors. -/
structure Reply where
  statusCode : Int
  body : List Nat
  errs : List Str

/-- Modelled from the spec: `response.ErrorResponse` is not under src/; it is
the uniform error envelope with the fields `ErrorCode` (a Go `int`, as the
return type of `SendAndParseResponseData` shows) and `Error` (a string, as
`errors.New` shows). -/
structure ErrorResponse where
  ErrorCode : Int
  Error : Str
deriving DecidableEq, Repr

/-- The functions of the Go package `encoding/json` that
`SendAndParseResponseData` calls. The package is no part of this repository:
its functions are parameters, and what is proved holds for whatever they
return. `Value` is what an `interface{}` holds after decoding (nil included),
and `T` is the type the target points to. -/
structure EncodingJSON (Value T : Type) where
  -- `json.Unmarshal(body, &errMsg)`: the error returned and `errMsg` afterwards
  UnmarshalErrorResponse : List Nat → ErrorResponse → GoErr × ErrorResponse
  -- `json.Unmarshal(body, &response)` for the nil map `response`: the error
  -- returned and the map afterwards, as the function that takes a name to
  -- `response[name]` (nil for a name the map does not hold)
  UnmarshalMap : List Nat → GoErr × (Str → Value)
  -- `json.Marshal(data)`
  Marshal : Value → Except Str (List Nat)
  -- `json.Unmarshal(dataEncoded, object)`: the error returned and what the
  -- target holds afterwards
  Unmarshal : List Nat → T → GoErr × T

end FileManager

namespace FileManager.helpers

open FileManager

/-- The function `SendAndParseResponseData` of common-func.go. `isPointer`
tells whether `object` is a non-nil pointer, `object` is what it points to, and
`reply` is what `agent.Bytes()` returns. The result is the pair returned and
the target afterwards. -/
def SendAndParseResponseData {Value T : Type} (json : EncodingJSON Value T)
    (isPointer : Bool) (reply : Reply) (object : T) : (Int × GoErr) × T :=
  -- Validate object to be a pointer
  if !isPointer then ((500, some "object is not a pointer".toList), object)
  -- Handle failed request
  else if reply.errs.length > 0 ∨ reply.statusCode < 200 ∨ reply.statusCode ≥ 300 then
    let errMsg := (json.UnmarshalErrorResponse reply.body ⟨0, []⟩).2
    ((errMsg.ErrorCode, some errMsg.Error), object)
  else
    -- Success, decode json to response DTO
    match json.UnmarshalMap reply.body with
    | (some err, _) => ((500, some err), object)
    | (none, response) =>
      -- Encode Data to JSON bytes, then decode to get data as object
      let data := response "Data".toList
      match json.Marshal data with
      | Except.error err => ((500, some err), object)
      | Except.ok dataEncoded =>
        match json.Unmarshal dataEncoded object with
        | (some err, object1) => ((500, some err), object1)
        | (none, object1) => ((0, none), object1)

end FileManager.helpers

namespace FileManager

/-! ## GetProjectFile -/

/-- The User service: its reply to the permission request for a project. -/
structure UserService where
  ValidatePermission : UUID → Reply

/-- What the download handler does to the outside, in order. -/
inductive DownloadEffect
  | validatePermission (projectID : UUID)
  | sendFile (root location : Str)
deriving DecidableEq, Repr

/-- What the download handler sends back: `helpers.BadRequest` with its
arguments, status 404 with a text, or the file served. -/
inductive DownloadResponse
  | BadRequest (msg : Str) (code : Int)
  | NotFound (msg : Str)
  | File (content : List Nat)
deriving DecidableEq, Repr

/-- A download request: the URL parameters, `file` after `url.PathUnescape`. -/
structure DownloadRequest where
  companyID : Str
  projectID : Str
  iterationID : Str
  file : Str

/-- The function `callValidatePermission` of download-helpers.go: the pair
returned, and the request it has sent. -/
def callValidatePermission {Value : Type} (json : EncodingJSON Value Str) (env : Env)
    (user : UserService) (projectID : UUID) : (Int × GoErr) × List DownloadEffect :=
  let effects := [DownloadEffect.validatePermission projectID]
  -- Get permission
  match helpers.SendAndParseResponseData json true (user.ValidatePermission projectID) [] with
  | ((errCode, some err), _) => ((errCode, some err), effects)
  | ((_, none), data) =>
    -- Permission denied then return denied
    if data ≠ "Granted".toList then
      ((env.ERR_COMMON_PERMISSION_NOT_ALLOWED, some "no permission".toList), effects)
    else ((0, none), effects)

/-- The call `filesystem.SendFile(c, http.Dir(root), location)` of the fiber
library on the file system: `http.Dir` opens the cleaned location below the
root; a file is served, a directory is served through its `index.html` when
that is a file, and anything else is an error. -/
def SendFile (fs : FS) (root location : Str) : Except Str (List Nat) :=
  let k : CPath := ⟨(parse root).abs, (parse root).segs ++ (parse ('/' :: location)).segs⟩
  match fs k with
  | none => Except.error "Not Found".toList
  | some (Node.file _ content) => Except.ok content
  | some Node.dir =>
    match fs (k.child "index.html".toList) with
    | some (Node.file _ content) => Except.ok content
    | _ => Except.error "Forbidden".toList

/-- The handler `GetProjectFile` of download-handler.go. -/
def GetProjectFile {Value : Type} (json : EncodingJSON Value Str) (env : Env)
    (user : UserService) (req : DownloadRequest) (fs : FS) :
    DownloadResponse × List DownloadEffect :=
  -- Parse ProjectID
  match env.uuidParse req.projectID with
  | none =>
    (DownloadResponse.BadRequest "invalid project id".toList env.ERR_PROJECT_NOT_FOUND, [])
  | some projectID =>
    -- Validate permission
    match callValidatePermission json env user projectID with
    | ((errCode, some err), effects) => (DownloadResponse.BadRequest err errCode, effects)
    | ((_, none), effects) =>
      -- Path to file
      let fileSystemRoot := GetFileSystemRootLocation env
      let fileLocation := slash (slash (slash req.companyID projectID.str) req.iterationID)
        req.file
      -- Serve the file using SendFile function
      match SendFile fs fileSystemRoot fileLocation with
      | Except.error _ =>
        (DownloadResponse.NotFound "File not found".toList,
          effects ++ [DownloadEffect.sendFile fileSystemRoot fileLocation])
      | Except.ok content =>
        (DownloadResponse.File content,
          effects ++ [DownloadEffect.sendFile fileSystemRoot fileLocation])

end FileManager

namespace FileManager

/-! ## Predicates and sample data of the verification -/

/-- A real path element: not empty, not `.`, not `..`, without `/`. -/
def Plain (c : Str) : Prop := c ≠ [] ∧ c ≠ ['.'] ∧ c ≠ dotdot ∧ '/' ∉ c

/-- A stack of the cleaning loop (top first) is well formed: real elements,
above a run of `..` that only a relative path may have. -/
def WFrev (abs : Bool) : List Str → Prop
  | [] => True
  | c :: st => WFrev abs st ∧ (Plain c ∨ (c = dotdot ∧ abs = false ∧ ∀ x ∈ st, x = dotdot))

/-- The paths a file-system call names. -/
def FsOp.paths : FsOp → List Str
  | FsOp.Stat p => [p]
  | FsOp.MkdirAll p => [p]
  | FsOp.RemoveAll p => [p]
  | FsOp.Rename a b => [a, b]
  | FsOp.OpenFile p => [p]
  | FsOp.Copy p => [p]

/-- The call names only paths at or below the directory `d`. -/
def FsOp.within (d : CPath) (op : FsOp) : Prop :=
  ∀ p ∈ op.paths, d.contains (parse p) = true

/-- The step from `w` to `v` stays in the directory `d`: it makes only
file-system calls, all of them on paths at or below `d`; it changes the file
system only at paths below `d` or at ancestors of such paths; and what was a
directory still is one. -/
def Confined (d : CPath) (w v : World) : Prop :=
  (∃ ops : List FsOp, v.trace = w.trace ++ ops.map Event.fs ∧ ∀ op ∈ ops, op.within d) ∧
  ∀ q, (v.fs q = w.fs q ∨ ∃ k, d.contains k = true ∧ q.contains k = true) ∧
    (w.fs q = some Node.dir → v.fs q = some Node.dir)

/-- The world `v` comes from `w` by steps that each stay in one of the
directories `ds`. -/
inductive Steps (ds : List CPath) : World → World → Prop
  | refl (w : World) : Steps ds w w
  | step (w v u : World) (d : CPath) : Steps ds w v → d ∈ ds → Confined d v u → Steps ds w u

/-- The temporary directories of an update request, resolved. -/
def UpdateCtx.tempKeys (x : UpdateCtx) : List CPath :=
  [parse (slash x.saveDirectory "geojson_temp".toList),
   parse (slash x.saveDirectory "tile_3d_temp".toList),
   parse (slash x.saveDirectory "ortho_photo_temp".toList)]

/-- The shape of every state of an update request after staging (`w0` is the
world right after staging): the tasks work in the directories `ds`; a
closed channel means all tasks have returned; and the handler is before its
update call, or has made it in a world `wcall` and is in the range loop, or
has returned from `updateFinish` run on a world `wpre` that came about by task
steps only. -/
def UpdInv (env : Env) (x : UpdateCtx) (ds : List CPath) (w0 : World)
    (c : Conc UpdateMain) : Prop :=
  (∀ t ∈ c.tasks, parse t.saveDirectory ∈ ds) ∧
  (c.closed = true → ∀ t ∈ c.tasks, t.st.isDone = true) ∧
  match c.main with
  | UpdateMain.updating y => y = x ∧ Steps ds w0 c.world
  | UpdateMain.ranging y res _ => y = x ∧ ∃ wcall, Steps ds w0 wcall ∧
      res = env.remote.UpdateIteration (callsOf wcall.trace) x.toBeUpdatedProjectIteration ∧
      Steps ds
        (wcall.logCall (Call.UpdateIteration x.toBeUpdatedProjectIteration)) c.world
  | UpdateMain.returned r => c.closed = true ∧ ∃ wcall wpre e, Steps ds w0 wcall ∧
      Steps ds
        (wcall.logCall (Call.UpdateIteration x.toBeUpdatedProjectIteration)) wpre ∧
      updateFinish env x
        (env.remote.UpdateIteration (callsOf wcall.trace) x.toBeUpdatedProjectIteration)
        e wpre = (r, c.world)

/-- The tasks the update flow spawns. -/
def UpdateCtx.spawned (x : UpdateCtx) : List Task :=
  spawnIfUpload x.isRemoveGeoJSON x.geoJSONFile (slash x.saveDirectory "geojson_temp".toList) ++
  spawnIfUpload x.isRemoveTile3D x.tile3DFile (slash x.saveDirectory "tile_3d_temp".toList) ++
  spawnIfUpload x.isRemoveOrthoPhoto x.orthoPhotoFile
    (slash x.saveDirectory "ortho_photo_temp".toList)

/-- The rollback of the update flow: the three temporary directories are
removed and the update call is made again with the fetched values. -/
def updateRollbackWorld (x : UpdateCtx) (w : World) : World :=
  ((os.RemoveAll (slash x.saveDirectory "ortho_photo_temp".toList)
    (os.RemoveAll (slash x.saveDirectory "tile_3d_temp".toList)
      (os.RemoveAll (slash x.saveDirectory "geojson_temp".toList) w).2).2).2).logCall
    (Call.UpdateIteration (Mapper x.projectIteration x.toBeUpdatedProjectIteration))

/-- The names of the three final asset directories. -/
def finalNames : List Str := ["geojson".toList, "tile_3d".toList, "ortho_photo".toList]

/-- The names of the three temporary asset directories. -/
def tempNames : List Str :=
  ["geojson_temp".toList, "tile_3d_temp".toList, "ortho_photo_temp".toList]

/-- The three asset kinds. -/
inductive Kind
  | geojson
  | tile3d
  | orthoPhoto
deriving DecidableEq, Repr

/-- The name of the final directory of an asset kind. -/
def Kind.dirName : Kind → Str
  | Kind.geojson => "geojson".toList
  | Kind.tile3d => "tile_3d".toList
  | Kind.orthoPhoto => "ortho_photo".toList

/-- The name of the temporary directory of an asset kind. -/
def Kind.tempName : Kind → Str
  | Kind.geojson => "geojson_temp".toList
  | Kind.tile3d => "tile_3d_temp".toList
  | Kind.orthoPhoto => "ortho_photo_temp".toList

/-- The remove flag of an asset kind in an update request. -/
def UpdateCtx.isRemove (x : UpdateCtx) : Kind → Str
  | Kind.geojson => x.isRemoveGeoJSON
  | Kind.tile3d => x.isRemoveTile3D
  | Kind.orthoPhoto => x.isRemoveOrthoPhoto

/-- The uploaded file of an asset kind in an update request. -/
def UpdateCtx.file (x : UpdateCtx) : Kind → Option FileHeader
  | Kind.geojson => x.geoJSONFile
  | Kind.tile3d => x.tile3DFile
  | Kind.orthoPhoto => x.orthoPhotoFile

/-- The URL of an asset slot of an update request. -/
def UpdateIterationRequest.url (r : UpdateIterationRequest) : Kind → Option Str
  | Kind.geojson => r.GeoJSONURL
  | Kind.tile3d => r.Tile3DURL
  | Kind.orthoPhoto => r.OrthoPhotoURL

/-- The file name of an asset slot of an update request. -/
def UpdateIterationRequest.fileName (r : UpdateIterationRequest) : Kind → Option Str
  | Kind.geojson => r.GeoJSONFileName
  | Kind.tile3d => r.Tile3DFileName
  | Kind.orthoPhoto => r.OrthoPhotoFileName

/-- The URL of an asset slot of an iteration. -/
def IterationResponse.url (r : IterationResponse) : Kind → Option Str
  | Kind.geojson => r.GeoJSONURL
  | Kind.tile3d => r.Tile3DURL
  | Kind.orthoPhoto => r.OrthoPhotoURL

/-- The file name of an asset slot of an iteration. -/
def IterationResponse.fileName (r : IterationResponse) : Kind → Option Str
  | Kind.geojson => r.GeoJSONFileName
  | Kind.tile3d => r.Tile3DFileName
  | Kind.orthoPhoto => r.OrthoPhotoFileName

/-- A file-system call that respects the kept kind `k` under the save
directory `s`: it names no path in the final directory of `k`, and if it names
a path in the temporary directory of `k` it is the `os.MkdirAll` or the
`os.RemoveAll` of that directory. -/
def KeepOk (s : Str) (k : Kind) (op : FsOp) : Prop :=
  (∀ p ∈ op.paths, (parse (slash s k.dirName)).contains (parse p) = false) ∧
  ((∃ p ∈ op.paths, (parse (slash s k.tempName)).contains (parse p) = true) →
    op = FsOp.MkdirAll (slash s k.tempName) ∨ op = FsOp.RemoveAll (slash s k.tempName))

/-- An effect that respects the kept kind `k`: a file-system call that does,
or a remote call that, if it is an update call, carries the URL and file name
of `fetched` for `k`. -/
def KeepEvent (s : Str) (k : Kind) (fetched : IterationResponse) : Event → Prop
  | Event.fs op => KeepOk s k op
  | Event.call c => ∀ r, c = Call.UpdateIteration r →
      r.url k = fetched.url k ∧ r.fileName k = fetched.fileName k

/-- A step from `w` to `v` that respects the kept kind `k`: it adds only
effects that do, and leaves every path in the final directory of `k` alone. -/
def KeepStep (s : Str) (k : Kind) (fetched : IterationResponse) (w v : World) : Prop :=
  (∃ evs : List Event, v.trace = w.trace ++ evs ∧ ∀ e ∈ evs, KeepEvent s k fetched e) ∧
  ∀ q, (parse (slash s k.dirName)).contains q = true → v.fs q = w.fs q

/-- The temporary directories of the kinds other than `k`, resolved. -/
def otherTempKeys (s : Str) (k : Kind) : List CPath :=
  ([Kind.geojson, Kind.tile3d, Kind.orthoPhoto].filter (fun j => j != k)).map
    (fun j => (parse s).child j.tempName)

/-- No delete-iteration call has been made. -/
def noDelete (t : List Event) : Prop := ∀ id, Call.DeleteIteration id ∉ callsOf t

/-- The final directories of a create request, resolved. -/
def CreateCtx.finalKeys (x : CreateCtx) : List CPath :=
  [parse (slash x.saveDirectory "geojson".toList),
   parse (slash x.saveDirectory "tile_3d".toList),
   parse (slash x.saveDirectory "ortho_photo".toList)]

/-- The response of the loop body of the create flow, given the answer to its
delete call and the error received. -/
def createRollbackResponse (answer : Except RemoteErr Unit) (err : Str) : Response :=
  match answer with
  | Except.error de => Response.InternalServerError de.msg (some de.code)
  | Except.ok _ => Response.InternalServerError err none

/-- The shape of every state of a create request after staging (`w0` is the
world right after staging): the tasks work in the final directories; a closed
channel means all tasks have returned; and the handler is in the range loop
after task steps only, or in the loop body with no delete call made yet, or
has returned, either from `createCommit` run after the channel was closed, or
from the loop body, whose delete call is the only one and is followed by
file-system calls of tasks only. -/
def CreInv (env : Env) (x : CreateCtx) (w0 : World) (c : Conc CreateMain) : Prop :=
  (∀ t ∈ c.tasks, parse t.saveDirectory ∈ x.finalKeys) ∧
  (c.closed = true → ∀ t ∈ c.tasks, t.st.isDone = true) ∧
  match c.main with
  | CreateMain.ranging y => y = x ∧ Steps x.finalKeys w0 c.world
  | CreateMain.gotErr y _ => y = x ∧ noDelete c.world.trace
  | CreateMain.removed y _ => y = x ∧ noDelete c.world.trace ∧
      Event.fs (FsOp.RemoveAll x.saveDirectory) ∈ c.world.trace
  | CreateMain.returned r =>
      (c.closed = true ∧ ∃ wpre : World, Steps x.finalKeys w0 wpre ∧
        createCommit env x wpre = (r, c.world)) ∨
      (∃ (wdel : World) (err : Str) (post : List FsOp), noDelete wdel.trace ∧
        Event.fs (FsOp.RemoveAll x.saveDirectory) ∈ wdel.trace ∧
        c.world.trace = wdel.trace ++
          Event.call (Call.DeleteIteration x.projectIteration.ID) :: List.map Event.fs post ∧
        r = createRollbackResponse
          (env.remote.DeleteIteration (callsOf wdel.trace) x.projectIteration.ID) err)

/-- The extensions the filter accepts. -/
def allowedExtensions : List Str := [".zip".toList, ".rar".toList, ".7z".toList]

/-- The event is a delete-iteration call. -/
def isDelete (e : Event) : Prop := ∃ id, e = Event.call (Call.DeleteIteration id)

/-- An upper bound on the steps a task takes until it waits at its send or
has returned. -/
def TaskSt.fuel : TaskSt → Nat
  | TaskSt.spawned none => 1
  | TaskSt.spawned (some file) =>
    match file.OpenErr with
    | some _ => 1
    | none =>
      match file.NewReader with
      | Except.error _ => 1
      | Except.ok files => files.length + 2
  | TaskSt.unzipping rest => rest.length + 1
  | TaskSt.sending _ => 0
  | TaskSt.done => 0

/-- What holds in every state of an update request: a closed channel means
every task has returned, and a handler that has returned has seen the channel
closed, unless it returned before any task was spawned. -/
def UpdateOk (c : Conc UpdateMain) : Prop :=
  (c.closed = true → ∀ t ∈ c.tasks, t.st.isDone = true) ∧
  (c.main.response ≠ none → c.closed = true ∨ c.tasks = [])

/-- A task error is pending or has been recorded: a task waits to send its
error while the handler has not returned and the channel is open, or the range
loop of the update flow has received an error, or the handler has returned
with something other than the success response. -/
def UpdateFailed (c : Conc UpdateMain) : Prop :=
  ((∃ (i : Nat) (t : Task) (err : Str), c.tasks[i]? = some t ∧ t.st = TaskSt.sending err) ∧
    c.closed = false ∧ c.main.response = none) ∨
  (∃ (x : UpdateCtx) (u : Except RemoteErr IterationResponse) (err : Str),
    c.main = UpdateMain.ranging x u (some err)) ∨
  (∃ r : Response, c.main = UpdateMain.returned r ∧ ∀ d, r ≠ Response.Created d)

/-- Following the claim's words: the distinct elements of a list, each once,
in order of first occurrence. -/
def distinctInOrder : List Str → List Str
  | [] => []
  | x :: xs => x :: (distinctInOrder xs).filter (fun y => decide (y ≠ x))

/-- Following the claim's words: the extensions of the files given (absent
files left out) that are not one of the allowed extensions, in the order of
the files. -/
def disallowedExtensions (files : List (Option FileHeader)) : List Str :=
  ((files.filterMap id).map (fun f => filepath.Ext f.Filename)).filter
    (fun e => !allowedExtensions.contains e)

/-- The slot invariant on a request: the URL and the file name of every asset
slot are both present or both absent. -/
def UpdateIterationRequest.slotsPaired (r : UpdateIterationRequest) : Prop :=
  r.GeoJSONURL.isSome = r.GeoJSONFileName.isSome ∧
  r.Tile3DURL.isSome = r.Tile3DFileName.isSome ∧
  r.OrthoPhotoURL.isSome = r.OrthoPhotoFileName.isSome

/-- The slot invariant on an iteration as the Project service returns it. -/
def IterationResponse.slotsPaired (r : IterationResponse) : Prop :=
  r.GeoJSONURL.isSome = r.GeoJSONFileName.isSome ∧
  r.Tile3DURL.isSome = r.Tile3DFileName.isSome ∧
  r.OrthoPhotoURL.isSome = r.OrthoPhotoFileName.isSome

/-- Every update call of the trace carries a request with paired slots. -/
def updateCallsPaired (t : List Event) : Prop :=
  ∀ r, Call.UpdateIteration r ∈ callsOf t → r.slotsPaired

/-- What the slot invariant needs of the local variables of an update
request: the request built and the fetched iteration have paired slots. -/
def UpdateCtx.paired (x : UpdateCtx) : Prop :=
  x.toBeUpdatedProjectIteration.slotsPaired ∧ x.projectIteration.slotsPaired

/-- The slot invariant of a state of the update flow. -/
def UpdatePaired (c : Conc UpdateMain) : Prop :=
  (match c.main with
    | UpdateMain.updating y => y.paired
    | UpdateMain.ranging y _ _ => y.paired
    | UpdateMain.returned _ => True) ∧
  updateCallsPaired c.world.trace

/-- Following the claim's words: the entries are extracted in order, up to and
including the first entry for which `unzipFile` returns an error; the entries
after it are not touched. -/
def extractInOrder (saveDirectory : Str) : List ZipFile → World → GoErr × World
  | [], w => (none, w)
  | f :: rest, w =>
    match unzipFile f saveDirectory w with
    | (some err, w1) => (some err, w1)
    | (none, w1) => extractInOrder saveDirectory rest w1

/-- The first `n` steps of a goroutine running `saveAndUnzipFile`, no other
goroutine moving in between. -/
def runTask (saveDirectory : Str) : Nat → TaskSt → World → TaskSt × World
  | 0, st, w => (st, w)
  | n + 1, st, w =>
    runTask saveDirectory n (saveAndUnzipFile saveDirectory st w).1
      (saveAndUnzipFile saveDirectory st w).2

/-- Where a task ends after its entries: at the send of the first error, or
returned. -/
def taskEnd (r : GoErr × World) : TaskSt × World :=
  match r with
  | (some err, w) => (TaskSt.sending err, w)
  | (none, w) => (TaskSt.done, w)

/-- The reply grants the permission: no transport error, a 2xx status, a body
that unmarshals into the map, and the `Data` of the map, marshalled again,
unmarshals into the string "Granted". -/
def Reply.granted {Value : Type} (json : EncodingJSON Value Str) (reply : Reply) : Prop :=
  reply.errs = [] ∧ 200 ≤ reply.statusCode ∧ reply.statusCode < 300 ∧
  ∃ response dataEncoded, json.UnmarshalMap reply.body = (none, response) ∧
    json.Marshal (response "Data".toList) = Except.ok dataEncoded ∧
    json.Unmarshal dataEncoded [] = (none, "Granted".toList)

/-- The send that a step completes, if any: the channel is unbuffered, so a
send is complete when the handler receives it, which is the step of
`Conc.step` that turns the sending task to returned. The result is the number
of the task and the error. -/
def Conc.handover {M : Type} (P : MainProg M) (c : Conc M) : Tid → Option (Nat × Str)
  | Tid.task i =>
    match c.tasks[i]? with
    | some t =>
      match t.st with
      | TaskSt.sending err =>
        if c.closed then none
        else
          match P.recv c.main err with
          | some _ => some (i, err)
          | none => none
      | _ => none
    | none => none
  | _ => none

/-- The errors sent on the channel in a run, in order, each with the number of
its task. -/
def Conc.sent {M : Type} (P : MainProg M) : List Tid → Conc M → List (Nat × Str)
  | [], _ => []
  | t :: sched, c => (Conc.handover P c t).toList ++ Conc.sent P sched (Conc.step P c t)

/-- A sample Project service: every lookup and every call succeeds. -/
def sampleRemote : Remote where
  GetCompanyID _ _ := Except.ok "c".toList
  GetIteration _ _ := Except.ok
    ⟨⟨"i".toList⟩, ⟨"p".toList⟩, some "r1".toList, some "/c/p/i/geojson".toList,
      some "old.zip".toList, none, none, none, none⟩
  CreateIteration _ p r := Except.ok ⟨⟨"i".toList⟩, p, some r, none, none, none, none, none, none⟩
  UpdateIteration _ r := Except.ok
    ⟨r.ID, ⟨"p".toList⟩, r.Revision, r.GeoJSONURL, r.GeoJSONFileName, r.OrthoPhotoURL,
      r.OrthoPhotoFileName, r.Tile3DURL, r.Tile3DFileName⟩
  DeleteIteration _ _ := Except.ok ()

/-- A sample environment with upload directory `/up`. -/
def sampleEnv (remote : Remote) : Env where
  UPLOAD_DIRECTORY := "/up".toList
  Executable := "/bin/fm".toList
  uuidParse s := some ⟨s⟩
  remote := remote
  ERR_PROJECT_ITERATION_UPLOAD_NOT_ALLOWED := 1
  ERR_PROJECT_ITERATION_DELETE_NOT_ALLOWED := 2
  ERR_PROJECT_NOT_FOUND := 3
  ERR_FILE_TYPE_NOT_ALLOWED := 4
  ERR_COMMON_PERMISSION_NOT_ALLOWED := 5

/-- An uploaded file that is not a zip archive. -/
def brokenUpload (name : Str) : FileHeader :=
  ⟨name, none, Except.error "zip: not a valid zip file".toList⟩

/-- An uploaded archive with the single file entry `data/x.txt`. -/
def goodUpload (name : Str) : FileHeader :=
  ⟨name, none, Except.ok [⟨"data/x.txt".toList, false, 420, Except.ok [1, 2, 3]⟩]⟩

/-- A form with the given text fields and files. -/
def sampleForm (values : List (Str × Str)) (files : List (Str × FileHeader)) : Form where
  Value k := (values.filter (fun x => x.1 = k)).map (fun x => x.2)
  File k := (files.filter (fun x => x.1 = k)).map (fun x => x.2)

/-- An archive entry that climbs out of its destination. -/
def evilEntry : ZipFile := ⟨"../../evil.txt".toList, false, 420, Except.ok [1]⟩

/-- A file system with one committed geojson asset of iteration `/up/c/p/i`. -/
def sampleFS : FS := fun q =>
  if q = parse "/up/c/p/i/geojson/old.txt".toList then some (Node.file 420 [9])
  else if q.contains (parse "/up/c/p/i/geojson".toList) then some Node.dir
  else none

/-- An update request of a privileged caller for iteration `i` with the given
remove flags and files. -/
def sampleUpdate (rmGeo rmTile rmOrtho : Str) (files : List (Str × FileHeader)) : Request :=
  ⟨true, Except.ok (sampleForm
    [("id".toList, "i".toList), ("removeGeoJson".toList, rmGeo),
     ("removeTile3D".toList, rmTile), ("removeOrthoPhoto".toList, rmOrtho)] files)⟩

/-- The iteration the sample service returns for a lookup. -/
def sampleIteration : IterationResponse :=
  ⟨⟨"i".toList⟩, ⟨"p".toList⟩, some "r1".toList, some "/c/p/i/geojson".toList,
    some "old.zip".toList, none, none, none, none⟩

/-- The local variables of the sample update request that uploads a broken
tile_3d archive and keeps the other assets. -/
def sampleUpdateCtx : UpdateCtx where
  projectIteration := sampleIteration
  toBeUpdatedProjectIteration :=
    updateRequest sampleIteration "c".toList "false".toList "false".toList "false".toList
      none (some (brokenUpload "t.rar".toList)) none []
  isRemoveGeoJSON := "false".toList
  isRemoveTile3D := "false".toList
  isRemoveOrthoPhoto := "false".toList
  geoJSONFile := none
  tile3DFile := some (brokenUpload "t.rar".toList)
  orthoPhotoFile := none
  saveDirectory := "/up/c/p/i".toList

/-- The local variables of the sample update request that removes the geojson
asset and keeps the two others. -/
def sampleRemoveCtx : UpdateCtx where
  projectIteration := sampleIteration
  toBeUpdatedProjectIteration :=
    updateRequest sampleIteration "c".toList "true".toList "false".toList "false".toList
      none none none []
  isRemoveGeoJSON := "true".toList
  isRemoveTile3D := "false".toList
  isRemoveOrthoPhoto := "false".toList
  geoJSONFile := none
  tile3DFile := none
  orthoPhotoFile := none
  saveDirectory := "/up/c/p/i".toList

/-- A create request of a privileged caller for project `p` with revision
`r1` and the given files. -/
def sampleCreate (files : List (Str × FileHeader)) : Request :=
  ⟨true, Except.ok (sampleForm
    [("project_id".toList, "p".toList), ("revision".toList, "r1".toList)] files)⟩

/-- The local variables of the sample create request with the given files. -/
def sampleCreateCtx (geo tile ortho : Option FileHeader) : CreateCtx where
  companyID := "c".toList
  projectID := ⟨"p".toList⟩
  projectIteration :=
    ⟨⟨"i".toList⟩, ⟨"p".toList⟩, some "r1".toList, none, none, none, none, none, none⟩
  revision := "r1".toList
  saveDirectory := "/up/c/p/i".toList
  geoJSONFile := geo
  tile3DFile := tile
  orthoPhotoFile := ortho

/-- A Project service whose delete-iteration call fails. -/
def failingDeleteRemote : Remote :=
  { sampleRemote with
    DeleteIteration := fun _ _ => Except.error ⟨77, "delete failed".toList⟩ }

/-- A Project service whose update call fails from the third call of a
request on: the second update call of an update request fails. -/
def failingRestoreRemote : Remote :=
  { sampleRemote with
    UpdateIteration := fun calls r =>
      if 3 ≤ calls.length then Except.error ⟨78, "restore failed".toList⟩
      else sampleRemote.UpdateIteration calls r }

/-- A file system in which `/up/c/p/i/geojson/data/x.txt` already exists, with
other content. -/
def staleFS : FS := fun q =>
  if q = parse "/up/c/p/i/geojson/data/x.txt".toList then some (Node.file 384 [9, 9])
  else if q.contains (parse "/up/c/p/i/geojson/data".toList) then some Node.dir
  else none

/-- An uploaded archive whose second entry climbs out of the destination. -/
def mixedUpload : FileHeader :=
  ⟨"m.zip".toList, none, Except.ok
    [⟨"a.txt".toList, false, 420, Except.ok [1]⟩, evilEntry,
     ⟨"b.txt".toList, false, 420, Except.ok [2]⟩]⟩

/-- A create request of a privileged caller whose geojson and tile_3d uploads
are both the archive `mixedUpload`, with second entry `../../evil.txt`. -/
def twoFailingCreate : Request :=
  sampleCreate [("geojson".toList, mixedUpload), ("tile_3d".toList, mixedUpload)]

/-- An update request of a privileged caller with the same two uploads. -/
def twoFailingUpdate : Request :=
  sampleUpdate "false".toList "false".toList "false".toList
    [("geojson".toList, mixedUpload), ("tile_3d".toList, mixedUpload)]

/-- The bytes of a text. -/
def bytesOf (text : String) : List Nat :=
  text.toList.map Char.toNat

/-- The body `{"ErrorCode":1234,"Error":"forbidden"}`. -/
def refusedBody : List Nat :=
  bytesOf "\x7b\x22ErrorCode\x22:1234,\x22Error\x22:\x22forbidden\x22\x7d"

/-- The body `{"Data":"Granted"}`. -/
def grantedBody : List Nat :=
  bytesOf "\x7b\x22Data\x22:\x22Granted\x22\x7d"

/-- The body `{"Data":"Denied"}`. -/
def deniedBody : List Nat :=
  bytesOf "\x7b\x22Data\x22:\x22Denied\x22\x7d"

/-- A sample of the package `encoding/json` for a target of type string, where
an `interface{}` holds nil or a string. On the inputs the examples reach it
returns what the package returns: the first body above fills the error
envelope, the other two leave it as it is and give a map that holds `Data`
only, a string of letters is marshalled between quotes and nil as `null`, and
`null` leaves the target as it is. On every other input it returns the error
of the empty input, `unexpected end of JSON input`. -/
def sampleJSON : EncodingJSON (Option Str) Str where
  UnmarshalErrorResponse body errMsg :=
    if body = refusedBody then (none, ⟨1234, "forbidden".toList⟩)
    else if body = grantedBody ∨ body = deniedBody then (none, errMsg)
    else (some "unexpected end of JSON input".toList, errMsg)
  UnmarshalMap body :=
    if body = grantedBody then
      (none, fun name => if name = "Data".toList then some "Granted".toList else none)
    else if body = deniedBody then
      (none, fun name => if name = "Data".toList then some "Denied".toList else none)
    else (some "unexpected end of JSON input".toList, fun _ => none)
  Marshal data :=
    match data with
    | none => Except.ok (bytesOf "null")
    | some s => Except.ok (34 :: s.map Char.toNat ++ [34])
  Unmarshal dataEncoded object :=
    if dataEncoded = bytesOf "null" then (none, object)
    else if dataEncoded = 34 :: "Granted".toList.map Char.toNat ++ [34] then
      (none, "Granted".toList)
    else if dataEncoded = 34 :: "Denied".toList.map Char.toNat ++ [34] then
      (none, "Denied".toList)
    else (some "unexpected end of JSON input".toList, object)

/-- A reply with status 403 and the error envelope of a refusal. -/
def refusedReply : Reply :=
  ⟨403, refusedBody, []⟩

/-- A reply with status 200 and the given body. -/
def dataReply (body : List Nat) : Reply :=
  ⟨200, body, []⟩

/-- A User service that answers every permission request with "Denied". -/
def denyingUser : UserService :=
  ⟨fun _ => dataReply deniedBody⟩

/-- A User service that answers every permission request with "Granted". -/
def grantingUser : UserService :=
  ⟨fun _ => dataReply grantedBody⟩

/-- A download request. -/
def sampleDownload : DownloadRequest :=
  ⟨"c".toList, "p".toList, "i".toList, "a.txt".toList⟩

/-! ## Theorems -/

theorem splitSlash_ne_nil (s : Str) : splitSlash s ≠ [] := by
  cases s with
  | nil => simp [splitSlash]
  | cons c cs =>
    unfold splitSlash
    split
    · simp
    · split <;> simp

theorem splitSlash_append_slash (a b : Str) :
    splitSlash (a ++ '/' :: b) = splitSlash a ++ splitSlash b := by
  induction a with
  | nil => simp [splitSlash]
  | cons c cs ih =>
    by_cases hc : c = '/'
    · simp [splitSlash, hc, ih]
    · simp only [List.cons_append, splitSlash, hc, if_false]
      cases h : splitSlash cs with
      | nil => exact absurd h (splitSlash_ne_nil cs)
      | cons x xs => simp only [List.append_eq, ih, h, List.cons_append]

theorem splitSlash_of_not_mem (s : Str) (h : '/' ∉ s) : splitSlash s = [s] := by
  induction s with
  | nil => simp [splitSlash]
  | cons c cs ih =>
    simp only [List.mem_cons, not_or] at h
    have hc : c ≠ '/' := fun e => h.1 e.symm
    simp [splitSlash, hc, ih h.2]

theorem not_mem_of_mem_splitSlash (s c : Str) (h : c ∈ splitSlash s) : '/' ∉ c := by
  induction s generalizing c with
  | nil => simp [splitSlash] at h; simp [h]
  | cons a cs ih =>
    by_cases ha : a = '/'
    · simp only [splitSlash, ha, if_true, List.mem_cons] at h
      rcases h with h | h
      · simp [h]
      · exact ih c h
    · simp only [splitSlash, ha, if_false] at h
      cases hs : splitSlash cs with
      | nil => exact absurd hs (splitSlash_ne_nil cs)
      | cons x xs =>
        rw [hs] at h ih
        simp only [List.mem_cons] at h
        rcases h with h | h
        · subst h
          have := ih x (by simp)
          simp only [List.mem_cons, not_or]
          exact ⟨fun e => ha e.symm, this⟩
        · exact ih c (by simp [h])

theorem not_plain_dotdot : ¬ Plain dotdot := fun h => h.2.2.1 rfl

theorem cleanStep_wf (abs : Bool) (st : List Str) (c : Str) (h : WFrev abs st)
    (hc : '/' ∉ c) : WFrev abs (cleanStep abs st c) := by
  unfold cleanStep
  by_cases h1 : c = [] ∨ c = ['.']
  · simp [h1, h]
  · rw [if_neg h1]
    by_cases h2 : c = dotdot
    · rw [if_pos h2]
      cases st with
      | nil =>
        cases abs
        · simp [WFrev, h2]
        · simp [WFrev]
      | cons t rest =>
        by_cases h3 : t = dotdot
        · simp only [h3, if_true]
          subst h3
          refine ⟨h, Or.inr ⟨h2, ?_⟩⟩
          rcases h.2 with hp | ⟨_, ha, hall⟩
          · exact absurd hp not_plain_dotdot
          · exact ⟨ha, by simpa using hall⟩
        · simp only [h3, if_false]
          exact h.1
    · rw [if_neg h2]
      refine ⟨h, Or.inl ⟨?_, ?_, h2, hc⟩⟩
      · exact fun e => h1 (Or.inl e)
      · exact fun e => h1 (Or.inr e)

theorem foldl_cleanStep_wf (abs : Bool) (xs : List Str) (st : List Str)
    (h : WFrev abs st) (hx : ∀ c ∈ xs, '/' ∉ c) :
    WFrev abs (xs.foldl (cleanStep abs) st) := by
  induction xs generalizing st with
  | nil => simpa using h
  | cons x xs ih =>
    simp only [List.foldl_cons]
    exact ih _ (cleanStep_wf abs st x h (hx x (by simp))) (fun c hc => hx c (by simp [hc]))

theorem parse_wf (s : Str) : WFrev (parse s).abs (parse s).segs.reverse := by
  simp only [parse, List.reverse_reverse]
  exact foldl_cleanStep_wf _ _ _ trivial (fun c hc => not_mem_of_mem_splitSlash s c hc)

theorem WFrev_of_append (abs : Bool) (a b : List Str) (h : WFrev abs (a ++ b)) :
    WFrev abs b := by
  induction a with
  | nil => simpa using h
  | cons x xs ih => exact ih h.1

theorem cleanStep_push (abs : Bool) (st : List Str) (c : Str) (h : WFrev abs (c :: st)) :
    cleanStep abs st c = c :: st := by
  unfold cleanStep
  rcases h.2 with hp | ⟨hd, ha, hall⟩
  · have h1 : ¬ (c = [] ∨ c = ['.']) := by
      rintro (e | e)
      · exact hp.1 e
      · exact hp.2.1 e
    rw [if_neg h1, if_neg hp.2.2.1]
  · subst hd
    have h1 : ¬ (dotdot = [] ∨ dotdot = ['.']) := by decide
    rw [if_neg h1, if_pos rfl]
    cases st with
    | nil => simp [ha]
    | cons t rest => simp [hall t (by simp)]

theorem foldl_cleanStep_of_wf (abs : Bool) (xs st : List Str)
    (h : WFrev abs (xs.reverse ++ st)) :
    xs.foldl (cleanStep abs) st = xs.reverse ++ st := by
  induction xs generalizing st with
  | nil => simp
  | cons x xs ih =>
    simp only [List.reverse_cons, List.append_assoc, List.singleton_append] at h
    simp only [List.foldl_cons, List.reverse_cons, List.append_assoc, List.singleton_append]
    rw [cleanStep_push abs st x (WFrev_of_append abs _ _ h)]
    exact ih _ h

/-- Every element of a well-formed stack is non-empty, not `.`, and without `/`. -/
theorem WFrev_elem (abs : Bool) (st : List Str) (h : WFrev abs st) (c : Str) (hc : c ∈ st) :
    c ≠ [] ∧ c ≠ ['.'] ∧ '/' ∉ c := by
  induction st with
  | nil => simp at hc
  | cons t rest ih =>
    simp only [List.mem_cons] at hc
    rcases hc with e | hc
    · subst e
      rcases h.2 with hp | ⟨hd, _, _⟩
      · exact ⟨hp.1, hp.2.1, hp.2.2.2⟩
      · subst hd; decide
    · exact ih h.1 hc

theorem splitSlash_joinSlash (segs : List Str) (hne : segs ≠ [])
    (h : ∀ c ∈ segs, '/' ∉ c) : splitSlash (joinSlash segs) = segs := by
  induction segs with
  | nil => exact absurd rfl hne
  | cons a t ih =>
    cases t with
    | nil => simpa [joinSlash] using splitSlash_of_not_mem a (h a (by simp))
    | cons b t =>
      simp only [joinSlash]
      rw [splitSlash_append_slash, splitSlash_of_not_mem a (h a (by simp)),
        ih (by simp) (fun c hc => h c (by simp [hc]))]
      simp

theorem joinSlash_head (segs : List Str) (hne : segs ≠ [])
    (h : ∀ c ∈ segs, c ≠ [] ∧ '/' ∉ c) : (joinSlash segs).head? ≠ some '/' := by
  cases segs with
  | nil => exact absurd rfl hne
  | cons a t =>
    have ha := h a (by simp)
    cases a with
    | nil => exact absurd rfl ha.1
    | cons x xs =>
      have hx : x ≠ '/' := fun e => ha.2 (by simp [e])
      cases t with
      | nil => simpa [joinSlash] using hx
      | cons b t => simpa [joinSlash] using hx

/-- Resolving the path string of a well-formed resolved path gives it back. -/
theorem parse_render (k : CPath) (h : WFrev k.abs k.segs.reverse) : parse (render k) = k := by
  obtain ⟨abs, segs⟩ := k
  simp only at h
  have helem : ∀ c ∈ segs, c ≠ [] ∧ c ≠ ['.'] ∧ '/' ∉ c := fun c hc =>
    WFrev_elem abs _ h c (by simpa using hc)
  have hfold : segs.foldl (cleanStep abs) [] = segs.reverse := by
    simpa using foldl_cleanStep_of_wf abs segs [] (by simpa using h)
  cases abs with
  | true =>
    simp only [render, if_true, parse, List.head?_cons, decide_True, splitSlash,
      List.foldl_cons, CPath.mk.injEq, true_and]
    have h0 : cleanStep true [] [] = [] := by simp [cleanStep]
    rw [h0]
    by_cases hs : segs = []
    · subst hs; simp [joinSlash, splitSlash, cleanStep]
    · rw [splitSlash_joinSlash segs hs (fun c hc => (helem c hc).2.2), hfold]
      simp
  | false =>
    by_cases hs : segs = []
    · subst hs; simp [render, parse, splitSlash, cleanStep]
    · have hh := joinSlash_head segs hs (fun c hc => ⟨(helem c hc).1, (helem c hc).2.2⟩)
      simp only [render, hs, if_false, parse, CPath.mk.injEq, Bool.false_eq_true]
      have : decide ((joinSlash segs).head? = some '/') = false := by simpa using hh
      rw [this, splitSlash_joinSlash segs hs (fun c hc => (helem c hc).2.2), hfold]
      simp

theorem parse_Clean (s : Str) : parse (filepath.Clean s) = parse s :=
  parse_render _ (parse_wf s)

theorem parse_trailing_slash (s : Str) (hs : s ≠ []) : parse (s ++ ['/']) = parse s := by
  cases s with
  | nil => exact absurd rfl hs
  | cons c cs =>
    have : splitSlash (c :: (cs ++ ['/'])) = splitSlash (c :: cs) ++ [[]] := by
      have := splitSlash_append_slash (c :: cs) []
      simpa only [List.cons_append, splitSlash] using this
    simp only [parse, List.cons_append, this, List.foldl_append, List.head?_cons]
    simp [cleanStep]

/-- The path `"%s/%s"` of a non-empty path and a real element resolves to the
child of that name. -/
theorem parse_slash (s k : Str) (hs : s ≠ []) (hk : Plain k) :
    parse (slash s k) = (parse s).child k := by
  cases s with
  | nil => exact absurd rfl hs
  | cons c cs =>
    have h1 : splitSlash (c :: (cs ++ '/' :: k)) = splitSlash (c :: cs) ++ [k] := by
      have := splitSlash_append_slash (c :: cs) k
      rw [splitSlash_of_not_mem k hk.2.2.2] at this
      simpa only [List.cons_append] using this
    have h2 : ∀ st, cleanStep (decide (some c = some '/')) st k = k :: st := by
      intro st
      unfold cleanStep
      have h1 : ¬ (k = [] ∨ k = ['.']) := by
        rintro (e | e)
        · exact hk.1 e
        · exact hk.2.1 e
      rw [if_neg h1, if_neg hk.2.2.1]
    simp only [slash, parse, h1, List.foldl_append, List.cons_append, List.head?_cons,
      CPath.child, List.foldl_cons, List.foldl_nil, h2, List.reverse_cons]

theorem slash_ne_nil (a b : Str) : slash a b ≠ [] := by
  simp [slash]

theorem dropWhile_append_of_all {α : Type} (p : α → Bool) (a b : List α)
    (h : ∀ x ∈ a, p x = true) : (a ++ b).dropWhile p = b.dropWhile p := by
  induction a with
  | nil => rfl
  | cons x xs ih =>
    simp only [List.cons_append, List.dropWhile_cons, h x (by simp), if_true]
    exact ih (fun y hy => h y (by simp [hy]))

theorem uptoLastSlash_append (pre s : Str) (h : '/' ∉ s) :
    filepath.uptoLastSlash (pre ++ s) = filepath.uptoLastSlash pre := by
  unfold filepath.uptoLastSlash
  rw [List.reverse_append, dropWhile_append_of_all]
  intro x hx
  have : x ≠ '/' := fun e => h (by simpa [e] using hx)
  simpa using this

theorem uptoLastSlash_slash (pre : Str) :
    filepath.uptoLastSlash (pre ++ ['/']) = pre ++ ['/'] := by
  simp [filepath.uptoLastSlash, List.dropWhile]

theorem joinSlash_concat (init : List Str) (last : Str) (h : init ≠ []) :
    joinSlash (init ++ [last]) = joinSlash init ++ '/' :: last := by
  induction init with
  | nil => exact absurd rfl h
  | cons a t ih =>
    cases t with
    | nil => simp [joinSlash]
    | cons b t =>
      have := ih (by simp)
      simp only [List.cons_append] at this ⊢
      simp only [joinSlash, this, List.append_assoc, List.cons_append]

theorem joinSlash_ne_nil (segs : List Str) (hne : segs ≠ [])
    (h : ∀ c ∈ segs, c ≠ []) : joinSlash segs ≠ [] := by
  cases segs with
  | nil => exact absurd rfl hne
  | cons a t =>
    cases t with
    | nil => simpa [joinSlash] using h a (by simp)
    | cons b t => simp [joinSlash]

/-- Go `filepath.Dir` of the path string of a well-formed resolved path
resolves to its parent. -/
theorem parse_Dir_render (k : CPath) (h : WFrev k.abs k.segs.reverse) :
    parse (filepath.Dir (render k)) = k.parent := by
  obtain ⟨abs, segs⟩ := k
  simp only at h
  unfold filepath.Dir
  rw [parse_Clean]
  rcases List.eq_nil_or_concat segs with hs | ⟨init, last, hs⟩
  · subst hs
    cases abs <;> decide
  · rw [List.concat_eq_append] at hs
    subst hs
    have hrev : WFrev abs (last :: init.reverse) := by simpa using h
    have hlast : '/' ∉ last := (WFrev_elem abs _ hrev last (by simp)).2.2
    have hinit : WFrev abs init.reverse := hrev.1
    have hpar : (CPath.mk abs (init ++ [last])).parent = ⟨abs, init⟩ := by
      simp [CPath.parent]
    rw [hpar]
    by_cases hi : init = []
    · subst hi
      cases abs with
      | true =>
        have : render ⟨true, [] ++ [last]⟩ = ['/'] ++ last := by simp [render, joinSlash]
        rw [this, uptoLastSlash_append _ _ hlast]
        decide
      | false =>
        have hl : last ≠ [] := (WFrev_elem false _ hrev last (by simp)).1
        have : render ⟨false, [] ++ [last]⟩ = [] ++ last := by simp [render, joinSlash, hl]
        rw [this, uptoLastSlash_append _ _ hlast]
        decide
    · have hren : render ⟨abs, init ++ [last]⟩ = (render ⟨abs, init⟩ ++ ['/']) ++ last := by
        cases abs <;> simp [render, hi, joinSlash_concat init last hi]
      rw [hren, uptoLastSlash_append _ _ hlast, uptoLastSlash_slash, parse_trailing_slash]
      · exact parse_render ⟨abs, init⟩ hinit
      · cases abs
        · simpa [render, hi] using joinSlash_ne_nil init hi
            (fun c hc => (WFrev_elem false _ hinit c (by simpa using hc)).1)
        · simp [render]

theorem slash_split_unique (a b x y : Str) (ha : '/' ∉ a) (hb : '/' ∉ b)
    (h : a ++ '/' :: x = b ++ '/' :: y) : a = b ∧ x = y := by
  induction a generalizing b with
  | nil =>
    cases b with
    | nil => simpa using h
    | cons c cs =>
      simp only [List.nil_append, List.cons_append, List.cons.injEq] at h
      exact absurd (by rw [← h.1]; simp) hb
  | cons c cs ih =>
    cases b with
    | nil =>
      simp only [List.nil_append, List.cons_append, List.cons.injEq] at h
      exact absurd (by rw [h.1]; simp) ha
    | cons d ds =>
      simp only [List.cons_append, List.cons.injEq] at h
      have := ih ds (fun m => ha (by simp [m])) (fun m => hb (by simp [m])) h.2
      exact ⟨by simp [h.1, this.1], this.2⟩

theorem prefix_slash_cons (a b u v : Str) (ha : '/' ∉ a) (hb : '/' ∉ b)
    (h : (a ++ '/' :: u) <+: (b ++ '/' :: v)) : a = b ∧ u <+: v := by
  obtain ⟨t, ht⟩ := h
  have := slash_split_unique a b (u ++ t) v ha hb (by simpa using ht)
  exact ⟨this.1, ⟨t, this.2⟩⟩

theorem not_prefix_slash (a b u : Str) (hb : '/' ∉ b) : ¬ (a ++ '/' :: u) <+: b := by
  rintro ⟨t, ht⟩
  exact hb (by rw [← ht]; simp)

theorem joinSlash_prefix (ds fs : List Str) (hd : ds ≠ [])
    (hds : ∀ c ∈ ds, '/' ∉ c) (hfs : ∀ c ∈ fs, '/' ∉ c)
    (h : (joinSlash ds ++ ['/']) <+: joinSlash fs) : ds <+: fs ∧ ds ≠ fs := by
  induction ds generalizing fs with
  | nil => exact absurd rfl hd
  | cons a dt ih =>
    have ha : '/' ∉ a := hds a (by simp)
    cases dt with
    | nil =>
      simp only [joinSlash] at h
      cases fs with
      | nil =>
        obtain ⟨t, ht⟩ := h
        simp [joinSlash] at ht
      | cons b ft =>
        have hb : '/' ∉ b := hfs b (by simp)
        cases ft with
        | nil => exact absurd h (not_prefix_slash a b [] hb)
        | cons c ft =>
          simp only [joinSlash] at h
          have := prefix_slash_cons a b [] _ ha hb h
          rw [this.1]
          exact ⟨by simp, by simp⟩
    | cons a2 dt =>
      simp only [joinSlash, List.append_assoc, List.cons_append] at h
      cases fs with
      | nil =>
        obtain ⟨t, ht⟩ := h
        simp [joinSlash] at ht
      | cons b ft =>
        have hb : '/' ∉ b := hfs b (by simp)
        cases ft with
        | nil => exact absurd h (not_prefix_slash a b _ hb)
        | cons c ft =>
          simp only [joinSlash] at h
          have h1 := prefix_slash_cons a b _ _ ha hb h
          have h2 := ih (c :: ft) (by simp) (fun x hx => hds x (by simp [hx]))
            (fun x hx => hfs x (by simp [hx])) h1.2
          rw [h1.1]
          refine ⟨?_, ?_⟩
          · simpa [List.cons_prefix_cons] using h2.1
          · intro e
            simp only [List.cons.injEq, true_and] at e
            exact h2.2 (by simp [e])

/-- The zip-slip test on well-formed resolved paths: when the path string of
`p` starts with the path string of `d` followed by `/`, then `d` is a proper
ancestor of `p`. -/
theorem contains_of_hasPrefix (d p : CPath) (hd : WFrev d.abs d.segs.reverse)
    (hp : WFrev p.abs p.segs.reverse)
    (h : strings.HasPrefix (render p) (render d ++ ['/']) = true) :
    d.contains p = true ∧ d ≠ p := by
  obtain ⟨dabs, ds⟩ := d
  obtain ⟨pabs, ps⟩ := p
  simp only at hd hp
  have hde : ∀ c ∈ ds, c ≠ [] ∧ c ≠ ['.'] ∧ '/' ∉ c := fun c hc =>
    WFrev_elem dabs _ hd c (by simpa using hc)
  have hpe : ∀ c ∈ ps, c ≠ [] ∧ c ≠ ['.'] ∧ '/' ∉ c := fun c hc =>
    WFrev_elem pabs _ hp c (by simpa using hc)
  have hph : ps ≠ [] → (joinSlash ps).head? ≠ some '/' := fun hne =>
    joinSlash_head ps hne (fun c hc => ⟨(hpe c hc).1, (hpe c hc).2.2⟩)
  have hdh : ds ≠ [] → (joinSlash ds).head? ≠ some '/' := fun hne =>
    joinSlash_head ds hne (fun c hc => ⟨(hde c hc).1, (hde c hc).2.2⟩)
  simp only [strings.HasPrefix, List.isPrefixOf_iff_prefix] at h
  have key : ∀ (hne : ds ≠ []), (joinSlash ds ++ ['/']) <+: joinSlash ps →
      ds <+: ps ∧ ds ≠ ps := fun hne hpre =>
    joinSlash_prefix ds ps hne (fun c hc => (hde c hc).2.2) (fun c hc => (hpe c hc).2.2) hpre
  cases dabs <;> cases pabs
  · -- both relative
    by_cases hds : ds = []
    · subst hds
      exfalso
      by_cases hps : ps = []
      · subst hps
        simp [render] at h
      · simp only [render, hps, if_false, Bool.false_eq_true, List.singleton_append] at h
        cases ps with
        | nil => exact hps rfl
        | cons b ft =>
          have hb := hpe b (by simp)
          cases ft with
          | nil =>
            simp only [joinSlash] at h
            exact not_prefix_slash ['.'] b [] hb.2.2 h
          | cons c ft =>
            simp only [joinSlash] at h
            have := prefix_slash_cons ['.'] b [] _ (by decide) hb.2.2 h
            exact hb.2.1 this.1.symm
    · by_cases hps : ps = []
      · subst hps
        exfalso
        simp only [render, hds, if_false, Bool.false_eq_true, if_true] at h
        have h2 := List.IsPrefix.length_le h
        have h3 : joinSlash ds ≠ [] := joinSlash_ne_nil ds hds (fun c hc => (hde c hc).1)
        have h4 : 0 < (joinSlash ds).length := List.length_pos.mpr h3
        simp only [List.length_append, List.length_singleton] at h2
        omega
      · simp only [render, hds, hps, if_false, Bool.false_eq_true] at h
        have := key hds h
        simp only [CPath.contains, beq_self_eq_true, Bool.true_and, List.isPrefixOf_iff_prefix,
          ne_eq, CPath.mk.injEq, true_and]
        exact this
  · -- relative destination, rooted path
    exfalso
    by_cases hds : ds = []
    · subst hds
      simp [render, List.cons_prefix_cons] at h
    · simp only [render, hds, if_false, Bool.false_eq_true, if_true] at h
      have h3 : joinSlash ds ≠ [] := joinSlash_ne_nil ds hds (fun c hc => (hde c hc).1)
      cases hj : joinSlash ds with
      | nil => exact h3 hj
      | cons x xs =>
        have hx := hdh hds
        rw [hj] at h hx
        simp only [List.cons_append, List.cons_prefix_cons] at h
        simp only [List.head?_cons, ne_eq, Option.some.injEq] at hx
        exact hx h.1
  · -- rooted destination, relative path
    exfalso
    by_cases hps : ps = []
    · subst hps
      simp [render, List.cons_prefix_cons] at h
    · simp only [render, hps, if_false, Bool.false_eq_true, if_true] at h
      cases hj : joinSlash ps with
      | nil =>
        rw [hj] at h
        simp at h
      | cons x xs =>
        have hx := hph hps
        rw [hj] at h hx
        simp only [List.cons_append, List.cons_prefix_cons] at h
        simp only [List.head?_cons, ne_eq, Option.some.injEq] at hx
        exact hx h.1.symm
  · -- both rooted
    simp only [render, if_true, List.cons_append, List.cons_prefix_cons, true_and] at h
    by_cases hds : ds = []
    · subst hds
      exfalso
      simp only [joinSlash, List.nil_append] at h
      by_cases hps : ps = []
      · subst hps
        simp [joinSlash] at h
      · cases hj : joinSlash ps with
        | nil =>
          rw [hj] at h
          simp at h
        | cons x xs =>
          have hx := hph hps
          rw [hj] at h hx
          simp only [List.cons_prefix_cons] at h
          simp only [List.head?_cons, ne_eq, Option.some.injEq] at hx
          exact hx h.1.symm
    · have := key hds h
      simp only [CPath.contains, beq_self_eq_true, Bool.true_and, List.isPrefixOf_iff_prefix,
        ne_eq, CPath.mk.injEq, true_and]
      exact this

/-! ### Containment of resolved paths -/

theorem CPath.contains_iff (a p : CPath) :
    a.contains p = true ↔ a.abs = p.abs ∧ a.segs <+: p.segs := by
  simp [CPath.contains, List.isPrefixOf_iff_prefix]

theorem CPath.contains_refl (a : CPath) : a.contains a = true := by
  simp [CPath.contains_iff]

theorem CPath.contains_trans (a b c : CPath) (h1 : a.contains b = true)
    (h2 : b.contains c = true) : a.contains c = true := by
  rw [CPath.contains_iff] at *
  exact ⟨h1.1.trans h2.1, h1.2.trans h2.2⟩

theorem CPath.contains_parent (a : CPath) : a.parent.contains a = true := by
  rw [CPath.contains_iff]
  exact ⟨rfl, List.dropLast_prefix _⟩

theorem prefix_dropLast_of_ne {α : Type} (a b : List α) (h : a <+: b) (hne : a ≠ b) :
    a <+: b.dropLast := by
  obtain ⟨t, rfl⟩ := h
  rcases List.eq_nil_or_concat t with ht | ⟨init, last, ht⟩
  · subst ht; simp at hne
  · subst ht
    rw [List.concat_eq_append, ← List.append_assoc, List.dropLast_concat]
    exact List.prefix_append _ _

theorem CPath.contains_parent_of_ne (a p : CPath) (h : a.contains p = true) (hne : a ≠ p) :
    a.contains p.parent = true := by
  rw [CPath.contains_iff] at *
  obtain ⟨aabs, asegs⟩ := a
  obtain ⟨pabs, psegs⟩ := p
  simp only [CPath.parent] at *
  refine ⟨h.1, prefix_dropLast_of_ne _ _ h.2 ?_⟩
  intro e
  exact hne (by simp [h.1, e])

/-- Two ancestors of one path: one of them contains the other. -/
theorem CPath.comparable (a b k : CPath) (ha : a.contains k = true)
    (hb : b.contains k = true) : a.contains b = true ∨ b.contains a = true := by
  simp only [CPath.contains_iff] at *
  rcases Nat.le_total a.segs.length b.segs.length with hl | hl
  · exact Or.inl ⟨ha.1.trans hb.1.symm, List.prefix_of_prefix_length_le ha.2 hb.2 hl⟩
  · exact Or.inr ⟨hb.1.trans ha.1.symm, List.prefix_of_prefix_length_le hb.2 ha.2 hl⟩

theorem CPath.mem_ancestors (a k : CPath) : a ∈ k.ancestors ↔ a.contains k = true := by
  rw [CPath.contains_iff]
  obtain ⟨aabs, asegs⟩ := a
  simp only [CPath.ancestors, List.mem_map, List.mem_inits, CPath.mk.injEq]
  constructor
  · rintro ⟨s, hs, h1, h2⟩
    exact ⟨h1.symm, h2 ▸ hs⟩
  · rintro ⟨h1, h2⟩
    exact ⟨asegs, h2, h1.symm, rfl⟩

/-- Two different children of one directory: nothing lies in both. -/
theorem CPath.child_disjoint (b : CPath) (m n : Str) (q : CPath) (hmn : m ≠ n)
    (h1 : (b.child m).contains q = true) (h2 : (b.child n).contains q = true) : False := by
  rw [CPath.contains_iff] at h1 h2
  simp only [CPath.child] at h1 h2
  have := List.prefix_of_prefix_length_le h1.2 h2.2 (by simp)
  have h3 := List.IsPrefix.eq_of_length this (by simp)
  exact hmn (by simpa using h3)

/-- A child of a directory is not an ancestor of the directory. -/
theorem CPath.child_not_contains (b : CPath) (m : Str) : (b.child m).contains b = false := by
  cases h : (b.child m).contains b with
  | false => rfl
  | true =>
    rw [CPath.contains_iff] at h
    have := List.IsPrefix.length_le h.2
    simp [CPath.child] at this

theorem CPath.contains_child (b : CPath) (m : Str) : b.contains (b.child m) = true := by
  rw [CPath.contains_iff]
  exact ⟨rfl, List.prefix_append _ _⟩

/-- What lies in a child of a directory and contains another child is that
other child's sibling only when the names agree. -/
theorem CPath.child_between (b : CPath) (m n : Str) (q : CPath) (hmn : m ≠ n)
    (h1 : (b.child m).contains q = true) (h2 : q.contains (b.child n) = true) : False :=
  CPath.child_disjoint b m n (b.child n) hmn (CPath.contains_trans _ _ _ h1 h2)
    (CPath.contains_refl _)

/-! ### What the file-system calls change -/

theorem MkdirAll_trace (p : Str) (w : World) :
    (os.MkdirAll p w).2.trace = w.trace ++ [Event.fs (FsOp.MkdirAll p)] := by
  unfold os.MkdirAll
  simp only [World.logFs]
  split <;> rfl

theorem MkdirAll_fs_ok (p : Str) (w : World) (h : (os.MkdirAll p w).1 = none) :
    (os.MkdirAll p w).2.fs = fun q => if q.contains (parse p) then some Node.dir else w.fs q := by
  unfold os.MkdirAll at h ⊢
  simp only [World.logFs] at h ⊢
  split at h
  · simp at h
  · rw [if_neg (by assumption)]

theorem MkdirAll_fs_err (p : Str) (w : World) (h : (os.MkdirAll p w).1 ≠ none) :
    (os.MkdirAll p w).2.fs = w.fs := by
  unfold os.MkdirAll at h ⊢
  simp only [World.logFs] at h ⊢
  split
  · rfl
  · rename_i hn
    rw [if_neg hn] at h
    simp at h

/-- `os.MkdirAll` changes nothing but the path and its ancestors, and keeps
directories. -/
theorem MkdirAll_frame (p : Str) (w : World) (q : CPath) :
    ((os.MkdirAll p w).2.fs q = w.fs q ∨ q.contains (parse p) = true) ∧
    (w.fs q = some Node.dir → (os.MkdirAll p w).2.fs q = some Node.dir) := by
  cases h : (os.MkdirAll p w).1 with
  | none =>
    rw [MkdirAll_fs_ok p w h]
    by_cases hq : q.contains (parse p) = true
    · simp [hq]
    · simp [hq]
  | some e =>
    rw [MkdirAll_fs_err p w (by simp [h])]
    simp

theorem OpenFile_trace (p : Str) (m : Nat) (w : World) :
    (os.OpenFile p m w).2.trace = w.trace ++ [Event.fs (FsOp.OpenFile p)] := by
  unfold os.OpenFile
  simp only [World.logFs]
  split
  · rfl
  · split <;> rfl

/-- `os.OpenFile` changes nothing but the path, and keeps directories. -/
theorem OpenFile_frame (p : Str) (m : Nat) (w : World) (q : CPath) :
    ((os.OpenFile p m w).2.fs q = w.fs q ∨ q = parse p) ∧
    (w.fs q = some Node.dir → (os.OpenFile p m w).2.fs q = some Node.dir) := by
  unfold os.OpenFile
  simp only [World.logFs]
  split
  · simp
  · split
    · simp
    · rename_i m0 c0 hk
      by_cases hq : q = parse p
      · subst hq; simp [hk]
      · simp [hq]
    · rename_i hk
      by_cases hq : q = parse p
      · subst hq; simp [hk]
      · simp [hq]

theorem Copy_trace (p : Str) (b : List Nat) (w : World) :
    (io.Copy p b w).2.trace = w.trace ++ [Event.fs (FsOp.Copy p)] := by
  unfold io.Copy
  simp only [World.logFs]
  split <;> rfl

/-- `io.Copy` changes nothing but the path, and keeps directories. -/
theorem Copy_frame (p : Str) (b : List Nat) (w : World) (q : CPath) :
    ((io.Copy p b w).2.fs q = w.fs q ∨ q = parse p) ∧
    (w.fs q = some Node.dir → (io.Copy p b w).2.fs q = some Node.dir) := by
  unfold io.Copy
  simp only [World.logFs]
  split
  · rename_i m0 c0 hk
    by_cases hq : q = parse p
    · subst hq; simp [hk]
    · simp [hq]
  · simp

theorem RemoveAll_trace (p : Str) (w : World) :
    (os.RemoveAll p w).2.trace = w.trace ++ [Event.fs (FsOp.RemoveAll p)] := rfl

theorem RemoveAll_fs (p : Str) (w : World) :
    (os.RemoveAll p w).2.fs = fun q => if (parse p).contains q then none else w.fs q := rfl

theorem Stat_trace (p : Str) (w : World) :
    (os.Stat p w).2.trace = w.trace ++ [Event.fs (FsOp.Stat p)] := by
  unfold os.Stat
  simp only [World.logFs]
  split
  · rfl
  · split <;> rfl

theorem Stat_fs (p : Str) (w : World) : (os.Stat p w).2.fs = w.fs := by
  unfold os.Stat
  simp only [World.logFs]
  split
  · rfl
  · split <;> rfl

theorem Rename_trace (a b : Str) (w : World) :
    (os.Rename a b w).2.trace = w.trace ++ [Event.fs (FsOp.Rename a b)] := by
  unfold os.Rename
  simp only [World.logFs]
  split
  · rfl
  · split
    · rfl
    · split
      · rfl
      · split <;> rfl

/-! ### What a task changes -/

theorem Confined.refl (d : CPath) (w : World) : Confined d w w :=
  ⟨⟨[], by simp, by simp⟩, fun _ => ⟨Or.inl rfl, id⟩⟩

theorem Confined.trans (d : CPath) (w v u : World) (h1 : Confined d w v)
    (h2 : Confined d v u) : Confined d w u := by
  obtain ⟨⟨ops1, ht1, hw1⟩, hf1⟩ := h1
  obtain ⟨⟨ops2, ht2, hw2⟩, hf2⟩ := h2
  refine ⟨⟨ops1 ++ ops2, by simp [ht2, ht1], ?_⟩, ?_⟩
  · intro op hop
    rcases List.mem_append.mp hop with h | h
    · exact hw1 op h
    · exact hw2 op h
  · intro q
    refine ⟨?_, fun hd => (hf2 q).2 ((hf1 q).2 hd)⟩
    rcases (hf2 q).1 with e2 | k2
    · rcases (hf1 q).1 with e1 | k1
      · exact Or.inl (e2.trans e1)
      · exact Or.inr k1
    · exact Or.inr k2

/-- A confined step leaves alone every path that neither lies in the
directory nor is one of its ancestors. -/
theorem Confined.frame (d : CPath) (w v : World) (h : Confined d w v) (q : CPath)
    (h1 : d.contains q = false) (h2 : q.contains d = false) : v.fs q = w.fs q := by
  rcases (h.2 q).1 with e | ⟨k, hk1, hk2⟩
  · exact e
  · rcases CPath.comparable d q k hk1 hk2 with c | c
    · rw [h1] at c; exact absurd c (by simp)
    · rw [h2] at c; exact absurd c (by simp)

/-- A confined step leaves alone every path outside the directory, when the
ancestors of the directory are directories already. -/
theorem Confined.frame_dirs (d : CPath) (w v : World) (h : Confined d w v) (q : CPath)
    (h1 : d.contains q = false) (h2 : q.contains d = true → w.fs q = some Node.dir) :
    v.fs q = w.fs q := by
  cases hc : q.contains d with
  | false => exact Confined.frame d w v h q h1 hc
  | true => rw [h2 hc]; exact (h.2 q).2 (h2 hc)

theorem callsOf_append (a b : List Event) : callsOf (a ++ b) = callsOf a ++ callsOf b := by
  simp [callsOf]

theorem callsOf_map_fs (ops : List FsOp) : callsOf (ops.map Event.fs) = [] := by
  induction ops with
  | nil => rfl
  | cons o os ih =>
    simp only [callsOf, List.map_cons, List.filterMap_cons] at ih ⊢
    exact ih

theorem fsOpsOf_append (a b : List Event) : fsOpsOf (a ++ b) = fsOpsOf a ++ fsOpsOf b := by
  simp [fsOpsOf]

theorem fsOpsOf_map_fs (ops : List FsOp) : fsOpsOf (ops.map Event.fs) = ops := by
  induction ops with
  | nil => rfl
  | cons o os ih =>
    simp only [fsOpsOf, List.map_cons, List.filterMap_cons] at ih ⊢
    rw [ih]

theorem Confined.calls (d : CPath) (w v : World) (h : Confined d w v) :
    callsOf v.trace = callsOf w.trace := by
  obtain ⟨⟨ops, ht, _⟩, _⟩ := h
  rw [ht, callsOf_append, callsOf_map_fs]
  simp

theorem Confined.MkdirAll (d : CPath) (p : Str) (w : World)
    (hp : d.contains (parse p) = true) : Confined d w (os.MkdirAll p w).2 := by
  refine ⟨⟨[FsOp.MkdirAll p], by simp [MkdirAll_trace], ?_⟩, fun q => ?_⟩
  · intro op hop
    simp only [List.mem_singleton] at hop
    subst hop
    intro x hx
    simp only [FsOp.paths, List.mem_singleton] at hx
    subst hx
    exact hp
  · have := MkdirAll_frame p w q
    refine ⟨?_, this.2⟩
    rcases this.1 with e | c
    · exact Or.inl e
    · exact Or.inr ⟨parse p, hp, c⟩

theorem Confined.OpenFile (d : CPath) (p : Str) (m : Nat) (w : World)
    (hp : d.contains (parse p) = true) : Confined d w (os.OpenFile p m w).2 := by
  refine ⟨⟨[FsOp.OpenFile p], by simp [OpenFile_trace], ?_⟩, fun q => ?_⟩
  · intro op hop
    simp only [List.mem_singleton] at hop
    subst hop
    intro x hx
    simp only [FsOp.paths, List.mem_singleton] at hx
    subst hx
    exact hp
  · have := OpenFile_frame p m w q
    refine ⟨?_, this.2⟩
    rcases this.1 with e | c
    · exact Or.inl e
    · exact Or.inr ⟨parse p, hp, by rw [c]; exact CPath.contains_refl _⟩

theorem Confined.Copy (d : CPath) (p : Str) (b : List Nat) (w : World)
    (hp : d.contains (parse p) = true) : Confined d w (io.Copy p b w).2 := by
  refine ⟨⟨[FsOp.Copy p], by simp [Copy_trace], ?_⟩, fun q => ?_⟩
  · intro op hop
    simp only [List.mem_singleton] at hop
    subst hop
    intro x hx
    simp only [FsOp.paths, List.mem_singleton] at hx
    subst hx
    exact hp
  · have := Copy_frame p b w q
    refine ⟨?_, this.2⟩
    rcases this.1 with e | c
    · exact Or.inl e
    · exact Or.inr ⟨parse p, hp, by rw [c]; exact CPath.contains_refl _⟩

/-- `filepath.Join` gives the empty string or a cleaned path. -/
theorem Join_cases (a b : Str) :
    filepath.Join a b = [] ∨ ∃ s, filepath.Join a b = filepath.Clean s := by
  unfold filepath.Join
  by_cases ha : a ≠ []
  · rw [if_pos ha]; exact Or.inr ⟨_, rfl⟩
  · rw [if_neg ha]
    by_cases hb : b ≠ []
    · rw [if_pos hb]; exact Or.inr ⟨_, rfl⟩
    · rw [if_neg hb]; exact Or.inl rfl

/-- An entry that passes the zip-slip test of `unzipFile` resolves to a path
properly below the destination, and so does the directory of that path,
possibly the destination itself. -/
theorem zipSlip_check (destination name : Str)
    (h : strings.HasPrefix (filepath.Join destination name)
      (filepath.Clean destination ++ [os.PathSeparator]) = true) :
    (parse destination).contains (parse (filepath.Join destination name)) = true ∧
    parse destination ≠ parse (filepath.Join destination name) ∧
    (parse destination).contains
      (parse (filepath.Dir (filepath.Join destination name))) = true := by
  rcases Join_cases destination name with e | ⟨s, e⟩
  · rw [e] at h
    have : filepath.Clean destination ++ [os.PathSeparator] ≠ [] := by simp
    cases hc : filepath.Clean destination ++ [os.PathSeparator] with
    | nil => exact absurd hc this
    | cons x xs => rw [hc] at h; simp [strings.HasPrefix, List.isPrefixOf] at h
  · rw [e] at h ⊢
    have hc := contains_of_hasPrefix (parse destination) (parse s) (parse_wf _) (parse_wf _) h
    rw [parse_Clean]
    refine ⟨hc.1, hc.2, ?_⟩
    unfold filepath.Clean
    rw [parse_Dir_render _ (parse_wf s)]
    exact CPath.contains_parent_of_ne _ _ hc.1 hc.2

/-- A call of `unzipFile` stays in its destination. -/
theorem unzipFile_confined (f : ZipFile) (destination : Str) (w : World) :
    Confined (parse destination) w (unzipFile f destination w).2 := by
  unfold unzipFile
  simp only
  cases hchk : strings.HasPrefix (filepath.Join destination f.Name)
      (filepath.Clean destination ++ [os.PathSeparator]) with
  | false => simpa using Confined.refl _ w
  | true =>
    obtain ⟨h1, _, h3⟩ := zipSlip_check destination f.Name hchk
    simp only [Bool.not_true, Bool.false_eq_true, if_false]
    by_cases hd : f.IsDir = true
    · rw [if_pos hd]
      have := Confined.MkdirAll _ (filepath.Join destination f.Name) w h1
      split <;> simp_all
    · rw [if_neg hd]
      have c1 := Confined.MkdirAll _ (filepath.Dir (filepath.Join destination f.Name)) w h3
      split
      · simp_all
      · rename_i w1 hm
        have hw1 : (os.MkdirAll (filepath.Dir (filepath.Join destination f.Name)) w).2 = w1 := by
          rw [hm]
        rw [hw1] at c1
        have c2 := Confined.OpenFile _ (filepath.Join destination f.Name) f.Mode w1 h1
        split
        · rename_i w2 ho
          have hw2 : (os.OpenFile (filepath.Join destination f.Name) f.Mode w1).2 = w2 := by
            rw [ho]
          rw [hw2] at c2
          exact Confined.trans _ _ _ _ c1 c2
        · rename_i w2 ho
          have hw2 : (os.OpenFile (filepath.Join destination f.Name) f.Mode w1).2 = w2 := by
            rw [ho]
          rw [hw2] at c2
          have c12 := Confined.trans _ _ _ _ c1 c2
          split
          · exact c12
          · rename_i bytes _
            exact Confined.trans _ _ _ _ c12
              (Confined.Copy _ (filepath.Join destination f.Name) bytes w2 h1)

/-- A step of a task stays in the directory the task was given. -/
theorem saveAndUnzipFile_confined (saveDirectory : Str) (st : TaskSt) (w : World) :
    Confined (parse saveDirectory) w (saveAndUnzipFile saveDirectory st w).2 := by
  unfold saveAndUnzipFile
  split
  · exact Confined.refl _ _
  · split
    · exact Confined.refl _ _
    · split <;> exact Confined.refl _ _
  · exact Confined.refl _ _
  · rename_i f rest
    have := unzipFile_confined f saveDirectory w
    split
    · rename_i err w1 hu
      rw [hu] at this; exact this
    · rename_i w1 hu
      rw [hu] at this; exact this
  · exact Confined.refl _ _
  · exact Confined.refl _ _

/-! ### Runs of the machine -/

theorem Conc.exec_nil {M : Type} (P : MainProg M) (c : Conc M) : Conc.exec P [] c = c := rfl

theorem Conc.exec_cons {M : Type} (P : MainProg M) (t : Tid) (sched : List Tid) (c : Conc M) :
    Conc.exec P (t :: sched) c = Conc.exec P sched (Conc.step P c t) := rfl

theorem Conc.exec_append {M : Type} (P : MainProg M) (s1 s2 : List Tid) (c : Conc M) :
    Conc.exec P (s1 ++ s2) c = Conc.exec P s2 (Conc.exec P s1 c) := by
  simp [Conc.exec, List.foldl_append]

/-- What every step keeps, every run keeps. -/
theorem Conc.exec_invariant {M : Type} (P : MainProg M) (Inv : Conc M → Prop)
    (hstep : ∀ c t, Inv c → Inv (Conc.step P c t)) (sched : List Tid) (c : Conc M)
    (h : Inv c) : Inv (Conc.exec P sched c) := by
  induction sched generalizing c with
  | nil => exact h
  | cons t ts ih => exact ih _ (hstep c t h)

theorem Steps.steps_calls (ds : List CPath) (w v : World) (h : Steps ds w v) :
    callsOf v.trace = callsOf w.trace := by
  induction h with
  | refl => rfl
  | step v u d _ _ hc ih => rw [Confined.calls d v u hc, ih]

/-- Steps in the directories `ds` only add file-system calls on paths in one
of them to the trace. -/
theorem Steps.steps_trace (ds : List CPath) (w v : World) (h : Steps ds w v) :
    ∃ ops : List FsOp, v.trace = w.trace ++ ops.map Event.fs ∧
      ∀ op ∈ ops, ∃ d ∈ ds, op.within d := by
  induction h with
  | refl => exact ⟨[], by simp, by simp⟩
  | step v u d _ hd hc ih =>
    obtain ⟨ops1, h1, h2⟩ := ih
    obtain ⟨⟨ops2, h3, h4⟩, _⟩ := hc
    refine ⟨ops1 ++ ops2, by simp [h3, h1], ?_⟩
    intro op hop
    rcases List.mem_append.mp hop with h | h
    · exact h2 op h
    · exact ⟨d, hd, h4 op h⟩

/-- Steps in the directories `ds` keep directories. -/
theorem Steps.steps_dir (ds : List CPath) (w v : World) (h : Steps ds w v) (q : CPath)
    (hq : w.fs q = some Node.dir) : v.fs q = some Node.dir := by
  induction h with
  | refl => exact hq
  | step v u d _ _ hc ih => exact (hc.2 q).2 ih

/-- Steps in the directories `ds` leave alone every path outside all of them,
when every ancestor of one of them that is such a path is a directory. -/
theorem Steps.steps_frame (ds : List CPath) (w v : World) (h : Steps ds w v) (q : CPath)
    (h1 : ∀ d ∈ ds, d.contains q = false)
    (h2 : ∀ d ∈ ds, q.contains d = true → w.fs q = some Node.dir) : v.fs q = w.fs q := by
  induction h with
  | refl => rfl
  | step v u d _ hd hc ih =>
    rw [← ih]
    apply Confined.frame_dirs d v u hc q (h1 d hd)
    intro hqd
    rw [ih]
    exact h2 d hd hqd

theorem Steps.steps_trans (ds : List CPath) (w v u : World) (h1 : Steps ds w v)
    (h2 : Steps ds v u) : Steps ds w u := by
  induction h2 with
  | refl => exact h1
  | step v2 u2 d _ hd hc ih => exact Steps.step _ _ _ d ih hd hc

theorem mem_of_get?_eq_some {α : Type} (l : List α) (i : Nat) (a : α)
    (h : l[i]? = some a) : a ∈ l := by
  rw [List.getElem?_eq_some] at h
  obtain ⟨hi, rfl⟩ := h
  exact List.getElem_mem hi

/-- A task that has returned does not move. -/
theorem saveAndUnzipFile_done (d : Str) (w : World) :
    saveAndUnzipFile d TaskSt.done w = (TaskSt.done, w) := rfl

theorem TaskSt.eq_done_of_isDone (st : TaskSt) (h : st.isDone = true) : st = TaskSt.done := by
  cases st <;> simp [TaskSt.isDone] at h ⊢

/-- The three ways a task step can go: nothing moves; a waiting send meets the
receive of the handler; or the task runs one step of `saveAndUnzipFile`. -/
theorem Conc.step_task {M : Type} (P : MainProg M) (c : Conc M) (i : Nat) :
    Conc.step P c (Tid.task i) = c ∨
    (∃ t err m, c.tasks[i]? = some t ∧ t.st = TaskSt.sending err ∧ c.closed = false ∧
      P.recv c.main err = some m ∧
      Conc.step P c (Tid.task i) =
        { c with main := m, tasks := c.tasks.set i { t with st := TaskSt.done } }) ∨
    (∃ t, c.tasks[i]? = some t ∧
      Conc.step P c (Tid.task i) =
        { c with world := (saveAndUnzipFile t.saveDirectory t.st c.world).2,
                 tasks := c.tasks.set i
                   { t with st := (saveAndUnzipFile t.saveDirectory t.st c.world).1 } }) := by
  cases hg : c.tasks[i]? with
  | none => exact Or.inl (by simp [Conc.step, hg])
  | some t =>
    cases hst : t.st with
    | sending err =>
      cases hcl : c.closed with
      | true => exact Or.inl (by simp [Conc.step, hg, hst, hcl])
      | false =>
        cases hr : (P.recv c.main err) with
        | none => exact Or.inl (by simp [Conc.step, hg, hst, hcl, hr])
        | some m =>
          exact Or.inr (Or.inl ⟨t, err, m, rfl, hst, rfl, hr,
            by simp [Conc.step, hg, hst, hcl, hr]⟩)
    | spawned file => exact Or.inr (Or.inr ⟨t, rfl, by simp [Conc.step, hg, hst]⟩)
    | unzipping rest => exact Or.inr (Or.inr ⟨t, rfl, by simp [Conc.step, hg, hst]⟩)
    | done => exact Or.inr (Or.inr ⟨t, rfl, by simp [Conc.step, hg, hst]⟩)

theorem Conc.step_waiter {M : Type} (P : MainProg M) (c : Conc M) :
    Conc.step P c Tid.waiter = c ∨
    ((∀ t ∈ c.tasks, t.st.isDone = true) ∧
      Conc.step P c Tid.waiter = { c with closed := true }) := by
  by_cases h : (!c.closed && c.tasks.all (fun t => t.st.isDone)) = true
  · have e : Conc.step P c Tid.waiter = { c with closed := true } := by
      simp only [Conc.step, h, if_true]
    simp only [Bool.and_eq_true, Bool.not_eq_true', List.all_eq_true] at h
    exact Or.inr ⟨h.2, e⟩
  · exact Or.inl (by simp only [Conc.step, h, if_false]; rfl)

theorem Conc.step_main {M : Type} (P : MainProg M) (c : Conc M) :
    (P.step c.closed c.main c.world = none ∧ Conc.step P c Tid.main = c) ∨
    (∃ m w, P.step c.closed c.main c.world = some (m, w) ∧
      Conc.step P c Tid.main = { c with main := m, world := w }) := by
  cases h : P.step c.closed c.main c.world with
  | none => exact Or.inl ⟨rfl, by simp only [Conc.step, h]⟩
  | some r => exact Or.inr ⟨r.1, r.2, rfl, by simp only [Conc.step, h]⟩

theorem mem_set_cases {α : Type} (l : List α) (i : Nat) (a b : α) (h : b ∈ l.set i a) :
    b = a ∨ b ∈ l := by
  rcases List.mem_or_eq_of_mem_set h with h | h
  · exact Or.inr h
  · exact Or.inl h

theorem UpdInv.update_step (env : Env) (x : UpdateCtx) (ds : List CPath) (w0 : World)
    (c : Conc UpdateMain) (t : Tid) (h : UpdInv env x ds w0 c) :
    UpdInv env x ds w0 (Conc.step (updateProg env) c t) := by
  obtain ⟨hd, hcd, hm⟩ := h
  cases t with
  | task i =>
    rcases Conc.step_task (updateProg env) c i with e | ⟨t, err, m, hg, hst, hcl, hr, e⟩ | ⟨t, hg, e⟩
    · rw [e]; exact ⟨hd, hcd, hm⟩
    · rw [e]
      have ht := mem_of_get?_eq_some _ _ _ hg
      refine ⟨?_, ?_, ?_⟩
      · intro t2 h2
        rcases mem_set_cases _ _ _ _ h2 with h3 | h3
        · rw [h3]; exact hd t ht
        · exact hd t2 h3
      · intro hc; rw [hcl] at hc; exact absurd hc (by simp)
      · simp only
        cases hmain : c.main with
        | updating y => rw [hmain] at hr; simp [updateProg] at hr
        | returned r => rw [hmain] at hr; simp [updateProg] at hr
        | ranging y res e0 =>
          rw [hmain] at hr hm
          simp only [updateProg, Option.some.injEq] at hr
          rw [← hr]
          exact hm
    · rw [e]
      have ht := mem_of_get?_eq_some _ _ _ hg
      have hconf := saveAndUnzipFile_confined t.saveDirectory t.st c.world
      have hstep : ∀ w, Steps ds w c.world → Steps ds w
          (saveAndUnzipFile t.saveDirectory t.st c.world).2 :=
        fun w hw => Steps.step _ _ _ _ hw (hd t ht) hconf
      refine ⟨?_, ?_, ?_⟩
      · intro t2 h2
        rcases mem_set_cases _ _ _ _ h2 with h3 | h3
        · rw [h3]; exact hd t ht
        · exact hd t2 h3
      · intro hc t2 h2
        rcases mem_set_cases _ _ _ _ h2 with h3 | h3
        · rw [h3]
          have := TaskSt.eq_done_of_isDone _ (hcd hc t ht)
          simp only [this, saveAndUnzipFile_done, TaskSt.isDone]
        · exact hcd hc t2 h3
      · simp only
        cases hmain : c.main with
        | updating y =>
          rw [hmain] at hm
          exact ⟨hm.1, hstep _ hm.2⟩
        | ranging y res e0 =>
          rw [hmain] at hm
          obtain ⟨hy, wcall, h1, h2, h3⟩ := hm
          exact ⟨hy, wcall, h1, h2, hstep _ h3⟩
        | returned r =>
          rw [hmain] at hm
          have := TaskSt.eq_done_of_isDone _ (hcd hm.1 t ht)
          simp only [this, saveAndUnzipFile_done]
          exact hm
  | waiter =>
    rcases Conc.step_waiter (updateProg env) c with e | ⟨hall, e⟩
    · rw [e]; exact ⟨hd, hcd, hm⟩
    · rw [e]
      refine ⟨hd, fun _ => hall, ?_⟩
      simp only
      cases hmain : c.main with
      | updating y => rw [hmain] at hm; exact hm
      | ranging y res e0 => rw [hmain] at hm; exact hm
      | returned r => rw [hmain] at hm; exact ⟨trivial, hm.2⟩
  | main =>
    rcases Conc.step_main (updateProg env) c with ⟨_, e⟩ | ⟨m, w, hs, e⟩
    · rw [e]; exact ⟨hd, hcd, hm⟩
    · rw [e]
      refine ⟨hd, hcd, ?_⟩
      simp only
      cases hmain : c.main with
      | updating y =>
        rw [hmain] at hs hm
        simp only [updateProg, callUpdateProjectIteration, Option.some.injEq,
          Prod.mk.injEq] at hs
        rw [← hs.1, ← hs.2]
        obtain ⟨hy, h1⟩ := hm
        subst hy
        exact ⟨rfl, c.world, h1, rfl, Steps.refl _⟩
      | ranging y res e0 =>
        rw [hmain] at hs hm
        simp only [updateProg] at hs
        cases hcl : c.closed with
        | false => rw [hcl] at hs; simp at hs
        | true =>
          rw [hcl] at hs
          simp only [if_true, Option.some.injEq, Prod.mk.injEq] at hs
          rw [← hs.1, ← hs.2]
          obtain ⟨hy, wcall, h1, h2, h3⟩ := hm
          subst hy
          subst h2
          exact ⟨rfl, wcall, c.world, e0, h1, h3, rfl⟩
      | returned r =>
        rw [hmain] at hs
        simp [updateProg] at hs

/-! ### UpdateProjectIteration: validation, staging, finish -/

theorem logCall_fs (w : World) (c : Call) : (w.logCall c).fs = w.fs := rfl

theorem logCall_trace (w : World) (c : Call) :
    (w.logCall c).trace = w.trace ++ [Event.call c] := rfl

/-- Validation of an update request makes no file-system call: it leaves the
file system alone and adds only remote calls to the trace. -/
theorem updateValidate_world (env : Env) (req : Request) (w : World) :
    (updateValidate env req w).2.fs = w.fs ∧
    ∃ calls : List Call, (updateValidate env req w).2.trace = w.trace ++ calls.map Event.call := by
  unfold updateValidate
  split
  · exact ⟨rfl, [], by simp⟩
  · split
    · exact ⟨rfl, [], by simp⟩
    · split
      · exact ⟨rfl, [], by simp⟩
      · split
        · rename_i e w1 h1
          simp only [callGetProjectIteration, Prod.mk.injEq] at h1
          rw [← h1.2]
          exact ⟨rfl, [_], rfl⟩
        · rename_i pi w1 h1
          simp only [callGetProjectIteration, Prod.mk.injEq] at h1
          split
          · rename_i e w2 h2
            simp only [callGetCompanyIDFromProjectID, Prod.mk.injEq] at h2
            rw [← h2.2, ← h1.2]
            exact ⟨rfl, [_, _], by simp only [logCall_trace, List.append_assoc]; rfl⟩
          · rename_i cid w2 h2
            simp only [callGetCompanyIDFromProjectID, Prod.mk.injEq] at h2
            have hw : w2.fs = w.fs ∧ ∃ calls : List Call,
                w2.trace = w.trace ++ calls.map Event.call := by
              rw [← h2.2, ← h1.2]
              exact ⟨rfl, [_, _], by simp only [logCall_trace, List.append_assoc]; rfl⟩
            split
            · dsimp only
              split <;> exact hw
            · exact hw

/-- The staging block of the update flow is a sequence of steps in the
temporary directories. -/
theorem updateSaveLocations_steps (x : UpdateCtx) (w : World) :
    Steps x.tempKeys w
      (updateSaveLocations (slash x.saveDirectory "geojson_temp".toList)
        (slash x.saveDirectory "tile_3d_temp".toList)
        (slash x.saveDirectory "ortho_photo_temp".toList) w).2 := by
  have c1 := Confined.MkdirAll _ (slash x.saveDirectory "geojson_temp".toList) w
    (CPath.contains_refl _)
  have m1 : parse (slash x.saveDirectory "geojson_temp".toList) ∈ x.tempKeys := by
    simp [UpdateCtx.tempKeys]
  have m2 : parse (slash x.saveDirectory "tile_3d_temp".toList) ∈ x.tempKeys := by
    simp [UpdateCtx.tempKeys]
  have m3 : parse (slash x.saveDirectory "ortho_photo_temp".toList) ∈ x.tempKeys := by
    simp [UpdateCtx.tempKeys]
  have s1 := Steps.step _ _ _ _ (@Steps.refl x.tempKeys w) m1 c1
  unfold updateSaveLocations
  split
  · rename_i err w1 h1
    rw [h1] at s1; exact s1
  · rename_i w1 h1
    rw [h1] at s1
    have c2 := Confined.MkdirAll _ (slash x.saveDirectory "tile_3d_temp".toList) w1
      (CPath.contains_refl _)
    have s2 := Steps.step _ _ _ _ s1 m2 c2
    split
    · rename_i err w2 h2
      rw [h2] at s2; exact s2
    · rename_i w2 h2
      rw [h2] at s2
      have c3 := Confined.MkdirAll _ (slash x.saveDirectory "ortho_photo_temp".toList) w2
        (CPath.contains_refl _)
      have s3 := Steps.step _ _ _ _ s2 m3 c3
      split
      · rename_i err w3 h3
        rw [h3] at s3; exact s3
      · rename_i w3 h3
        rw [h3] at s3; exact s3

/-- A handler that has returned before spawning stays as it is. -/
theorem exec_updateReturn (env : Env) (r : Response) (w : World) (sched : List Tid) :
    (Conc.exec (updateProg env) sched (updateReturn r w)).main = UpdateMain.returned r ∧
    (Conc.exec (updateProg env) sched (updateReturn r w)).world = w := by
  have := Conc.exec_invariant (updateProg env)
    (fun c => c.main = UpdateMain.returned r ∧ c.world = w ∧ c.tasks = []) ?_ sched
    (updateReturn r w) ⟨rfl, rfl, rfl⟩
  · exact ⟨this.1, this.2.1⟩
  · intro c t ⟨h1, h2, h3⟩
    cases t with
    | task i =>
      rcases Conc.step_task (updateProg env) c i with e | ⟨t, _, _, hg, _⟩ | ⟨t, hg, _⟩
      · rw [e]; exact ⟨h1, h2, h3⟩
      · rw [h3] at hg; simp at hg
      · rw [h3] at hg; simp at hg
    | waiter =>
      rcases Conc.step_waiter (updateProg env) c with e | ⟨_, e⟩
      · rw [e]; exact ⟨h1, h2, h3⟩
      · rw [e]; exact ⟨h1, h2, h3⟩
    | main =>
      rcases Conc.step_main (updateProg env) c with ⟨_, e⟩ | ⟨m, w2, hs, _⟩
      · rw [e]; exact ⟨h1, h2, h3⟩
      · rw [h1] at hs; simp [updateProg] at hs

theorem spawnIfUpload_dest (isRemove : Str) (file : Option FileHeader) (d : Str) (t : Task)
    (h : t ∈ spawnIfUpload isRemove file d) : t.saveDirectory = d := by
  unfold spawnIfUpload at h
  split at h
  · split at h
    · simp only [List.mem_singleton] at h; rw [h]
    · simp at h
  · simp at h

theorem spawned_temp (x : UpdateCtx) (t : Task) (ht : t ∈ x.spawned) :
    parse t.saveDirectory ∈ x.tempKeys := by
  simp only [UpdateCtx.spawned, List.mem_append] at ht
  rcases ht with (ht | ht) | ht
  · rw [spawnIfUpload_dest _ _ _ _ ht]; simp [UpdateCtx.tempKeys]
  · rw [spawnIfUpload_dest _ _ _ _ ht]; simp [UpdateCtx.tempKeys]
  · rw [spawnIfUpload_dest _ _ _ _ ht]; simp [UpdateCtx.tempKeys]

/-- The state right after staging satisfies the shape invariant. -/
theorem UpdInv.update_init (env : Env) (x : UpdateCtx) (ds : List CPath) (w w1 : World)
    (hds : ∀ t ∈ x.spawned, parse t.saveDirectory ∈ ds)
    (h : updateSaveLocations (slash x.saveDirectory "geojson_temp".toList)
      (slash x.saveDirectory "tile_3d_temp".toList)
      (slash x.saveDirectory "ortho_photo_temp".toList) w = (none, w1)) :
    updateStage x w =
      { world := w1, tasks := x.spawned, closed := false, main := UpdateMain.updating x } ∧
    UpdInv env x ds w1 (updateStage x w) := by
  have e : updateStage x w =
      { world := w1, tasks := x.spawned, closed := false,
        main := UpdateMain.updating x } := by
    unfold updateStage
    simp only [h]
    rfl
  refine ⟨e, ?_⟩
  rw [e]
  exact ⟨hds, by simp, ⟨rfl, Steps.refl _⟩⟩

/-- The response of `updateFinish` is the success response exactly when the
update call succeeded and no task error was received. -/
theorem updateFinish_created (env : Env) (x : UpdateCtx)
    (res : Except RemoteErr IterationResponse) (e : GoErr) (w : World) (d : IterationResponse) :
    (updateFinish env x res e w).1 = Response.Created d ↔ res = Except.ok d ∧ e = none := by
  unfold updateFinish
  cases res with
  | error re =>
    simp only
    split <;> simp
  | ok u =>
    cases e with
    | some err =>
      simp only
      split <;> simp
    | none => simp

/-- When `updateFinish` does not answer with the success response, the world
it leaves is the world of the rollback. -/
theorem updateFinish_fail (env : Env) (x : UpdateCtx)
    (res : Except RemoteErr IterationResponse) (e : GoErr) (w : World)
    (h : ∀ d, (updateFinish env x res e w).1 ≠ Response.Created d) :
    (updateFinish env x res e w).2 = updateRollbackWorld x w := by
  unfold updateFinish at h ⊢
  cases res with
  | error re =>
    simp only [callUpdateProjectIteration]
    split <;> (rename_i hh; simp only [Prod.mk.injEq] at hh; rw [← hh.2]; rfl)
  | ok u =>
    cases e with
    | some err =>
      simp only [callUpdateProjectIteration]
      split <;> (rename_i hh; simp only [Prod.mk.injEq] at hh; rw [← hh.2]; rfl)
    | none => exact absurd rfl (h u)

/-- Steps in the directories `ds` leave alone every path that is neither in
one of them nor an ancestor of one of them. -/
theorem Steps.steps_apart (ds : List CPath) (w v : World) (h : Steps ds w v) (q : CPath)
    (hq : ∀ d ∈ ds, d.contains q = false ∧ q.contains d = false) : v.fs q = w.fs q := by
  induction h with
  | refl => rfl
  | step v u d _ hd hc ih =>
    rw [← ih]
    exact Confined.frame d v u hc q (hq d hd).1 (hq d hd).2

theorem plain_of_mem_names (k : Str) (h : k ∈ finalNames ++ tempNames) : Plain k := by
  simp only [finalNames, tempNames, List.mem_append, List.mem_cons, List.mem_singleton,
    List.not_mem_nil, or_false] at h
  rcases h with (h | h | h) | (h | h | h) <;> subst h <;> (unfold Plain dotdot; decide)

theorem updateValidate_saveDirectory (env : Env) (req : Request) (w w1 : World)
    (x : UpdateCtx) (h : updateValidate env req w = (Except.ok x, w1)) :
    x.saveDirectory ≠ [] := by
  unfold updateValidate at h
  split at h
  · simp at h
  · split at h
    · simp at h
    · split at h
      · simp at h
      · split at h
        · simp at h
        · split at h
          · simp at h
          · split at h
            · dsimp only at h
              split at h
              · simp at h
              · simp only [Prod.mk.injEq, Except.ok.injEq] at h
                rw [← h.1]
                exact slash_ne_nil _ _
            · simp at h

theorem tempKeys_eq (x : UpdateCtx) (h : x.saveDirectory ≠ []) :
    x.tempKeys = tempNames.map (parse x.saveDirectory).child := by
  simp only [UpdateCtx.tempKeys, tempNames, List.map_cons, List.map_nil]
  rw [parse_slash _ _ h (plain_of_mem_names _ (by simp [tempNames])),
    parse_slash _ _ h (plain_of_mem_names _ (by simp [tempNames])),
    parse_slash _ _ h (plain_of_mem_names _ (by simp [tempNames]))]

theorem final_ne_temp (k t : Str) (hk : k ∈ finalNames) (ht : t ∈ tempNames) : k ≠ t := by
  simp only [finalNames, tempNames, List.mem_cons, List.mem_singleton, List.not_mem_nil,
    or_false] at hk ht
  rcases hk with h | h | h <;> rcases ht with h2 | h2 | h2 <;> subst h <;> subst h2 <;> decide

/-- A path in a final asset directory is neither in a temporary directory nor
an ancestor of one. -/
theorem final_apart_temp (x : UpdateCtx) (h : x.saveDirectory ≠ []) (k : Str)
    (hk : k ∈ finalNames) (q : CPath)
    (hq : (parse (slash x.saveDirectory k)).contains q = true) :
    ∀ d ∈ x.tempKeys, d.contains q = false ∧ q.contains d = false := by
  rw [tempKeys_eq x h]
  rw [parse_slash _ _ h (plain_of_mem_names _ (by simp [hk]))] at hq
  intro d hd
  simp only [List.mem_map] at hd
  obtain ⟨t, ht, rfl⟩ := hd
  have hne := final_ne_temp k t hk ht
  constructor
  · cases hc : ((parse x.saveDirectory).child t).contains q with
    | false => rfl
    | true => exact absurd (CPath.child_disjoint _ k t q hne hq hc) id
  · cases hc : q.contains ((parse x.saveDirectory).child t) with
    | false => rfl
    | true => exact absurd (CPath.child_between _ k t q hne hq hc) id

/-- Every state of an update request that got through validation: either
staging failed and the handler has returned that error, or the state has the
shape `UpdInv` over the world `w2` right after staging. -/
theorem update_shape_in (env : Env) (req : Request) (w w1 : World) (x : UpdateCtx)
    (ds : List CPath) (sched : List Tid)
    (hds : ∀ t ∈ x.spawned, parse t.saveDirectory ∈ ds)
    (hv : updateValidate env req w = (Except.ok x, w1)) :
    (∃ err w2, updateSaveLocations (slash x.saveDirectory "geojson_temp".toList)
        (slash x.saveDirectory "tile_3d_temp".toList)
        (slash x.saveDirectory "ortho_photo_temp".toList) w1 = (some err, w2) ∧
      (UpdateProjectIteration env req sched w).main =
        UpdateMain.returned (Response.InternalServerError err none) ∧
      (UpdateProjectIteration env req sched w).world = w2) ∨
    (∃ w2, updateSaveLocations (slash x.saveDirectory "geojson_temp".toList)
        (slash x.saveDirectory "tile_3d_temp".toList)
        (slash x.saveDirectory "ortho_photo_temp".toList) w1 = (none, w2) ∧
      UpdInv env x ds w2 (UpdateProjectIteration env req sched w)) := by
  have hinit : updateInit env req w = updateStage x w1 := by
    unfold updateInit
    rw [hv]
  unfold UpdateProjectIteration
  rw [hinit]
  cases hs : updateSaveLocations (slash x.saveDirectory "geojson_temp".toList)
      (slash x.saveDirectory "tile_3d_temp".toList)
      (slash x.saveDirectory "ortho_photo_temp".toList) w1 with
  | mk err w2 =>
    cases err with
    | some err =>
      left
      have e : updateStage x w1 = updateReturn (Response.InternalServerError err none) w2 := by
        unfold updateStage
        simp only [hs]
      rw [e]
      exact ⟨err, w2, rfl, exec_updateReturn env _ w2 sched⟩
    | none =>
      right
      refine ⟨w2, rfl, ?_⟩
      exact Conc.exec_invariant (updateProg env) (UpdInv env x ds w2)
        (fun c t h => UpdInv.update_step env x ds w2 c t h) sched _
        (UpdInv.update_init env x ds w1 w2 hds hs).2

theorem update_shape (env : Env) (req : Request) (w w1 : World) (x : UpdateCtx)
    (sched : List Tid) (hv : updateValidate env req w = (Except.ok x, w1)) :
    (∃ err w2, updateSaveLocations (slash x.saveDirectory "geojson_temp".toList)
        (slash x.saveDirectory "tile_3d_temp".toList)
        (slash x.saveDirectory "ortho_photo_temp".toList) w1 = (some err, w2) ∧
      (UpdateProjectIteration env req sched w).main =
        UpdateMain.returned (Response.InternalServerError err none) ∧
      (UpdateProjectIteration env req sched w).world = w2) ∨
    (∃ w2, updateSaveLocations (slash x.saveDirectory "geojson_temp".toList)
        (slash x.saveDirectory "tile_3d_temp".toList)
        (slash x.saveDirectory "ortho_photo_temp".toList) w1 = (none, w2) ∧
      UpdInv env x x.tempKeys w2 (UpdateProjectIteration env req sched w)) :=
  update_shape_in env req w w1 x x.tempKeys sched (spawned_temp x) hv

theorem updateRollbackWorld_fs (x : UpdateCtx) (w : World) (q : CPath)
    (hq : ∀ d ∈ x.tempKeys, d.contains q = false) :
    (updateRollbackWorld x w).fs q = w.fs q := by
  have h1 := hq (parse (slash x.saveDirectory "geojson_temp".toList))
    (by simp [UpdateCtx.tempKeys])
  have h2 := hq (parse (slash x.saveDirectory "tile_3d_temp".toList))
    (by simp [UpdateCtx.tempKeys])
  have h3 := hq (parse (slash x.saveDirectory "ortho_photo_temp".toList))
    (by simp [UpdateCtx.tempKeys])
  simp only [updateRollbackWorld, logCall_fs, RemoveAll_fs, h1, h2, h3, Bool.false_eq_true,
    if_false]

/-- What validation of an update request establishes when it lets the request
through: the form was parsed, the iteration was fetched with the `id` field,
the company was looked up, the three remove flags were present, the files are
the first files of their form fields, and the update request, the save
directory and the world are as the handler computes them. -/
theorem updateValidate_ok (env : Env) (req : Request) (w w1 : World) (x : UpdateCtx)
    (h : updateValidate env req w = (Except.ok x, w1)) :
    ∃ form id cid, req.isRoot = true ∧ req.MultipartForm = Except.ok form ∧
      (form.Value "id".toList).head? = some id ∧
      env.remote.GetIteration (callsOf w.trace) id = Except.ok x.projectIteration ∧
      env.remote.GetCompanyID (callsOf (w.logCall (Call.GetIteration id)).trace)
        x.projectIteration.ProjectID = Except.ok cid ∧
      (form.Value "removeGeoJson".toList).head? = some x.isRemoveGeoJSON ∧
      (form.Value "removeTile3D".toList).head? = some x.isRemoveTile3D ∧
      (form.Value "removeOrthoPhoto".toList).head? = some x.isRemoveOrthoPhoto ∧
      x.geoJSONFile = (form.File "geojson".toList).head? ∧
      x.tile3DFile = (form.File "tile_3d".toList).head? ∧
      x.orthoPhotoFile = (form.File "ortho_photo".toList).head? ∧
      allowFileTypeCheck [x.geoJSONFile, x.tile3DFile, x.orthoPhotoFile] = none ∧
      x.toBeUpdatedProjectIteration =
        updateRequest x.projectIteration cid x.isRemoveGeoJSON x.isRemoveTile3D
          x.isRemoveOrthoPhoto x.geoJSONFile x.tile3DFile x.orthoPhotoFile
          (form.Value "revision".toList) ∧
      x.saveDirectory = slash (slash (slash (GetFileSystemRootLocation env) cid)
        x.projectIteration.ProjectID.str) x.projectIteration.ID.str ∧
      w1 = (w.logCall (Call.GetIteration id)).logCall
        (Call.GetCompanyID x.projectIteration.ProjectID) := by
  unfold updateValidate at h
  split at h
  · simp at h
  · rename_i hroot
    split at h
    · simp at h
    · rename_i form hform
      split at h
      · simp at h
      · rename_i id hid
        split at h
        · simp at h
        · rename_i pi wa h1
          simp only [callGetProjectIteration, Prod.mk.injEq] at h1
          split at h
          · simp at h
          · rename_i cid wb h2
            simp only [callGetCompanyIDFromProjectID, Prod.mk.injEq] at h2
            split at h
            · rename_i g t o hg ht ho
              dsimp only at h
              split at h
              · simp at h
              · rename_i hallow
                simp only [Prod.mk.injEq, Except.ok.injEq] at h
                obtain ⟨hx, hw⟩ := h
                subst hx
                refine ⟨form, id, cid, by simpa using hroot, hform, hid, h1.1, ?_, hg, ht, ho,
                  rfl, rfl, rfl, hallow, rfl, rfl, ?_⟩
                · rw [h1.2]; exact h2.1
                · rw [← hw, ← h2.2, ← h1.2]
            · simp at h

theorem updateRollbackWorld_trace (x : UpdateCtx) (w : World) :
    (updateRollbackWorld x w).trace = w.trace ++
      [Event.fs (FsOp.RemoveAll (slash x.saveDirectory "geojson_temp".toList)),
       Event.fs (FsOp.RemoveAll (slash x.saveDirectory "tile_3d_temp".toList)),
       Event.fs (FsOp.RemoveAll (slash x.saveDirectory "ortho_photo_temp".toList)),
       Event.call (Call.UpdateIteration
         (Mapper x.projectIteration x.toBeUpdatedProjectIteration))] := by
  simp [updateRollbackWorld, logCall_trace, RemoveAll_trace]

theorem removeAll3_removed (a b c : Str) (w : World) (q : CPath)
    (h : (parse a).contains q = true ∨ (parse b).contains q = true ∨
      (parse c).contains q = true) :
    (os.RemoveAll c (os.RemoveAll b (os.RemoveAll a w).2).2).2.fs q = none := by
  simp only [RemoveAll_fs]
  by_cases hc : (parse c).contains q = true
  · rw [if_pos hc]
  · rw [if_neg hc]
    by_cases hb : (parse b).contains q = true
    · rw [if_pos hb]
    · rw [if_neg hb]
      rcases h with h | h | h
      · rw [if_pos h]
      · exact absurd h hb
      · exact absurd h hc

/-- After the rollback nothing exists in the temporary directories. -/
theorem updateRollbackWorld_removed (x : UpdateCtx) (w : World) (d q : CPath)
    (hd : d ∈ x.tempKeys) (hq : d.contains q = true) :
    (updateRollbackWorld x w).fs q = none := by
  unfold UpdateCtx.tempKeys at hd
  simp only [List.mem_cons, List.mem_singleton, List.not_mem_nil, or_false] at hd
  unfold updateRollbackWorld
  rw [logCall_fs]
  apply removeAll3_removed
  rcases hd with h | h | h
  · rw [← h]; exact Or.inl hq
  · rw [← h]; exact Or.inr (Or.inl hq)
  · rw [← h]; exact Or.inr (Or.inr hq)

theorem callsOf_singleton_call (c : Call) : callsOf [Event.call c] = [c] := rfl

theorem callsOf_singleton_fs (op : FsOp) : callsOf [Event.fs op] = [] := rfl

theorem CPath.contains_antisymm (a b : CPath) (h1 : a.contains b = true)
    (h2 : b.contains a = true) : a = b := by
  rw [CPath.contains_iff] at h1 h2
  obtain ⟨aabs, asegs⟩ := a
  obtain ⟨babs, bsegs⟩ := b
  simp only at h1 h2
  have := List.IsPrefix.eq_of_length h1.2
    (Nat.le_antisymm (List.IsPrefix.length_le h1.2) (List.IsPrefix.length_le h2.2))
  simp [h1.1, this]

/-- After a successful `os.MkdirAll` the path and all its ancestors are
directories. -/
theorem MkdirAll_dirs (p : Str) (w : World) (h : (os.MkdirAll p w).1 = none) (q : CPath)
    (hq : q.contains (parse p) = true) : (os.MkdirAll p w).2.fs q = some Node.dir := by
  rw [MkdirAll_fs_ok p w h]
  simp [hq]

/-- `os.MkdirAll` succeeds when neither the path nor an ancestor is a regular
file. -/
theorem MkdirAll_ok (p : Str) (w : World)
    (h : ∀ q, q.contains (parse p) = true → isFile (w.fs q) = false) :
    (os.MkdirAll p w).1 = none := by
  unfold os.MkdirAll
  simp only
  have : ((parse p).ancestors.any fun a => isFile (w.fs a)) = false := by
    rw [List.any_eq_false]
    intro a ha
    rw [CPath.mem_ancestors] at ha
    simp [h a ha]
  rw [this]
  simp

/-- After successful staging of an update, the save directory and all its
ancestors are directories. -/
theorem updateSaveLocations_dirs (a b c : Str) (w w2 : World)
    (h : updateSaveLocations a b c w = (none, w2)) (q : CPath)
    (hq : q.contains (parse a) = true) : w2.fs q = some Node.dir := by
  unfold updateSaveLocations at h
  split at h
  · simp at h
  · rename_i w1 h1
    have d1 : w1.fs q = some Node.dir := by
      have := MkdirAll_dirs a w (by rw [h1]) q hq
      rw [h1] at this; exact this
    split at h
    · simp at h
    · rename_i w2a h2
      have d2 : w2a.fs q = some Node.dir := by
        have := (MkdirAll_frame b w1 q).2 d1
        rw [h2] at this; exact this
      split at h
      · simp at h
      · rename_i w3 h3
        have d3 : w3.fs q = some Node.dir := by
          have := (MkdirAll_frame c w2a q).2 d2
          rw [h3] at this; exact this
        simp only [Prod.mk.injEq, true_and] at h
        rw [← h]; exact d3

theorem promote_remove (file : Option FileHeader) (directory tempDirectory : Str) (w : World) :
    promote "true".toList file directory tempDirectory w =
      (os.MkdirAll directory (os.RemoveAll tempDirectory (os.RemoveAll directory w).2).2).2 := by
  simp [promote]

theorem promote_keep (isRemove : Str) (directory tempDirectory : Str) (w : World)
    (h : isRemove ≠ "true".toList) : promote isRemove none directory tempDirectory w = w := by
  unfold promote
  rw [if_neg h]
  rfl

theorem promote_upload (isRemove : Str) (file : FileHeader) (directory tempDirectory : Str)
    (w : World) (h : isRemove ≠ "true".toList) :
    promote isRemove (some file) directory tempDirectory w =
      (os.Rename tempDirectory directory (os.RemoveAll directory w).2).2 := by
  unfold promote
  rw [if_neg h]
  rfl

/-- The block after "Success" only makes file-system calls. -/
theorem promote_calls (isRemove : Str) (file : Option FileHeader)
    (directory tempDirectory : Str) (w : World) :
    callsOf (promote isRemove file directory tempDirectory w).trace = callsOf w.trace := by
  unfold promote
  split
  · simp only [MkdirAll_trace, RemoveAll_trace, callsOf_append, callsOf_singleton_fs,
      List.append_nil]
  · split
    · simp only [Rename_trace, RemoveAll_trace, callsOf_append, callsOf_singleton_fs,
        List.append_nil]
    · rfl

theorem updateFinish_success (env : Env) (x : UpdateCtx) (u : IterationResponse) (w : World) :
    updateFinish env x (Except.ok u) none w =
      (Response.Created u,
        promote x.isRemoveOrthoPhoto x.orthoPhotoFile
          (slash x.saveDirectory "ortho_photo".toList)
          (slash x.saveDirectory "ortho_photo_temp".toList)
          (promote x.isRemoveTile3D x.tile3DFile (slash x.saveDirectory "tile_3d".toList)
            (slash x.saveDirectory "tile_3d_temp".toList)
            (promote x.isRemoveGeoJSON x.geoJSONFile (slash x.saveDirectory "geojson".toList)
              (slash x.saveDirectory "geojson_temp".toList) w))) := rfl

/-- A successful return of the update flow: the update call succeeded, no task
error was received, and the final world is the three promotion blocks run on a
world that came about by staging, task steps and the update call. -/
theorem update_success_in (env : Env) (req : Request) (w w1 : World) (x : UpdateCtx)
    (ds : List CPath) (sched : List Tid) (d : IterationResponse)
    (hds : ∀ t ∈ x.spawned, parse t.saveDirectory ∈ ds)
    (hv : updateValidate env req w = (Except.ok x, w1))
    (hr : (UpdateProjectIteration env req sched w).main.response =
      some (Response.Created d)) :
    ∃ w2 wcall wpre,
      updateSaveLocations (slash x.saveDirectory "geojson_temp".toList)
        (slash x.saveDirectory "tile_3d_temp".toList)
        (slash x.saveDirectory "ortho_photo_temp".toList) w1 = (none, w2) ∧
      Steps ds w2 wcall ∧
      env.remote.UpdateIteration (callsOf wcall.trace) x.toBeUpdatedProjectIteration =
        Except.ok d ∧
      Steps ds
        (wcall.logCall (Call.UpdateIteration x.toBeUpdatedProjectIteration)) wpre ∧
      (UpdateProjectIteration env req sched w).world =
        promote x.isRemoveOrthoPhoto x.orthoPhotoFile
          (slash x.saveDirectory "ortho_photo".toList)
          (slash x.saveDirectory "ortho_photo_temp".toList)
          (promote x.isRemoveTile3D x.tile3DFile (slash x.saveDirectory "tile_3d".toList)
            (slash x.saveDirectory "tile_3d_temp".toList)
            (promote x.isRemoveGeoJSON x.geoJSONFile (slash x.saveDirectory "geojson".toList)
              (slash x.saveDirectory "geojson_temp".toList) wpre)) := by
  rcases update_shape_in env req w w1 x ds sched hds hv with ⟨err, w2, hs, hm, _⟩ | ⟨w2, hs, hinv⟩
  · rw [hm] at hr; simp [UpdateMain.response] at hr
  · obtain ⟨_, _, hm⟩ := hinv
    cases hmain : (UpdateProjectIteration env req sched w).main with
    | updating y => rw [hmain] at hr; simp [UpdateMain.response] at hr
    | ranging y res e => rw [hmain] at hr; simp [UpdateMain.response] at hr
    | returned r2 =>
      rw [hmain] at hm hr
      simp only [UpdateMain.response, Option.some.injEq] at hr
      subst hr
      obtain ⟨_, wcall, wpre, e, s1, s2, hf⟩ := hm
      have hc := (updateFinish_created env x _ e wpre d).mp (by rw [hf])
      rw [hc.1, hc.2, updateFinish_success] at hf
      simp only [Prod.mk.injEq, true_and] at hf
      exact ⟨w2, wcall, wpre, hs, s1, hc.1, s2, hf.symm⟩

theorem update_success (env : Env) (req : Request) (w w1 : World) (x : UpdateCtx)
    (sched : List Tid) (d : IterationResponse)
    (hv : updateValidate env req w = (Except.ok x, w1))
    (hr : (UpdateProjectIteration env req sched w).main.response =
      some (Response.Created d)) :
    ∃ w2 wcall wpre,
      updateSaveLocations (slash x.saveDirectory "geojson_temp".toList)
        (slash x.saveDirectory "tile_3d_temp".toList)
        (slash x.saveDirectory "ortho_photo_temp".toList) w1 = (none, w2) ∧
      Steps x.tempKeys w2 wcall ∧
      env.remote.UpdateIteration (callsOf wcall.trace) x.toBeUpdatedProjectIteration =
        Except.ok d ∧
      Steps x.tempKeys
        (wcall.logCall (Call.UpdateIteration x.toBeUpdatedProjectIteration)) wpre ∧
      (UpdateProjectIteration env req sched w).world =
        promote x.isRemoveOrthoPhoto x.orthoPhotoFile
          (slash x.saveDirectory "ortho_photo".toList)
          (slash x.saveDirectory "ortho_photo_temp".toList)
          (promote x.isRemoveTile3D x.tile3DFile (slash x.saveDirectory "tile_3d".toList)
            (slash x.saveDirectory "tile_3d_temp".toList)
            (promote x.isRemoveGeoJSON x.geoJSONFile (slash x.saveDirectory "geojson".toList)
              (slash x.saveDirectory "geojson_temp".toList) wpre)) :=
  update_success_in env req w w1 x x.tempKeys sched d (spawned_temp x) hv hr

/-- The asset slots of the update request the update flow builds: a slot whose
remove flag is "true" is absent, and a slot whose remove flag is not "true"
and that has no uploaded file holds the fetched values. -/
theorem updateRequest_slots (pi : IterationResponse) (cid rg rt ro : Str)
    (g t o : Option FileHeader) (rev : List Str) :
    (rg = "true".toList →
      (updateRequest pi cid rg rt ro g t o rev).GeoJSONURL = none ∧
      (updateRequest pi cid rg rt ro g t o rev).GeoJSONFileName = none) ∧
    (rg ≠ "true".toList → g = none →
      (updateRequest pi cid rg rt ro g t o rev).GeoJSONURL = pi.GeoJSONURL ∧
      (updateRequest pi cid rg rt ro g t o rev).GeoJSONFileName = pi.GeoJSONFileName) ∧
    (rt = "true".toList →
      (updateRequest pi cid rg rt ro g t o rev).Tile3DURL = none ∧
      (updateRequest pi cid rg rt ro g t o rev).Tile3DFileName = none) ∧
    (rt ≠ "true".toList → t = none →
      (updateRequest pi cid rg rt ro g t o rev).Tile3DURL = pi.Tile3DURL ∧
      (updateRequest pi cid rg rt ro g t o rev).Tile3DFileName = pi.Tile3DFileName) ∧
    (ro = "true".toList →
      (updateRequest pi cid rg rt ro g t o rev).OrthoPhotoURL = none ∧
      (updateRequest pi cid rg rt ro g t o rev).OrthoPhotoFileName = none) ∧
    (ro ≠ "true".toList → o = none →
      (updateRequest pi cid rg rt ro g t o rev).OrthoPhotoURL = pi.OrthoPhotoURL ∧
      (updateRequest pi cid rg rt ro g t o rev).OrthoPhotoFileName =
        pi.OrthoPhotoFileName) := by
  unfold updateRequest Mapper
  generalize "true".toList = T
  by_cases h1 : rg = T <;> by_cases h2 : rt = T <;> by_cases h3 : ro = T <;>
    cases g <;> cases t <;> cases o <;> cases rev <;> simp [h1, h2, h3]

/-! ### An asset kind that is kept -/

theorem KeepStep.keep_refl (s : Str) (k : Kind) (f : IterationResponse) (w : World) :
    KeepStep s k f w w :=
  ⟨⟨[], by simp, by simp⟩, fun _ _ => rfl⟩

theorem KeepStep.keep_trans (s : Str) (k : Kind) (f : IterationResponse) (w v u : World)
    (h1 : KeepStep s k f w v) (h2 : KeepStep s k f v u) : KeepStep s k f w u := by
  obtain ⟨⟨e1, t1, g1⟩, f1⟩ := h1
  obtain ⟨⟨e2, t2, g2⟩, f2⟩ := h2
  refine ⟨⟨e1 ++ e2, by simp [t2, t1], ?_⟩, fun q hq => by rw [f2 q hq, f1 q hq]⟩
  intro e he
  rcases List.mem_append.mp he with h | h
  · exact g1 e h
  · exact g2 e h

theorem kind_names (k : Kind) : Plain k.dirName ∧ Plain k.tempName ∧ k.dirName ≠ k.tempName := by
  cases k <;> (unfold Plain dotdot Kind.dirName Kind.tempName; decide)

theorem kind_names_ne (j k : Kind) (h : j ≠ k) :
    j.dirName ≠ k.dirName ∧ j.dirName ≠ k.tempName ∧ j.tempName ≠ k.dirName ∧
    j.tempName ≠ k.tempName := by
  cases j <;> cases k <;> first
    | exact absurd rfl h
    | (unfold Kind.dirName Kind.tempName; decide)

/-- A call whose paths all lie in children of the save directory other than
the two directories of `k` respects `k`. -/
theorem keepOk_of_paths (s : Str) (hs : s ≠ []) (k : Kind) (op : FsOp)
    (h : ∀ p ∈ op.paths, ∃ t, t ≠ k.dirName ∧ t ≠ k.tempName ∧
      ((parse s).child t).contains (parse p) = true) : KeepOk s k op := by
  rw [KeepOk, parse_slash _ _ hs (kind_names k).1, parse_slash _ _ hs (kind_names k).2.1]
  constructor
  · intro p hp
    obtain ⟨t, h1, _, h3⟩ := h p hp
    cases hc : ((parse s).child k.dirName).contains (parse p) with
    | false => rfl
    | true => exact (CPath.child_disjoint _ _ _ _ h1 h3 hc).elim
  · rintro ⟨p, hp, hc⟩
    obtain ⟨t, _, h2, h3⟩ := h p hp
    exact (CPath.child_disjoint _ _ _ _ h2 h3 hc).elim

theorem keepOk_temp (s : Str) (hs : s ≠ []) (k : Kind) (op : FsOp)
    (hop : op = FsOp.MkdirAll (slash s k.tempName) ∨ op = FsOp.RemoveAll (slash s k.tempName)) :
    KeepOk s k op := by
  refine ⟨?_, fun _ => hop⟩
  intro p hp
  have hp2 : p = slash s k.tempName := by
    rcases hop with h | h <;> (subst h; simpa [FsOp.paths] using hp)
  subst hp2
  rw [parse_slash _ _ hs (kind_names k).1, parse_slash _ _ hs (kind_names k).2.1]
  cases hc : ((parse s).child k.dirName).contains ((parse s).child k.tempName) with
  | false => rfl
  | true =>
    exact (CPath.child_disjoint _ _ _ _ (kind_names k).2.2 hc (CPath.contains_refl _)).elim

/-- A step confined to a child of the save directory other than the two
directories of `k` respects `k`. -/
theorem KeepStep.of_confined (s : Str) (hs : s ≠ []) (k : Kind) (f : IterationResponse)
    (t : Str) (h1 : t ≠ k.dirName) (h2 : t ≠ k.tempName) (w v : World)
    (h : Confined ((parse s).child t) w v) : KeepStep s k f w v := by
  obtain ⟨⟨ops, ht, hw⟩, _⟩ := id h
  refine ⟨⟨ops.map Event.fs, ht, ?_⟩, ?_⟩
  · intro e he
    simp only [List.mem_map] at he
    obtain ⟨op, hop, rfl⟩ := he
    exact keepOk_of_paths s hs k op (fun p hp => ⟨t, h1, h2, hw op hop p hp⟩)
  · intro q hq
    rw [parse_slash _ _ hs (kind_names k).1] at hq
    apply Confined.frame _ _ _ h q
    · cases hc : ((parse s).child t).contains q with
      | false => rfl
      | true => exact (CPath.child_disjoint _ _ _ _ h1 hc hq).elim
    · cases hc : q.contains ((parse s).child t) with
      | false => rfl
      | true => exact (CPath.child_between _ _ _ _ (Ne.symm h1) hq hc).elim

/-- `os.Rename` changes nothing outside the old and the new path. -/
theorem Rename_frame (a b : Str) (w : World) (q : CPath)
    (hb : (parse b).contains q = false) (ha : (parse a).contains q = false) :
    (os.Rename a b w).2.fs q = w.fs q := by
  unfold os.Rename
  simp only [World.logFs]
  split
  · rfl
  · split
    · rfl
    · split
      · rfl
      · split
        · rfl
        · simp [hb, ha]

theorem keepOk_child (s : Str) (hs : s ≠ []) (k : Kind) (t : Str) (ht : Plain t)
    (h1 : t ≠ k.dirName) (op : FsOp)
    (hop : op = FsOp.MkdirAll (slash s t) ∨ op = FsOp.RemoveAll (slash s t)) :
    KeepOk s k op := by
  by_cases h2 : t = k.tempName
  · subst h2; exact keepOk_temp s hs k op hop
  · apply keepOk_of_paths s hs k op
    intro p hp
    have hp2 : p = slash s t := by
      rcases hop with h | h <;> (subst h; simpa [FsOp.paths] using hp)
    subst hp2
    exact ⟨t, h1, h2, by rw [parse_slash _ _ hs ht]; exact CPath.contains_refl _⟩

/-- `os.MkdirAll` of a child of the save directory other than the final
directory of `k` respects `k`. -/
theorem KeepStep.mkdirAll (s : Str) (hs : s ≠ []) (k : Kind) (f : IterationResponse)
    (t : Str) (ht : Plain t) (h1 : t ≠ k.dirName) (w : World) :
    KeepStep s k f w (os.MkdirAll (slash s t) w).2 := by
  refine ⟨⟨[Event.fs (FsOp.MkdirAll (slash s t))], MkdirAll_trace _ _, ?_⟩, ?_⟩
  · intro e he
    simp only [List.mem_singleton] at he
    subst he
    exact keepOk_child s hs k t ht h1 _ (Or.inl rfl)
  · intro q hq
    rw [parse_slash _ _ hs (kind_names k).1] at hq
    rcases (MkdirAll_frame (slash s t) w q).1 with e | e
    · exact e
    · rw [parse_slash _ _ hs ht] at e
      exact (CPath.child_between _ _ _ _ (Ne.symm h1) hq e).elim

/-- `os.RemoveAll` of a child of the save directory other than the final
directory of `k` respects `k`. -/
theorem KeepStep.removeAll (s : Str) (hs : s ≠ []) (k : Kind) (f : IterationResponse)
    (t : Str) (ht : Plain t) (h1 : t ≠ k.dirName) (w : World) :
    KeepStep s k f w (os.RemoveAll (slash s t) w).2 := by
  refine ⟨⟨[Event.fs (FsOp.RemoveAll (slash s t))], RemoveAll_trace _ _, ?_⟩, ?_⟩
  · intro e he
    simp only [List.mem_singleton] at he
    subst he
    exact keepOk_child s hs k t ht h1 _ (Or.inr rfl)
  · intro q hq
    rw [parse_slash _ _ hs (kind_names k).1] at hq
    have hc : ((parse s).child t).contains q = false := by
      cases hc : ((parse s).child t).contains q with
      | false => rfl
      | true => exact (CPath.child_disjoint _ _ _ _ h1 hc hq).elim
    rw [RemoveAll_fs, parse_slash _ _ hs ht]
    simp only [hc, Bool.false_eq_true, if_false]

/-- `os.Rename` between two children of the save directory other than the two
directories of `k` respects `k`. -/
theorem KeepStep.rename (s : Str) (hs : s ≠ []) (k : Kind) (f : IterationResponse)
    (a b : Str) (ha : Plain a) (hb : Plain b) (ha1 : a ≠ k.dirName) (ha2 : a ≠ k.tempName)
    (hb1 : b ≠ k.dirName) (hb2 : b ≠ k.tempName) (w : World) :
    KeepStep s k f w (os.Rename (slash s a) (slash s b) w).2 := by
  refine ⟨⟨[Event.fs (FsOp.Rename (slash s a) (slash s b))], Rename_trace _ _ _, ?_⟩, ?_⟩
  · intro e he
    simp only [List.mem_singleton] at he
    subst he
    apply keepOk_of_paths s hs k
    intro p hp
    simp only [FsOp.paths, List.mem_cons, List.mem_singleton, List.not_mem_nil,
      or_false] at hp
    rcases hp with h | h
    · subst h
      exact ⟨a, ha1, ha2, by rw [parse_slash _ _ hs ha]; exact CPath.contains_refl _⟩
    · subst h
      exact ⟨b, hb1, hb2, by rw [parse_slash _ _ hs hb]; exact CPath.contains_refl _⟩
  · intro q hq
    rw [parse_slash _ _ hs (kind_names k).1] at hq
    apply Rename_frame
    · rw [parse_slash _ _ hs hb]
      cases hc : ((parse s).child b).contains q with
      | false => rfl
      | true => exact (CPath.child_disjoint _ _ _ _ hb1 hc hq).elim
    · rw [parse_slash _ _ hs ha]
      cases hc : ((parse s).child a).contains q with
      | false => rfl
      | true => exact (CPath.child_disjoint _ _ _ _ ha1 hc hq).elim

/-- A remote call respects `k` when, if it is an update call, it carries the
fetched URL and file name of `k`. -/
theorem KeepStep.logCall (s : Str) (k : Kind) (f : IterationResponse) (c : Call) (w : World)
    (h : ∀ r, c = Call.UpdateIteration r → r.url k = f.url k ∧ r.fileName k = f.fileName k) :
    KeepStep s k f w (w.logCall c) :=
  ⟨⟨[Event.call c], rfl, by
    intro e he
    simp only [List.mem_singleton] at he
    subst he
    exact h⟩, fun _ _ => rfl⟩

/-- Task steps in the temporary directories of the other kinds respect `k`. -/
theorem KeepStep.of_steps (s : Str) (hs : s ≠ []) (k : Kind) (f : IterationResponse)
    (w v : World) (h : Steps (otherTempKeys s k) w v) : KeepStep s k f w v := by
  induction h with
  | refl => exact KeepStep.keep_refl _ _ _ _
  | step v u d _ hd hc ih =>
    refine KeepStep.keep_trans _ _ _ _ _ _ ih ?_
    simp only [otherTempKeys, List.mem_map, List.mem_filter] at hd
    obtain ⟨j, ⟨_, hj⟩, rfl⟩ := hd
    have hjk : j ≠ k := by simpa using hj
    exact KeepStep.of_confined s hs k f j.tempName (kind_names_ne j k hjk).2.2.1
      (kind_names_ne j k hjk).2.2.2 v u hc

/-- With `k` kept, the spawned tasks work in the temporary directories of the
other kinds. -/
theorem spawned_other (x : UpdateCtx) (hs : x.saveDirectory ≠ []) (k : Kind)
    (h1 : x.isRemove k ≠ "true".toList) (h2 : x.file k = none) (t : Task)
    (ht : t ∈ x.spawned) : parse t.saveDirectory ∈ otherTempKeys x.saveDirectory k := by
  have e1 : parse (slash x.saveDirectory "geojson_temp".toList) =
      (parse x.saveDirectory).child Kind.geojson.tempName :=
    parse_slash _ _ hs (kind_names Kind.geojson).2.1
  have e2 : parse (slash x.saveDirectory "tile_3d_temp".toList) =
      (parse x.saveDirectory).child Kind.tile3d.tempName :=
    parse_slash _ _ hs (kind_names Kind.tile3d).2.1
  have e3 : parse (slash x.saveDirectory "ortho_photo_temp".toList) =
      (parse x.saveDirectory).child Kind.orthoPhoto.tempName :=
    parse_slash _ _ hs (kind_names Kind.orthoPhoto).2.1
  have keep : ∀ d, spawnIfUpload (x.isRemove k) (x.file k) d = [] := by
    intro d
    unfold spawnIfUpload
    rw [if_pos h1, h2]
  simp only [UpdateCtx.spawned, List.mem_append] at ht
  cases k with
  | geojson =>
    simp only [UpdateCtx.isRemove, UpdateCtx.file] at keep
    rcases ht with (ht | ht) | ht
    · rw [keep] at ht; simp at ht
    · rw [spawnIfUpload_dest _ _ _ _ ht, e2]; simp [otherTempKeys]
    · rw [spawnIfUpload_dest _ _ _ _ ht, e3]; simp [otherTempKeys]
  | tile3d =>
    simp only [UpdateCtx.isRemove, UpdateCtx.file] at keep
    rcases ht with (ht | ht) | ht
    · rw [spawnIfUpload_dest _ _ _ _ ht, e1]; simp [otherTempKeys]
    · rw [keep] at ht; simp at ht
    · rw [spawnIfUpload_dest _ _ _ _ ht, e3]; simp [otherTempKeys]
  | orthoPhoto =>
    simp only [UpdateCtx.isRemove, UpdateCtx.file] at keep
    rcases ht with (ht | ht) | ht
    · rw [spawnIfUpload_dest _ _ _ _ ht, e1]; simp [otherTempKeys]
    · rw [spawnIfUpload_dest _ _ _ _ ht, e2]; simp [otherTempKeys]
    · rw [keep] at ht; simp at ht

/-- The staging block of the update flow respects every kind. -/
theorem KeepStep.staging (x : UpdateCtx) (hs : x.saveDirectory ≠ []) (k : Kind)
    (f : IterationResponse) (w : World) :
    KeepStep x.saveDirectory k f w
      (updateSaveLocations (slash x.saveDirectory "geojson_temp".toList)
        (slash x.saveDirectory "tile_3d_temp".toList)
        (slash x.saveDirectory "ortho_photo_temp".toList) w).2 := by
  have n1 := kind_names k
  have g1 : ∀ w, KeepStep x.saveDirectory k f w
      (os.MkdirAll (slash x.saveDirectory "geojson_temp".toList) w).2 := fun w =>
    KeepStep.mkdirAll _ hs k f _ (kind_names Kind.geojson).2.1
      (by cases k <;> (unfold Kind.dirName; decide)) w
  have g2 : ∀ w, KeepStep x.saveDirectory k f w
      (os.MkdirAll (slash x.saveDirectory "tile_3d_temp".toList) w).2 := fun w =>
    KeepStep.mkdirAll _ hs k f _ (kind_names Kind.tile3d).2.1
      (by cases k <;> (unfold Kind.dirName; decide)) w
  have g3 : ∀ w, KeepStep x.saveDirectory k f w
      (os.MkdirAll (slash x.saveDirectory "ortho_photo_temp".toList) w).2 := fun w =>
    KeepStep.mkdirAll _ hs k f _ (kind_names Kind.orthoPhoto).2.1
      (by cases k <;> (unfold Kind.dirName; decide)) w
  unfold updateSaveLocations
  have s1 := g1 w
  split
  · rename_i err w1 h1
    rw [h1] at s1; exact s1
  · rename_i w1 h1
    rw [h1] at s1
    have s2 := KeepStep.keep_trans _ _ _ _ _ _ s1 (g2 w1)
    split
    · rename_i err w2 h2
      rw [h2] at s2; exact s2
    · rename_i w2 h2
      rw [h2] at s2
      have s3 := KeepStep.keep_trans _ _ _ _ _ _ s2 (g3 w2)
      split
      · rename_i err w3 h3
        rw [h3] at s3; exact s3
      · rename_i w3 h3
        rw [h3] at s3; exact s3

/-- The rollback of the update flow respects every kind. -/
theorem KeepStep.rollback (x : UpdateCtx) (hs : x.saveDirectory ≠ []) (k : Kind) (w : World) :
    KeepStep x.saveDirectory k x.projectIteration w (updateRollbackWorld x w) := by
  unfold updateRollbackWorld
  have r1 := KeepStep.removeAll x.saveDirectory hs k x.projectIteration "geojson_temp".toList
    (kind_names Kind.geojson).2.1 (by cases k <;> (unfold Kind.dirName; decide)) w
  have r2 := KeepStep.removeAll x.saveDirectory hs k x.projectIteration "tile_3d_temp".toList
    (kind_names Kind.tile3d).2.1 (by cases k <;> (unfold Kind.dirName; decide))
    (os.RemoveAll (slash x.saveDirectory "geojson_temp".toList) w).2
  have r3 := KeepStep.removeAll x.saveDirectory hs k x.projectIteration
    "ortho_photo_temp".toList
    (kind_names Kind.orthoPhoto).2.1 (by cases k <;> (unfold Kind.dirName; decide))
    (os.RemoveAll (slash x.saveDirectory "tile_3d_temp".toList)
      (os.RemoveAll (slash x.saveDirectory "geojson_temp".toList) w).2).2
  refine KeepStep.keep_trans _ _ _ _ _ _
    (KeepStep.keep_trans _ _ _ _ _ _ (KeepStep.keep_trans _ _ _ _ _ _ r1 r2) r3)
    (KeepStep.logCall _ _ _ _ _ ?_)
  intro r hr
  simp only [Call.UpdateIteration.injEq] at hr
  subst hr
  cases k <;> exact ⟨rfl, rfl⟩

/-- The promotion block of a kind `j` respects the kept kind `k`. -/
theorem KeepStep.of_promote (x : UpdateCtx) (hs : x.saveDirectory ≠ []) (k j : Kind)
    (h1 : x.isRemove k ≠ "true".toList) (h2 : x.file k = none) (w : World) :
    KeepStep x.saveDirectory k x.projectIteration w
      (promote (x.isRemove j) (x.file j) (slash x.saveDirectory j.dirName)
        (slash x.saveDirectory j.tempName) w) := by
  by_cases hjk : j = k
  · subst hjk
    rw [h2, promote_keep _ _ _ _ h1]
    exact KeepStep.keep_refl _ _ _ _
  · have n := kind_names_ne j k hjk
    have nj := kind_names j
    unfold promote
    split
    · exact KeepStep.keep_trans _ _ _ _ _ _
        (KeepStep.keep_trans _ _ _ _ _ _
          (KeepStep.removeAll _ hs k _ j.dirName nj.1 n.1 w)
          (KeepStep.removeAll _ hs k _ j.tempName nj.2.1 n.2.2.1 _))
        (KeepStep.mkdirAll _ hs k _ j.dirName nj.1 n.1 _)
    · split
      · exact KeepStep.keep_trans _ _ _ _ _ _
          (KeepStep.removeAll _ hs k _ j.dirName nj.1 n.1 w)
          (KeepStep.rename _ hs k _ j.tempName j.dirName nj.2.1 nj.1 n.2.2.1 n.2.2.2 n.1 n.2.1 _)
      · exact KeepStep.keep_refl _ _ _ _

/-- The code after the range loop of the update flow respects a kept kind. -/
theorem KeepStep.finish (env : Env) (x : UpdateCtx) (hs : x.saveDirectory ≠ []) (k : Kind)
    (h1 : x.isRemove k ≠ "true".toList) (h2 : x.file k = none)
    (res : Except RemoteErr IterationResponse) (e : GoErr) (w : World) :
    KeepStep x.saveDirectory k x.projectIteration w (updateFinish env x res e w).2 := by
  by_cases hc : ∃ d, res = Except.ok d ∧ e = none
  · obtain ⟨d, hr, he⟩ := hc
    subst hr
    subst he
    rw [updateFinish_success]
    exact KeepStep.keep_trans _ _ _ _ _ _
      (KeepStep.keep_trans _ _ _ _ _ _
        (KeepStep.of_promote x hs k Kind.geojson h1 h2 w)
        (KeepStep.of_promote x hs k Kind.tile3d h1 h2 _))
      (KeepStep.of_promote x hs k Kind.orthoPhoto h1 h2 _)
  · rw [updateFinish_fail env x res e w
      (fun d hd => hc ⟨d, (updateFinish_created env x res e w d).mp hd⟩)]
    exact KeepStep.rollback x hs k w

/-- The update request the update flow builds carries the fetched URL and file
name of a kept kind. -/
theorem updateRequest_keep (pi : IterationResponse) (cid rg rt ro : Str)
    (g t o : Option FileHeader) (rev : List Str) (x : UpdateCtx)
    (hx : x.projectIteration = pi ∧ x.isRemoveGeoJSON = rg ∧ x.isRemoveTile3D = rt ∧
      x.isRemoveOrthoPhoto = ro ∧ x.geoJSONFile = g ∧ x.tile3DFile = t ∧
      x.orthoPhotoFile = o)
    (k : Kind) (h1 : x.isRemove k ≠ "true".toList) (h2 : x.file k = none) :
    (updateRequest pi cid rg rt ro g t o rev).url k = pi.url k ∧
    (updateRequest pi cid rg rt ro g t o rev).fileName k = pi.fileName k := by
  obtain ⟨_, e1, e2, e3, e4, e5, e6⟩ := hx
  have hsl := updateRequest_slots pi cid rg rt ro g t o rev
  cases k with
  | geojson =>
    simp only [UpdateCtx.isRemove, UpdateCtx.file] at h1 h2
    exact hsl.2.1 (e1 ▸ h1) (e4 ▸ h2)
  | tile3d =>
    simp only [UpdateCtx.isRemove, UpdateCtx.file] at h1 h2
    exact hsl.2.2.2.1 (e2 ▸ h1) (e5 ▸ h2)
  | orthoPhoto =>
    simp only [UpdateCtx.isRemove, UpdateCtx.file] at h1 h2
    exact hsl.2.2.2.2.2 (e3 ▸ h1) (e6 ▸ h2)

/-- Every state of an update request that got through validation respects
every kept kind. -/
theorem update_keep_step (env : Env) (req : Request) (fs0 : FS) (sched : List Tid)
    (x : UpdateCtx) (w1 : World) (k : Kind)
    (hv : updateValidate env req ⟨fs0, []⟩ = (Except.ok x, w1))
    (h1 : x.isRemove k ≠ "true".toList) (h2 : x.file k = none) :
    KeepStep x.saveDirectory k x.projectIteration ⟨fs0, []⟩
      (UpdateProjectIteration env req sched ⟨fs0, []⟩).world := by
  have hS := updateValidate_saveDirectory env req _ w1 x hv
  obtain ⟨form, id, cid, _, _, _, _, _, _, _, _, _, _, _, _, hreq, _, hw1⟩ :=
    updateValidate_ok env req _ w1 x hv
  have hU : ∀ r, Call.UpdateIteration x.toBeUpdatedProjectIteration = Call.UpdateIteration r →
      r.url k = x.projectIteration.url k ∧ r.fileName k = x.projectIteration.fileName k := by
    intro r hr
    simp only [Call.UpdateIteration.injEq] at hr
    rw [← hr, hreq]
    exact updateRequest_keep _ _ _ _ _ _ _ _ _ x ⟨rfl, rfl, rfl, rfl, rfl, rfl, rfl⟩ k h1 h2
  have k1 : KeepStep x.saveDirectory k x.projectIteration ⟨fs0, []⟩ w1 := by
    rw [hw1]
    exact KeepStep.keep_trans _ _ _ _ _ _
      (KeepStep.logCall _ _ _ _ _ (fun r hr => by cases hr))
      (KeepStep.logCall _ _ _ _ _ (fun r hr => by cases hr))
  have hst := KeepStep.staging x hS k x.projectIteration w1
  rcases update_shape_in env req ⟨fs0, []⟩ w1 x (otherTempKeys x.saveDirectory k) sched
      (spawned_other x hS k h1 h2) hv with ⟨err, w2, hs, _, hw⟩ | ⟨w2, hs, hinv⟩
  · rw [hw]
    rw [hs] at hst
    exact KeepStep.keep_trans _ _ _ _ _ _ k1 hst
  · rw [hs] at hst
    have k2 := KeepStep.keep_trans _ _ _ _ _ _ k1 hst
    obtain ⟨_, _, hm⟩ := hinv
    cases hmain : (UpdateProjectIteration env req sched ⟨fs0, []⟩).main with
    | updating y =>
      rw [hmain] at hm
      exact KeepStep.keep_trans _ _ _ _ _ _ k2 (KeepStep.of_steps _ hS k _ _ _ hm.2)
    | ranging y res e =>
      rw [hmain] at hm
      obtain ⟨_, wcall, s1, _, s2⟩ := hm
      exact KeepStep.keep_trans _ _ _ _ _ _
        (KeepStep.keep_trans _ _ _ _ _ _
          (KeepStep.keep_trans _ _ _ _ _ _ k2 (KeepStep.of_steps _ hS k _ _ _ s1))
          (KeepStep.logCall _ _ _ _ _ hU))
        (KeepStep.of_steps _ hS k _ _ _ s2)
    | returned r =>
      rw [hmain] at hm
      obtain ⟨_, wcall, wpre, e, s1, s2, hf⟩ := hm
      have k3 := KeepStep.finish env x hS k h1 h2
        (env.remote.UpdateIteration (callsOf wcall.trace) x.toBeUpdatedProjectIteration) e wpre
      rw [hf] at k3
      exact KeepStep.keep_trans _ _ _ _ _ _
        (KeepStep.keep_trans _ _ _ _ _ _
          (KeepStep.keep_trans _ _ _ _ _ _
            (KeepStep.keep_trans _ _ _ _ _ _ k2 (KeepStep.of_steps _ hS k _ _ _ s1))
            (KeepStep.logCall _ _ _ _ _ hU))
          (KeepStep.of_steps _ hS k _ _ _ s2)) k3

/-! ### CreateProjectIteration: the shape of its runs -/

theorem noDelete_of_calls (t u : List Event) (h : callsOf u = callsOf t) (ht : noDelete t) :
    noDelete u := by
  intro id
  rw [h]
  exact ht id

theorem CreInv.create_step (env : Env) (x : CreateCtx) (w0 : World) (hw0 : noDelete w0.trace)
    (c : Conc CreateMain) (t : Tid) (h : CreInv env x w0 c) :
    CreInv env x w0 (Conc.step (createProg env) c t) := by
  obtain ⟨hd, hcd, hm⟩ := h
  cases t with
  | task i =>
    rcases Conc.step_task (createProg env) c i with e | ⟨t, err, m, hg, hst, hcl, hr, e⟩ | ⟨t, hg, e⟩
    · rw [e]; exact ⟨hd, hcd, hm⟩
    · rw [e]
      have ht := mem_of_get?_eq_some _ _ _ hg
      refine ⟨?_, ?_, ?_⟩
      · intro t2 h2
        rcases mem_set_cases _ _ _ _ h2 with h3 | h3
        · rw [h3]; exact hd t ht
        · exact hd t2 h3
      · intro hc; rw [hcl] at hc; exact absurd hc (by simp)
      · simp only
        cases hmain : c.main with
        | ranging y =>
          rw [hmain] at hr hm
          simp only [createProg, Option.some.injEq] at hr
          rw [← hr]
          exact ⟨hm.1, noDelete_of_calls _ _ (Steps.steps_calls _ _ _ hm.2) hw0⟩
        | gotErr y e0 => rw [hmain] at hr; simp [createProg] at hr
        | removed y e0 => rw [hmain] at hr; simp [createProg] at hr
        | returned r => rw [hmain] at hr; simp [createProg] at hr
    · rw [e]
      have ht := mem_of_get?_eq_some _ _ _ hg
      have hconf := saveAndUnzipFile_confined t.saveDirectory t.st c.world
      refine ⟨?_, ?_, ?_⟩
      · intro t2 h2
        rcases mem_set_cases _ _ _ _ h2 with h3 | h3
        · rw [h3]; exact hd t ht
        · exact hd t2 h3
      · intro hc t2 h2
        rcases mem_set_cases _ _ _ _ h2 with h3 | h3
        · rw [h3]
          have := TaskSt.eq_done_of_isDone _ (hcd hc t ht)
          simp only [this, saveAndUnzipFile_done, TaskSt.isDone]
        · exact hcd hc t2 h3
      · simp only
        obtain ⟨⟨ops, htr, _⟩, _⟩ := id hconf
        cases hmain : c.main with
        | ranging y =>
          rw [hmain] at hm
          exact ⟨hm.1, Steps.step _ _ _ _ hm.2 (hd t ht) hconf⟩
        | gotErr y e0 =>
          rw [hmain] at hm
          exact ⟨hm.1, noDelete_of_calls _ _ (Confined.calls _ _ _ hconf) hm.2⟩
        | removed y e0 =>
          rw [hmain] at hm
          refine ⟨hm.1, noDelete_of_calls _ _ (Confined.calls _ _ _ hconf) hm.2.1, ?_⟩
          rw [htr]
          exact List.mem_append_left _ hm.2.2
        | returned r =>
          rw [hmain] at hm
          rcases hm with ⟨hcl, hA⟩ | ⟨wdel, err, post, h1, h2, h3, h4⟩
          · left
            have := TaskSt.eq_done_of_isDone _ (hcd hcl t ht)
            simp only [this, saveAndUnzipFile_done]
            exact ⟨hcl, hA⟩
          · right
            refine ⟨wdel, err, post ++ ops, h1, h2, ?_, h4⟩
            rw [htr, h3]
            simp
  | waiter =>
    rcases Conc.step_waiter (createProg env) c with e | ⟨hall, e⟩
    · rw [e]; exact ⟨hd, hcd, hm⟩
    · rw [e]
      refine ⟨hd, fun _ => hall, ?_⟩
      simp only
      cases hmain : c.main with
      | ranging y => rw [hmain] at hm; exact hm
      | gotErr y e0 => rw [hmain] at hm; exact hm
      | removed y e0 => rw [hmain] at hm; exact hm
      | returned r =>
        rw [hmain] at hm
        rcases hm with ⟨_, hA⟩ | hB
        · exact Or.inl ⟨trivial, hA⟩
        · exact Or.inr hB
  | main =>
    rcases Conc.step_main (createProg env) c with ⟨_, e⟩ | ⟨m, w, hs, e⟩
    · rw [e]; exact ⟨hd, hcd, hm⟩
    · rw [e]
      refine ⟨hd, hcd, ?_⟩
      simp only
      cases hmain : c.main with
      | ranging y =>
        rw [hmain] at hs hm
        simp only [createProg] at hs
        cases hcl : c.closed with
        | false => rw [hcl] at hs; simp at hs
        | true =>
          rw [hcl] at hs
          simp only [if_true, Option.some.injEq, Prod.mk.injEq] at hs
          rw [← hs.1, ← hs.2]
          obtain ⟨hy, h1⟩ := hm
          subst hy
          exact Or.inl ⟨rfl, c.world, h1, rfl⟩
      | gotErr y e0 =>
        rw [hmain] at hs hm
        simp only [createProg, Option.some.injEq, Prod.mk.injEq] at hs
        rw [← hs.1, ← hs.2]
        obtain ⟨hy, h1⟩ := hm
        subst hy
        refine ⟨rfl, ?_, ?_⟩
        · apply noDelete_of_calls _ _ _ h1
          rw [RemoveAll_trace, callsOf_append, callsOf_singleton_fs]
          simp
        · rw [RemoveAll_trace]
          simp
      | removed y e0 =>
        rw [hmain] at hs hm
        obtain ⟨hy, h1, h2⟩ := hm
        subst hy
        simp only [createProg, callDeleteProjectIteration] at hs
        cases ha : env.remote.DeleteIteration (callsOf c.world.trace) y.projectIteration.ID with
        | error de =>
          rw [ha] at hs
          simp only [Option.some.injEq, Prod.mk.injEq] at hs
          rw [← hs.1, ← hs.2]
          right
          exact ⟨c.world, e0, [], h1, h2, by simp [logCall_trace],
            by simp [createRollbackResponse, ha]⟩
        | ok u =>
          rw [ha] at hs
          simp only [Option.some.injEq, Prod.mk.injEq] at hs
          rw [← hs.1, ← hs.2]
          right
          exact ⟨c.world, e0, [], h1, h2, by simp [logCall_trace],
            by simp [createRollbackResponse, ha]⟩
      | returned r =>
        rw [hmain] at hs
        simp [createProg] at hs

/-- What validation of a create request establishes when it lets the request
through. -/
theorem createValidate_ok (env : Env) (req : Request) (w w1 : World) (x : CreateCtx)
    (h : createValidate env req w = (Except.ok x, w1)) :
    ∃ form pid, req.isRoot = true ∧ req.MultipartForm = Except.ok form ∧
      (form.Value "project_id".toList).head? = some pid ∧
      env.uuidParse pid = some x.projectID ∧
      env.remote.GetCompanyID (callsOf w.trace) x.projectID = Except.ok x.companyID ∧
      x.geoJSONFile = (form.File "geojson".toList).head? ∧
      x.tile3DFile = (form.File "tile_3d".toList).head? ∧
      x.orthoPhotoFile = (form.File "ortho_photo".toList).head? ∧
      allowFileTypeCheck [x.geoJSONFile, x.tile3DFile, x.orthoPhotoFile] = none ∧
      x.revision = ((form.Value "revision".toList).head?).getD [] ∧
      env.remote.CreateIteration (callsOf (w.logCall (Call.GetCompanyID x.projectID)).trace)
        x.projectID x.revision = Except.ok x.projectIteration ∧
      x.saveDirectory = slash (slash (slash (GetFileSystemRootLocation env) x.companyID)
        x.projectID.str) x.projectIteration.ID.str ∧
      w1 = (w.logCall (Call.GetCompanyID x.projectID)).logCall
        (Call.CreateIteration x.projectID x.revision) := by
  unfold createValidate at h
  split at h
  · simp at h
  · rename_i hroot
    split at h
    · simp at h
    · rename_i form hform
      split at h
      · simp at h
      · rename_i pid hpid
        split at h
        · simp at h
        · rename_i projectID hparse
          split at h
          · simp at h
          · rename_i cid wa h1
            simp only [callGetCompanyIDFromProjectID, Prod.mk.injEq] at h1
            dsimp only at h
            split at h
            · simp at h
            · rename_i hallow
              split at h
              · simp at h
              · rename_i pi wb h2
                simp only [callCreateProjectIteration, Prod.mk.injEq] at h2
                simp only [Prod.mk.injEq, Except.ok.injEq] at h
                obtain ⟨hx, hw⟩ := h
                subst hx
                refine ⟨form, pid, by simpa using hroot, hform, hpid, hparse, h1.1, rfl, rfl,
                  rfl, hallow, rfl, ?_, rfl, ?_⟩
                · rw [h1.2]; exact h2.1
                · rw [← hw, ← h2.2, ← h1.2]

theorem createValidate_saveDirectory (env : Env) (req : Request) (w w1 : World)
    (x : CreateCtx) (h : createValidate env req w = (Except.ok x, w1)) :
    x.saveDirectory ≠ [] := by
  obtain ⟨_, _, _, _, _, _, _, _, _, _, _, _, _, hs, _⟩ := createValidate_ok env req w w1 x h
  rw [hs]
  exact slash_ne_nil _ _

theorem Confined.Stat (d : CPath) (p : Str) (w : World)
    (hp : d.contains (parse p) = true) : Confined d w (os.Stat p w).2 := by
  refine ⟨⟨[FsOp.Stat p], by simp [Stat_trace], ?_⟩, fun q => ?_⟩
  · intro op hop
    simp only [List.mem_singleton] at hop
    subst hop
    intro y hy
    simp only [FsOp.paths, List.mem_singleton] at hy
    subst hy
    exact hp
  · rw [Stat_fs]
    exact ⟨Or.inl rfl, id⟩

/-- The staging block of the create flow is a sequence of steps in the final
directories. -/
theorem createSaveLocations_steps (x : CreateCtx) (w : World) :
    Steps x.finalKeys w
      (createSaveLocations (slash x.saveDirectory "geojson".toList)
        (slash x.saveDirectory "tile_3d".toList)
        (slash x.saveDirectory "ortho_photo".toList) w).2 := by
  have m1 : parse (slash x.saveDirectory "geojson".toList) ∈ x.finalKeys := by
    simp [CreateCtx.finalKeys]
  have m2 : parse (slash x.saveDirectory "tile_3d".toList) ∈ x.finalKeys := by
    simp [CreateCtx.finalKeys]
  have m3 : parse (slash x.saveDirectory "ortho_photo".toList) ∈ x.finalKeys := by
    simp [CreateCtx.finalKeys]
  have s0 := Steps.step _ _ _ _ (@Steps.refl x.finalKeys w) m1
    (Confined.Stat _ (slash x.saveDirectory "geojson".toList) w (CPath.contains_refl _))
  unfold createSaveLocations
  cases hst : os.Stat (slash x.saveDirectory "geojson".toList) w with
  | mk statErr w0 =>
    rw [hst] at s0
    simp only
    split
    · have s1 := Steps.step _ _ _ _ s0 m1
        (Confined.MkdirAll _ (slash x.saveDirectory "geojson".toList) w0
          (CPath.contains_refl _))
      split
      · rename_i err w1 h1
        rw [h1] at s1; exact s1
      · rename_i w1 h1
        rw [h1] at s1
        have s2 := Steps.step _ _ _ _ s1 m2
          (Confined.MkdirAll _ (slash x.saveDirectory "tile_3d".toList) w1
            (CPath.contains_refl _))
        split
        · rename_i err w2 h2
          rw [h2] at s2; exact s2
        · rename_i w2 h2
          rw [h2] at s2
          have s3 := Steps.step _ _ _ _ s2 m3
            (Confined.MkdirAll _ (slash x.saveDirectory "ortho_photo".toList) w2
              (CPath.contains_refl _))
          split
          · rename_i err w3 h3
            rw [h3] at s3; exact s3
          · rename_i w3 h3
            rw [h3] at s3; exact s3
    · exact s0

/-- A create handler that has returned before spawning stays as it is. -/
theorem exec_createReturn (env : Env) (r : Response) (w : World) (sched : List Tid) :
    (Conc.exec (createProg env) sched (createReturn r w)).main = CreateMain.returned r ∧
    (Conc.exec (createProg env) sched (createReturn r w)).world = w := by
  have := Conc.exec_invariant (createProg env)
    (fun c => c.main = CreateMain.returned r ∧ c.world = w ∧ c.tasks = []) ?_ sched
    (createReturn r w) ⟨rfl, rfl, rfl⟩
  · exact ⟨this.1, this.2.1⟩
  · intro c t ⟨h1, h2, h3⟩
    cases t with
    | task i =>
      rcases Conc.step_task (createProg env) c i with e | ⟨t, _, _, hg, _⟩ | ⟨t, hg, _⟩
      · rw [e]; exact ⟨h1, h2, h3⟩
      · rw [h3] at hg; simp at hg
      · rw [h3] at hg; simp at hg
    | waiter =>
      rcases Conc.step_waiter (createProg env) c with e | ⟨_, e⟩
      · rw [e]; exact ⟨h1, h2, h3⟩
      · rw [e]; exact ⟨h1, h2, h3⟩
    | main =>
      rcases Conc.step_main (createProg env) c with ⟨_, e⟩ | ⟨m, w2, hs, _⟩
      · rw [e]; exact ⟨h1, h2, h3⟩
      · rw [h1] at hs; simp [createProg] at hs

/-- Every state of a create request that got through validation: either
staging failed and the handler has returned that error, or the state has the
shape `CreInv` over the world `w2` right after staging. -/
theorem create_shape (env : Env) (req : Request) (fs0 : FS) (w1 : World) (x : CreateCtx)
    (sched : List Tid) (hv : createValidate env req ⟨fs0, []⟩ = (Except.ok x, w1)) :
    (∃ err w2, createSaveLocations (slash x.saveDirectory "geojson".toList)
        (slash x.saveDirectory "tile_3d".toList)
        (slash x.saveDirectory "ortho_photo".toList) w1 = (some err, w2) ∧
      (CreateProjectIteration env req sched ⟨fs0, []⟩).main =
        CreateMain.returned (Response.InternalServerError err none) ∧
      (CreateProjectIteration env req sched ⟨fs0, []⟩).world = w2) ∨
    (∃ w2, createSaveLocations (slash x.saveDirectory "geojson".toList)
        (slash x.saveDirectory "tile_3d".toList)
        (slash x.saveDirectory "ortho_photo".toList) w1 = (none, w2) ∧
      noDelete w2.trace ∧
      CreInv env x w2 (CreateProjectIteration env req sched ⟨fs0, []⟩)) := by
  have hinit : createInit env req ⟨fs0, []⟩ = createStage x w1 := by
    unfold createInit
    rw [hv]
  obtain ⟨_, _, _, _, _, _, _, _, _, _, _, _, _, _, hw1⟩ := createValidate_ok env req _ w1 x hv
  have hst := createSaveLocations_steps x w1
  unfold CreateProjectIteration
  rw [hinit]
  cases hs : createSaveLocations (slash x.saveDirectory "geojson".toList)
      (slash x.saveDirectory "tile_3d".toList)
      (slash x.saveDirectory "ortho_photo".toList) w1 with
  | mk err w2 =>
    rw [hs] at hst
    cases err with
    | some err =>
      left
      have e : createStage x w1 = createReturn (Response.InternalServerError err none) w2 := by
        unfold createStage
        simp only [hs]
      rw [e]
      exact ⟨err, w2, rfl, exec_createReturn env _ w2 sched⟩
    | none =>
      right
      have hnd : noDelete w2.trace := by
        apply noDelete_of_calls _ _ (Steps.steps_calls _ _ _ hst)
        rw [hw1]
        intro id
        simp [callsOf, World.logCall]
      refine ⟨w2, rfl, hnd, ?_⟩
      have e : createStage x w1 =
          { world := w2
            tasks := [⟨slash x.saveDirectory "geojson".toList, TaskSt.spawned x.geoJSONFile⟩,
              ⟨slash x.saveDirectory "tile_3d".toList, TaskSt.spawned x.tile3DFile⟩,
              ⟨slash x.saveDirectory "ortho_photo".toList, TaskSt.spawned x.orthoPhotoFile⟩]
            closed := false
            main := CreateMain.ranging x } := by
        unfold createStage
        simp only [hs]
      rw [e]
      apply Conc.exec_invariant (createProg env) (CreInv env x w2)
        (fun c t h => CreInv.create_step env x w2 hnd c t h) sched
      refine ⟨?_, by simp, ⟨rfl, Steps.refl _⟩⟩
      intro t ht
      simp only [List.mem_cons, List.mem_singleton, List.not_mem_nil, or_false] at ht
      rcases ht with h | h | h <;> subst h <;> simp [CreateCtx.finalKeys]

/-! ### CreateProjectIteration: staging of a fresh iteration -/

/-- `os.Stat` reports `ErrNotExist` when nothing is at the path and no
ancestor of its parent is a regular file. -/
theorem Stat_notExist (p : Str) (w : World) (hk : w.fs (parse p) = none)
    (hanc : ∀ q, q.contains (parse p).parent = true → isFile (w.fs q) = false) :
    (os.Stat p w).1 = some os.ErrNotExist := by
  unfold os.Stat
  simp only
  have : ((parse p).parent.ancestors.any fun a => isFile (w.fs a)) = false := by
    rw [List.any_eq_false]
    intro a ha
    rw [CPath.mem_ancestors] at ha
    simp [hanc a ha]
  rw [this]
  simp [hk]

/-- When `os.Stat` reported `ErrNotExist` and staging of a create request
went through, the three final directories and their ancestors are
directories. -/
theorem createSaveLocations_dirs (a b c : Str) (w w2 : World)
    (hstat : (os.Stat a w).1 = some os.ErrNotExist)
    (h : createSaveLocations a b c w = (none, w2)) (q : CPath)
    (hq : q.contains (parse a) = true ∨ q.contains (parse b) = true ∨
      q.contains (parse c) = true) : w2.fs q = some Node.dir := by
  unfold createSaveLocations at h
  cases hst : os.Stat a w with
  | mk statErr w0 =>
    rw [hst] at h hstat
    simp only at h hstat
    rw [if_pos hstat] at h
    split at h
    · simp at h
    · rename_i w1 h1
      split at h
      · simp at h
      · rename_i w2a h2
        split at h
        · simp at h
        · rename_i w3 h3
          simp only [Prod.mk.injEq, true_and] at h
          rw [← h]
          have e1 : (os.MkdirAll a w0).2 = w1 := by rw [h1]
          have e2 : (os.MkdirAll b w1).2 = w2a := by rw [h2]
          have e3 : (os.MkdirAll c w2a).2 = w3 := by rw [h3]
          rcases hq with hq | hq | hq
          · have d1 := MkdirAll_dirs a w0 (by rw [h1]) q hq
            rw [e1] at d1
            have d2 := (MkdirAll_frame b w1 q).2 d1
            rw [e2] at d2
            have d3 := (MkdirAll_frame c w2a q).2 d2
            rw [e3] at d3
            exact d3
          · have d2 := MkdirAll_dirs b w1 (by rw [h2]) q hq
            rw [e2] at d2
            have d3 := (MkdirAll_frame c w2a q).2 d2
            rw [e3] at d3
            exact d3
          · have d3 := MkdirAll_dirs c w2a (by rw [h3]) q hq
            rw [e3] at d3
            exact d3

theorem finalKeys_eq (x : CreateCtx) (h : x.saveDirectory ≠ []) :
    x.finalKeys = finalNames.map (parse x.saveDirectory).child := by
  simp only [CreateCtx.finalKeys, finalNames, List.map_cons, List.map_nil]
  rw [parse_slash _ _ h (plain_of_mem_names _ (by simp [finalNames])),
    parse_slash _ _ h (plain_of_mem_names _ (by simp [finalNames])),
    parse_slash _ _ h (plain_of_mem_names _ (by simp [finalNames]))]

/-- A path in a temporary asset directory is neither in a final directory nor
an ancestor of one. -/
theorem temp_apart_final (x : CreateCtx) (h : x.saveDirectory ≠ []) (t : Str)
    (ht : t ∈ tempNames) (q : CPath)
    (hq : (parse (slash x.saveDirectory t)).contains q = true) :
    ∀ d ∈ x.finalKeys, d.contains q = false ∧ q.contains d = false := by
  rw [finalKeys_eq x h]
  rw [parse_slash _ _ h (plain_of_mem_names _ (by simp [ht]))] at hq
  intro d hd
  simp only [List.mem_map] at hd
  obtain ⟨k, hk, rfl⟩ := hd
  have hne := (final_ne_temp k t hk ht).symm
  constructor
  · cases hc : ((parse x.saveDirectory).child k).contains q with
    | false => rfl
    | true => exact absurd (CPath.child_disjoint _ t k q hne hq hc) id
  · cases hc : q.contains ((parse x.saveDirectory).child k) with
    | false => rfl
    | true => exact absurd (CPath.child_between _ t k q hne hq hc) id

/-- The commit block answers with the created iteration only after a
successful update call, and then it has made no file-system call. -/
theorem createCommit_created (env : Env) (x : CreateCtx) (w v : World) (d : IterationResponse)
    (h : createCommit env x w = (Response.Created d, v)) :
    v.fs = w.fs ∧ ∃ r, v.trace = w.trace ++ [Event.call (Call.UpdateIteration r)] := by
  unfold createCommit at h
  simp only [callUpdateProjectIteration, callDeleteProjectIteration] at h
  split at h
  · split at h <;> simp at h
  · rename_i u w1 hh
    simp only [Prod.mk.injEq] at hh h
    rw [← h.2, ← hh.2]
    exact ⟨rfl, _, rfl⟩

/-- The rollback response of the create flow is never the created iteration. -/
theorem createRollbackResponse_ne_created (a : Except RemoteErr Unit) (err : Str)
    (d : IterationResponse) : createRollbackResponse a err ≠ Response.Created d := by
  unfold createRollbackResponse
  split <;> simp

/-! ### The file-type filter -/

theorem notAllowedExtensions_snoc (files : List (Option FileHeader)) (f : Option FileHeader) :
    notAllowedExtensions (files ++ [f]) =
      match f with
      | some file =>
        if !(allowedExtensions.contains (filepath.Ext file.Filename)) &&
            !((notAllowedExtensions files).contains (filepath.Ext file.Filename)) then
          notAllowedExtensions files ++ [filepath.Ext file.Filename]
        else notAllowedExtensions files
      | none => notAllowedExtensions files := by
  simp only [notAllowedExtensions, List.foldl_append, List.foldl_cons, List.foldl_nil]
  cases f <;> rfl

/-- The extensions the filter collects are those of the files given that it
does not accept. -/
theorem mem_notAllowedExtensions (files : List (Option FileHeader)) (e : Str) :
    e ∈ notAllowedExtensions files ↔
      e ∉ allowedExtensions ∧ ∃ fh, some fh ∈ files ∧ filepath.Ext fh.Filename = e := by
  induction files using List.reverseRecOn with
  | nil => simp [notAllowedExtensions]
  | append_singleton files f ih =>
    rw [notAllowedExtensions_snoc]
    cases f with
    | none =>
      simp only [ih, List.mem_append, List.mem_singleton]
      constructor
      · rintro ⟨h1, fh, h2, h3⟩
        exact ⟨h1, fh, Or.inl h2, h3⟩
      · rintro ⟨h1, fh, h2 | h2, h3⟩
        · exact ⟨h1, fh, h2, h3⟩
        · cases h2
    | some file =>
      simp only
      by_cases ha : filepath.Ext file.Filename ∈ allowedExtensions
      · have : allowedExtensions.contains (filepath.Ext file.Filename) = true := by
          simpa using ha
        simp only [this, Bool.not_true, Bool.false_and, Bool.false_eq_true, if_false, ih,
          List.mem_append, List.mem_singleton, Option.some.injEq]
        constructor
        · rintro ⟨h1, fh, h2, h3⟩
          exact ⟨h1, fh, Or.inl h2, h3⟩
        · rintro ⟨h1, fh, h2 | h2, h3⟩
          · exact ⟨h1, fh, h2, h3⟩
          · subst h2; subst h3; exact absurd ha h1
      · have hc : allowedExtensions.contains (filepath.Ext file.Filename) = false := by
          simpa using ha
        by_cases hn : filepath.Ext file.Filename ∈ notAllowedExtensions files
        · have : (notAllowedExtensions files).contains (filepath.Ext file.Filename) = true := by
            simpa using hn
          simp only [this, Bool.not_true, Bool.and_false, Bool.false_eq_true, if_false, ih,
            List.mem_append, List.mem_singleton, Option.some.injEq]
          constructor
          · rintro ⟨h1, fh, h2, h3⟩
            exact ⟨h1, fh, Or.inl h2, h3⟩
          · rintro ⟨h1, fh, h2 | h2, h3⟩
            · exact ⟨h1, fh, h2, h3⟩
            · subst h2; subst h3
              exact (ih.mp hn)
        · have : (notAllowedExtensions files).contains (filepath.Ext file.Filename) = false := by
            simpa using hn
          simp only [hc, this, Bool.not_false, Bool.and_self, if_true, List.mem_append,
            List.mem_singleton, ih, Option.some.injEq]
          constructor
          · rintro (⟨h1, fh, h2, h3⟩ | h)
            · exact ⟨h1, fh, Or.inl h2, h3⟩
            · subst h
              exact ⟨ha, file, Or.inr rfl, rfl⟩
          · rintro ⟨h1, fh, h2 | h2, h3⟩
            · exact Or.inl ⟨h1, fh, h2, h3⟩
            · subst h2; exact Or.inr h3.symm

/-- The filter rejects the files as soon as one of them has an extension it
does not accept. -/
theorem allowFileTypeCheck_rejects (files : List (Option FileHeader)) (fh : FileHeader)
    (hmem : some fh ∈ files) (hext : filepath.Ext fh.Filename ∉ allowedExtensions) :
    allowFileTypeCheck files =
      some ("File extensions: ".toList ++ writeExtensions (notAllowedExtensions files) ++
        "not allowed.".toList) := by
  have hm : filepath.Ext fh.Filename ∈ notAllowedExtensions files :=
    (mem_notAllowedExtensions files _).mpr ⟨hext, fh, hmem, rfl⟩
  have hne : (notAllowedExtensions files).length ≠ 0 := by
    intro h0
    rw [List.length_eq_zero] at h0
    rw [h0] at hm
    cases hm
  unfold allowFileTypeCheck
  simp only
  rw [if_pos hne]

/-! ### The response when the rollback call fails -/

theorem mem_callsOf (t : List Event) (c : Call) : c ∈ callsOf t ↔ Event.call c ∈ t := by
  induction t with
  | nil => simp [callsOf]
  | cons e t ih =>
    cases e with
    | fs op =>
      have : callsOf (Event.fs op :: t) = callsOf t := rfl
      rw [this, ih]
      simp
    | call c2 =>
      have : callsOf (Event.call c2 :: t) = c2 :: callsOf t := rfl
      rw [this, List.mem_cons, ih]
      simp

/-- A list splits in one way only around its single element with a property. -/
theorem split_unique {α : Type} (P : α → Prop) (a b a2 b2 : List α) (x x2 : α)
    (h : a ++ x :: b = a2 ++ x2 :: b2) (ha : ∀ y ∈ a, ¬ P y) (hb : ∀ y ∈ b, ¬ P y)
    (hx2 : P x2) : a = a2 ∧ x = x2 ∧ b = b2 := by
  induction a generalizing a2 with
  | nil =>
    cases a2 with
    | nil =>
      simp only [List.nil_append, List.cons.injEq] at h
      exact ⟨rfl, h.1, h.2⟩
    | cons y a3 =>
      simp only [List.nil_append, List.cons_append, List.cons.injEq] at h
      have : x2 ∈ b := by rw [h.2]; simp
      exact absurd hx2 (hb x2 this)
  | cons y a ih =>
    cases a2 with
    | nil =>
      simp only [List.nil_append, List.cons_append, List.cons.injEq] at h
      exact absurd (h.1 ▸ hx2) (ha y (by simp))
    | cons y2 a3 =>
      simp only [List.cons_append, List.cons.injEq] at h
      obtain ⟨e1, e2, e3⟩ := ih a3 h.2 (fun z hz => ha z (by simp [hz]))
      exact ⟨by rw [h.1, e1], e2, e3⟩

theorem noDelete_iff (t : List Event) : noDelete t ↔ ∀ e ∈ t, ¬ isDelete e := by
  unfold noDelete isDelete
  constructor
  · rintro h e he ⟨id, rfl⟩
    exact h id ((mem_callsOf t _).mpr he)
  · intro h id hid
    exact h _ ((mem_callsOf t _).mp hid) ⟨id, rfl⟩

/-- The two ways `createCommit` ends: with the created iteration after the
update call alone, or, after a failed update call, with the removal of the
iteration directory and the delete call, whose error, if it fails, is the
response. -/
theorem createCommit_cases (env : Env) (x : CreateCtx) (w v : World) (r : Response)
    (h : createCommit env x w = (r, v)) :
    (∃ d, r = Response.Created d ∧ v = w.logCall (Call.UpdateIteration (createRequest x))) ∨
    (v.trace = w.trace ++ [Event.call (Call.UpdateIteration (createRequest x)),
        Event.fs (FsOp.RemoveAll x.saveDirectory),
        Event.call (Call.DeleteIteration x.projectIteration.ID)] ∧
      ∀ de, env.remote.DeleteIteration (callsOf w.trace ++ [Call.UpdateIteration (createRequest x)])
          x.projectIteration.ID = Except.error de →
        r = Response.InternalServerError de.msg (some de.code)) := by
  unfold createCommit at h
  simp only [callUpdateProjectIteration, callDeleteProjectIteration] at h
  split at h
  · rename_i e w1 hh
    simp only [Prod.mk.injEq] at hh
    obtain ⟨_, hh2⟩ := hh
    subst hh2
    right
    constructor
    · split at h <;>
        (rename_i hd
         simp only [Prod.mk.injEq] at h hd
         rw [← h.2, ← hd.2]
         simp [logCall_trace, RemoveAll_trace])
    · intro de hde
      have hc : callsOf (os.RemoveAll x.saveDirectory
          (w.logCall (Call.UpdateIteration (createRequest x)))).2.trace =
          callsOf w.trace ++ [Call.UpdateIteration (createRequest x)] := by
        rw [RemoveAll_trace, callsOf_append, callsOf_singleton_fs, logCall_trace,
          callsOf_append, callsOf_singleton_call, List.append_nil]
      rw [hc, hde] at h
      simp only [Prod.mk.injEq] at h
      exact h.1.symm
  · rename_i u w1 hh
    simp only [Prod.mk.injEq] at hh h
    left
    exact ⟨u, h.1.symm, by rw [← h.2, ← hh.2]⟩

/-- In the create flow, when the handler has returned and its trace holds a
delete-iteration call that the Project service answered with an error, the
response carries that error. -/
theorem create_delete_failed (env : Env) (req : Request) (fs0 : FS) (w1 : World)
    (x : CreateCtx) (sched : List Tid) (r : Response)
    (hv : createValidate env req ⟨fs0, []⟩ = (Except.ok x, w1))
    (hr : (CreateProjectIteration env req sched ⟨fs0, []⟩).main = CreateMain.returned r)
    (pre post : List Event) (id : UUID) (de : RemoteErr)
    (htr : (CreateProjectIteration env req sched ⟨fs0, []⟩).world.trace =
      pre ++ Event.call (Call.DeleteIteration id) :: post)
    (hde : env.remote.DeleteIteration (callsOf pre) id = Except.error de) :
    r = Response.InternalServerError de.msg (some de.code) := by
  obtain ⟨_, _, _, _, _, _, _, _, _, _, _, _, _, _, hw1⟩ := createValidate_ok env req _ w1 x hv
  have hnd1 : noDelete w1.trace := by
    rw [hw1]
    intro id
    simp [callsOf, World.logCall]
  have hst := createSaveLocations_steps x w1
  have hmem : Event.call (Call.DeleteIteration id) ∈
      (CreateProjectIteration env req sched ⟨fs0, []⟩).world.trace := by
    rw [htr]; simp
  rcases create_shape env req fs0 w1 x sched hv with ⟨err, w2, hs, _, hw⟩ | ⟨w2, hs, hnd, hinv⟩
  · rw [hs] at hst
    rw [hw] at hmem
    have := noDelete_of_calls _ _ (Steps.steps_calls _ _ _ hst) hnd1
    exact absurd ((mem_callsOf _ _).mpr hmem) (this id)
  · obtain ⟨_, _, hm⟩ := hinv
    rw [hr] at hm
    rcases hm with ⟨_, wpre, s, hc⟩ | ⟨wdel, err, post2, h1, _, h3, h4⟩
    · have hndp : noDelete wpre.trace :=
        noDelete_of_calls _ _ (Steps.steps_calls _ _ _ s) hnd
      rcases createCommit_cases env x wpre _ r hc with ⟨d, _, hv2⟩ | ⟨ht, hresp⟩
      · rw [hv2, logCall_trace] at hmem
        rcases List.mem_append.mp hmem with hm1 | hm1
        · exact absurd ((mem_callsOf _ _).mpr hm1) (hndp id)
        · simp at hm1
      · rw [htr] at ht
        have hpre : ∀ y ∈ wpre.trace ++ [Event.call (Call.UpdateIteration (createRequest x)),
            Event.fs (FsOp.RemoveAll x.saveDirectory)], ¬ isDelete y := by
          intro y hy
          rcases List.mem_append.mp hy with h | h
          · exact (noDelete_iff _).mp hndp y h
          · simp only [List.mem_cons, List.mem_singleton, List.not_mem_nil, or_false] at h
            rcases h with h | h <;> subst h <;> rintro ⟨i, hi⟩ <;> cases hi
        obtain ⟨e1, e2, _⟩ := split_unique isDelete
          (wpre.trace ++ [Event.call (Call.UpdateIteration (createRequest x)),
            Event.fs (FsOp.RemoveAll x.saveDirectory)]) [] pre post
          (Event.call (Call.DeleteIteration x.projectIteration.ID))
          (Event.call (Call.DeleteIteration id))
          (by rw [ht]; simp) hpre (by simp) ⟨id, rfl⟩
        simp only [Event.call.injEq, Call.DeleteIteration.injEq] at e2
        apply hresp
        rw [e2]
        have : callsOf pre =
            callsOf wpre.trace ++ [Call.UpdateIteration (createRequest x)] := by
          rw [← e1, callsOf_append]
          rfl
        rw [← this]
        exact hde
    · rw [htr] at h3
      obtain ⟨e1, e2, _⟩ := split_unique isDelete wdel.trace (List.map Event.fs post2) pre post
        (Event.call (Call.DeleteIteration x.projectIteration.ID))
        (Event.call (Call.DeleteIteration id))
        h3.symm ((noDelete_iff _).mp h1)
        (by
          intro y hy
          simp only [List.mem_map] at hy
          obtain ⟨op, _, rfl⟩ := hy
          rintro ⟨i, hi⟩
          cases hi)
        ⟨id, rfl⟩
      simp only [Event.call.injEq, Call.DeleteIteration.injEq] at e2
      rw [h4, e1, e2, hde]
      rfl

/-- In the update flow, when the handler does not answer with the success
response and the second update call fails, the response carries the error of
that second call. -/
theorem updateFinish_rollback_failed (env : Env) (x : UpdateCtx)
    (res : Except RemoteErr IterationResponse) (e : GoErr) (w : World) (re : RemoteErr)
    (hfail : ∀ d, (updateFinish env x res e w).1 ≠ Response.Created d)
    (hre : env.remote.UpdateIteration (callsOf w.trace)
      (Mapper x.projectIteration x.toBeUpdatedProjectIteration) = Except.error re) :
    (updateFinish env x res e w).1 = Response.InternalServerError re.msg (some re.code) := by
  have hc : callsOf (os.RemoveAll (slash x.saveDirectory "ortho_photo_temp".toList)
      (os.RemoveAll (slash x.saveDirectory "tile_3d_temp".toList)
        (os.RemoveAll (slash x.saveDirectory "geojson_temp".toList) w).2).2).2.trace =
      callsOf w.trace := by
    simp only [RemoveAll_trace, callsOf_append, callsOf_singleton_fs, List.append_nil]
  unfold updateFinish at hfail ⊢
  cases res with
  | error e0 =>
    simp only [callUpdateProjectIteration, hc, hre]
  | ok u =>
    cases e with
    | some err =>
      simp only [callUpdateProjectIteration, hc, hre]
    | none => exact absurd rfl (hfail u)

/-! ### A task left behind by the create handler -/

/-- Once the create handler has returned, a task that waits to send its error
waits under every further schedule: the handler stays returned, the task
stays at its send, and the channel is never closed. -/
theorem create_blocked_forever (env : Env) (c : Conc CreateMain) (r : Response) (i : Nat)
    (err : Str) (hmain : c.main = CreateMain.returned r)
    (hg : ∃ t, c.tasks[i]? = some t ∧ t.st = TaskSt.sending err) (hcl : c.closed = false)
    (sched : List Tid) :
    (Conc.exec (createProg env) sched c).main = CreateMain.returned r ∧
    (∃ t, (Conc.exec (createProg env) sched c).tasks[i]? = some t ∧
      t.st = TaskSt.sending err) ∧
    (Conc.exec (createProg env) sched c).closed = false := by
  apply Conc.exec_invariant (createProg env)
    (fun c => c.main = CreateMain.returned r ∧
      (∃ t, c.tasks[i]? = some t ∧ t.st = TaskSt.sending err) ∧ c.closed = false) ?_ sched c
    ⟨hmain, hg, hcl⟩
  intro c t ⟨h1, ⟨t2, h2, h3⟩, h4⟩
  cases t with
  | task j =>
    rcases Conc.step_task (createProg env) c j with e | ⟨t3, err3, m, _, _, _, hr, _⟩ | ⟨t3, hg3, e⟩
    · rw [e]; exact ⟨h1, ⟨t2, h2, h3⟩, h4⟩
    · rw [h1] at hr; simp [createProg] at hr
    · rw [e]
      refine ⟨h1, ?_, h4⟩
      by_cases hji : j = i
      · subst hji
        rw [h2] at hg3
        simp only [Option.some.injEq] at hg3
        subst hg3
        have hlt : j < c.tasks.length := by
          rw [List.getElem?_eq_some] at h2
          exact h2.1
        refine ⟨{ t2 with st := (saveAndUnzipFile t2.saveDirectory t2.st c.world).1 }, ?_, ?_⟩
        · simp [List.getElem?_set, hlt]
        · simp only [h3, saveAndUnzipFile]
      · refine ⟨t2, ?_, h3⟩
        simp only
        rw [List.getElem?_set_ne hji]
        exact h2
  | waiter =>
    rcases Conc.step_waiter (createProg env) c with e | ⟨hall, _⟩
    · rw [e]; exact ⟨h1, ⟨t2, h2, h3⟩, h4⟩
    · have := hall t2 (mem_of_get?_eq_some _ _ _ h2)
      rw [h3] at this
      simp [TaskSt.isDone] at this
  | main =>
    rcases Conc.step_main (createProg env) c with ⟨_, e⟩ | ⟨m, w2, hs, _⟩
    · rw [e]; exact ⟨h1, ⟨t2, h2, h3⟩, h4⟩
    · rw [h1] at hs; simp [createProg] at hs

/-! ### Every run can be continued until the handler returns -/

theorem TaskSt.fuel_eq_zero (st : TaskSt) (h : st.fuel = 0) :
    st = TaskSt.done ∨ ∃ err, st = TaskSt.sending err := by
  cases st with
  | spawned file =>
    cases file with
    | none => simp [TaskSt.fuel] at h
    | some file =>
      simp only [TaskSt.fuel] at h
      split at h
      · simp at h
      · split at h <;> simp at h
  | unzipping rest => simp [TaskSt.fuel] at h
  | sending err => exact Or.inr ⟨err, rfl⟩
  | done => exact Or.inl rfl

/-- A step of a task that is neither waiting nor returned brings it nearer to
that. -/
theorem saveAndUnzipFile_fuel (d : Str) (st : TaskSt) (w : World) (h : 0 < st.fuel) :
    (saveAndUnzipFile d st w).1.fuel < st.fuel := by
  cases st with
  | spawned file =>
    cases file with
    | none => simp [saveAndUnzipFile, TaskSt.fuel]
    | some file =>
      simp only [saveAndUnzipFile, TaskSt.fuel]
      cases file.OpenErr with
      | some e => simp [TaskSt.fuel]
      | none =>
        cases file.NewReader with
        | error e => simp [TaskSt.fuel]
        | ok files => simp [TaskSt.fuel]
  | unzipping rest =>
    cases rest with
    | nil => simp [saveAndUnzipFile, TaskSt.fuel]
    | cons f rest =>
      simp only [saveAndUnzipFile]
      cases hu : unzipFile f d w with
      | mk e w1 =>
        cases e with
        | some err => simp [TaskSt.fuel]
        | none => simp [TaskSt.fuel]
  | sending err => simp [TaskSt.fuel] at h
  | done => simp [TaskSt.fuel] at h

/-- A step of a task that is not waiting at its send is a step of
`saveAndUnzipFile`. -/
theorem Conc.step_task_local {M : Type} (P : MainProg M) (c : Conc M) (i : Nat) (t : Task)
    (hg : c.tasks[i]? = some t) (hns : ∀ err, t.st ≠ TaskSt.sending err) :
    Conc.step P c (Tid.task i) =
      { c with world := (saveAndUnzipFile t.saveDirectory t.st c.world).2,
               tasks := c.tasks.set i
                 { t with st := (saveAndUnzipFile t.saveDirectory t.st c.world).1 } } := by
  cases hst : t.st with
  | sending err => exact absurd hst (hns err)
  | spawned file => simp [Conc.step, hg, hst]
  | unzipping rest => simp [Conc.step, hg, hst]
  | done => simp [Conc.step, hg, hst]

/-- A send of a task on the open channel that the handler receives. -/
theorem Conc.step_task_send {M : Type} (P : MainProg M) (c : Conc M) (i : Nat) (t : Task)
    (err : Str) (m : M) (hg : c.tasks[i]? = some t) (hst : t.st = TaskSt.sending err)
    (hcl : c.closed = false) (hr : P.recv c.main err = some m) :
    Conc.step P c (Tid.task i) =
      { c with main := m, tasks := c.tasks.set i { t with st := TaskSt.done } } := by
  simp [Conc.step, hg, hst, hcl, hr]

/-- Every task can be run, by its own steps alone, until it waits at its send
or has returned; the handler, the channel and the other tasks stay as they
are. -/
theorem Conc.task_runs {M : Type} (P : MainProg M) (i : Nat) (n : Nat) :
    ∀ (c : Conc M) (t : Task), c.tasks[i]? = some t → t.st.fuel ≤ n →
      ∃ sched t2, (Conc.exec P sched c).main = c.main ∧
        (Conc.exec P sched c).closed = c.closed ∧
        (Conc.exec P sched c).tasks.length = c.tasks.length ∧
        (∀ j, j ≠ i → (Conc.exec P sched c).tasks[j]? = c.tasks[j]?) ∧
        (Conc.exec P sched c).tasks[i]? = some t2 ∧ t2.st.fuel = 0 := by
  induction n with
  | zero =>
    intro c t hg hf
    exact ⟨[], t, rfl, rfl, rfl, fun _ _ => rfl, hg, Nat.le_zero.mp hf⟩
  | succ n ih =>
    intro c t hg hf
    by_cases h0 : t.st.fuel = 0
    · exact ⟨[], t, rfl, rfl, rfl, fun _ _ => rfl, hg, h0⟩
    · have hpos : 0 < t.st.fuel := Nat.pos_of_ne_zero h0
      have hns : ∀ err, t.st ≠ TaskSt.sending err := by
        intro err he
        rw [he] at h0
        exact h0 rfl
      have hstep := Conc.step_task_local P c i t hg hns
      have hlt : i < c.tasks.length := by
        rw [List.getElem?_eq_some] at hg
        exact hg.1
      have hg1 : (Conc.step P c (Tid.task i)).tasks[i]? =
          some { t with st := (saveAndUnzipFile t.saveDirectory t.st c.world).1 } := by
        rw [hstep]
        simp [List.getElem?_set, hlt]
      have hf1 := saveAndUnzipFile_fuel t.saveDirectory t.st c.world hpos
      obtain ⟨sched, t2, a1, a2, a3, a4, a5, a6⟩ := ih (Conc.step P c (Tid.task i)) _ hg1
        (by simp only; omega)
      refine ⟨Tid.task i :: sched, t2, ?_, ?_, ?_, ?_, ?_, a6⟩
      · rw [Conc.exec_cons, a1, hstep]
      · rw [Conc.exec_cons, a2, hstep]
      · rw [Conc.exec_cons, a3, hstep]
        simp
      · intro j hj
        rw [Conc.exec_cons, a4 j hj, hstep]
        simp only
        rw [List.getElem?_set_ne (Ne.symm hj)]
      · rw [Conc.exec_cons]
        exact a5

/-- In the range loop of the update flow every task can be run until it has
returned: the handler receives its error, if it has one. -/
theorem update_task_done (env : Env) (i : Nat) (c : Conc UpdateMain) (t : Task)
    (x : UpdateCtx) (u : Except RemoteErr IterationResponse) (e : GoErr)
    (hm : c.main = UpdateMain.ranging x u e) (hcl : c.closed = false)
    (hg : c.tasks[i]? = some t) :
    ∃ sched e2 t2, (Conc.exec (updateProg env) sched c).main = UpdateMain.ranging x u e2 ∧
      (Conc.exec (updateProg env) sched c).closed = false ∧
      (Conc.exec (updateProg env) sched c).tasks.length = c.tasks.length ∧
      (∀ j, j ≠ i → (Conc.exec (updateProg env) sched c).tasks[j]? = c.tasks[j]?) ∧
      (Conc.exec (updateProg env) sched c).tasks[i]? = some t2 ∧ t2.st = TaskSt.done := by
  obtain ⟨sched, t2, a1, a2, a3, a4, a5, a6⟩ :=
    Conc.task_runs (updateProg env) i t.st.fuel c t hg (Nat.le_refl _)
  rcases TaskSt.fuel_eq_zero _ a6 with hd | ⟨err, hs⟩
  · exact ⟨sched, e, t2, by rw [a1, hm], by rw [a2, hcl], a3, a4, a5, hd⟩
  · have hr : (updateProg env).recv (Conc.exec (updateProg env) sched c).main err =
        some (UpdateMain.ranging x u (some err)) := by
      rw [a1, hm]
      rfl
    have hstep := Conc.step_task_send (updateProg env) _ i t2 err _ a5 hs
      (by rw [a2, hcl]) hr
    have hlt : i < (Conc.exec (updateProg env) sched c).tasks.length := by
      rw [List.getElem?_eq_some] at a5
      exact a5.1
    refine ⟨sched ++ [Tid.task i], some err, { t2 with st := TaskSt.done }, ?_, ?_, ?_, ?_,
      ?_, rfl⟩
    · rw [Conc.exec_append, Conc.exec_cons, Conc.exec_nil, hstep]
    · rw [Conc.exec_append, Conc.exec_cons, Conc.exec_nil, hstep]
      simp only
      rw [a2, hcl]
    · rw [Conc.exec_append, Conc.exec_cons, Conc.exec_nil, hstep]
      simp only [List.length_set]
      exact a3
    · intro j hj
      rw [Conc.exec_append, Conc.exec_cons, Conc.exec_nil, hstep]
      simp only
      rw [List.getElem?_set_ne (Ne.symm hj)]
      exact a4 j hj
    · rw [Conc.exec_append, Conc.exec_cons, Conc.exec_nil, hstep]
      simp [List.getElem?_set, hlt]

/-- In the range loop of the update flow the tasks can be run, one after the
other, until all of them have returned. -/
theorem update_tasks_done (env : Env) (x : UpdateCtx)
    (u : Except RemoteErr IterationResponse) (n : Nat) :
    ∀ (c : Conc UpdateMain) (e : GoErr), c.main = UpdateMain.ranging x u e →
      c.closed = false →
      ∃ sched e2, (Conc.exec (updateProg env) sched c).main = UpdateMain.ranging x u e2 ∧
        (Conc.exec (updateProg env) sched c).closed = false ∧
        (Conc.exec (updateProg env) sched c).tasks.length = c.tasks.length ∧
        ∀ i t, i < n → (Conc.exec (updateProg env) sched c).tasks[i]? = some t →
          t.st = TaskSt.done := by
  induction n with
  | zero =>
    intro c e hm hcl
    exact ⟨[], e, hm, hcl, rfl, fun i t hi => absurd hi (Nat.not_lt_zero i)⟩
  | succ n ih =>
    intro c e hm hcl
    obtain ⟨s1, e1, b1, b2, b3, b4⟩ := ih c e hm hcl
    cases hg : (Conc.exec (updateProg env) s1 c).tasks[n]? with
    | none =>
      refine ⟨s1, e1, b1, b2, b3, ?_⟩
      intro i t hi hgi
      rcases Nat.lt_succ_iff_lt_or_eq.mp hi with h | h
      · exact b4 i t h hgi
      · subst h
        rw [hg] at hgi
        cases hgi
    | some tn =>
      obtain ⟨s2, e2, t2, d1, d2, d3, d4, d5, d6⟩ :=
        update_task_done env n (Conc.exec (updateProg env) s1 c) tn x u e1 b1 b2 hg
      refine ⟨s1 ++ s2, e2, ?_, ?_, ?_, ?_⟩
      · rw [Conc.exec_append]; exact d1
      · rw [Conc.exec_append]; exact d2
      · rw [Conc.exec_append, d3, b3]
      · intro i t hi hgi
        rw [Conc.exec_append] at hgi
        rcases Nat.lt_succ_iff_lt_or_eq.mp hi with h | h
        · rw [d4 i (Nat.ne_of_lt h)] at hgi
          exact b4 i t h hgi
        · subst h
          rw [d5] at hgi
          simp only [Option.some.injEq] at hgi
          rw [← hgi]
          exact d6

/-- From every state of the update flow some schedule makes the handler
return. -/
theorem update_can_return (env : Env) (c : Conc UpdateMain) :
    ∃ sched, (Conc.exec (updateProg env) sched c).main.response ≠ none := by
  have ranging : ∀ (c : Conc UpdateMain) (x : UpdateCtx)
      (u : Except RemoteErr IterationResponse) (e : GoErr),
      c.main = UpdateMain.ranging x u e →
      ∃ sched, (Conc.exec (updateProg env) sched c).main.response ≠ none := by
    intro c x u e hm
    have last : ∀ (c : Conc UpdateMain) (e : GoErr), c.main = UpdateMain.ranging x u e →
        c.closed = true → (Conc.exec (updateProg env) [Tid.main] c).main.response ≠ none := by
      intro c e hm hcl
      simp [Conc.exec, Conc.step, updateProg, hm, hcl, UpdateMain.response]
    cases hcl : c.closed with
    | true => exact ⟨[Tid.main], last c e hm hcl⟩
    | false =>
      obtain ⟨s1, e1, b1, b2, b3, b4⟩ := update_tasks_done env x u c.tasks.length c e hm hcl
      have hall : ((Conc.exec (updateProg env) s1 c).tasks.all fun t => t.st.isDone) = true := by
        rw [List.all_eq_true]
        intro t ht
        obtain ⟨i, hi, hti⟩ := List.getElem_of_mem ht
        have hgi : (Conc.exec (updateProg env) s1 c).tasks[i]? = some t := by
          rw [List.getElem?_eq_some]
          exact ⟨hi, hti⟩
        rw [b4 i t (by rw [← b3]; exact hi) hgi]
        rfl
      have hw : Conc.step (updateProg env) (Conc.exec (updateProg env) s1 c) Tid.waiter =
          { Conc.exec (updateProg env) s1 c with closed := true } := by
        simp [Conc.step, b2, hall]
      refine ⟨s1 ++ [Tid.waiter] ++ [Tid.main], ?_⟩
      rw [Conc.exec_append, Conc.exec_append]
      apply last _ e1
      · rw [Conc.exec_cons, Conc.exec_nil, hw]
        exact b1
      · rw [Conc.exec_cons, Conc.exec_nil, hw]
  cases hm : c.main with
  | returned r =>
    refine ⟨[], ?_⟩
    rw [Conc.exec_nil, hm]
    simp [UpdateMain.response]
  | ranging x u e => exact ranging c x u e hm
  | updating x =>
    have hs : Conc.step (updateProg env) c Tid.main =
        { c with
          main := UpdateMain.ranging x
            (callUpdateProjectIteration env x.toBeUpdatedProjectIteration c.world).1 none,
          world := (callUpdateProjectIteration env x.toBeUpdatedProjectIteration c.world).2 } := by
      simp [Conc.step, updateProg, hm]
    obtain ⟨sched, h⟩ := ranging (Conc.step (updateProg env) c Tid.main) x _ none
      (by rw [hs])
    exact ⟨Tid.main :: sched, by rw [Conc.exec_cons]; exact h⟩

/-- Every run of the update handler can be continued until the handler
returns. -/
theorem update_handler_returns (env : Env) (req : Request) (w : World) (sched : List Tid) :
    ∃ more, (UpdateProjectIteration env req (sched ++ more) w).main.response ≠ none := by
  obtain ⟨more, h⟩ := update_can_return env
    (Conc.exec (updateProg env) sched (updateInit env req w))
  exact ⟨more, by unfold UpdateProjectIteration; rw [Conc.exec_append]; exact h⟩

/-- The loop body of the create flow after the removal: the delete call and
the response. -/
theorem create_removed_returns (env : Env) (c : Conc CreateMain) (x : CreateCtx) (err : Str)
    (hm : c.main = CreateMain.removed x err) :
    (Conc.step (createProg env) c Tid.main).main.response ≠ none := by
  cases ha : env.remote.DeleteIteration (callsOf c.world.trace) x.projectIteration.ID <;>
    simp [Conc.step, createProg, hm, callDeleteProjectIteration, ha, CreateMain.response]

/-- The loop body of the create flow: the removal, the delete call and the
response. -/
theorem create_gotErr_returns (env : Env) (c : Conc CreateMain) (x : CreateCtx) (err : Str)
    (hm : c.main = CreateMain.gotErr x err) :
    (Conc.exec (createProg env) [Tid.main, Tid.main] c).main.response ≠ none := by
  have h1 : (Conc.step (createProg env) c Tid.main).main = CreateMain.removed x err := by
    simp [Conc.step, createProg, hm]
  exact create_removed_returns env _ x err h1

/-- In the range loop of the create flow, with the first `j` tasks returned,
some schedule makes the handler return: the tasks are run one after the other
until one of them sends an error, which the handler receives, or all have
returned and the channel is closed. -/
theorem create_ranging_returns (env : Env) (x : CreateCtx) (d : Nat) :
    ∀ (c : Conc CreateMain) (j : Nat), c.main = CreateMain.ranging x → c.closed = false →
      c.tasks.length - j ≤ d →
      (∀ i t, i < j → c.tasks[i]? = some t → t.st = TaskSt.done) →
      ∃ sched, (Conc.exec (createProg env) sched c).main.response ≠ none := by
  induction d with
  | zero =>
    intro c j hm hcl hd hdone
    have hall : (c.tasks.all fun t => t.st.isDone) = true := by
      rw [List.all_eq_true]
      intro t ht
      obtain ⟨i, hi, hti⟩ := List.getElem_of_mem ht
      have hgi : c.tasks[i]? = some t := by
        rw [List.getElem?_eq_some]
        exact ⟨hi, hti⟩
      rw [hdone i t (by omega) hgi]
      rfl
    refine ⟨[Tid.waiter, Tid.main], ?_⟩
    simp [Conc.exec, Conc.step, createProg, hm, hcl, hall, CreateMain.response]
  | succ d ih =>
    intro c j hm hcl hd hdone
    cases hg : c.tasks[j]? with
    | none =>
      have hlen : c.tasks.length ≤ j := by
        rw [List.getElem?_eq_none_iff] at hg
        exact hg
      exact ih c j hm hcl (by omega) hdone
    | some tj =>
      obtain ⟨s1, t2, a1, a2, a3, a4, a5, a6⟩ :=
        Conc.task_runs (createProg env) j tj.st.fuel c tj hg (Nat.le_refl _)
      have hlt : j < c.tasks.length := by
        rw [List.getElem?_eq_some] at hg
        exact hg.1
      rcases TaskSt.fuel_eq_zero _ a6 with hdn | ⟨err, hs⟩
      · obtain ⟨s2, h2⟩ := ih (Conc.exec (createProg env) s1 c) (j + 1)
          (by rw [a1, hm]) (by rw [a2, hcl]) (by rw [a3]; omega)
          (by
            intro i t hi hgi
            rcases Nat.lt_succ_iff_lt_or_eq.mp hi with h | h
            · rw [a4 i (Nat.ne_of_lt h)] at hgi
              exact hdone i t h hgi
            · subst h
              rw [a5] at hgi
              simp only [Option.some.injEq] at hgi
              rw [← hgi]
              exact hdn)
        exact ⟨s1 ++ s2, by rw [Conc.exec_append]; exact h2⟩
      · have hr : (createProg env).recv (Conc.exec (createProg env) s1 c).main err =
            some (CreateMain.gotErr x err) := by
          rw [a1, hm]
          rfl
        have hstep := Conc.step_task_send (createProg env) _ j t2 err _ a5 hs
          (by rw [a2, hcl]) hr
        refine ⟨s1 ++ [Tid.task j, Tid.main, Tid.main], ?_⟩
        rw [Conc.exec_append, Conc.exec_cons]
        exact create_gotErr_returns env _ x err (by rw [hstep])

/-- From every state of the create flow some schedule makes the handler
return. -/
theorem create_can_return (env : Env) (c : Conc CreateMain) :
    ∃ sched, (Conc.exec (createProg env) sched c).main.response ≠ none := by
  cases hm : c.main with
  | returned r =>
    refine ⟨[], ?_⟩
    rw [Conc.exec_nil, hm]
    simp [CreateMain.response]
  | removed x err => exact ⟨[Tid.main], create_removed_returns env c x err hm⟩
  | gotErr x err => exact ⟨[Tid.main, Tid.main], create_gotErr_returns env c x err hm⟩
  | ranging x =>
    cases hcl : c.closed with
    | true =>
      refine ⟨[Tid.main], ?_⟩
      simp [Conc.exec, Conc.step, createProg, hm, hcl, CreateMain.response]
    | false =>
      exact create_ranging_returns env x c.tasks.length c 0 hm hcl (by omega)
        (fun i t hi => absurd hi (Nat.not_lt_zero i))

/-- Every run of the create handler can be continued until the handler
returns. -/
theorem create_handler_returns (env : Env) (req : Request) (w : World) (sched : List Tid) :
    ∃ more, (CreateProjectIteration env req (sched ++ more) w).main.response ≠ none := by
  obtain ⟨more, h⟩ := create_can_return env
    (Conc.exec (createProg env) sched (createInit env req w))
  exact ⟨more, by unfold CreateProjectIteration; rw [Conc.exec_append]; exact h⟩

/-! ### A failure is never answered with the success response -/

theorem UpdateOk.ok_step (env : Env) (c : Conc UpdateMain) (t : Tid) (h : UpdateOk c) :
    UpdateOk (Conc.step (updateProg env) c t) := by
  obtain ⟨h1, h2⟩ := h
  cases t with
  | task i =>
    rcases Conc.step_task (updateProg env) c i with e | ⟨t, err, m, _, _, hcl, hr, e⟩ | ⟨t, hg, e⟩
    · rw [e]; exact ⟨h1, h2⟩
    · rw [e]
      refine ⟨?_, ?_⟩
      · intro hc
        rw [hcl] at hc
        exact absurd hc (by simp)
      · intro hresp
        simp only at hresp
        cases hm : c.main with
        | updating y => rw [hm] at hr; simp [updateProg] at hr
        | returned r => rw [hm] at hr; simp [updateProg] at hr
        | ranging y u s =>
          rw [hm] at hr
          simp only [updateProg, Option.some.injEq] at hr
          rw [← hr] at hresp
          simp [UpdateMain.response] at hresp
    · rw [e]
      refine ⟨?_, ?_⟩
      · intro hc t2 h2
        have ht := mem_of_get?_eq_some _ _ _ hg
        rcases mem_set_cases _ _ _ _ h2 with h3 | h3
        · rw [h3]
          have := TaskSt.eq_done_of_isDone _ (h1 hc t ht)
          simp only [this, saveAndUnzipFile_done, TaskSt.isDone]
        · exact h1 hc t2 h3
      · intro hresp
        rcases h2 hresp with h | h
        · exact Or.inl h
        · rw [h] at hg
          simp at hg
  | waiter =>
    rcases Conc.step_waiter (updateProg env) c with e | ⟨hall, e⟩
    · rw [e]; exact ⟨h1, h2⟩
    · rw [e]; exact ⟨fun _ => hall, fun _ => Or.inl rfl⟩
  | main =>
    rcases Conc.step_main (updateProg env) c with ⟨_, e⟩ | ⟨m, w, hs, e⟩
    · rw [e]; exact ⟨h1, h2⟩
    · rw [e]
      refine ⟨h1, ?_⟩
      intro hresp
      simp only at hresp ⊢
      cases hm : c.main with
      | updating y =>
        rw [hm] at hs
        simp only [updateProg, Option.some.injEq, Prod.mk.injEq] at hs
        rw [← hs.1] at hresp
        simp [UpdateMain.response] at hresp
      | ranging y u s =>
        rw [hm] at hs
        simp only [updateProg] at hs
        cases hcl : c.closed with
        | false => rw [hcl] at hs; simp at hs
        | true => exact Or.inl rfl
      | returned r =>
        rw [hm] at hs
        simp [updateProg] at hs

theorem UpdateOk.ok_init (env : Env) (req : Request) (w : World) :
    UpdateOk (updateInit env req w) := by
  unfold updateInit
  split
  · exact ⟨fun h => absurd h (by simp [updateReturn]), fun _ => Or.inr rfl⟩
  · unfold updateStage
    simp only
    split
    · exact ⟨fun h => absurd h (by simp [updateReturn]), fun _ => Or.inr rfl⟩
    · exact ⟨fun h => absurd h (by simp), fun h => absurd rfl h⟩

theorem UpdateFailed.failed_step (env : Env) (c : Conc UpdateMain) (t : Tid)
    (h : UpdateFailed c) : UpdateFailed (Conc.step (updateProg env) c t) := by
  unfold UpdateFailed at h ⊢
  cases t with
  | task j =>
    rcases Conc.step_task (updateProg env) c j with e | ⟨t3, err3, m, _, _, _, hr, e⟩ | ⟨t3, hg3, e⟩
    · rw [e]; exact h
    · rw [e]
      right; left
      cases hm : c.main with
      | updating y => rw [hm] at hr; simp [updateProg] at hr
      | returned r => rw [hm] at hr; simp [updateProg] at hr
      | ranging y u s =>
        rw [hm] at hr
        simp only [updateProg, Option.some.injEq] at hr
        exact ⟨y, u, err3, hr.symm⟩
    · rw [e]
      rcases h with ⟨⟨i, t, err, hg, hs⟩, hcl, hresp⟩ | h | h
      · left
        refine ⟨?_, hcl, hresp⟩
        by_cases hji : j = i
        · subst hji
          rw [hg] at hg3
          simp only [Option.some.injEq] at hg3
          subst hg3
          have hlt : j < c.tasks.length := by
            rw [List.getElem?_eq_some] at hg
            exact hg.1
          refine ⟨j, { t with st := (saveAndUnzipFile t.saveDirectory t.st c.world).1 },
            err, ?_, ?_⟩
          · simp [List.getElem?_set, hlt]
          · simp only [hs, saveAndUnzipFile]
        · refine ⟨i, t, err, ?_, hs⟩
          simp only
          rw [List.getElem?_set_ne hji]
          exact hg
      · exact Or.inr (Or.inl h)
      · exact Or.inr (Or.inr h)
  | waiter =>
    rcases Conc.step_waiter (updateProg env) c with e | ⟨hall, e⟩
    · rw [e]; exact h
    · rw [e]
      rcases h with ⟨⟨i, t, err, hg, hs⟩, _, _⟩ | h | h
      · have := hall t (mem_of_get?_eq_some _ _ _ hg)
        rw [hs] at this
        simp [TaskSt.isDone] at this
      · exact Or.inr (Or.inl h)
      · exact Or.inr (Or.inr h)
  | main =>
    rcases Conc.step_main (updateProg env) c with ⟨_, e⟩ | ⟨m, w, hs, e⟩
    · rw [e]; exact h
    · rw [e]
      rcases h with ⟨hex, hcl, hresp⟩ | ⟨x, u, err, hm⟩ | ⟨r, hm, _⟩
      · left
        refine ⟨hex, hcl, ?_⟩
        simp only
        cases hm : c.main with
        | updating y =>
          rw [hm] at hs
          simp only [updateProg, Option.some.injEq, Prod.mk.injEq] at hs
          rw [← hs.1]
          rfl
        | ranging y u s =>
          rw [hm, hcl] at hs
          simp [updateProg] at hs
        | returned r =>
          rw [hm] at hs
          simp [updateProg] at hs
      · right; right
        rw [hm] at hs
        simp only [updateProg] at hs
        cases hcl : c.closed with
        | false => rw [hcl] at hs; simp at hs
        | true =>
          rw [hcl] at hs
          simp only [if_true, Option.some.injEq, Prod.mk.injEq] at hs
          refine ⟨_, hs.1.symm, ?_⟩
          intro d hd
          have := (updateFinish_created env x u (some err) c.world d).mp hd
          simp at this
      · rw [hm] at hs
        simp [updateProg] at hs

/-- Once a task of an update request waits to send an error, the handler
never answers with the success response. -/
theorem update_task_error_not_success (env : Env) (req : Request) (w : World)
    (p q : List Tid) (i : Nat) (t : Task) (err : Str)
    (hg : (UpdateProjectIteration env req p w).tasks[i]? = some t)
    (hs : t.st = TaskSt.sending err) (d : IterationResponse) :
    (UpdateProjectIteration env req (p ++ q) w).main.response ≠
      some (Response.Created d) := by
  obtain ⟨o1, o2⟩ := Conc.exec_invariant (updateProg env) UpdateOk
    (fun c t h => UpdateOk.ok_step env c t h) p (updateInit env req w)
    (UpdateOk.ok_init env req w)
  have hmem := mem_of_get?_eq_some _ _ _ hg
  have hcl : (UpdateProjectIteration env req p w).closed = false := by
    cases hc : (UpdateProjectIteration env req p w).closed with
    | false => rfl
    | true =>
      have := o1 hc t hmem
      rw [hs] at this
      simp [TaskSt.isDone] at this
  have hresp : (UpdateProjectIteration env req p w).main.response = none := by
    cases hr : (UpdateProjectIteration env req p w).main.response with
    | none => rfl
    | some r =>
      rcases o2 (by unfold UpdateProjectIteration at hr; rw [hr]; simp) with h | h
      · unfold UpdateProjectIteration at hcl
        rw [hcl] at h
        exact absurd h (by simp)
      · unfold UpdateProjectIteration at hmem
        rw [h] at hmem
        simp at hmem
  have h := Conc.exec_invariant (updateProg env) UpdateFailed
    (fun c t h => UpdateFailed.failed_step env c t h) q
    (UpdateProjectIteration env req p w) (Or.inl ⟨⟨i, t, err, hg, hs⟩, hcl, hresp⟩)
  unfold UpdateProjectIteration at h ⊢
  rw [Conc.exec_append]
  rcases h with ⟨_, _, hn⟩ | ⟨x, u, err2, hm⟩ | ⟨r, hm, hr⟩
  · rw [hn]; simp
  · rw [hm]; simp [UpdateMain.response]
  · rw [hm]
    simp only [UpdateMain.response, ne_eq, Option.some.injEq]
    exact hr d

/-- When the Project service answers the update call of an update request
with an error, the handler never answers with the success response. -/
theorem update_call_error_not_success (env : Env) (req : Request) (w w1 : World)
    (x : UpdateCtx) (sched : List Tid) (e : RemoteErr)
    (hv : updateValidate env req w = (Except.ok x, w1))
    (he : env.remote.UpdateIteration (callsOf w1.trace) x.toBeUpdatedProjectIteration =
      Except.error e) (d : IterationResponse) :
    (UpdateProjectIteration env req sched w).main.response ≠ some (Response.Created d) := by
  have hst := updateSaveLocations_steps x w1
  rcases update_shape env req w w1 x sched hv with ⟨err, w2, _, hm, _⟩ | ⟨w2, hs, hinv⟩
  · rw [hm]; simp [UpdateMain.response]
  · rw [hs] at hst
    obtain ⟨_, _, hm⟩ := hinv
    cases hmain : (UpdateProjectIteration env req sched w).main with
    | updating y => simp [UpdateMain.response]
    | ranging y res s => simp [UpdateMain.response]
    | returned r =>
      rw [hmain] at hm
      obtain ⟨_, wcall, wpre, s, s1, _, hf⟩ := hm
      rw [Steps.steps_calls _ _ _ s1, Steps.steps_calls _ _ _ hst, he] at hf
      simp only [UpdateMain.response, ne_eq, Option.some.injEq]
      intro hd
      have := (updateFinish_created env x (Except.error e) s wpre d).mp
        (by rw [hf]; exact hd)
      simp at this

/-! ### The file-type filter: what it collects and what it says -/

theorem mem_distinctInOrder (l : List Str) (e : Str) : e ∈ distinctInOrder l ↔ e ∈ l := by
  induction l with
  | nil => simp [distinctInOrder]
  | cons x xs ih =>
    simp only [distinctInOrder, List.mem_cons, List.mem_filter, ih, decide_eq_true_eq]
    constructor
    · rintro (h | ⟨h, _⟩)
      · exact Or.inl h
      · exact Or.inr h
    · intro h
      by_cases hx : e = x
      · exact Or.inl hx
      · rcases h with h | h
        · exact absurd h hx
        · exact Or.inr ⟨h, hx⟩

theorem distinctInOrder_nodup (l : List Str) : (distinctInOrder l).Nodup := by
  induction l with
  | nil => simp [distinctInOrder]
  | cons x xs ih =>
    simp only [distinctInOrder, List.nodup_cons, List.mem_filter, decide_eq_true_eq]
    exact ⟨fun h => h.2 rfl, ih.filter _⟩

theorem distinctInOrder_snoc (l : List Str) (e : Str) :
    distinctInOrder (l ++ [e]) =
      if e ∈ l then distinctInOrder l else distinctInOrder l ++ [e] := by
  induction l with
  | nil => simp [distinctInOrder]
  | cons x xs ih =>
    rw [List.cons_append]
    simp only [distinctInOrder]
    rw [ih]
    by_cases hx : e = x
    · subst hx
      by_cases hm : e ∈ xs
      · simp [hm]
      · simp [hm, List.filter_append]
    · by_cases hm : e ∈ xs
      · simp [hm]
      · simp [hm, hx, List.filter_append]

theorem disallowedExtensions_snoc (files : List (Option FileHeader)) (f : Option FileHeader) :
    disallowedExtensions (files ++ [f]) =
      match f with
      | some file =>
        if allowedExtensions.contains (filepath.Ext file.Filename) then
          disallowedExtensions files
        else disallowedExtensions files ++ [filepath.Ext file.Filename]
      | none => disallowedExtensions files := by
  cases f with
  | none => simp [disallowedExtensions]
  | some file =>
    simp only [disallowedExtensions, List.filterMap_append, List.map_append, List.filter_append,
      List.filterMap_cons, List.filterMap_nil, id, List.map_cons, List.map_nil]
    by_cases h : filepath.Ext file.Filename ∈ allowedExtensions
    · simp [List.filter_cons, h]
    · simp [List.filter_cons, h]

/-- The extensions the loop of `allowFileTypeCheck` collects are the distinct
disallowed extensions in order of first occurrence. -/
theorem notAllowedExtensions_eq (files : List (Option FileHeader)) :
    notAllowedExtensions files = distinctInOrder (disallowedExtensions files) := by
  induction files using List.reverseRecOn with
  | nil => simp [notAllowedExtensions, disallowedExtensions, distinctInOrder]
  | append_singleton files f ih =>
    rw [notAllowedExtensions_snoc, disallowedExtensions_snoc]
    cases f with
    | none => exact ih
    | some file =>
      simp only
      by_cases ha : filepath.Ext file.Filename ∈ allowedExtensions
      · simp [ha, ih]
      · rw [ih]
        by_cases hm : filepath.Ext file.Filename ∈ disallowedExtensions files
        · have hm2 := (mem_distinctInOrder _ _).mpr hm
          simp [ha, hm, hm2, distinctInOrder_snoc]
        · have hm2 : filepath.Ext file.Filename ∉ distinctInOrder (disallowedExtensions files) :=
            fun h => hm ((mem_distinctInOrder _ _).mp h)
          simp [ha, hm, hm2, distinctInOrder_snoc]

/-- The buffer loop of `allowFileTypeCheck` writes the extensions separated by
a comma and a blank, and a blank after the last. -/
theorem writeExtensions_eq (l : List Str) (h : l ≠ []) :
    writeExtensions l = List.intercalate ", ".toList l ++ " ".toList := by
  induction l with
  | nil => exact absurd rfl h
  | cons x xs ih =>
    cases xs with
    | nil => simp [writeExtensions, List.intercalate]
    | cons y ys =>
      have := ih (by simp)
      simp only [writeExtensions, this]
      simp [List.intercalate, List.intersperse]

theorem allowFileTypeCheck_none_iff (files : List (Option FileHeader)) :
    allowFileTypeCheck files = none ↔
      ∀ fh, some fh ∈ files → filepath.Ext fh.Filename ∈ allowedExtensions := by
  unfold allowFileTypeCheck
  simp only
  constructor
  · intro h fh hfh
    by_contra hne
    have hm := (mem_notAllowedExtensions files _).mpr ⟨hne, fh, hfh, rfl⟩
    split at h
    · cases h
    · rename_i hl
      simp only [ne_eq, Decidable.not_not, List.length_eq_zero] at hl
      rw [hl] at hm
      cases hm
  · intro h
    have hnil : notAllowedExtensions files = [] := by
      rw [List.eq_nil_iff_forall_not_mem]
      intro e he
      obtain ⟨h1, fh, h2, h3⟩ := (mem_notAllowedExtensions files e).mp he
      exact h1 (h3 ▸ h fh h2)
    simp [hnil]

/-! ### The asset slots of the update requests -/

theorem createRequest_paired (x : CreateCtx) : (createRequest x).slotsPaired := by
  unfold createRequest UpdateIterationRequest.slotsPaired
  cases x.geoJSONFile <;> cases x.tile3DFile <;> cases x.orthoPhotoFile <;> simp

theorem Mapper_paired (src : IterationResponse) (dst : UpdateIterationRequest)
    (h : src.slotsPaired) : (Mapper src dst).slotsPaired := by
  unfold Mapper UpdateIterationRequest.slotsPaired
  exact h

theorem updateRequest_paired (projectIteration : IterationResponse) (companyID : Str)
    (isRemoveGeoJSON isRemoveTile3D isRemoveOrthoPhoto : Str)
    (geoJSONFile tile3DFile orthoPhotoFile : Option FileHeader) (revision : List Str)
    (h : projectIteration.slotsPaired) :
    (updateRequest projectIteration companyID isRemoveGeoJSON isRemoveTile3D
      isRemoveOrthoPhoto geoJSONFile tile3DFile orthoPhotoFile revision).slotsPaired := by
  obtain ⟨h1, h2, h3⟩ := h
  unfold updateRequest UpdateIterationRequest.slotsPaired Mapper
  generalize "true".toList = T
  by_cases a : isRemoveGeoJSON = T <;>
  by_cases b : isRemoveTile3D = T <;>
  by_cases c : isRemoveOrthoPhoto = T <;>
  cases geoJSONFile <;> cases tile3DFile <;> cases orthoPhotoFile <;>
  cases revision <;> simp [a, b, c, h1, h2, h3]

theorem updateCallsPaired_of_calls (t u : List Event) (h : callsOf u = callsOf t)
    (ht : updateCallsPaired t) : updateCallsPaired u := by
  intro r hr
  rw [h] at hr
  exact ht r hr

theorem updateCallsPaired_append (t u : List Event) (ht : updateCallsPaired t)
    (hu : updateCallsPaired u) : updateCallsPaired (t ++ u) := by
  intro r hr
  rw [callsOf_append, List.mem_append] at hr
  rcases hr with h | h
  · exact ht r h
  · exact hu r h

theorem updateCallsPaired_logCall (w : World) (c : Call) (hw : updateCallsPaired w.trace)
    (hc : ∀ r, c = Call.UpdateIteration r → r.slotsPaired) :
    updateCallsPaired (w.logCall c).trace := by
  rw [logCall_trace]
  apply updateCallsPaired_append _ _ hw
  intro r hr
  rw [callsOf_singleton_call, List.mem_singleton] at hr
  exact hc r hr.symm

theorem updateCallsPaired_removeAll (p : Str) (w : World) (hw : updateCallsPaired w.trace) :
    updateCallsPaired (os.RemoveAll p w).2.trace := by
  apply updateCallsPaired_of_calls _ _ _ hw
  rw [RemoveAll_trace, callsOf_append, callsOf_singleton_fs, List.append_nil]

/-- The commit block of the create flow keeps the slot invariant of the
update calls. -/
theorem createCommit_paired (env : Env) (x : CreateCtx) (w : World)
    (hw : updateCallsPaired w.trace) : updateCallsPaired (createCommit env x w).2.trace := by
  have h1 : updateCallsPaired (w.logCall (Call.UpdateIteration (createRequest x))).trace :=
    updateCallsPaired_logCall w _ hw (fun r hr => by
      simp only [Call.UpdateIteration.injEq] at hr
      rw [← hr]
      exact createRequest_paired x)
  unfold createCommit
  simp only [callUpdateProjectIteration, callDeleteProjectIteration]
  split
  · rename_i e w1 hh
    simp only [Prod.mk.injEq] at hh
    rw [← hh.2]
    have h2 := updateCallsPaired_logCall _ (Call.DeleteIteration x.projectIteration.ID)
      (updateCallsPaired_removeAll x.saveDirectory _ h1) (fun r hr => by cases hr)
    split <;> (rename_i hd; simp only [Prod.mk.injEq] at hd; rw [← hd.2]; exact h2)
  · rename_i u w1 hh
    simp only [Prod.mk.injEq] at hh
    rw [← hh.2]
    exact h1

/-- Every step of the create flow keeps the slot invariant of the update
calls. -/
theorem create_step_paired (env : Env) (c : Conc CreateMain) (t : Tid)
    (h : updateCallsPaired c.world.trace) :
    updateCallsPaired (Conc.step (createProg env) c t).world.trace := by
  cases t with
  | task i =>
    rcases Conc.step_task (createProg env) c i with e | ⟨t, err, m, _, _, _, _, e⟩ | ⟨t, hg, e⟩
    · rw [e]; exact h
    · rw [e]; exact h
    · rw [e]
      exact updateCallsPaired_of_calls _ _
        (Confined.calls _ _ _ (saveAndUnzipFile_confined t.saveDirectory t.st c.world)) h
  | waiter =>
    rcases Conc.step_waiter (createProg env) c with e | ⟨_, e⟩
    · rw [e]; exact h
    · rw [e]; exact h
  | main =>
    rcases Conc.step_main (createProg env) c with ⟨_, e⟩ | ⟨m, w, hs, e⟩
    · rw [e]; exact h
    · rw [e]
      simp only
      cases hm : c.main with
      | ranging y =>
        rw [hm] at hs
        simp only [createProg] at hs
        cases hcl : c.closed with
        | false => rw [hcl] at hs; simp at hs
        | true =>
          rw [hcl] at hs
          simp only [if_true, Option.some.injEq, Prod.mk.injEq] at hs
          rw [← hs.2]
          exact createCommit_paired env y c.world h
      | gotErr y e0 =>
        rw [hm] at hs
        simp only [createProg, Option.some.injEq, Prod.mk.injEq] at hs
        rw [← hs.2]
        exact updateCallsPaired_removeAll _ _ h
      | removed y e0 =>
        rw [hm] at hs
        simp only [createProg, callDeleteProjectIteration] at hs
        have h2 := updateCallsPaired_logCall c.world
          (Call.DeleteIteration y.projectIteration.ID) h (fun r hr => by cases hr)
        split at hs <;>
          (rename_i hd
           simp only [Prod.mk.injEq] at hd
           simp only [Option.some.injEq, Prod.mk.injEq] at hs
           rw [← hs.2, ← hd.2]
           exact h2)
      | returned r =>
        rw [hm] at hs
        simp [createProg] at hs

/-- Validation of a create request makes no update call. -/
theorem createValidate_paired (env : Env) (req : Request) (w : World)
    (hw : updateCallsPaired w.trace) : updateCallsPaired (createValidate env req w).2.trace := by
  unfold createValidate
  split
  · exact hw
  · split
    · exact hw
    · split
      · exact hw
      · split
        · exact hw
        · rename_i projectID _
          have h1 := updateCallsPaired_logCall w (Call.GetCompanyID projectID) hw
            (fun r hr => by cases hr)
          split
          · rename_i e w1 hh
            simp only [callGetCompanyIDFromProjectID, Prod.mk.injEq] at hh
            rw [← hh.2]
            exact h1
          · rename_i cid w1 hh
            simp only [callGetCompanyIDFromProjectID, Prod.mk.injEq] at hh
            dsimp only
            split
            · rw [← hh.2]
              exact h1
            · have h2 : ∀ rev, updateCallsPaired
                  (w1.logCall (Call.CreateIteration projectID rev)).trace := by
                intro rev
                rw [← hh.2]
                exact updateCallsPaired_logCall _ _ h1 (fun r hr => by cases hr)
              split <;>
                (rename_i hc
                 simp only [callCreateProjectIteration, Prod.mk.injEq] at hc
                 rw [← hc.2]
                 exact h2 _)

/-- Every update call the create handler makes carries a request with paired
slots. -/
theorem create_calls_paired (env : Env) (req : Request) (w : World) (sched : List Tid)
    (hw : updateCallsPaired w.trace) :
    updateCallsPaired (CreateProjectIteration env req sched w).world.trace := by
  unfold CreateProjectIteration
  apply Conc.exec_invariant (createProg env) (fun c => updateCallsPaired c.world.trace)
    (fun c t h => create_step_paired env c t h) sched
  have hv := createValidate_paired env req w hw
  unfold createInit
  split
  · rename_i resp w1 h1
    rw [h1] at hv
    exact hv
  · rename_i x w1 h1
    rw [h1] at hv
    have hst := createSaveLocations_steps x w1
    have hc := updateCallsPaired_of_calls _ _ (Steps.steps_calls _ _ _ hst) hv
    unfold createStage
    simp only
    split
    · rename_i err w2 h2
      rw [h2] at hc
      exact hc
    · rename_i w2 h2
      rw [h2] at hc
      exact hc

/-- Validation of an update request makes no update call. -/
theorem updateValidate_paired (env : Env) (req : Request) (w : World)
    (hw : updateCallsPaired w.trace) : updateCallsPaired (updateValidate env req w).2.trace := by
  unfold updateValidate
  split
  · exact hw
  · split
    · exact hw
    · split
      · exact hw
      · rename_i id _
        have h1 := updateCallsPaired_logCall w (Call.GetIteration id) hw
          (fun r hr => by cases hr)
        split
        · rename_i e w1 hh
          simp only [callGetProjectIteration, Prod.mk.injEq] at hh
          rw [← hh.2]
          exact h1
        · rename_i pi w1 hh
          simp only [callGetProjectIteration, Prod.mk.injEq] at hh
          have h2 := updateCallsPaired_logCall
            (w.logCall (Call.GetIteration id)) (Call.GetCompanyID pi.ProjectID) h1
            (fun r hr => by cases hr)
          rw [hh.2] at h2
          split
          · rename_i e w2 hh2
            simp only [callGetCompanyIDFromProjectID, Prod.mk.injEq] at hh2
            rw [← hh2.2]
            exact h2
          · rename_i cid w2 hh2
            simp only [callGetCompanyIDFromProjectID, Prod.mk.injEq] at hh2
            rw [hh2.2] at h2
            split
            · dsimp only
              split <;> exact h2
            · exact h2

theorem updateFinish_paired (env : Env) (x : UpdateCtx)
    (u : Except RemoteErr IterationResponse) (e : GoErr) (w : World) (hx : x.paired)
    (hw : updateCallsPaired w.trace) : updateCallsPaired (updateFinish env x u e w).2.trace := by
  by_cases hs : ∃ d, (updateFinish env x u e w).1 = Response.Created d
  · obtain ⟨d, hd⟩ := hs
    obtain ⟨hu, he⟩ := (updateFinish_created env x u e w d).mp hd
    subst hu
    subst he
    rw [updateFinish_success]
    apply updateCallsPaired_of_calls _ _ _ hw
    simp only
    rw [promote_calls, promote_calls, promote_calls]
  · rw [updateFinish_fail env x u e w (fun d hd => hs ⟨d, hd⟩), updateRollbackWorld_trace]
    apply updateCallsPaired_append _ _ hw
    intro r hr
    simp only [callsOf, List.filterMap_cons, List.filterMap_nil, List.mem_singleton,
      Call.UpdateIteration.injEq] at hr
    rw [hr]
    exact Mapper_paired _ _ hx.2

theorem UpdatePaired.paired_step (env : Env) (c : Conc UpdateMain) (t : Tid)
    (h : UpdatePaired c) : UpdatePaired (Conc.step (updateProg env) c t) := by
  obtain ⟨h1, h2⟩ := h
  cases t with
  | task i =>
    rcases Conc.step_task (updateProg env) c i with e | ⟨t, err, m, _, _, _, hr, e⟩ | ⟨t, hg, e⟩
    · rw [e]; exact ⟨h1, h2⟩
    · rw [e]
      refine ⟨?_, h2⟩
      simp only
      cases hm : c.main with
      | updating y => rw [hm] at hr; simp [updateProg] at hr
      | returned r => rw [hm] at hr; simp [updateProg] at hr
      | ranging y u s =>
        rw [hm] at hr h1
        simp only [updateProg, Option.some.injEq] at hr
        rw [← hr]
        exact h1
    · rw [e]
      exact ⟨h1, updateCallsPaired_of_calls _ _
        (Confined.calls _ _ _ (saveAndUnzipFile_confined t.saveDirectory t.st c.world)) h2⟩
  | waiter =>
    rcases Conc.step_waiter (updateProg env) c with e | ⟨_, e⟩
    · rw [e]; exact ⟨h1, h2⟩
    · rw [e]; exact ⟨h1, h2⟩
  | main =>
    rcases Conc.step_main (updateProg env) c with ⟨_, e⟩ | ⟨m, w, hs, e⟩
    · rw [e]; exact ⟨h1, h2⟩
    · rw [e]
      simp only [UpdatePaired]
      cases hm : c.main with
      | updating y =>
        rw [hm] at hs h1
        simp only [updateProg, callUpdateProjectIteration, Option.some.injEq,
          Prod.mk.injEq] at hs
        rw [← hs.1, ← hs.2]
        exact ⟨h1, updateCallsPaired_logCall _ _ h2 (fun r hr => by
          simp only [Call.UpdateIteration.injEq] at hr
          rw [← hr]
          exact h1.1)⟩
      | ranging y u s =>
        rw [hm] at hs h1
        simp only [updateProg] at hs
        cases hcl : c.closed with
        | false => rw [hcl] at hs; simp at hs
        | true =>
          rw [hcl] at hs
          simp only [if_true, Option.some.injEq, Prod.mk.injEq] at hs
          rw [← hs.1, ← hs.2]
          exact ⟨trivial, updateFinish_paired env y u s c.world h1 h2⟩
      | returned r =>
        rw [hm] at hs
        simp [updateProg] at hs

/-- Every update call the update handler makes carries a request with paired
slots, when the iterations the Project service returns have paired slots. -/
theorem update_calls_paired (env : Env) (req : Request) (w : World) (sched : List Tid)
    (hw : updateCallsPaired w.trace)
    (hfetch : ∀ calls id it, env.remote.GetIteration calls id = Except.ok it → it.slotsPaired) :
    updateCallsPaired (UpdateProjectIteration env req sched w).world.trace := by
  unfold UpdateProjectIteration
  refine (Conc.exec_invariant (updateProg env) UpdatePaired
    (fun c t h => UpdatePaired.paired_step env c t h) sched _ ?_).2
  have hv := updateValidate_paired env req w hw
  unfold updateInit
  split
  · rename_i resp w1 h1
    rw [h1] at hv
    exact ⟨trivial, hv⟩
  · rename_i x w1 h1
    rw [h1] at hv
    obtain ⟨form, id, cid, _, _, _, hget, _, _, _, _, _, _, _, _, hreq, _, _⟩ :=
      updateValidate_ok env req w w1 x h1
    have hp : x.paired := by
      have hpi := hfetch _ _ _ hget
      refine ⟨?_, hpi⟩
      rw [hreq]
      exact updateRequest_paired _ _ _ _ _ _ _ _ _ hpi
    have hst := updateSaveLocations_steps x w1
    have hc := updateCallsPaired_of_calls _ _ (Steps.steps_calls _ _ _ hst) hv
    unfold updateStage
    simp only
    split
    · rename_i err w2 h2
      rw [h2] at hc
      exact ⟨trivial, hc⟩
    · rename_i w2 h2
      rw [h2] at hc
      exact ⟨hp, hc⟩

/-! ### What `unzipFile` leaves behind -/

/-- The directory of a joined path resolves to the parent of that path. -/
theorem parse_Dir_Join (a b : Str) (h : filepath.Join a b ≠ []) :
    parse (filepath.Dir (filepath.Join a b)) = (parse (filepath.Join a b)).parent := by
  rcases Join_cases a b with e | ⟨s, e⟩
  · exact absurd e h
  · rw [e]
    unfold filepath.Clean
    rw [parse_Dir_render _ (parse_wf s), parse_render _ (parse_wf s)]

/-- A path properly below another has a last element, and is not an ancestor
of its parent. -/
theorem CPath.not_contains_parent (d k : CPath) (h1 : d.contains k = true) (h2 : d ≠ k) :
    k.contains k.parent = false := by
  obtain ⟨kabs, ksegs⟩ := k
  rcases List.eq_nil_or_concat ksegs with hs | ⟨init, last, hs⟩
  · subst hs
    rw [CPath.contains_iff] at h1
    obtain ⟨dabs, dsegs⟩ := d
    simp only [List.prefix_nil] at h1
    exact absurd (by simp [h1.1, h1.2]) h2
  · subst hs
    have : (⟨kabs, init.concat last⟩ : CPath).parent = ⟨kabs, init⟩ := by
      simp [CPath.parent]
    rw [this]
    have := CPath.child_not_contains ⟨kabs, init⟩ last
    simpa [CPath.child] using this

/-- A successful `os.OpenFile`: the parent was a directory, and the path now
holds an empty file, with the mode given when nothing was there and with the
mode of the file that was there otherwise. -/
theorem OpenFile_ok (p : Str) (mode : Nat) (w v : World)
    (h : os.OpenFile p mode w = (none, v)) :
    w.fs (parse p).parent = some Node.dir ∧
    ∃ m, v.fs = (fun q => if q = parse p then some (Node.file m []) else w.fs q) ∧
      (w.fs (parse p) = none → m = mode) ∧
      (∀ m0 c0, w.fs (parse p) = some (Node.file m0 c0) → m = m0) := by
  unfold os.OpenFile at h
  simp only [World.logFs] at h
  split at h
  · simp at h
  · rename_i hpar
    simp only [ne_eq, Decidable.not_not] at hpar
    refine ⟨hpar, ?_⟩
    split at h
    · simp at h
    · rename_i m0 c0 hk
      simp only [Prod.mk.injEq, true_and] at h
      refine ⟨m0, by rw [← h], ?_, ?_⟩
      · intro hn; rw [hn] at hk; cases hk
      · intro m1 c1 h1
        rw [h1] at hk
        simp only [Option.some.injEq, Node.file.injEq] at hk
        exact hk.1.symm
    · rename_i hk
      simp only [Prod.mk.injEq, true_and] at h
      refine ⟨mode, by rw [← h], fun _ => rfl, ?_⟩
      intro m1 c1 h1
      rw [h1] at hk
      cases hk

/-- A successful `io.Copy`: the file now holds the bytes. -/
theorem Copy_ok (p : Str) (bytes : List Nat) (w v : World) (h : io.Copy p bytes w = (none, v)) :
    ∃ m c, w.fs (parse p) = some (Node.file m c) ∧
      v.fs = (fun q => if q = parse p then some (Node.file m bytes) else w.fs q) := by
  unfold io.Copy at h
  simp only [World.logFs] at h
  split at h
  · rename_i m c hk
    simp only [Prod.mk.injEq, true_and] at h
    exact ⟨m, c, hk, by rw [← h]⟩
  · simp at h

/-- What a successful `unzipFile` of a file entry leaves: the entry resolves
to a path properly below the destination; the archive gave the bytes of the
entry; the path holds a file with exactly those bytes; every ancestor of the
path is a directory; and nothing else has changed. -/
theorem unzipFile_file (f : ZipFile) (destination : Str) (w v : World)
    (hdir : f.IsDir = false) (h : unzipFile f destination w = (none, v)) :
    (parse destination).contains (parse (filepath.Join destination f.Name)) = true ∧
    parse destination ≠ parse (filepath.Join destination f.Name) ∧
    ∃ bytes m, f.Open = Except.ok bytes ∧
      v.fs (parse (filepath.Join destination f.Name)) = some (Node.file m bytes) ∧
      (w.fs (parse (filepath.Join destination f.Name)) = none → m = f.Mode) ∧
      (∀ q, q.contains (parse (filepath.Join destination f.Name)).parent = true →
        v.fs q = some Node.dir) ∧
      (∀ q, q ≠ parse (filepath.Join destination f.Name) →
        q.contains (parse (filepath.Join destination f.Name)).parent = false →
        v.fs q = w.fs q) := by
  unfold unzipFile at h
  simp only [hdir, Bool.false_eq_true, if_false] at h
  cases hchk : strings.HasPrefix (filepath.Join destination f.Name)
      (filepath.Clean destination ++ [os.PathSeparator]) with
  | false => rw [hchk] at h; simp at h
  | true =>
    rw [hchk] at h
    simp only [Bool.not_true, Bool.false_eq_true, if_false] at h
    obtain ⟨h1, h2, _⟩ := zipSlip_check destination f.Name hchk
    have hne : filepath.Join destination f.Name ≠ [] := by
      intro e
      rw [e] at hchk
      cases hc : filepath.Clean destination ++ [os.PathSeparator] with
      | nil => simp at hc
      | cons x xs => rw [hc] at hchk; simp [strings.HasPrefix, List.isPrefixOf] at hchk
    have hpar := parse_Dir_Join destination f.Name hne
    have hnc := CPath.not_contains_parent _ _ h1 h2
    refine ⟨h1, h2, ?_⟩
    split at h
    · simp at h
    · rename_i w1 hm
      have hfs1 := MkdirAll_fs_ok _ w (by rw [hm])
      rw [hm, hpar] at hfs1
      simp only at hfs1
      split at h
      · simp at h
      · rename_i w2 ho
        obtain ⟨_, m, hfs2, hm1, _⟩ := OpenFile_ok _ _ _ _ ho
        split at h
        · simp at h
        · rename_i bytes hopen
          obtain ⟨m3, c3, hk3, hfs3⟩ := Copy_ok _ _ _ _ h
          rw [hfs2] at hk3
          simp only [if_true, Option.some.injEq, Node.file.injEq] at hk3
          refine ⟨bytes, m, hopen, ?_, ?_, ?_, ?_⟩
          · rw [hfs3]
            simp [hk3.1]
          · intro hn
            apply hm1
            rw [hfs1]
            simp only [hnc, Bool.false_eq_true, if_false]
            exact hn
          · intro q hq
            have hqk : q ≠ parse (filepath.Join destination f.Name) := by
              intro e
              rw [e, hnc] at hq
              cases hq
            rw [hfs3, hfs2, hfs1]
            simp [hqk, hq]
          · intro q hqk hq
            rw [hfs3, hfs2, hfs1]
            simp [hqk, hq]

/-- When `unzipFile` of a file entry succeeds: the entry passes the zip-slip
test, no ancestor of its path is a regular file, the path is not a directory,
and the archive gives the bytes of the entry. -/
theorem unzipFile_succeeds (f : ZipFile) (destination : Str) (w : World) (bytes : List Nat)
    (hdir : f.IsDir = false)
    (hchk : strings.HasPrefix (filepath.Join destination f.Name)
      (filepath.Clean destination ++ [os.PathSeparator]) = true)
    (hanc : ∀ q, q.contains (parse (filepath.Join destination f.Name)).parent = true →
      isFile (w.fs q) = false)
    (hk : w.fs (parse (filepath.Join destination f.Name)) ≠ some Node.dir)
    (hopen : f.Open = Except.ok bytes) : (unzipFile f destination w).1 = none := by
  obtain ⟨h1, h2, _⟩ := zipSlip_check destination f.Name hchk
  have hne : filepath.Join destination f.Name ≠ [] := by
    intro e
    rw [e] at hchk
    cases hc : filepath.Clean destination ++ [os.PathSeparator] with
    | nil => simp at hc
    | cons x xs => rw [hc] at hchk; simp [strings.HasPrefix, List.isPrefixOf] at hchk
  have hpar := parse_Dir_Join destination f.Name hne
  have hnc := CPath.not_contains_parent _ _ h1 h2
  have hmk : (os.MkdirAll (filepath.Dir (filepath.Join destination f.Name)) w).1 = none := by
    apply MkdirAll_ok
    rw [hpar]
    exact hanc
  have hfs1 := MkdirAll_fs_ok _ w hmk
  rw [hpar] at hfs1
  unfold unzipFile
  simp only [hdir, hchk, Bool.not_true, Bool.false_eq_true, if_false]
  cases hm : os.MkdirAll (filepath.Dir (filepath.Join destination f.Name)) w with
  | mk e1 w1 =>
    rw [hm] at hmk hfs1
    simp only at hmk hfs1
    subst hmk
    simp only
    have hp1 : w1.fs (parse (filepath.Join destination f.Name)).parent = some Node.dir := by
      rw [hfs1]
      simp [CPath.contains_refl]
    have hk1 : w1.fs (parse (filepath.Join destination f.Name)) =
        w.fs (parse (filepath.Join destination f.Name)) := by
      rw [hfs1]
      simp [hnc]
    unfold os.OpenFile
    simp only [World.logFs, hp1, ne_eq, not_true_eq_false, if_false]
    rw [hk1]
    cases hwk : w.fs (parse (filepath.Join destination f.Name)) with
    | none =>
      simp only [hopen]
      unfold io.Copy
      simp
    | some n =>
      cases n with
      | dir => exact absurd hwk hk
      | file m0 c0 =>
        simp only [hopen]
        unfold io.Copy
        simp

/-! ### A task on its own: the entries in order, up to the first error -/

theorem runTask_sending (d : Str) (n : Nat) (err : Str) (w : World) :
    runTask d n (TaskSt.sending err) w = (TaskSt.sending err, w) := by
  induction n with
  | zero => rfl
  | succ n ih => simp only [runTask, saveAndUnzipFile]; exact ih

theorem runTask_done (d : Str) (n : Nat) (w : World) :
    runTask d n TaskSt.done w = (TaskSt.done, w) := by
  induction n with
  | zero => rfl
  | succ n ih => simp only [runTask, saveAndUnzipFile]; exact ih

/-- A task that has opened its archive ends where `extractInOrder` ends. -/
theorem runTask_unzipping (d : Str) (rest : List ZipFile) :
    ∀ (w : World) (n : Nat), rest.length + 1 ≤ n →
      runTask d n (TaskSt.unzipping rest) w = taskEnd (extractInOrder d rest w) := by
  induction rest with
  | nil =>
    intro w n hn
    obtain ⟨m, rfl⟩ : ∃ m, n = m + 1 := ⟨n - 1, by simp at hn; omega⟩
    simp only [runTask, saveAndUnzipFile, extractInOrder, taskEnd]
    exact runTask_done d m w
  | cons f rest ih =>
    intro w n hn
    obtain ⟨m, rfl⟩ : ∃ m, n = m + 1 := ⟨n - 1, by simp at hn; omega⟩
    simp only [runTask, saveAndUnzipFile, extractInOrder]
    cases hu : unzipFile f d w with
    | mk e w1 =>
      cases e with
      | some err =>
        simp only [taskEnd]
        exact runTask_sending d m err w1
      | none =>
        simp only
        exact ih w1 m (by simp at hn ⊢; omega)

/-- A task that has opened its archive is at a send only with the error
`extractInOrder` ends with. -/
theorem runTask_unzipping_sending (d : Str) (n : Nat) :
    ∀ (rest : List ZipFile) (w : World) (e : Str),
      (runTask d n (TaskSt.unzipping rest) w).1 = TaskSt.sending e →
      (extractInOrder d rest w).1 = some e := by
  induction n with
  | zero =>
    intro rest w e h
    simp [runTask] at h
  | succ n ih =>
    intro rest w e h
    cases rest with
    | nil =>
      simp only [runTask, saveAndUnzipFile] at h
      rw [runTask_done] at h
      cases h
    | cons f rest =>
      simp only [runTask, saveAndUnzipFile] at h
      simp only [extractInOrder]
      cases hu : unzipFile f d w with
      | mk e1 w1 =>
        rw [hu] at h
        cases e1 with
        | some err =>
          simp only at h ⊢
          rw [runTask_sending] at h
          simp only [TaskSt.sending.injEq] at h
          rw [h]
        | none =>
          simp only at h ⊢
          exact ih rest w1 e h

/-- The first failing entry decides: its error is the result, and the world is
the one right after it, whatever entries follow. -/
theorem extractInOrder_first_error (d : Str) (pre : List ZipFile) :
    ∀ (w wk wk2 : World) (ek : ZipFile) (post : List ZipFile) (err : Str),
      extractInOrder d pre w = (none, wk) → unzipFile ek d wk = (some err, wk2) →
      extractInOrder d (pre ++ ek :: post) w = (some err, wk2) := by
  induction pre with
  | nil =>
    intro w wk wk2 ek post err h1 h2
    simp only [extractInOrder, Prod.mk.injEq, true_and] at h1
    subst h1
    simp only [List.nil_append, extractInOrder, h2]
  | cons f pre ih =>
    intro w wk wk2 ek post err h1 h2
    simp only [extractInOrder] at h1
    simp only [List.cons_append, extractInOrder]
    cases hu : unzipFile f d w with
    | mk e1 w1 =>
      rw [hu] at h1
      cases e1 with
      | some e => simp at h1
      | none =>
        simp only at h1 ⊢
        exact ih w1 wk wk2 ek post err h1 h2

/-! ### The permission check of the download handler -/

/-- The branch of `SendAndParseResponseData` for a failed request. -/
theorem SendAndParseResponseData_failed {Value T : Type} (json : EncodingJSON Value T)
    (reply : Reply) (object : T)
    (h : reply.errs ≠ [] ∨ reply.statusCode < 200 ∨ 300 ≤ reply.statusCode) :
    helpers.SendAndParseResponseData json true reply object =
      (((json.UnmarshalErrorResponse reply.body ⟨0, []⟩).2.ErrorCode,
        some (json.UnmarshalErrorResponse reply.body ⟨0, []⟩).2.Error), object) := by
  have hc : reply.errs.length > 0 ∨ reply.statusCode < 200 ∨ reply.statusCode ≥ 300 := by
    rcases h with h | h | h
    · exact Or.inl (List.length_pos.mpr h)
    · exact Or.inr (Or.inl h)
    · exact Or.inr (Or.inr h)
  unfold helpers.SendAndParseResponseData
  simp only [Bool.not_true, Bool.false_eq_true, if_false]
  rw [if_pos hc]

/-- The branch of `SendAndParseResponseData` for a request that succeeded. -/
theorem SendAndParseResponseData_succeeded {Value T : Type} (json : EncodingJSON Value T)
    (reply : Reply) (object : T) (he : reply.errs = []) (h1 : 200 ≤ reply.statusCode)
    (h2 : reply.statusCode < 300) :
    helpers.SendAndParseResponseData json true reply object =
      match json.UnmarshalMap reply.body with
      | (some err, _) => ((500, some err), object)
      | (none, response) =>
        match json.Marshal (response "Data".toList) with
        | Except.error err => ((500, some err), object)
        | Except.ok dataEncoded =>
          match json.Unmarshal dataEncoded object with
          | (some err, object1) => ((500, some err), object1)
          | (none, object1) => ((0, none), object1) := by
  have hc : ¬ (reply.errs.length > 0 ∨ reply.statusCode < 200 ∨ reply.statusCode ≥ 300) := by
    rw [he]
    simp only [List.length_nil, gt_iff_lt, Nat.lt_irrefl, false_or, not_or, not_lt]
    exact ⟨h1, by omega⟩
  unfold helpers.SendAndParseResponseData
  simp only [Bool.not_true, Bool.false_eq_true, if_false]
  rw [if_neg hc]
  try rfl

/-- An error of `SendAndParseResponseData` is never nil together with a code
other than 0. -/
theorem SendAndParseResponseData_nil_code {Value T : Type} (json : EncodingJSON Value T)
    (reply : Reply) (object : T)
    (h : (helpers.SendAndParseResponseData json true reply object).1.2 = none) :
    (helpers.SendAndParseResponseData json true reply object).1.1 = 0 := by
  by_cases hc : reply.errs ≠ [] ∨ reply.statusCode < 200 ∨ 300 ≤ reply.statusCode
  · rw [SendAndParseResponseData_failed json reply object hc] at h
    cases h
  · have hc2 : reply.errs = [] ∧ 200 ≤ reply.statusCode ∧ reply.statusCode < 300 := by
      simp only [ne_eq, not_or, Decidable.not_not, not_lt] at hc
      exact ⟨hc.1, hc.2.1, by omega⟩
    rw [SendAndParseResponseData_succeeded json reply object hc2.1 hc2.2.1 hc2.2.2] at h ⊢
    cases hm : json.UnmarshalMap reply.body with
    | mk e response =>
      rw [hm] at h
      cases e with
      | some err => cases h
      | none =>
        simp only at h ⊢
        cases hj : json.Marshal (response "Data".toList) with
        | error err => rw [hj] at h; cases h
        | ok d =>
          rw [hj] at h
          simp only at h ⊢
          cases hu : json.Unmarshal d object with
          | mk e2 o =>
            rw [hu] at h
            cases e2 with
            | some err => cases h
            | none => rfl

/-- `SendAndParseResponseData` into an empty string gives "Granted" without an
error exactly for a reply that grants. -/
theorem sendAndParse_granted_iff {Value : Type} (json : EncodingJSON Value Str)
    (reply : Reply) :
    ((helpers.SendAndParseResponseData json true reply []).1.2 = none ∧
      (helpers.SendAndParseResponseData json true reply []).2 = "Granted".toList) ↔
    reply.granted json := by
  unfold Reply.granted
  generalize "Granted".toList = G
  constructor
  · intro h
    by_cases hc : reply.errs ≠ [] ∨ reply.statusCode < 200 ∨ 300 ≤ reply.statusCode
    · rw [SendAndParseResponseData_failed json reply [] hc] at h
      exact absurd h.1 (by intro h0; cases h0)
    · have hc2 : reply.errs = [] ∧ 200 ≤ reply.statusCode ∧ reply.statusCode < 300 := by
        simp only [ne_eq, not_or, Decidable.not_not, not_lt] at hc
        exact ⟨hc.1, hc.2.1, by omega⟩
      refine ⟨hc2.1, hc2.2.1, hc2.2.2, ?_⟩
      rw [SendAndParseResponseData_succeeded json reply [] hc2.1 hc2.2.1 hc2.2.2] at h
      cases hm : json.UnmarshalMap reply.body with
      | mk e response =>
        rw [hm] at h
        cases e with
        | some err => exact absurd h.1 (by intro h0; cases h0)
        | none =>
          simp only at h
          cases hj : json.Marshal (response "Data".toList) with
          | error err =>
            rw [hj] at h
            exact absurd h.1 (by intro h0; cases h0)
          | ok d =>
            rw [hj] at h
            simp only at h
            cases hu : json.Unmarshal d [] with
            | mk e2 o =>
              rw [hu] at h
              cases e2 with
              | some err => exact absurd h.1 (by intro h0; cases h0)
              | none =>
                simp only at h
                refine ⟨response, d, rfl, hj, ?_⟩
                rw [← h.2]
                exact hu
  · rintro ⟨he, h1, h2, response, d, hm, hj, hu⟩
    rw [SendAndParseResponseData_succeeded json reply [] he h1 h2, hm]
    simp only [hj, hu, and_self]

/-- What `callValidatePermission` returns, by what `SendAndParseResponseData`
returned. -/
theorem callValidatePermission_cases {Value : Type} (json : EncodingJSON Value Str)
    (env : Env) (user : UserService) (projectID : UUID) :
    (callValidatePermission json env user projectID).2 =
      [DownloadEffect.validatePermission projectID] ∧
    (∀ e, (helpers.SendAndParseResponseData json true (user.ValidatePermission projectID)
        []).1.2 = some e →
      (callValidatePermission json env user projectID).1 =
        ((helpers.SendAndParseResponseData json true (user.ValidatePermission projectID)
          []).1.1, some e)) ∧
    ((helpers.SendAndParseResponseData json true (user.ValidatePermission projectID)
        []).1.2 = none →
      (helpers.SendAndParseResponseData json true (user.ValidatePermission projectID)
        []).2 ≠ "Granted".toList →
      (callValidatePermission json env user projectID).1 =
        (env.ERR_COMMON_PERMISSION_NOT_ALLOWED, some "no permission".toList)) ∧
    ((helpers.SendAndParseResponseData json true (user.ValidatePermission projectID)
        []).1.2 = none →
      (helpers.SendAndParseResponseData json true (user.ValidatePermission projectID)
        []).2 = "Granted".toList →
      (callValidatePermission json env user projectID).1 = (0, none)) := by
  unfold callValidatePermission
  generalize "Granted".toList = G
  cases hr : helpers.SendAndParseResponseData json true (user.ValidatePermission projectID)
      [] with
  | mk r data =>
    obtain ⟨code, err⟩ := r
    cases err with
    | some e =>
      simp
    | none =>
      simp only
      by_cases hg : data = G
      · simp [hg]
      · have : data ≠ G := hg
        rw [if_pos this]
        simp [hg]

/-- `callValidatePermission` returns (0, nil) exactly for a reply that
grants, and a non-nil error otherwise. -/
theorem callValidatePermission_granted_iff {Value : Type} (json : EncodingJSON Value Str)
    (env : Env) (user : UserService) (projectID : UUID) :
    ((callValidatePermission json env user projectID).1 = (0, none) ↔
      (user.ValidatePermission projectID).granted json) ∧
    ((callValidatePermission json env user projectID).1.2 = none ↔
      (user.ValidatePermission projectID).granted json) := by
  obtain ⟨_, h1, h2, h3⟩ := callValidatePermission_cases json env user projectID
  have hiff := sendAndParse_granted_iff json (user.ValidatePermission projectID)
  have key : (callValidatePermission json env user projectID).1.2 = none →
      (user.ValidatePermission projectID).granted json := by
    intro hn
    apply hiff.mp
    cases he : (helpers.SendAndParseResponseData json true (user.ValidatePermission projectID)
        []).1.2 with
    | some e =>
      rw [h1 e he] at hn
      cases hn
    | none =>
      refine ⟨rfl, ?_⟩
      by_contra hg
      rw [h2 he hg] at hn
      cases hn
  constructor
  · constructor
    · intro h
      exact key (by rw [h])
    · intro hg
      obtain ⟨a, b⟩ := hiff.mpr hg
      exact h3 a b
  · constructor
    · exact key
    · intro hg
      obtain ⟨a, b⟩ := hiff.mpr hg
      rw [h3 a b]

/-! ### The errors sent on the channel -/

theorem Conc.sent_append {M : Type} (P : MainProg M) (s1 s2 : List Tid) :
    ∀ c : Conc M, Conc.sent P (s1 ++ s2) c =
      Conc.sent P s1 c ++ Conc.sent P s2 (Conc.exec P s1 c) := by
  induction s1 with
  | nil => intro c; rfl
  | cons t s1 ih =>
    intro c
    show (Conc.handover P c t).toList ++ Conc.sent P (s1 ++ s2) (Conc.step P c t) =
      ((Conc.handover P c t).toList ++ Conc.sent P s1 (Conc.step P c t)) ++
        Conc.sent P s2 (Conc.exec P s1 (Conc.step P c t))
    rw [ih, List.append_assoc]

/-- A send is complete only at a task that waits at its send while the channel
is open and the handler receives. -/
theorem Conc.handover_some {M : Type} (P : MainProg M) (c : Conc M) (t : Tid) (p : Nat × Str)
    (h : Conc.handover P c t = some p) :
    t = Tid.task p.1 ∧ c.closed = false ∧
    (∃ tk, c.tasks[p.1]? = some tk ∧ tk.st = TaskSt.sending p.2) ∧
    ∃ m, P.recv c.main p.2 = some m := by
  cases t with
  | waiter => simp [Conc.handover] at h
  | main => simp [Conc.handover] at h
  | task i =>
    simp only [Conc.handover] at h
    cases hg : c.tasks[i]? with
    | none => rw [hg] at h; cases h
    | some tk =>
      rw [hg] at h
      simp only at h
      cases hst : tk.st with
      | spawned f => rw [hst] at h; cases h
      | unzipping r => rw [hst] at h; cases h
      | done => rw [hst] at h; cases h
      | sending err =>
        rw [hst] at h
        simp only at h
        cases hcl : c.closed with
        | true => rw [hcl] at h; simp at h
        | false =>
          rw [hcl] at h
          simp only [Bool.false_eq_true, if_false] at h
          cases hr : P.recv c.main err with
          | none => rw [hr] at h; cases h
          | some m =>
            rw [hr] at h
            simp only [Option.some.injEq] at h
            subst h
            exact ⟨rfl, rfl, ⟨tk, hg, hst⟩, m, hr⟩

/-- The create handler does not come back to its range loop. -/
theorem create_step_not_ranging (env : Env) (c : Conc CreateMain) (t : Tid)
    (h : ∀ x, c.main ≠ CreateMain.ranging x) :
    ∀ x, (Conc.step (createProg env) c t).main ≠ CreateMain.ranging x := by
  cases t with
  | task j =>
    rcases Conc.step_task (createProg env) c j with e | ⟨t3, err3, m, _, _, _, hr, _⟩ | ⟨t3, _, e⟩
    · rw [e]; exact h
    · exfalso
      cases hm : c.main with
      | ranging x => exact h x hm
      | gotErr x e2 => rw [hm] at hr; simp [createProg] at hr
      | removed x e2 => rw [hm] at hr; simp [createProg] at hr
      | returned r => rw [hm] at hr; simp [createProg] at hr
    · rw [e]; exact h
  | waiter =>
    rcases Conc.step_waiter (createProg env) c with e | ⟨_, e⟩
    · rw [e]; exact h
    · rw [e]; exact h
  | main =>
    rcases Conc.step_main (createProg env) c with ⟨_, e⟩ | ⟨m, w2, hs, e⟩
    · rw [e]; exact h
    · rw [e]
      intro x hx
      simp only at hx
      subst hx
      cases hm : c.main with
      | ranging x2 => exact h x2 hm
      | gotErr x2 e2 => rw [hm] at hs; simp [createProg] at hs
      | removed x2 e2 =>
        rw [hm] at hs
        simp only [createProg] at hs
        split at hs <;> simp at hs
      | returned r => rw [hm] at hs; simp [createProg] at hs

/-- Once the create handler has left its range loop, no error is sent. -/
theorem create_sent_after_loop (env : Env) (sched : List Tid) :
    ∀ c : Conc CreateMain, (∀ x, c.main ≠ CreateMain.ranging x) →
      Conc.sent (createProg env) sched c = [] := by
  induction sched with
  | nil => intro c _; rfl
  | cons t sched ih =>
    intro c h
    have h0 : Conc.handover (createProg env) c t = none := by
      cases hh : Conc.handover (createProg env) c t with
      | none => rfl
      | some p =>
        exfalso
        obtain ⟨_, _, _, m, hr⟩ := Conc.handover_some _ c t p hh
        cases hm : c.main with
        | ranging x => exact h x hm
        | gotErr x e2 => rw [hm] at hr; simp [createProg] at hr
        | removed x e2 => rw [hm] at hr; simp [createProg] at hr
        | returned r => rw [hm] at hr; simp [createProg] at hr
    simp only [Conc.sent, h0, Option.toList, List.nil_append]
    exact ih _ (create_step_not_ranging env c t h)

/-- In every run of the create handler at most one error is sent on the
channel: the handler leaves its range loop with the first. -/
theorem create_sent_at_most_one (env : Env) (sched : List Tid) :
    ∀ c : Conc CreateMain, (Conc.sent (createProg env) sched c).length ≤ 1 := by
  induction sched with
  | nil => intro c; simp [Conc.sent]
  | cons t sched ih =>
    intro c
    cases hh : Conc.handover (createProg env) c t with
    | none =>
      simp only [Conc.sent, hh, Option.toList, List.nil_append]
      exact ih _
    | some p =>
      obtain ⟨ht, hcl, ⟨tk, hg, hst⟩, m, hr⟩ := Conc.handover_some _ c t p hh
      have hstep : Conc.step (createProg env) c t =
          { c with main := m, tasks := c.tasks.set p.1 { tk with st := TaskSt.done } } := by
        rw [ht]
        exact Conc.step_task_send (createProg env) c p.1 tk p.2 m hg hst hcl hr
      have hm : ∀ x, (Conc.step (createProg env) c t).main ≠ CreateMain.ranging x := by
        rw [hstep]
        intro x hx
        simp only at hx
        subst hx
        cases hcm : c.main with
        | ranging x2 => rw [hcm] at hr; simp [createProg] at hr
        | gotErr x2 e2 => rw [hcm] at hr; simp [createProg] at hr
        | removed x2 e2 => rw [hcm] at hr; simp [createProg] at hr
        | returned r => rw [hcm] at hr; simp [createProg] at hr
      simp only [Conc.sent, hh, Option.toList, create_sent_after_loop env sched _ hm,
        List.append_nil, List.length_singleton, le_refl]

/-- C1: for every destination and every archive entry whose cleaned join with
the destination does not start with the cleaned destination followed by the
path separator, `unzipFile` returns the "invalid file path" error and leaves
the world as it was: it makes no file-system call, so no directory is created
and no file is opened or written. -/
theorem unzipFile_rejects_escaping_entry (f : ZipFile) (destination : Str) (w : World)
    (hesc : strings.HasPrefix (filepath.Join destination f.Name)
      (filepath.Clean destination ++ [os.PathSeparator]) = false) :
    unzipFile f destination w =
      (some ("invalid file path: ".toList ++ filepath.Join destination f.Name), w) := by
  simp [unzipFile, hesc]

theorem unzipFile_rejects_escaping_entry_witness :
    strings.HasPrefix (filepath.Join "/up/c/p/i/geojson".toList evilEntry.Name)
      (filepath.Clean "/up/c/p/i/geojson".toList ++ [os.PathSeparator]) = false ∧
    unzipFile evilEntry "/up/c/p/i/geojson".toList ⟨FS.empty, []⟩ =
      (some ("invalid file path: ".toList ++
        filepath.Join "/up/c/p/i/geojson".toList evilEntry.Name), ⟨FS.empty, []⟩) :=
  ⟨by decide, unzipFile_rejects_escaping_entry evilEntry "/up/c/p/i/geojson".toList
    ⟨FS.empty, []⟩ (by decide)⟩

/-- C4: in the update flow, for every run of a request that got through
validation: when the Project service answers the update call with an error,
and likewise once a task waits to send an error, the handler never answers
with the success response; and in every state in which the handler has not
answered with the success response, every path in the three final asset
directories geojson, tile_3d and ortho_photo holds what it held before the
request. So a final directory is removed, recreated or replaced only when the
update call succeeded and no task reported an error. -/
theorem update_final_directories_kept_unless_success
    (env : Env) (req : Request) (fs0 : FS) (sched : List Tid) (x : UpdateCtx) (w1 : World)
    (hv : updateValidate env req ⟨fs0, []⟩ = (Except.ok x, w1)) :
    (∀ e, env.remote.UpdateIteration (callsOf w1.trace) x.toBeUpdatedProjectIteration =
        Except.error e →
      ∀ d, (UpdateProjectIteration env req sched ⟨fs0, []⟩).main.response ≠
        some (Response.Created d)) ∧
    (∀ (p q : List Tid) (i : Nat) (t : Task) (err : Str), sched = p ++ q →
      (UpdateProjectIteration env req p ⟨fs0, []⟩).tasks[i]? = some t →
      t.st = TaskSt.sending err →
      ∀ d, (UpdateProjectIteration env req sched ⟨fs0, []⟩).main.response ≠
        some (Response.Created d)) ∧
    ((∀ d, (UpdateProjectIteration env req sched ⟨fs0, []⟩).main.response ≠
        some (Response.Created d)) →
      ∀ k ∈ finalNames, ∀ q, (parse (slash x.saveDirectory k)).contains q = true →
        (UpdateProjectIteration env req sched ⟨fs0, []⟩).world.fs q = fs0 q) := by
  refine ⟨fun e he d => update_call_error_not_success env req _ w1 x sched e hv he d, ?_, ?_⟩
  · intro p q i t err hpq hg hs d
    rw [hpq]
    exact update_task_error_not_success env req _ p q i t err hg hs d
  intro hfail k hk q hq
  have hS := updateValidate_saveDirectory env req _ w1 x hv
  have hap := final_apart_temp x hS k hk q hq
  have hw1 : w1.fs = fs0 := by
    have := (updateValidate_world env req ⟨fs0, []⟩).1
    rw [hv] at this
    exact this
  have hst := updateSaveLocations_steps x w1
  rcases update_shape env req ⟨fs0, []⟩ w1 x sched hv with
    ⟨err, w2, hs, _, hw⟩ | ⟨w2, hs, hinv⟩
  · rw [hw]
    rw [hs] at hst
    rw [Steps.steps_apart _ _ _ hst q hap, hw1]
  · rw [hs] at hst
    have h2 : w2.fs q = fs0 q := by rw [Steps.steps_apart _ _ _ hst q hap, hw1]
    obtain ⟨_, _, hm⟩ := hinv
    cases hmain : (UpdateProjectIteration env req sched ⟨fs0, []⟩).main with
    | updating y =>
      rw [hmain] at hm
      rw [Steps.steps_apart _ _ _ hm.2 q hap, h2]
    | ranging y res e =>
      rw [hmain] at hm
      obtain ⟨_, wcall, s1, _, s2⟩ := hm
      rw [Steps.steps_apart _ _ _ s2 q hap, logCall_fs, Steps.steps_apart _ _ _ s1 q hap, h2]
    | returned r =>
      rw [hmain] at hm hfail
      obtain ⟨_, wcall, wpre, e, s1, s2, hf⟩ := hm
      have hr : ∀ d, (updateFinish env x (env.remote.UpdateIteration (callsOf wcall.trace)
          x.toBeUpdatedProjectIteration) e wpre).1 ≠ Response.Created d := by
        intro d hd
        rw [hf] at hd
        simp only at hd
        exact hfail d (by simp [UpdateMain.response, hd])
      have := updateFinish_fail env x _ e wpre hr
      rw [hf] at this
      simp only at this
      rw [this, updateRollbackWorld_fs x wpre q (fun d hd => (hap d hd).1),
        Steps.steps_apart _ _ _ s2 q hap, logCall_fs, Steps.steps_apart _ _ _ s1 q hap, h2]

theorem update_final_directories_kept_unless_success_witness :
    (∀ d, (UpdateProjectIteration (sampleEnv sampleRemote)
      (sampleUpdate "false".toList "false".toList "false".toList
        [("tile_3d".toList, brokenUpload "t.rar".toList)])
      [Tid.main, Tid.task 0, Tid.task 0, Tid.waiter, Tid.main] ⟨sampleFS, []⟩).main.response ≠
        some (Response.Created d)) ∧
    (UpdateProjectIteration (sampleEnv sampleRemote)
      (sampleUpdate "false".toList "false".toList "false".toList
        [("tile_3d".toList, brokenUpload "t.rar".toList)])
      [Tid.main, Tid.task 0, Tid.task 0, Tid.waiter, Tid.main] ⟨sampleFS, []⟩).world.fs
        (parse "/up/c/p/i/geojson/old.txt".toList) =
      sampleFS (parse "/up/c/p/i/geojson/old.txt".toList) :=
  ⟨(update_final_directories_kept_unless_success (sampleEnv sampleRemote)
      (sampleUpdate "false".toList "false".toList "false".toList
        [("tile_3d".toList, brokenUpload "t.rar".toList)])
      sampleFS [Tid.main, Tid.task 0, Tid.task 0, Tid.waiter, Tid.main] sampleUpdateCtx
      ⟨sampleFS, [Event.call (Call.GetIteration "i".toList),
        Event.call (Call.GetCompanyID ⟨"p".toList⟩)]⟩
      (by rfl)).2.1 [Tid.main, Tid.task 0] [Tid.task 0, Tid.waiter, Tid.main] 0
      ⟨"/up/c/p/i/tile_3d_temp".toList, TaskSt.sending "zip: not a valid zip file".toList⟩
      "zip: not a valid zip file".toList rfl rfl rfl,
   (update_final_directories_kept_unless_success (sampleEnv sampleRemote)
      (sampleUpdate "false".toList "false".toList "false".toList
        [("tile_3d".toList, brokenUpload "t.rar".toList)])
      sampleFS [Tid.main, Tid.task 0, Tid.task 0, Tid.waiter, Tid.main] sampleUpdateCtx
      ⟨sampleFS, [Event.call (Call.GetIteration "i".toList),
        Event.call (Call.GetCompanyID ⟨"p".toList⟩)]⟩
      (by rfl)).2.2
      ((update_final_directories_kept_unless_success (sampleEnv sampleRemote)
        (sampleUpdate "false".toList "false".toList "false".toList
          [("tile_3d".toList, brokenUpload "t.rar".toList)])
        sampleFS [Tid.main, Tid.task 0, Tid.task 0, Tid.waiter, Tid.main] sampleUpdateCtx
        ⟨sampleFS, [Event.call (Call.GetIteration "i".toList),
          Event.call (Call.GetCompanyID ⟨"p".toList⟩)]⟩
        (by rfl)).2.1 [Tid.main, Tid.task 0] [Tid.task 0, Tid.waiter, Tid.main] 0
        ⟨"/up/c/p/i/tile_3d_temp".toList, TaskSt.sending "zip: not a valid zip file".toList⟩
        "zip: not a valid zip file".toList rfl rfl rfl)
      "geojson".toList (by decide)
      (parse "/up/c/p/i/geojson/old.txt".toList) (by decide)⟩

/-- C5: in the update flow, for every run of a request that got through
validation and staging: the run can be continued until the handler returns;
once a task waits to send an error the handler never answers with the success
response; and whenever the handler has answered with something other than the
success response (in particular when the first update call succeeded and a
task then reported an error), the last four effects of the request are the
removal of the three temporary directories and a second update-iteration call;
nothing exists in the temporary directories afterwards; the remote calls after
validation are exactly the first update call and that second one; and the
revision and the URL and file name of every asset slot in the second call
equal those of the iteration fetched at the start of the request, absent
values included. -/
theorem update_rollback_restores_fetched_iteration
    (env : Env) (req : Request) (fs0 : FS) (sched : List Tid) (x : UpdateCtx) (w1 : World)
    (hv : updateValidate env req ⟨fs0, []⟩ = (Except.ok x, w1))
    (hstaged : (updateSaveLocations (slash x.saveDirectory "geojson_temp".toList)
      (slash x.saveDirectory "tile_3d_temp".toList)
      (slash x.saveDirectory "ortho_photo_temp".toList) w1).1 = none) :
    (∃ more, (UpdateProjectIteration env req (sched ++ more) ⟨fs0, []⟩).main.response ≠
      none) ∧
    (∀ (p q : List Tid) (i : Nat) (t : Task) (err : Str), sched = p ++ q →
      (UpdateProjectIteration env req p ⟨fs0, []⟩).tasks[i]? = some t →
      t.st = TaskSt.sending err →
      ∀ d, (UpdateProjectIteration env req sched ⟨fs0, []⟩).main.response ≠
        some (Response.Created d)) ∧
    (∀ r, (UpdateProjectIteration env req sched ⟨fs0, []⟩).main.response = some r →
      (∀ d, r ≠ Response.Created d) →
      ∃ (id : Str) (fetched : IterationResponse) (second : UpdateIterationRequest)
        (before : List Event),
        env.remote.GetIteration [] id = Except.ok fetched ∧
        (UpdateProjectIteration env req sched ⟨fs0, []⟩).world.trace = before ++
          [Event.fs (FsOp.RemoveAll (slash x.saveDirectory "geojson_temp".toList)),
           Event.fs (FsOp.RemoveAll (slash x.saveDirectory "tile_3d_temp".toList)),
           Event.fs (FsOp.RemoveAll (slash x.saveDirectory "ortho_photo_temp".toList)),
           Event.call (Call.UpdateIteration second)] ∧
        callsOf (UpdateProjectIteration env req sched ⟨fs0, []⟩).world.trace =
          callsOf w1.trace ++ [Call.UpdateIteration x.toBeUpdatedProjectIteration,
            Call.UpdateIteration second] ∧
        (∀ d ∈ x.tempKeys, ∀ q, d.contains q = true →
          (UpdateProjectIteration env req sched ⟨fs0, []⟩).world.fs q = none) ∧
        second.Revision = fetched.Revision ∧
        second.GeoJSONURL = fetched.GeoJSONURL ∧
        second.GeoJSONFileName = fetched.GeoJSONFileName ∧
        second.Tile3DURL = fetched.Tile3DURL ∧
        second.Tile3DFileName = fetched.Tile3DFileName ∧
        second.OrthoPhotoURL = fetched.OrthoPhotoURL ∧
        second.OrthoPhotoFileName = fetched.OrthoPhotoFileName) := by
  refine ⟨update_handler_returns env req _ sched, ?_, ?_⟩
  · intro p q i t err hpq hg hs d
    rw [hpq]
    exact update_task_error_not_success env req _ p q i t err hg hs d
  intro r hr hfail
  obtain ⟨form, id, cid, _, _, _, hget, _⟩ := updateValidate_ok env req _ w1 x hv
  have hst := updateSaveLocations_steps x w1
  rcases update_shape env req ⟨fs0, []⟩ w1 x sched hv with
    ⟨err, w2, hs, _, _⟩ | ⟨w2, hs, hinv⟩
  · rw [hs] at hstaged; simp at hstaged
  · rw [hs] at hst
    obtain ⟨_, _, hm⟩ := hinv
    cases hmain : (UpdateProjectIteration env req sched ⟨fs0, []⟩).main with
    | updating y => rw [hmain] at hr; simp [UpdateMain.response] at hr
    | ranging y res e => rw [hmain] at hr; simp [UpdateMain.response] at hr
    | returned r2 =>
      rw [hmain] at hm hr
      simp only [UpdateMain.response, Option.some.injEq] at hr
      subst hr
      obtain ⟨_, wcall, wpre, e, s1, s2, hf⟩ := hm
      have hne : ∀ d, (updateFinish env x (env.remote.UpdateIteration (callsOf wcall.trace)
          x.toBeUpdatedProjectIteration) e wpre).1 ≠ Response.Created d := by
        intro d hd
        rw [hf] at hd
        exact hfail d hd
      have hw := updateFinish_fail env x _ e wpre hne
      rw [hf] at hw
      simp only at hw
      refine ⟨id, x.projectIteration,
        Mapper x.projectIteration x.toBeUpdatedProjectIteration, wpre.trace,
        hget, ?_, ?_, ?_, rfl, rfl, rfl, rfl, rfl, rfl, rfl⟩
      · rw [hw, updateRollbackWorld_trace]
      · rw [hw, updateRollbackWorld_trace, callsOf_append, Steps.steps_calls _ _ _ s2,
          logCall_trace, callsOf_append, Steps.steps_calls _ _ _ s1,
          Steps.steps_calls _ _ _ hst]
        simp [callsOf]
      · intro d hd q hq
        rw [hw]
        exact updateRollbackWorld_removed x wpre d q hd hq

theorem update_rollback_restores_fetched_iteration_witness :
    ∃ (id : Str) (fetched : IterationResponse) (second : UpdateIterationRequest)
      (before : List Event),
      (sampleEnv sampleRemote).remote.GetIteration [] id = Except.ok fetched ∧
      (UpdateProjectIteration (sampleEnv sampleRemote)
        (sampleUpdate "false".toList "false".toList "false".toList
          [("tile_3d".toList, brokenUpload "t.rar".toList)])
        [Tid.main, Tid.task 0, Tid.task 0, Tid.waiter, Tid.main]
        ⟨sampleFS, []⟩).world.trace = before ++
        [Event.fs (FsOp.RemoveAll (slash sampleUpdateCtx.saveDirectory "geojson_temp".toList)),
         Event.fs (FsOp.RemoveAll (slash sampleUpdateCtx.saveDirectory "tile_3d_temp".toList)),
         Event.fs (FsOp.RemoveAll
           (slash sampleUpdateCtx.saveDirectory "ortho_photo_temp".toList)),
         Event.call (Call.UpdateIteration second)] ∧
      callsOf (UpdateProjectIteration (sampleEnv sampleRemote)
        (sampleUpdate "false".toList "false".toList "false".toList
          [("tile_3d".toList, brokenUpload "t.rar".toList)])
        [Tid.main, Tid.task 0, Tid.task 0, Tid.waiter, Tid.main]
        ⟨sampleFS, []⟩).world.trace =
        callsOf [Event.call (Call.GetIteration "i".toList),
          Event.call (Call.GetCompanyID ⟨"p".toList⟩)] ++
        [Call.UpdateIteration sampleUpdateCtx.toBeUpdatedProjectIteration,
          Call.UpdateIteration second] ∧
      (∀ d ∈ sampleUpdateCtx.tempKeys, ∀ q, d.contains q = true →
        (UpdateProjectIteration (sampleEnv sampleRemote)
          (sampleUpdate "false".toList "false".toList "false".toList
            [("tile_3d".toList, brokenUpload "t.rar".toList)])
          [Tid.main, Tid.task 0, Tid.task 0, Tid.waiter, Tid.main]
          ⟨sampleFS, []⟩).world.fs q = none) ∧
      second.Revision = fetched.Revision ∧
      second.GeoJSONURL = fetched.GeoJSONURL ∧
      second.GeoJSONFileName = fetched.GeoJSONFileName ∧
      second.Tile3DURL = fetched.Tile3DURL ∧
      second.Tile3DFileName = fetched.Tile3DFileName ∧
      second.OrthoPhotoURL = fetched.OrthoPhotoURL ∧
      second.OrthoPhotoFileName = fetched.OrthoPhotoFileName :=
  (update_rollback_restores_fetched_iteration (sampleEnv sampleRemote)
    (sampleUpdate "false".toList "false".toList "false".toList
      [("tile_3d".toList, brokenUpload "t.rar".toList)])
    sampleFS [Tid.main, Tid.task 0, Tid.task 0, Tid.waiter, Tid.main] sampleUpdateCtx
    ⟨sampleFS, [Event.call (Call.GetIteration "i".toList),
      Event.call (Call.GetCompanyID ⟨"p".toList⟩)]⟩
    (by rfl) (by decide)).2.2
    (Response.InternalServerError "zip: not a valid zip file".toList none)
    (by decide) (by intro d hd; cases hd)

/-- C8: for every successful update request whose removeGeoJson field is
"true", whose removeTile3D and removeOrthoPhoto fields are not "true" and that
brings no tile_3d and no ortho_photo file: the only remote call after
validation is one update call; its GeoJSON URL and file name are absent and
its Tile3D and OrthoPhoto URLs and file names are those of the fetched
iteration; afterwards the geojson final directory is a directory with nothing
in it; and every path in the tile_3d and ortho_photo final directories holds
what it held before the request. (`x` holds the local variables of the
handler, which `updateValidate_ok` ties to the form and to the fetched
iteration.) -/
theorem update_remove_geojson_only
    (env : Env) (req : Request) (fs0 : FS) (sched : List Tid) (x : UpdateCtx) (w1 : World)
    (d : IterationResponse)
    (hv : updateValidate env req ⟨fs0, []⟩ = (Except.ok x, w1))
    (hgeo : x.isRemoveGeoJSON = "true".toList)
    (htile : x.isRemoveTile3D ≠ "true".toList)
    (hortho : x.isRemoveOrthoPhoto ≠ "true".toList)
    (hnt : x.tile3DFile = none) (hno : x.orthoPhotoFile = none)
    (hr : (UpdateProjectIteration env req sched ⟨fs0, []⟩).main.response =
      some (Response.Created d)) :
    callsOf (UpdateProjectIteration env req sched ⟨fs0, []⟩).world.trace =
      callsOf w1.trace ++ [Call.UpdateIteration x.toBeUpdatedProjectIteration] ∧
    x.toBeUpdatedProjectIteration.GeoJSONURL = none ∧
    x.toBeUpdatedProjectIteration.GeoJSONFileName = none ∧
    x.toBeUpdatedProjectIteration.Tile3DURL = x.projectIteration.Tile3DURL ∧
    x.toBeUpdatedProjectIteration.Tile3DFileName = x.projectIteration.Tile3DFileName ∧
    x.toBeUpdatedProjectIteration.OrthoPhotoURL = x.projectIteration.OrthoPhotoURL ∧
    x.toBeUpdatedProjectIteration.OrthoPhotoFileName =
      x.projectIteration.OrthoPhotoFileName ∧
    (UpdateProjectIteration env req sched ⟨fs0, []⟩).world.fs
      (parse (slash x.saveDirectory "geojson".toList)) = some Node.dir ∧
    (∀ q, (parse (slash x.saveDirectory "geojson".toList)).contains q = true →
      q ≠ parse (slash x.saveDirectory "geojson".toList) →
      (UpdateProjectIteration env req sched ⟨fs0, []⟩).world.fs q = none) ∧
    (∀ k ∈ ["tile_3d".toList, "ortho_photo".toList], ∀ q,
      (parse (slash x.saveDirectory k)).contains q = true →
      (UpdateProjectIteration env req sched ⟨fs0, []⟩).world.fs q = fs0 q) := by
  have hS := updateValidate_saveDirectory env req _ w1 x hv
  obtain ⟨form, id, cid, _, _, _, _, _, _, _, _, _, _, _, _, hreq, _, _⟩ :=
    updateValidate_ok env req _ w1 x hv
  have hw1 : w1.fs = fs0 := by
    have := (updateValidate_world env req ⟨fs0, []⟩).1
    rw [hv] at this
    exact this
  have hsl := updateRequest_slots x.projectIteration cid x.isRemoveGeoJSON x.isRemoveTile3D
    x.isRemoveOrthoPhoto x.geoJSONFile x.tile3DFile x.orthoPhotoFile
    (form.Value "revision".toList)
  rw [← hreq] at hsl
  obtain ⟨w2, wcall, wpre, hs, s1, _, s2, hW⟩ := update_success env req _ w1 x sched d hv hr
  have hst := updateSaveLocations_steps x w1
  rw [hs] at hst
  rw [hW, hgeo, hnt, hno, promote_keep _ _ _ _ hortho, promote_keep _ _ _ _ htile,
    promote_remove]
  have hG : parse (slash x.saveDirectory "geojson".toList) =
      (parse x.saveDirectory).child "geojson".toList :=
    parse_slash _ _ hS (plain_of_mem_names _ (by simp [finalNames]))
  have hT : parse (slash x.saveDirectory "geojson_temp".toList) =
      (parse x.saveDirectory).child "geojson_temp".toList :=
    parse_slash _ _ hS (plain_of_mem_names _ (by simp [tempNames]))
  -- the save directory and its ancestors are directories before the promotion
  have hdirs : ∀ q, q.contains (parse x.saveDirectory) = true → wpre.fs q = some Node.dir := by
    intro q hq
    apply Steps.steps_dir _ _ _ s2
    rw [logCall_fs]
    apply Steps.steps_dir _ _ _ s1
    apply updateSaveLocations_dirs _ _ _ w1 w2 hs
    rw [hT]
    exact CPath.contains_trans _ _ _ hq (CPath.contains_child _ _)
  refine ⟨?_, ?_, ?_, ?_, ?_, ?_, ?_, ?_, ?_, ?_⟩
  · rw [MkdirAll_trace, RemoveAll_trace, RemoveAll_trace]
    simp only [callsOf_append, callsOf_singleton_fs, List.append_nil]
    rw [Steps.steps_calls _ _ _ s2, logCall_trace, callsOf_append, Steps.steps_calls _ _ _ s1,
      Steps.steps_calls _ _ _ hst, callsOf_singleton_call]
  · exact (hsl.1 hgeo).1
  · exact (hsl.1 hgeo).2
  · exact (hsl.2.2.2.1 htile hnt).1
  · exact (hsl.2.2.2.1 htile hnt).2
  · exact (hsl.2.2.2.2.2 hortho hno).1
  · exact (hsl.2.2.2.2.2 hortho hno).2
  · apply MkdirAll_dirs _ _ _ _ (CPath.contains_refl _)
    apply MkdirAll_ok
    intro q hq
    by_cases hqG : q = parse (slash x.saveDirectory "geojson".toList)
    · subst hqG
      simp [RemoveAll_fs, CPath.contains_refl, isFile]
    · have hqB : q.contains (parse x.saveDirectory) = true := by
        have := CPath.contains_parent_of_ne _ _ hq hqG
        rw [hG] at this
        simpa [CPath.parent, CPath.child] using this
      have h1 : (parse (slash x.saveDirectory "geojson".toList)).contains q = false := by
        cases hc : (parse (slash x.saveDirectory "geojson".toList)).contains q with
        | false => rfl
        | true => exact absurd (CPath.contains_antisymm _ _ hq hc) hqG
      have h2 : (parse (slash x.saveDirectory "geojson_temp".toList)).contains q = false := by
        cases hc : (parse (slash x.saveDirectory "geojson_temp".toList)).contains q with
        | false => rfl
        | true =>
          rw [hT] at hc
          have := CPath.contains_trans _ _ _ hc hqB
          rw [CPath.child_not_contains] at this
          exact absurd this (by simp)
      simp only [RemoveAll_fs, h1, h2, Bool.false_eq_true, if_false, hdirs q hqB, isFile]
  · intro q hq hne
    have hnot : q.contains (parse (slash x.saveDirectory "geojson".toList)) = false := by
      cases hc : q.contains (parse (slash x.saveDirectory "geojson".toList)) with
      | false => rfl
      | true => exact absurd (CPath.contains_antisymm _ _ hc hq) hne
    have := (MkdirAll_frame (slash x.saveDirectory "geojson".toList)
      (os.RemoveAll (slash x.saveDirectory "geojson_temp".toList)
        (os.RemoveAll (slash x.saveDirectory "geojson".toList) wpre).2).2 q).1
    rcases this with e | e
    · rw [e]
      simp only [RemoveAll_fs, hq, if_true, ite_self]
    · rw [hnot] at e; exact absurd e (by simp)
  · intro k hk q hq
    have hkf : k ∈ finalNames := by
      simp only [List.mem_cons, List.mem_singleton, List.not_mem_nil, or_false] at hk
      rcases hk with h | h <;> subst h <;> simp [finalNames]
    have hkg : k ≠ "geojson".toList := by
      simp only [List.mem_cons, List.mem_singleton, List.not_mem_nil, or_false] at hk
      rcases hk with h | h <;> subst h <;> decide
    have hap := final_apart_temp x hS k hkf q hq
    have hK : parse (slash x.saveDirectory k) = (parse x.saveDirectory).child k :=
      parse_slash _ _ hS (plain_of_mem_names _ (by simp [hkf]))
    have hqK := hq
    rw [hK] at hqK
    have h1 : (parse (slash x.saveDirectory "geojson".toList)).contains q = false := by
      cases hc : (parse (slash x.saveDirectory "geojson".toList)).contains q with
      | false => rfl
      | true =>
        rw [hG] at hc
        exact (CPath.child_disjoint _ _ _ q hkg hqK hc).elim
    have h2 : (parse (slash x.saveDirectory "geojson_temp".toList)).contains q = false :=
      (hap _ (by simp [UpdateCtx.tempKeys])).1
    have h3 : q.contains (parse (slash x.saveDirectory "geojson".toList)) = false := by
      cases hc : q.contains (parse (slash x.saveDirectory "geojson".toList)) with
      | false => rfl
      | true =>
        rw [hG] at hc
        exact (CPath.child_between _ _ _ q hkg hqK hc).elim
    have := (MkdirAll_frame (slash x.saveDirectory "geojson".toList)
      (os.RemoveAll (slash x.saveDirectory "geojson_temp".toList)
        (os.RemoveAll (slash x.saveDirectory "geojson".toList) wpre).2).2 q).1
    rcases this with e | e
    · rw [e]
      simp only [RemoveAll_fs, h1, h2, Bool.false_eq_true, if_false]
      rw [Steps.steps_apart _ _ _ s2 q hap, logCall_fs, Steps.steps_apart _ _ _ s1 q hap,
        Steps.steps_apart _ _ _ hst q hap, hw1]
    · rw [h3] at e; exact absurd e (by simp)

theorem update_remove_geojson_only_witness :
    (UpdateProjectIteration (sampleEnv sampleRemote)
      (sampleUpdate "true".toList "false".toList "false".toList [])
      [Tid.main, Tid.waiter, Tid.main] ⟨sampleFS, []⟩).main.response =
      some (Response.Created
        ⟨⟨"i".toList⟩, ⟨"p".toList⟩, some "r1".toList, none, none, none, none, none, none⟩) ∧
    (UpdateProjectIteration (sampleEnv sampleRemote)
      (sampleUpdate "true".toList "false".toList "false".toList [])
      [Tid.main, Tid.waiter, Tid.main] ⟨sampleFS, []⟩).world.fs
        (parse (slash sampleRemoveCtx.saveDirectory "geojson".toList)) = some Node.dir ∧
    (∀ q, (parse (slash sampleRemoveCtx.saveDirectory "geojson".toList)).contains q = true →
      q ≠ parse (slash sampleRemoveCtx.saveDirectory "geojson".toList) →
      (UpdateProjectIteration (sampleEnv sampleRemote)
        (sampleUpdate "true".toList "false".toList "false".toList [])
        [Tid.main, Tid.waiter, Tid.main] ⟨sampleFS, []⟩).world.fs q = none) :=
  ⟨by decide,
   (update_remove_geojson_only (sampleEnv sampleRemote)
      (sampleUpdate "true".toList "false".toList "false".toList []) sampleFS
      [Tid.main, Tid.waiter, Tid.main] sampleRemoveCtx
      ⟨sampleFS, [Event.call (Call.GetIteration "i".toList),
        Event.call (Call.GetCompanyID ⟨"p".toList⟩)]⟩
      ⟨⟨"i".toList⟩, ⟨"p".toList⟩, some "r1".toList, none, none, none, none, none, none⟩
      (by rfl) (by rfl) (by decide) (by decide) (by rfl) (by rfl)
      (by decide)).2.2.2.2.2.2.2.1,
   (update_remove_geojson_only (sampleEnv sampleRemote)
      (sampleUpdate "true".toList "false".toList "false".toList []) sampleFS
      [Tid.main, Tid.waiter, Tid.main] sampleRemoveCtx
      ⟨sampleFS, [Event.call (Call.GetIteration "i".toList),
        Event.call (Call.GetCompanyID ⟨"p".toList⟩)]⟩
      ⟨⟨"i".toList⟩, ⟨"p".toList⟩, some "r1".toList, none, none, none, none, none, none⟩
      (by rfl) (by rfl) (by decide) (by decide) (by rfl) (by rfl)
      (by decide)).2.2.2.2.2.2.2.2.1⟩

/-- C9 (as stated) fails: an update request that keeps all three assets
succeeds, yet the handler has called `os.MkdirAll` on the tile_3d temporary
directory, which did not exist before the request and is a directory
afterwards. -/
theorem update_keep_makes_temp_directory :
    (UpdateProjectIteration (sampleEnv sampleRemote)
      (sampleUpdate "false".toList "false".toList "false".toList [])
      [Tid.main, Tid.waiter, Tid.main] ⟨sampleFS, []⟩).main.response =
      some (Response.Created
        ⟨⟨"i".toList⟩, ⟨"p".toList⟩, some "r1".toList, some "/c/p/i/geojson".toList,
          some "old.zip".toList, none, none, none, none⟩) ∧
    Event.fs (FsOp.MkdirAll "/up/c/p/i/tile_3d_temp".toList) ∈
      (UpdateProjectIteration (sampleEnv sampleRemote)
        (sampleUpdate "false".toList "false".toList "false".toList [])
        [Tid.main, Tid.waiter, Tid.main] ⟨sampleFS, []⟩).world.trace ∧
    sampleFS (parse "/up/c/p/i/tile_3d_temp".toList) = none ∧
    (UpdateProjectIteration (sampleEnv sampleRemote)
      (sampleUpdate "false".toList "false".toList "false".toList [])
      [Tid.main, Tid.waiter, Tid.main] ⟨sampleFS, []⟩).world.fs
        (parse "/up/c/p/i/tile_3d_temp".toList) = some Node.dir := by
  decide

/-- C9 (amended): in the update flow, for every asset kind that is kept (its
remove flag is not "true" and no file is uploaded for it), in every state of
every run of a request that got through validation: no file-system call names
a path in the final directory of that kind; a file-system call that names a
path in its temporary directory is the `os.MkdirAll` of staging or the
`os.RemoveAll` of the rollback of that directory; every path in the final
directory holds what it held before the request; and every update call made
carries the URL and file name of the fetched iteration for that kind. -/
theorem update_keep_kind
    (env : Env) (req : Request) (fs0 : FS) (sched : List Tid) (x : UpdateCtx) (w1 : World)
    (k : Kind)
    (hv : updateValidate env req ⟨fs0, []⟩ = (Except.ok x, w1))
    (h1 : x.isRemove k ≠ "true".toList) (h2 : x.file k = none) :
    (∀ op, Event.fs op ∈ (UpdateProjectIteration env req sched ⟨fs0, []⟩).world.trace →
      ∀ p ∈ op.paths, (parse (slash x.saveDirectory k.dirName)).contains (parse p) = false) ∧
    (∀ op, Event.fs op ∈ (UpdateProjectIteration env req sched ⟨fs0, []⟩).world.trace →
      (∃ p ∈ op.paths, (parse (slash x.saveDirectory k.tempName)).contains (parse p) = true) →
      op = FsOp.MkdirAll (slash x.saveDirectory k.tempName) ∨
      op = FsOp.RemoveAll (slash x.saveDirectory k.tempName)) ∧
    (∀ q, (parse (slash x.saveDirectory k.dirName)).contains q = true →
      (UpdateProjectIteration env req sched ⟨fs0, []⟩).world.fs q = fs0 q) ∧
    (∀ r, Event.call (Call.UpdateIteration r) ∈
        (UpdateProjectIteration env req sched ⟨fs0, []⟩).world.trace →
      r.url k = x.projectIteration.url k ∧ r.fileName k = x.projectIteration.fileName k) := by
  obtain ⟨⟨evs, ht, hev⟩, hfs⟩ := update_keep_step env req fs0 sched x w1 k hv h1 h2
  simp only [List.nil_append] at ht
  rw [ht]
  refine ⟨?_, ?_, hfs, ?_⟩
  · intro op hop
    exact (hev _ hop).1
  · intro op hop
    exact (hev _ hop).2
  · intro r hr
    exact hev _ hr r rfl

theorem update_keep_kind_witness :
    (UpdateProjectIteration (sampleEnv sampleRemote)
      (sampleUpdate "false".toList "false".toList "false".toList
        [("tile_3d".toList, goodUpload "t.zip".toList)])
      [Tid.main, Tid.task 0, Tid.task 0, Tid.task 0, Tid.waiter, Tid.main]
      ⟨sampleFS, []⟩).main.response =
      some (Response.Created
        ⟨⟨"i".toList⟩, ⟨"p".toList⟩, some "r1".toList, some "/c/p/i/geojson".toList,
          some "old.zip".toList, none, none, some "/c/p/i/tile_3d".toList,
          some "t.zip".toList⟩) ∧
    (UpdateProjectIteration (sampleEnv sampleRemote)
      (sampleUpdate "false".toList "false".toList "false".toList
        [("tile_3d".toList, goodUpload "t.zip".toList)])
      [Tid.main, Tid.task 0, Tid.task 0, Tid.task 0, Tid.waiter, Tid.main]
      ⟨sampleFS, []⟩).world.fs (parse "/up/c/p/i/geojson/old.txt".toList) =
      sampleFS (parse "/up/c/p/i/geojson/old.txt".toList) :=
  ⟨by decide,
   (update_keep_kind (sampleEnv sampleRemote)
      (sampleUpdate "false".toList "false".toList "false".toList
        [("tile_3d".toList, goodUpload "t.zip".toList)])
      sampleFS [Tid.main, Tid.task 0, Tid.task 0, Tid.task 0, Tid.waiter, Tid.main]
      { sampleUpdateCtx with
        toBeUpdatedProjectIteration :=
          updateRequest sampleIteration "c".toList "false".toList "false".toList
            "false".toList none (some (goodUpload "t.zip".toList)) none []
        tile3DFile := some (goodUpload "t.zip".toList) }
      ⟨sampleFS, [Event.call (Call.GetIteration "i".toList),
        Event.call (Call.GetCompanyID ⟨"p".toList⟩)]⟩
      Kind.geojson (by rfl) (by decide) (by rfl)).2.2.1
      (parse "/up/c/p/i/geojson/old.txt".toList) (by decide)⟩

/-- C7 (as stated) fails: a create request for a fresh iteration that brings
none of the three assets succeeds, and afterwards all three final directories
exist, not zero of them. -/
theorem create_without_assets_makes_three_directories :
    (CreateProjectIteration (sampleEnv sampleRemote) (sampleCreate [])
      [Tid.task 0, Tid.task 1, Tid.task 2, Tid.waiter, Tid.main]
      ⟨FS.empty, []⟩).main.response =
      some (Response.Created
        ⟨⟨"i".toList⟩, ⟨"p".toList⟩, some "r1".toList, none, none, none, none, none, none⟩) ∧
    (CreateProjectIteration (sampleEnv sampleRemote) (sampleCreate [])
      [Tid.task 0, Tid.task 1, Tid.task 2, Tid.waiter, Tid.main]
      ⟨FS.empty, []⟩).world.fs (parse "/up/c/p/i/geojson".toList) = some Node.dir ∧
    (CreateProjectIteration (sampleEnv sampleRemote) (sampleCreate [])
      [Tid.task 0, Tid.task 1, Tid.task 2, Tid.waiter, Tid.main]
      ⟨FS.empty, []⟩).world.fs (parse "/up/c/p/i/tile_3d".toList) = some Node.dir ∧
    (CreateProjectIteration (sampleEnv sampleRemote) (sampleCreate [])
      [Tid.task 0, Tid.task 1, Tid.task 2, Tid.waiter, Tid.main]
      ⟨FS.empty, []⟩).world.fs (parse "/up/c/p/i/ortho_photo".toList) = some Node.dir := by
  decide

/-- C7 (amended): for every successful create request for a fresh iteration
(nothing exists at or below the iteration directory, and neither it nor an
ancestor of it is a regular file), whatever the number of assets supplied:
afterwards each of the three final directories geojson, tile_3d and
ortho_photo is a directory, and nothing exists at or below any of the three
temporary directory names. (`x` holds the local variables of the handler,
which `createValidate_ok` ties to the form and to the created iteration.) -/
theorem create_success_makes_all_final_directories
    (env : Env) (req : Request) (fs0 : FS) (sched : List Tid) (x : CreateCtx) (w1 : World)
    (d : IterationResponse)
    (hv : createValidate env req ⟨fs0, []⟩ = (Except.ok x, w1))
    (hfresh : ∀ q, (parse x.saveDirectory).contains q = true → fs0 q = none)
    (hanc : ∀ q, q.contains (parse x.saveDirectory) = true → isFile (fs0 q) = false)
    (hr : (CreateProjectIteration env req sched ⟨fs0, []⟩).main.response =
      some (Response.Created d)) :
    (∀ k ∈ finalNames,
      (CreateProjectIteration env req sched ⟨fs0, []⟩).world.fs
        (parse (slash x.saveDirectory k)) = some Node.dir) ∧
    (∀ t ∈ tempNames, ∀ q, (parse (slash x.saveDirectory t)).contains q = true →
      (CreateProjectIteration env req sched ⟨fs0, []⟩).world.fs q = none) := by
  have hS := createValidate_saveDirectory env req _ w1 x hv
  obtain ⟨_, _, _, _, _, _, _, _, _, _, _, _, _, _, hw1⟩ := createValidate_ok env req _ w1 x hv
  have hfs1 : w1.fs = fs0 := by rw [hw1]; rfl
  have hG : parse (slash x.saveDirectory "geojson".toList) =
      (parse x.saveDirectory).child "geojson".toList :=
    parse_slash _ _ hS (plain_of_mem_names _ (by simp [finalNames]))
  have hstat : (os.Stat (slash x.saveDirectory "geojson".toList) w1).1 =
      some os.ErrNotExist := by
    apply Stat_notExist
    · rw [hfs1, hG]
      exact hfresh _ (CPath.contains_child _ _)
    · intro q hq
      rw [hfs1]
      apply hanc
      rw [hG] at hq
      simpa [CPath.parent, CPath.child] using hq
  have hst := createSaveLocations_steps x w1
  rcases create_shape env req fs0 w1 x sched hv with ⟨err, w2, _, hm, _⟩ | ⟨w2, hs, _, hinv⟩
  · rw [hm] at hr
    simp [CreateMain.response] at hr
  · rw [hs] at hst
    obtain ⟨_, _, hm⟩ := hinv
    cases hmain : (CreateProjectIteration env req sched ⟨fs0, []⟩).main with
    | ranging y => rw [hmain] at hr; simp [CreateMain.response] at hr
    | gotErr y e => rw [hmain] at hr; simp [CreateMain.response] at hr
    | removed y e => rw [hmain] at hr; simp [CreateMain.response] at hr
    | returned r =>
      rw [hmain] at hm hr
      simp only [CreateMain.response, Option.some.injEq] at hr
      subst hr
      rcases hm with ⟨_, wpre, s, hc⟩ | ⟨wdel, err, post, _, _, _, h4⟩
      · have hfs := (createCommit_created env x wpre _ d hc).1
        rw [hfs]
        constructor
        · intro k hk
          apply Steps.steps_dir _ _ _ s
          apply createSaveLocations_dirs _ _ _ w1 w2 hstat hs
          simp only [finalNames, List.mem_cons, List.mem_singleton, List.not_mem_nil,
            or_false] at hk
          rcases hk with h | h | h <;> subst h <;> simp [CPath.contains_refl]
        · intro t ht q hq
          have hap := temp_apart_final x hS t ht q hq
          rw [Steps.steps_apart _ _ _ s q hap, Steps.steps_apart _ _ _ hst q hap, hfs1]
          apply hfresh
          rw [parse_slash _ _ hS (plain_of_mem_names _ (by simp [ht]))] at hq
          exact CPath.contains_trans _ _ _ (CPath.contains_child _ _) hq
      · exact absurd h4.symm (createRollbackResponse_ne_created _ _ _)

theorem create_success_makes_all_final_directories_witness :
    (CreateProjectIteration (sampleEnv sampleRemote)
      (sampleCreate [("geojson".toList, goodUpload "g.zip".toList)])
      [Tid.task 0, Tid.task 0, Tid.task 0, Tid.task 1, Tid.task 2, Tid.waiter, Tid.main]
      ⟨FS.empty, []⟩).main.response =
      some (Response.Created
        ⟨⟨"i".toList⟩, ⟨"p".toList⟩, some "r1".toList, some "/c/p/i/geojson".toList,
          some "g.zip".toList, none, none, none, none⟩) ∧
    (CreateProjectIteration (sampleEnv sampleRemote)
      (sampleCreate [("geojson".toList, goodUpload "g.zip".toList)])
      [Tid.task 0, Tid.task 0, Tid.task 0, Tid.task 1, Tid.task 2, Tid.waiter, Tid.main]
      ⟨FS.empty, []⟩).world.fs
        (parse (slash (sampleCreateCtx (some (goodUpload "g.zip".toList)) none
          none).saveDirectory "tile_3d".toList)) = some Node.dir :=
  ⟨by decide,
   (create_success_makes_all_final_directories (sampleEnv sampleRemote)
      (sampleCreate [("geojson".toList, goodUpload "g.zip".toList)]) FS.empty
      [Tid.task 0, Tid.task 0, Tid.task 0, Tid.task 1, Tid.task 2, Tid.waiter, Tid.main]
      (sampleCreateCtx (some (goodUpload "g.zip".toList)) none none)
      ⟨FS.empty, [Event.call (Call.GetCompanyID ⟨"p".toList⟩),
        Event.call (Call.CreateIteration ⟨"p".toList⟩ "r1".toList)]⟩
      ⟨⟨"i".toList⟩, ⟨"p".toList⟩, some "r1".toList, some "/c/p/i/geojson".toList,
        some "g.zip".toList, none, none, none, none⟩
      (by rfl) (fun _ _ => rfl) (fun _ _ => rfl) (by decide)).1
      "tile_3d".toList (by decide)⟩

/-- C10 (as stated) fails: a create request of a privileged caller whose
geojson file is `a.txt` is rejected with the file-type error only after the
company lookup has been sent to the Project service. -/
theorem create_file_type_rejected_after_company_lookup :
    (CreateProjectIteration (sampleEnv sampleRemote)
      (sampleCreate [("geojson".toList, goodUpload "a.txt".toList)]) []
      ⟨FS.empty, []⟩).main.response =
      some (Response.BadRequest "File extensions: .txt not allowed.".toList 4) ∧
    (CreateProjectIteration (sampleEnv sampleRemote)
      (sampleCreate [("geojson".toList, goodUpload "a.txt".toList)]) []
      ⟨FS.empty, []⟩).world.trace = [Event.call (Call.GetCompanyID ⟨"p".toList⟩)] := by
  decide

/-- C10 (amended): in the create flow, for every request of a privileged
caller whose form parses and whose project_id is a valid identifier, and in
which at least one of the supplied geojson / tile_3d / ortho_photo files has
an extension other than .zip, .rar and .7z: under every schedule the only
effect of the request is the company lookup (no iteration is created and no
file-system call is made, so the file system is as before), and the response
is the file-type-not-allowed error when the lookup succeeds and the error of
the lookup otherwise. -/
theorem create_rejects_file_type_after_lookup_only
    (env : Env) (req : Request) (fs0 : FS) (sched : List Tid) (form : Form) (pid : Str)
    (projectID : UUID) (fh : FileHeader)
    (hroot : req.isRoot = true) (hform : req.MultipartForm = Except.ok form)
    (hpid : (form.Value "project_id".toList).head? = some pid)
    (hparse : env.uuidParse pid = some projectID)
    (hmem : some fh ∈ [(form.File "geojson".toList).head?, (form.File "tile_3d".toList).head?,
      (form.File "ortho_photo".toList).head?])
    (hext : filepath.Ext fh.Filename ∉ allowedExtensions) :
    (CreateProjectIteration env req sched ⟨fs0, []⟩).world.trace =
      [Event.call (Call.GetCompanyID projectID)] ∧
    (CreateProjectIteration env req sched ⟨fs0, []⟩).world.fs = fs0 ∧
    (CreateProjectIteration env req sched ⟨fs0, []⟩).main.response =
      some (match env.remote.GetCompanyID [] projectID with
        | Except.ok _ =>
          Response.BadRequest
            ("File extensions: ".toList ++
              writeExtensions (notAllowedExtensions [(form.File "geojson".toList).head?,
                (form.File "tile_3d".toList).head?, (form.File "ortho_photo".toList).head?]) ++
              "not allowed.".toList)
            env.ERR_FILE_TYPE_NOT_ALLOWED
        | Except.error e => Response.BadRequest e.msg e.code) := by
  have hrej := allowFileTypeCheck_rejects _ fh hmem hext
  have hv : createValidate env req ⟨fs0, []⟩ =
      (Except.error (match env.remote.GetCompanyID [] projectID with
        | Except.ok _ =>
          Response.BadRequest
            ("File extensions: ".toList ++
              writeExtensions (notAllowedExtensions [(form.File "geojson".toList).head?,
                (form.File "tile_3d".toList).head?, (form.File "ortho_photo".toList).head?]) ++
              "not allowed.".toList)
            env.ERR_FILE_TYPE_NOT_ALLOWED
        | Except.error e => Response.BadRequest e.msg e.code),
       ⟨fs0, [Event.call (Call.GetCompanyID projectID)]⟩) := by
    unfold createValidate
    rw [hroot]
    simp only [Bool.not_true, Bool.false_eq_true, if_false, hform, hpid, hparse,
      callGetCompanyIDFromProjectID]
    have hc0 : callsOf ([] : List Event) = [] := rfl
    rw [hc0]
    cases hc : env.remote.GetCompanyID [] projectID with
    | error e => rfl
    | ok cid =>
      simp only
      rw [hrej]
      rfl
  generalize hresp : (match env.remote.GetCompanyID [] projectID with
    | Except.ok _ =>
      Response.BadRequest
        ("File extensions: ".toList ++
          writeExtensions (notAllowedExtensions [(form.File "geojson".toList).head?,
            (form.File "tile_3d".toList).head?, (form.File "ortho_photo".toList).head?]) ++
          "not allowed.".toList)
        env.ERR_FILE_TYPE_NOT_ALLOWED
    | Except.error e => Response.BadRequest e.msg e.code) = resp at hv ⊢
  have hinit : createInit env req ⟨fs0, []⟩ =
      createReturn resp ⟨fs0, [Event.call (Call.GetCompanyID projectID)]⟩ := by
    unfold createInit
    rw [hv]
  unfold CreateProjectIteration
  rw [hinit]
  obtain ⟨h1, h2⟩ := exec_createReturn env resp
    ⟨fs0, [Event.call (Call.GetCompanyID projectID)]⟩ sched
  rw [h1, h2]
  exact ⟨rfl, rfl, rfl⟩

theorem create_rejects_file_type_after_lookup_only_witness :
    (CreateProjectIteration (sampleEnv sampleRemote)
      (sampleCreate [("geojson".toList, goodUpload "a.txt".toList)])
      [Tid.task 0, Tid.waiter, Tid.main] ⟨FS.empty, []⟩).world.trace =
      [Event.call (Call.GetCompanyID ⟨"p".toList⟩)] :=
  (create_rejects_file_type_after_lookup_only (sampleEnv sampleRemote)
    (sampleCreate [("geojson".toList, goodUpload "a.txt".toList)]) FS.empty
    [Tid.task 0, Tid.waiter, Tid.main]
    (sampleForm [("project_id".toList, "p".toList), ("revision".toList, "r1".toList)]
      [("geojson".toList, goodUpload "a.txt".toList)])
    "p".toList ⟨"p".toList⟩ (goodUpload "a.txt".toList)
    rfl rfl (by decide) rfl (List.Mem.head _) (by decide)).1

/-- C6 (as stated) fails: a create request whose geojson upload is not an
archive is answered with the error of that upload when the delete call of the
rollback succeeds, but when the delete call fails the response carries the
error of the delete call alone; the error of the upload is not in it. -/
theorem create_rollback_error_replaces_original :
    (CreateProjectIteration (sampleEnv sampleRemote)
      (sampleCreate [("geojson".toList, brokenUpload "g.zip".toList)])
      [Tid.task 0, Tid.task 0, Tid.main, Tid.main] ⟨FS.empty, []⟩).main.response =
      some (Response.InternalServerError "zip: not a valid zip file".toList none) ∧
    (CreateProjectIteration (sampleEnv failingDeleteRemote)
      (sampleCreate [("geojson".toList, brokenUpload "g.zip".toList)])
      [Tid.task 0, Tid.task 0, Tid.main, Tid.main] ⟨FS.empty, []⟩).main.response =
      some (Response.InternalServerError "delete failed".toList (some 77)) := by
  decide

/-- C6 (amended): when the remote call of a rollback fails, the response is
the error of that call, message and code, in place of the original failure.
In the create flow (rollback after a task error and rollback after a failed
update call alike): whenever the handler has returned and its trace holds a
delete-iteration call that the Project service answered with the error `de`,
the response is the internal-server error with the message and code of `de`.
In the update flow: whenever the handler has returned after staging with
something other than the success response and the Project service answers the
second update call, the one that restores the fetched values, with the error
`re`, the response is the internal-server error with the message and code of
`re`. And every run of either handler can be continued until the handler
returns. -/
theorem rollback_failure_is_the_response :
    (∀ (env : Env) (req : Request) (fs0 : FS) (sched : List Tid) (x : CreateCtx) (w1 : World)
      (pre post : List Event) (id : UUID) (de : RemoteErr),
      createValidate env req ⟨fs0, []⟩ = (Except.ok x, w1) →
      (CreateProjectIteration env req sched ⟨fs0, []⟩).main.response ≠ none →
      (CreateProjectIteration env req sched ⟨fs0, []⟩).world.trace =
        pre ++ Event.call (Call.DeleteIteration id) :: post →
      env.remote.DeleteIteration (callsOf pre) id = Except.error de →
      (CreateProjectIteration env req sched ⟨fs0, []⟩).main.response =
        some (Response.InternalServerError de.msg (some de.code))) ∧
    (∀ (env : Env) (req : Request) (fs0 : FS) (sched : List Tid) (x : UpdateCtx) (w1 : World)
      (re : RemoteErr),
      updateValidate env req ⟨fs0, []⟩ = (Except.ok x, w1) →
      (updateSaveLocations (slash x.saveDirectory "geojson_temp".toList)
        (slash x.saveDirectory "tile_3d_temp".toList)
        (slash x.saveDirectory "ortho_photo_temp".toList) w1).1 = none →
      (UpdateProjectIteration env req sched ⟨fs0, []⟩).main.response ≠ none →
      (∀ d, (UpdateProjectIteration env req sched ⟨fs0, []⟩).main.response ≠
        some (Response.Created d)) →
      env.remote.UpdateIteration
        (callsOf w1.trace ++ [Call.UpdateIteration x.toBeUpdatedProjectIteration])
        (Mapper x.projectIteration x.toBeUpdatedProjectIteration) = Except.error re →
      (UpdateProjectIteration env req sched ⟨fs0, []⟩).main.response =
        some (Response.InternalServerError re.msg (some re.code))) ∧
    (∀ (env : Env) (req : Request) (fs0 : FS) (sched : List Tid),
      (∃ more, (CreateProjectIteration env req (sched ++ more) ⟨fs0, []⟩).main.response ≠
        none) ∧
      (∃ more, (UpdateProjectIteration env req (sched ++ more) ⟨fs0, []⟩).main.response ≠
        none)) := by
  refine ⟨?_, ?_, fun env req fs0 sched =>
    ⟨create_handler_returns env req _ sched, update_handler_returns env req _ sched⟩⟩
  · intro env req fs0 sched x w1 pre post id de hv hret htr hde
    cases hmain : (CreateProjectIteration env req sched ⟨fs0, []⟩).main with
    | ranging y => rw [hmain] at hret; simp [CreateMain.response] at hret
    | gotErr y e => rw [hmain] at hret; simp [CreateMain.response] at hret
    | removed y e => rw [hmain] at hret; simp [CreateMain.response] at hret
    | returned r =>
      rw [create_delete_failed env req fs0 w1 x sched r hv hmain pre post id de htr hde]
      rfl
  · intro env req fs0 sched x w1 re hv hstaged hret hfail hre
    have hst := updateSaveLocations_steps x w1
    rcases update_shape env req ⟨fs0, []⟩ w1 x sched hv with
      ⟨err, w2, hs, _, _⟩ | ⟨w2, hs, hinv⟩
    · rw [hs] at hstaged; simp at hstaged
    · rw [hs] at hst
      obtain ⟨_, _, hm⟩ := hinv
      cases hmain : (UpdateProjectIteration env req sched ⟨fs0, []⟩).main with
      | updating y => rw [hmain] at hret; simp [UpdateMain.response] at hret
      | ranging y res e => rw [hmain] at hret; simp [UpdateMain.response] at hret
      | returned r =>
        rw [hmain] at hm hfail
        obtain ⟨_, wcall, wpre, e, s1, s2, hf⟩ := hm
        have hne : ∀ d, (updateFinish env x (env.remote.UpdateIteration (callsOf wcall.trace)
            x.toBeUpdatedProjectIteration) e wpre).1 ≠ Response.Created d := by
          intro d hd
          rw [hf] at hd
          simp only at hd
          exact hfail d (by simp [UpdateMain.response, hd])
        have hcalls : callsOf wpre.trace =
            callsOf w1.trace ++ [Call.UpdateIteration x.toBeUpdatedProjectIteration] := by
          rw [Steps.steps_calls _ _ _ s2, logCall_trace, callsOf_append,
            Steps.steps_calls _ _ _ s1, Steps.steps_calls _ _ _ hst, callsOf_singleton_call]
        have := updateFinish_rollback_failed env x _ e wpre re hne (by rw [hcalls]; exact hre)
        rw [hf] at this
        simp only at this
        rw [this]
        rfl

theorem rollback_failure_is_the_response_witness :
    (CreateProjectIteration (sampleEnv failingDeleteRemote)
      (sampleCreate [("geojson".toList, brokenUpload "g.zip".toList)])
      [Tid.task 0, Tid.task 0, Tid.main, Tid.main] ⟨FS.empty, []⟩).main.response =
      some (Response.InternalServerError "delete failed".toList (some 77)) ∧
    (UpdateProjectIteration (sampleEnv failingRestoreRemote)
      (sampleUpdate "false".toList "false".toList "false".toList
        [("tile_3d".toList, brokenUpload "t.rar".toList)])
      [Tid.main, Tid.task 0, Tid.task 0, Tid.waiter, Tid.main] ⟨sampleFS, []⟩).main.response =
      some (Response.InternalServerError "restore failed".toList (some 78)) :=
  ⟨rollback_failure_is_the_response.1 (sampleEnv failingDeleteRemote)
      (sampleCreate [("geojson".toList, brokenUpload "g.zip".toList)]) FS.empty
      [Tid.task 0, Tid.task 0, Tid.main, Tid.main]
      (sampleCreateCtx (some (brokenUpload "g.zip".toList)) none none)
      ⟨FS.empty, [Event.call (Call.GetCompanyID ⟨"p".toList⟩),
        Event.call (Call.CreateIteration ⟨"p".toList⟩ "r1".toList)]⟩
      [Event.call (Call.GetCompanyID ⟨"p".toList⟩),
        Event.call (Call.CreateIteration ⟨"p".toList⟩ "r1".toList),
        Event.fs (FsOp.Stat "/up/c/p/i/geojson".toList),
        Event.fs (FsOp.MkdirAll "/up/c/p/i/geojson".toList),
        Event.fs (FsOp.MkdirAll "/up/c/p/i/tile_3d".toList),
        Event.fs (FsOp.MkdirAll "/up/c/p/i/ortho_photo".toList),
        Event.fs (FsOp.RemoveAll "/up/c/p/i".toList)]
      [] ⟨"i".toList⟩ ⟨77, "delete failed".toList⟩
      (by rfl) (by decide) (by decide) (by rfl),
   rollback_failure_is_the_response.2.1 (sampleEnv failingRestoreRemote)
      (sampleUpdate "false".toList "false".toList "false".toList
        [("tile_3d".toList, brokenUpload "t.rar".toList)])
      sampleFS [Tid.main, Tid.task 0, Tid.task 0, Tid.waiter, Tid.main] sampleUpdateCtx
      ⟨sampleFS, [Event.call (Call.GetIteration "i".toList),
        Event.call (Call.GetCompanyID ⟨"p".toList⟩)]⟩
      ⟨78, "restore failed".toList⟩
      (by rfl) (by decide) (by decide)
      (by
        intro d hd
        have h : (UpdateProjectIteration (sampleEnv failingRestoreRemote)
            (sampleUpdate "false".toList "false".toList "false".toList
              [("tile_3d".toList, brokenUpload "t.rar".toList)])
            [Tid.main, Tid.task 0, Tid.task 0, Tid.waiter, Tid.main]
            ⟨sampleFS, []⟩).main.response =
            some (Response.InternalServerError "restore failed".toList (some 78)) := by
          decide
        rw [h] at hd
        cases hd)
      (by rfl)⟩

/-- C2 (the code departs from it): a create request brings a geojson upload
that is not an archive and a tile_3d archive with the entry `data/x.txt`.
The handler receives the error of the geojson task, removes the iteration
directory, makes the delete call and responds, without waiting for the
tile_3d task; that task extracts its entry after the removal. When the handler
responds, the iteration directory exists again and holds the extracted file:
the staged directories have not all been removed. -/
theorem create_rollback_undone_by_running_task :
    (CreateProjectIteration (sampleEnv sampleRemote)
      (sampleCreate [("geojson".toList, brokenUpload "g.zip".toList),
        ("tile_3d".toList, goodUpload "t.zip".toList)])
      [Tid.task 0, Tid.task 1, Tid.task 0, Tid.main, Tid.task 1, Tid.main]
      ⟨FS.empty, []⟩).main.response =
      some (Response.InternalServerError "zip: not a valid zip file".toList none) ∧
    (CreateProjectIteration (sampleEnv sampleRemote)
      (sampleCreate [("geojson".toList, brokenUpload "g.zip".toList),
        ("tile_3d".toList, goodUpload "t.zip".toList)])
      [Tid.task 0, Tid.task 1, Tid.task 0, Tid.main, Tid.task 1, Tid.main]
      ⟨FS.empty, []⟩).world.trace =
      [Event.call (Call.GetCompanyID ⟨"p".toList⟩),
       Event.call (Call.CreateIteration ⟨"p".toList⟩ "r1".toList),
       Event.fs (FsOp.Stat "/up/c/p/i/geojson".toList),
       Event.fs (FsOp.MkdirAll "/up/c/p/i/geojson".toList),
       Event.fs (FsOp.MkdirAll "/up/c/p/i/tile_3d".toList),
       Event.fs (FsOp.MkdirAll "/up/c/p/i/ortho_photo".toList),
       Event.fs (FsOp.RemoveAll "/up/c/p/i".toList),
       Event.fs (FsOp.MkdirAll "/up/c/p/i/tile_3d/data".toList),
       Event.fs (FsOp.OpenFile "/up/c/p/i/tile_3d/data/x.txt".toList),
       Event.fs (FsOp.Copy "/up/c/p/i/tile_3d/data/x.txt".toList),
       Event.call (Call.DeleteIteration ⟨"i".toList⟩)] ∧
    (CreateProjectIteration (sampleEnv sampleRemote)
      (sampleCreate [("geojson".toList, brokenUpload "g.zip".toList),
        ("tile_3d".toList, goodUpload "t.zip".toList)])
      [Tid.task 0, Tid.task 1, Tid.task 0, Tid.main, Tid.task 1, Tid.main]
      ⟨FS.empty, []⟩).world.fs (parse "/up/c/p/i".toList) = some Node.dir ∧
    (CreateProjectIteration (sampleEnv sampleRemote)
      (sampleCreate [("geojson".toList, brokenUpload "g.zip".toList),
        ("tile_3d".toList, goodUpload "t.zip".toList)])
      [Tid.task 0, Tid.task 1, Tid.task 0, Tid.main, Tid.task 1, Tid.main]
      ⟨FS.empty, []⟩).world.fs (parse "/up/c/p/i/tile_3d/data/x.txt".toList) =
      some (Node.file 420 [1, 2, 3]) := by
  decide

/-- C3 (the code departs from it): the create handler returns on the first
error it receives. With a geojson and a tile_3d upload that are both not
archives, once the handler has received the error of the geojson task and
responded, under every further schedule the tile_3d task is still waiting to
send its error on the unbuffered channel and the channel is never closed. And
with a tile_3d archive in place of the second broken upload, the tile_3d task
still writes its entry after the handler has responded. -/
theorem create_returns_while_task_pending (sched : List Tid) :
    ((CreateProjectIteration (sampleEnv sampleRemote)
        (sampleCreate [("geojson".toList, brokenUpload "g.zip".toList),
          ("tile_3d".toList, brokenUpload "t.zip".toList)])
        ([Tid.task 0, Tid.task 1, Tid.task 0, Tid.main, Tid.main] ++ sched)
        ⟨FS.empty, []⟩).main.response =
        some (Response.InternalServerError "zip: not a valid zip file".toList none) ∧
      (∃ t, (CreateProjectIteration (sampleEnv sampleRemote)
          (sampleCreate [("geojson".toList, brokenUpload "g.zip".toList),
            ("tile_3d".toList, brokenUpload "t.zip".toList)])
          ([Tid.task 0, Tid.task 1, Tid.task 0, Tid.main, Tid.main] ++ sched)
          ⟨FS.empty, []⟩).tasks[1]? = some t ∧
        t.st = TaskSt.sending "zip: not a valid zip file".toList) ∧
      (CreateProjectIteration (sampleEnv sampleRemote)
        (sampleCreate [("geojson".toList, brokenUpload "g.zip".toList),
          ("tile_3d".toList, brokenUpload "t.zip".toList)])
        ([Tid.task 0, Tid.task 1, Tid.task 0, Tid.main, Tid.main] ++ sched)
        ⟨FS.empty, []⟩).closed = false) ∧
    ((CreateProjectIteration (sampleEnv sampleRemote)
        (sampleCreate [("geojson".toList, brokenUpload "g.zip".toList),
          ("tile_3d".toList, goodUpload "t.zip".toList)])
        [Tid.task 0, Tid.task 0, Tid.main, Tid.main]
        ⟨FS.empty, []⟩).main.response =
        some (Response.InternalServerError "zip: not a valid zip file".toList none) ∧
      (CreateProjectIteration (sampleEnv sampleRemote)
        (sampleCreate [("geojson".toList, brokenUpload "g.zip".toList),
          ("tile_3d".toList, goodUpload "t.zip".toList)])
        [Tid.task 0, Tid.task 0, Tid.main, Tid.main]
        ⟨FS.empty, []⟩).world.fs (parse "/up/c/p/i/tile_3d/data/x.txt".toList) = none ∧
      (CreateProjectIteration (sampleEnv sampleRemote)
        (sampleCreate [("geojson".toList, brokenUpload "g.zip".toList),
          ("tile_3d".toList, goodUpload "t.zip".toList)])
        [Tid.task 0, Tid.task 0, Tid.main, Tid.main, Tid.task 1, Tid.task 1]
        ⟨FS.empty, []⟩).world.fs (parse "/up/c/p/i/tile_3d/data/x.txt".toList) =
        some (Node.file 420 [1, 2, 3])) := by
  constructor
  · unfold CreateProjectIteration
    rw [Conc.exec_append]
    obtain ⟨h1, h2, h3⟩ := create_blocked_forever (sampleEnv sampleRemote)
      (Conc.exec (createProg (sampleEnv sampleRemote))
        [Tid.task 0, Tid.task 1, Tid.task 0, Tid.main, Tid.main]
        (createInit (sampleEnv sampleRemote)
          (sampleCreate [("geojson".toList, brokenUpload "g.zip".toList),
            ("tile_3d".toList, brokenUpload "t.zip".toList)]) ⟨FS.empty, []⟩))
      (Response.InternalServerError "zip: not a valid zip file".toList none) 1
      "zip: not a valid zip file".toList rfl
      ⟨⟨"/up/c/p/i/tile_3d".toList, TaskSt.sending "zip: not a valid zip file".toList⟩,
        rfl, rfl⟩
      rfl sched
    exact ⟨by rw [h1]; rfl, h2, h3⟩
  · decide

/-- C11 (as stated) fails: a delete request of a caller who is not privileged
and whose body cannot be parsed is answered with the internal-server error of
the parser, not with the bad-request error delete-not-allowed. -/
theorem delete_unparsed_body_answered_before_privilege :
    (DeleteProjectIteration (sampleEnv sampleRemote)
      ⟨false, Except.error "unexpected end of JSON input".toList⟩ ⟨FS.empty, []⟩).1 =
      Response.InternalServerError "unexpected end of JSON input".toList none ∧
    (DeleteProjectIteration (sampleEnv sampleRemote)
      ⟨false, Except.error "unexpected end of JSON input".toList⟩ ⟨FS.empty, []⟩).1 ≠
      Response.BadRequest "no permission to delete".toList
        (sampleEnv sampleRemote).ERR_PROJECT_ITERATION_DELETE_NOT_ALLOWED := by
  decide

/-- C11 (amended): for every create and every update request whose token claim
is_root is false, under every schedule the handler has answered with the
bad-request error upload-not-allowed and the world is as before: no remote
call and no file-system call is made. For every delete request whose is_root
is false the world is as before as well, and the response is the bad-request
error delete-not-allowed when the body parses and the internal-server error of
the parser when it does not. -/
theorem unprivileged_request_rejected_without_effect
    (env : Env) (w : World) (hroot : Bool) (h : hroot = false) :
    (∀ (form : Except Str Form) (sched : List Tid),
      (CreateProjectIteration env ⟨hroot, form⟩ sched w).main.response =
        some (Response.BadRequest "field not found".toList
          env.ERR_PROJECT_ITERATION_UPLOAD_NOT_ALLOWED) ∧
      (CreateProjectIteration env ⟨hroot, form⟩ sched w).world = w) ∧
    (∀ (form : Except Str Form) (sched : List Tid),
      (UpdateProjectIteration env ⟨hroot, form⟩ sched w).main.response =
        some (Response.BadRequest "no permission to upload".toList
          env.ERR_PROJECT_ITERATION_UPLOAD_NOT_ALLOWED) ∧
      (UpdateProjectIteration env ⟨hroot, form⟩ sched w).world = w) ∧
    (∀ body : Except Str UUID,
      (DeleteProjectIteration env ⟨hroot, body⟩ w).2 = w ∧
      (DeleteProjectIteration env ⟨hroot, body⟩ w).1 =
        match body with
        | Except.ok _ => Response.BadRequest "no permission to delete".toList
            env.ERR_PROJECT_ITERATION_DELETE_NOT_ALLOWED
        | Except.error err => Response.InternalServerError err none) := by
  subst h
  refine ⟨?_, ?_, ?_⟩
  · intro form sched
    have hinit : createInit env ⟨false, form⟩ w =
        createReturn (Response.BadRequest "field not found".toList
          env.ERR_PROJECT_ITERATION_UPLOAD_NOT_ALLOWED) w := by
      simp [createInit, createValidate]
    unfold CreateProjectIteration
    rw [hinit]
    obtain ⟨h1, h2⟩ := exec_createReturn env
      (Response.BadRequest "field not found".toList
        env.ERR_PROJECT_ITERATION_UPLOAD_NOT_ALLOWED) w sched
    rw [h1, h2]
    exact ⟨rfl, rfl⟩
  · intro form sched
    have hinit : updateInit env ⟨false, form⟩ w =
        updateReturn (Response.BadRequest "no permission to upload".toList
          env.ERR_PROJECT_ITERATION_UPLOAD_NOT_ALLOWED) w := by
      simp [updateInit, updateValidate]
    unfold UpdateProjectIteration
    rw [hinit]
    obtain ⟨h1, h2⟩ := exec_updateReturn env
      (Response.BadRequest "no permission to upload".toList
        env.ERR_PROJECT_ITERATION_UPLOAD_NOT_ALLOWED) w sched
    rw [h1, h2]
    exact ⟨rfl, rfl⟩
  · intro body
    cases body with
    | error err => exact ⟨rfl, rfl⟩
    | ok id => exact ⟨rfl, rfl⟩

theorem unprivileged_request_rejected_without_effect_witness :
    (CreateProjectIteration (sampleEnv sampleRemote)
      ⟨false, Except.ok (sampleForm [("project_id".toList, "p".toList)]
        [("geojson".toList, goodUpload "g.zip".toList)])⟩
      [Tid.task 0, Tid.waiter, Tid.main] ⟨sampleFS, []⟩).main.response =
      some (Response.BadRequest "field not found".toList 1) ∧
    (DeleteProjectIteration (sampleEnv sampleRemote) ⟨false, Except.ok ⟨"i".toList⟩⟩
      ⟨sampleFS, []⟩).1 = Response.BadRequest "no permission to delete".toList 2 :=
  ⟨((unprivileged_request_rejected_without_effect (sampleEnv sampleRemote) ⟨sampleFS, []⟩
      false rfl).1 (Except.ok (sampleForm [("project_id".toList, "p".toList)]
        [("geojson".toList, goodUpload "g.zip".toList)]))
      [Tid.task 0, Tid.waiter, Tid.main]).1,
   ((unprivileged_request_rejected_without_effect (sampleEnv sampleRemote) ⟨sampleFS, []⟩
      false rfl).2.2 (Except.ok ⟨"i".toList⟩)).2⟩

/-- C13: `allowFileTypeCheck` returns no error exactly when every file given
(absent files apart) has an extension, as `filepath.Ext` gives it (the suffix
from the last dot, compared as it is written), equal to .zip, .rar or .7z;
absent files do not change the result; and when it fails the message is
"File extensions: ", the disallowed extensions separated by ", ", and
" not allowed.", where the extensions listed are the distinct disallowed
extensions of the files, each exactly once, in order of first occurrence. -/
theorem allowFileTypeCheck_names_disallowed_extensions (files : List (Option FileHeader)) :
    (allowFileTypeCheck files = none ↔
      ∀ fh, some fh ∈ files →
        filepath.Ext fh.Filename ∈ [".zip".toList, ".rar".toList, ".7z".toList]) ∧
    allowFileTypeCheck ((files.filterMap id).map some) = allowFileTypeCheck files ∧
    (∀ msg, allowFileTypeCheck files = some msg →
      msg = "File extensions: ".toList ++
        List.intercalate ", ".toList (distinctInOrder (disallowedExtensions files)) ++
        " not allowed.".toList) ∧
    (distinctInOrder (disallowedExtensions files)).Nodup ∧
    (∀ e, e ∈ distinctInOrder (disallowedExtensions files) ↔
      e ∉ [".zip".toList, ".rar".toList, ".7z".toList] ∧
        ∃ fh, some fh ∈ files ∧ filepath.Ext fh.Filename = e) := by
  refine ⟨allowFileTypeCheck_none_iff files, ?_, ?_, distinctInOrder_nodup _, ?_⟩
  · have h : disallowedExtensions ((files.filterMap id).map some) = disallowedExtensions files := by
      unfold disallowedExtensions
      congr 2
      induction files.filterMap id with
      | nil => rfl
      | cons x xs ih => simp
    unfold allowFileTypeCheck
    simp only [notAllowedExtensions_eq, h]
  · intro msg hmsg
    unfold allowFileTypeCheck at hmsg
    simp only at hmsg
    split at hmsg
    · rename_i hl
      simp only [Option.some.injEq] at hmsg
      have hne : notAllowedExtensions files ≠ [] := by
        intro h0
        rw [h0] at hl
        exact hl rfl
      rw [← hmsg, writeExtensions_eq _ hne, notAllowedExtensions_eq]
      simp only [List.append_assoc]
      rfl
    · cases hmsg
  · intro e
    rw [← notAllowedExtensions_eq]
    exact mem_notAllowedExtensions files e

theorem allowFileTypeCheck_names_disallowed_extensions_witness :
    allowFileTypeCheck [some (goodUpload "a.txt".toList), none, some (goodUpload "b.zip".toList),
      some (goodUpload "c.ZIP".toList), some (goodUpload "d.tar.txt".toList),
      some (goodUpload "noext".toList)] =
      some "File extensions: .txt, .ZIP,  not allowed.".toList ∧
    "File extensions: .txt, .ZIP,  not allowed.".toList =
      "File extensions: ".toList ++
        List.intercalate ", ".toList (distinctInOrder (disallowedExtensions
          [some (goodUpload "a.txt".toList), none, some (goodUpload "b.zip".toList),
            some (goodUpload "c.ZIP".toList), some (goodUpload "d.tar.txt".toList),
            some (goodUpload "noext".toList)])) ++
        " not allowed.".toList :=
  ⟨by decide,
   (allowFileTypeCheck_names_disallowed_extensions
      [some (goodUpload "a.txt".toList), none, some (goodUpload "b.zip".toList),
        some (goodUpload "c.ZIP".toList), some (goodUpload "d.tar.txt".toList),
        some (goodUpload "noext".toList)]).2.2.1 _ (by decide)⟩

/-- C14: the asset-slot invariant of the update-iteration requests. The
request the create flow builds has, in each of the three slots, the URL and
the file name both present or both absent, whatever files were uploaded; the
request the update flow builds from a fetched iteration with paired slots has
paired slots, and so has the request of its rollback, for every combination of
uploaded files, remove flags and revision; and in every state of every run,
every update call the create handler has made carries a request with paired
slots, and so does every update call the update handler has made when the
iterations the Project service returns have paired slots. -/
theorem update_requests_have_paired_slots :
    (∀ x : CreateCtx, (createRequest x).slotsPaired) ∧
    (∀ (fetched : IterationResponse) (companyID rg rt ro : Str) (g t o : Option FileHeader)
      (revision : List Str), fetched.slotsPaired →
      (updateRequest fetched companyID rg rt ro g t o revision).slotsPaired ∧
      (Mapper fetched (updateRequest fetched companyID rg rt ro g t o revision)).slotsPaired) ∧
    (∀ (env : Env) (req : Request) (fs0 : FS) (sched : List Tid) (r : UpdateIterationRequest),
      Event.call (Call.UpdateIteration r) ∈
        (CreateProjectIteration env req sched ⟨fs0, []⟩).world.trace → r.slotsPaired) ∧
    (∀ (env : Env) (req : Request) (fs0 : FS) (sched : List Tid),
      (∀ calls id it, env.remote.GetIteration calls id = Except.ok it → it.slotsPaired) →
      ∀ r : UpdateIterationRequest, Event.call (Call.UpdateIteration r) ∈
        (UpdateProjectIteration env req sched ⟨fs0, []⟩).world.trace → r.slotsPaired) := by
  have h0 : updateCallsPaired ([] : List Event) := by
    intro r hr
    simp [callsOf] at hr
  refine ⟨createRequest_paired, ?_, ?_, ?_⟩
  · intro fetched companyID rg rt ro g t o revision h
    exact ⟨updateRequest_paired _ _ _ _ _ _ _ _ _ h, Mapper_paired _ _ h⟩
  · intro env req fs0 sched r hr
    exact create_calls_paired env req ⟨fs0, []⟩ sched h0 r ((mem_callsOf _ _).mpr hr)
  · intro env req fs0 sched hfetch r hr
    exact update_calls_paired env req ⟨fs0, []⟩ sched h0 hfetch r ((mem_callsOf _ _).mpr hr)

theorem update_requests_have_paired_slots_witness :
    Event.call (Call.UpdateIteration
      ⟨⟨"i".toList⟩, some "r1".toList, none, none, none, none,
        some "/c/p/i/tile_3d".toList, some "t.zip".toList⟩) ∈
      (UpdateProjectIteration (sampleEnv sampleRemote)
        (sampleUpdate "true".toList "false".toList "false".toList
          [("tile_3d".toList, goodUpload "t.zip".toList)])
        [Tid.main] ⟨sampleFS, []⟩).world.trace ∧
    UpdateIterationRequest.slotsPaired
      ⟨⟨"i".toList⟩, some "r1".toList, none, none, none, none,
        some "/c/p/i/tile_3d".toList, some "t.zip".toList⟩ :=
  ⟨by decide,
   update_requests_have_paired_slots.2.2.2 (sampleEnv sampleRemote)
    (sampleUpdate "true".toList "false".toList "false".toList
      [("tile_3d".toList, goodUpload "t.zip".toList)])
    sampleFS [Tid.main]
    (by
      intro calls id it h
      simp only [sampleEnv, sampleRemote, Except.ok.injEq] at h
      rw [← h]
      exact ⟨rfl, rfl, rfl⟩)
    _ (by decide)⟩

/-- C15: for every destination and every archive entry that is not a
directory, whose joined path passes the zip-slip test (it resolves to a path
inside the destination) and whose content the archive gives as `bytes`:
`unzipFile` returns no error when no ancestor of the path is a regular file
and the path is not a directory; and whenever it returns no error, the path
`Join(destination, name)` holds a file whose content is exactly `bytes`,
whatever was there before (with the mode of the entry when nothing was
there), every ancestor of the path is a directory, and every other path holds
what it held before. -/
theorem unzipFile_extracts_entry (f : ZipFile) (destination : Str) (w : World)
    (bytes : List Nat) (hdir : f.IsDir = false)
    (hchk : strings.HasPrefix (filepath.Join destination f.Name)
      (filepath.Clean destination ++ [os.PathSeparator]) = true)
    (hopen : f.Open = Except.ok bytes) :
    ((∀ q, q.contains (parse (filepath.Join destination f.Name)).parent = true →
        isFile (w.fs q) = false) →
      w.fs (parse (filepath.Join destination f.Name)) ≠ some Node.dir →
      (unzipFile f destination w).1 = none) ∧
    ((unzipFile f destination w).1 = none →
      (∃ m, (unzipFile f destination w).2.fs (parse (filepath.Join destination f.Name)) =
          some (Node.file m bytes) ∧
        (w.fs (parse (filepath.Join destination f.Name)) = none → m = f.Mode)) ∧
      (∀ q, q.contains (parse (filepath.Join destination f.Name)).parent = true →
        (unzipFile f destination w).2.fs q = some Node.dir) ∧
      (∀ q, q ≠ parse (filepath.Join destination f.Name) →
        q.contains (parse (filepath.Join destination f.Name)).parent = false →
        (unzipFile f destination w).2.fs q = w.fs q)) := by
  refine ⟨fun hanc hk => unzipFile_succeeds f destination w bytes hdir hchk hanc hk hopen, ?_⟩
  intro hok
  have h : unzipFile f destination w = (none, (unzipFile f destination w).2) := by
    rw [← hok]
  obtain ⟨_, _, b, m, hb, h1, h2, h3, h4⟩ := unzipFile_file f destination w _ hdir h
  rw [hopen] at hb
  simp only [Except.ok.injEq] at hb
  subst hb
  exact ⟨⟨m, h1, h2⟩, h3, h4⟩

theorem unzipFile_extracts_entry_witness :
    (unzipFile ⟨"data/x.txt".toList, false, 420, Except.ok [1, 2, 3]⟩
      "/up/c/p/i/geojson".toList ⟨staleFS, []⟩).1 = none ∧
    ∃ m, (unzipFile ⟨"data/x.txt".toList, false, 420, Except.ok [1, 2, 3]⟩
      "/up/c/p/i/geojson".toList ⟨staleFS, []⟩).2.fs
        (parse (filepath.Join "/up/c/p/i/geojson".toList "data/x.txt".toList)) =
          some (Node.file m [1, 2, 3]) ∧
      (staleFS (parse (filepath.Join "/up/c/p/i/geojson".toList "data/x.txt".toList)) = none →
        m = 420) :=
  ⟨(unzipFile_extracts_entry ⟨"data/x.txt".toList, false, 420, Except.ok [1, 2, 3]⟩
      "/up/c/p/i/geojson".toList ⟨staleFS, []⟩ [1, 2, 3] rfl (by decide) rfl).1
      (by
        intro q hq
        simp only [staleFS]
        split
        · rename_i h
          rw [h] at hq
          exact absurd hq (by decide)
        · split <;> rfl)
      (by decide),
   ((unzipFile_extracts_entry ⟨"data/x.txt".toList, false, 420, Except.ok [1, 2, 3]⟩
      "/up/c/p/i/geojson".toList ⟨staleFS, []⟩ [1, 2, 3] rfl (by decide) rfl).2
      (by decide)).1⟩

/-- The task of `saveAndUnzipFile` taken alone: for every uploaded file that
opens as an archive with the entries
`entries`, run by `saveAndUnzipFile` on its own: after at most two steps more
than there are entries the task is where `extractInOrder` ends, waiting at the
send of the error of the first failing entry or returned; at every moment the
only error the task can be waiting to send is that one, so nothing is sent
when no entry fails; when `ek` is the first entry that fails, the result is
the error of `ek` and the world right after `ek`, whatever entries follow, so
the entries after `ek` are never extracted; a task without a file returns
without a step in the file system and without a send; a task at its send or
returned makes no further step of its own; and among the goroutines of a
handler, a task that is not at its send moves by `saveAndUnzipFile`, while a
task at its send either waits or hands its error to the handler, once, and has
returned after that, so no second error is sent. -/
theorem saveAndUnzipFile_sends_first_error (saveDirectory : Str) (file : FileHeader)
    (entries : List ZipFile) (w : World) (hopen : file.OpenErr = none)
    (hread : file.NewReader = Except.ok entries) :
    (∀ n, entries.length + 2 ≤ n →
      runTask saveDirectory n (TaskSt.spawned (some file)) w =
        taskEnd (extractInOrder saveDirectory entries w)) ∧
    (∀ n e, (runTask saveDirectory n (TaskSt.spawned (some file)) w).1 = TaskSt.sending e →
      (extractInOrder saveDirectory entries w).1 = some e) ∧
    (∀ (pre post : List ZipFile) (ek : ZipFile) (err : Str) (wk wk2 : World),
      entries = pre ++ ek :: post → extractInOrder saveDirectory pre w = (none, wk) →
      unzipFile ek saveDirectory wk = (some err, wk2) →
      extractInOrder saveDirectory entries w = (some err, wk2)) ∧
    (∀ n, (runTask saveDirectory n (TaskSt.spawned none) w).2 = w ∧
      ∀ e, (runTask saveDirectory n (TaskSt.spawned none) w).1 ≠ TaskSt.sending e) ∧
    (∀ (e : Str) (v : World),
      saveAndUnzipFile saveDirectory (TaskSt.sending e) v = (TaskSt.sending e, v) ∧
      saveAndUnzipFile saveDirectory TaskSt.done v = (TaskSt.done, v)) ∧
    (∀ (M : Type) (P : MainProg M) (c : Conc M) (i : Nat) (t : Task),
      c.tasks[i]? = some t → (∀ e, t.st ≠ TaskSt.sending e) →
      Conc.step P c (Tid.task i) =
        { c with world := (saveAndUnzipFile t.saveDirectory t.st c.world).2,
                 tasks := c.tasks.set i
                   { t with st := (saveAndUnzipFile t.saveDirectory t.st c.world).1 } }) ∧
    (∀ (M : Type) (P : MainProg M) (c : Conc M) (i : Nat) (t : Task) (e : Str),
      c.tasks[i]? = some t → t.st = TaskSt.sending e →
      Conc.step P c (Tid.task i) = c ∨
      ∃ m, c.closed = false ∧ P.recv c.main e = some m ∧
        Conc.step P c (Tid.task i) =
          { c with main := m, tasks := c.tasks.set i { t with st := TaskSt.done } }) := by
  have hstep : ∀ n, runTask saveDirectory (n + 1) (TaskSt.spawned (some file)) w =
      runTask saveDirectory n (TaskSt.unzipping entries) w := by
    intro n
    simp only [runTask, saveAndUnzipFile, hopen, hread]
  refine ⟨?_, ?_, ?_, ?_, fun e v => ⟨rfl, rfl⟩,
    fun M P c i t hg hns => Conc.step_task_local P c i t hg hns, ?_⟩
  rotate_right
  · intro M P c i t e hg hst
    cases hcl : c.closed with
    | true => exact Or.inl (by simp [Conc.step, hg, hst, hcl])
    | false =>
      cases hr : P.recv c.main e with
      | none => exact Or.inl (by simp [Conc.step, hg, hst, hcl, hr])
      | some m =>
        exact Or.inr ⟨m, rfl, rfl, by
          rw [← hcl]
          exact Conc.step_task_send P c i t e m hg hst hcl hr⟩
  · intro n hn
    obtain ⟨m, rfl⟩ : ∃ m, n = m + 1 := ⟨n - 1, by omega⟩
    rw [hstep]
    exact runTask_unzipping saveDirectory entries w m (by omega)
  · intro n e h
    cases n with
    | zero => simp [runTask] at h
    | succ m =>
      rw [hstep] at h
      exact runTask_unzipping_sending saveDirectory m entries w e h
  · intro pre post ek err wk wk2 he h1 h2
    rw [he]
    exact extractInOrder_first_error saveDirectory pre w wk wk2 ek post err h1 h2
  · intro n
    cases n with
    | zero => exact ⟨rfl, fun e h => by simp [runTask] at h⟩
    | succ m =>
      have h : runTask saveDirectory (m + 1) (TaskSt.spawned none) w = (TaskSt.done, w) := by
        simp only [runTask, saveAndUnzipFile, runTask_done]
      rw [h]
      exact ⟨rfl, fun e h => by cases h⟩

theorem saveAndUnzipFile_sends_first_error_witness :
    runTask "/up/c/p/i/geojson".toList 5 (TaskSt.spawned (some mixedUpload)) ⟨FS.empty, []⟩ =
      taskEnd (extractInOrder "/up/c/p/i/geojson".toList
        [⟨"a.txt".toList, false, 420, Except.ok [1]⟩, evilEntry,
          ⟨"b.txt".toList, false, 420, Except.ok [2]⟩] ⟨FS.empty, []⟩) ∧
    (extractInOrder "/up/c/p/i/geojson".toList
        [⟨"a.txt".toList, false, 420, Except.ok [1]⟩, evilEntry,
          ⟨"b.txt".toList, false, 420, Except.ok [2]⟩] ⟨FS.empty, []⟩).1 =
      some "invalid file path: /up/c/p/evil.txt".toList ∧
    (extractInOrder "/up/c/p/i/geojson".toList
        [⟨"a.txt".toList, false, 420, Except.ok [1]⟩, evilEntry,
          ⟨"b.txt".toList, false, 420, Except.ok [2]⟩] ⟨FS.empty, []⟩).2.trace =
      [Event.fs (FsOp.MkdirAll "/up/c/p/i/geojson".toList),
       Event.fs (FsOp.OpenFile "/up/c/p/i/geojson/a.txt".toList),
       Event.fs (FsOp.Copy "/up/c/p/i/geojson/a.txt".toList)] :=
  ⟨(saveAndUnzipFile_sends_first_error "/up/c/p/i/geojson".toList mixedUpload
      [⟨"a.txt".toList, false, 420, Except.ok [1]⟩, evilEntry,
        ⟨"b.txt".toList, false, 420, Except.ok [2]⟩] ⟨FS.empty, []⟩ rfl rfl).1 5 (by decide),
   by decide, by decide⟩

/-- C16 (the code departs from it): a send on the unbuffered channel is
complete when the handler receives it, and the create handler leaves its range
loop with the first error it receives. For the create request whose geojson
and tile_3d archives both have a failing second entry: under every schedule at
most one error is sent; and once both tasks have reached their failing entry,
the handler has received the error of the geojson task and responded, under
every further schedule the error of the geojson task is the only error sent,
the handler has answered with it, and the tile_3d task still waits at its
send: the error of its first failing entry is never sent. In the update
handler, which keeps receiving until the channel is closed, the same two
uploads send both errors. -/
theorem create_second_error_never_sent (sched : List Tid) :
    (Conc.sent (createProg (sampleEnv sampleRemote)) sched
      (createInit (sampleEnv sampleRemote) twoFailingCreate ⟨FS.empty, []⟩)).length ≤ 1 ∧
    Conc.sent (createProg (sampleEnv sampleRemote))
      ([Tid.task 0, Tid.task 0, Tid.task 0, Tid.task 1, Tid.task 1, Tid.task 1,
        Tid.task 0, Tid.main, Tid.main] ++ sched)
      (createInit (sampleEnv sampleRemote) twoFailingCreate ⟨FS.empty, []⟩) =
      [(0, "invalid file path: /up/c/p/evil.txt".toList)] ∧
    (CreateProjectIteration (sampleEnv sampleRemote) twoFailingCreate
      ([Tid.task 0, Tid.task 0, Tid.task 0, Tid.task 1, Tid.task 1, Tid.task 1,
        Tid.task 0, Tid.main, Tid.main] ++ sched) ⟨FS.empty, []⟩).main.response =
      some (Response.InternalServerError
        "invalid file path: /up/c/p/evil.txt".toList none) ∧
    (∃ t, (CreateProjectIteration (sampleEnv sampleRemote) twoFailingCreate
        ([Tid.task 0, Tid.task 0, Tid.task 0, Tid.task 1, Tid.task 1, Tid.task 1,
          Tid.task 0, Tid.main, Tid.main] ++ sched) ⟨FS.empty, []⟩).tasks[1]? = some t ∧
      t.st = TaskSt.sending "invalid file path: /up/c/p/evil.txt".toList) ∧
    Conc.sent (updateProg (sampleEnv sampleRemote))
      [Tid.task 0, Tid.task 0, Tid.task 0, Tid.task 1, Tid.task 1, Tid.task 1,
        Tid.main, Tid.task 0, Tid.task 1, Tid.waiter, Tid.main]
      (updateInit (sampleEnv sampleRemote) twoFailingUpdate ⟨sampleFS, []⟩) =
      [(0, "invalid file path: /up/c/p/evil.txt".toList),
       (1, "invalid file path: /up/c/p/evil.txt".toList)] := by
  have hmain : (Conc.exec (createProg (sampleEnv sampleRemote))
      [Tid.task 0, Tid.task 0, Tid.task 0, Tid.task 1, Tid.task 1, Tid.task 1,
        Tid.task 0, Tid.main, Tid.main]
      (createInit (sampleEnv sampleRemote) twoFailingCreate ⟨FS.empty, []⟩)).main =
      CreateMain.returned (Response.InternalServerError
        "invalid file path: /up/c/p/evil.txt".toList none) := rfl
  refine ⟨create_sent_at_most_one _ sched _, ?_, ?_, ?_, by decide⟩
  · rw [Conc.sent_append]
    have h1 : Conc.sent (createProg (sampleEnv sampleRemote))
        [Tid.task 0, Tid.task 0, Tid.task 0, Tid.task 1, Tid.task 1, Tid.task 1,
          Tid.task 0, Tid.main, Tid.main]
        (createInit (sampleEnv sampleRemote) twoFailingCreate ⟨FS.empty, []⟩) =
        [(0, "invalid file path: /up/c/p/evil.txt".toList)] := by decide
    rw [h1, create_sent_after_loop _ sched _ (by
      intro x hx
      rw [hmain] at hx
      cases hx)]
    rfl
  · unfold CreateProjectIteration
    rw [Conc.exec_append]
    obtain ⟨h1, _, _⟩ := create_blocked_forever (sampleEnv sampleRemote) _
      (Response.InternalServerError "invalid file path: /up/c/p/evil.txt".toList none) 1
      "invalid file path: /up/c/p/evil.txt".toList hmain
      ⟨⟨"/up/c/p/i/tile_3d".toList,
        TaskSt.sending "invalid file path: /up/c/p/evil.txt".toList⟩, rfl, rfl⟩
      rfl sched
    rw [h1]
    rfl
  · unfold CreateProjectIteration
    rw [Conc.exec_append]
    obtain ⟨_, h2, _⟩ := create_blocked_forever (sampleEnv sampleRemote) _
      (Response.InternalServerError "invalid file path: /up/c/p/evil.txt".toList none) 1
      "invalid file path: /up/c/p/evil.txt".toList hmain
      ⟨⟨"/up/c/p/i/tile_3d".toList,
        TaskSt.sending "invalid file path: /up/c/p/evil.txt".toList⟩, rfl, rfl⟩
      rfl sched
    exact h2

/-- C17: for every call of `SendAndParseResponseData` with a non-nil pointer
target, whatever the package `encoding/json` returns. When the transport
reports an error or the status code is outside [200, 300), the result is a
non-nil error whose code and message are the `ErrorCode` and `Error` fields of
the error envelope after `json.Unmarshal` of the body into it, and the target
is untouched. Otherwise, when the status is 2xx, the body unmarshals into the
map and the `Data` of the map, marshalled again, unmarshals into the target,
the result is (0, nil) and the target holds what `Data` unmarshals to. -/
theorem SendAndParseResponseData_envelopes {Value T : Type} (json : EncodingJSON Value T)
    (reply : Reply) (object : T) :
    ((reply.errs ≠ [] ∨ reply.statusCode < 200 ∨ 300 ≤ reply.statusCode) →
      helpers.SendAndParseResponseData json true reply object =
        (((json.UnmarshalErrorResponse reply.body ⟨0, []⟩).2.ErrorCode,
          some (json.UnmarshalErrorResponse reply.body ⟨0, []⟩).2.Error), object)) ∧
    (reply.errs = [] → 200 ≤ reply.statusCode → reply.statusCode < 300 →
      ∀ (response : Str → Value) (dataEncoded : List Nat) (object1 : T),
        json.UnmarshalMap reply.body = (none, response) →
        json.Marshal (response "Data".toList) = Except.ok dataEncoded →
        json.Unmarshal dataEncoded object = (none, object1) →
        helpers.SendAndParseResponseData json true reply object =
          ((0, none), object1)) := by
  constructor
  · intro h
    exact SendAndParseResponseData_failed json reply object h
  · intro he h1 h2 response dataEncoded object1 hm hj hu
    rw [SendAndParseResponseData_succeeded json reply object he h1 h2, hm]
    simp only [hj, hu]

theorem SendAndParseResponseData_envelopes_witness :
    helpers.SendAndParseResponseData sampleJSON true refusedReply "old".toList =
      ((1234, some "forbidden".toList), "old".toList) ∧
    helpers.SendAndParseResponseData sampleJSON true (dataReply grantedBody) "old".toList =
      ((0, none), "Granted".toList) :=
  ⟨(SendAndParseResponseData_envelopes sampleJSON refusedReply "old".toList).1
      (Or.inr (Or.inr (by decide))),
   (SendAndParseResponseData_envelopes sampleJSON (dataReply grantedBody) "old".toList).2
      rfl (by decide) (by decide)
      (fun name => if name = "Data".toList then some "Granted".toList else none)
      (34 :: "Granted".toList.map Char.toNat ++ [34]) "Granted".toList rfl rfl rfl⟩

/-! ### C12 -/

/-- C12: for every download request with a valid project id, whatever the
package `encoding/json` returns: `callValidatePermission` returns (0, nil)
exactly when `SendAndParseResponseData` returned no error and the decoded
reply is the string "Granted", which is exactly when the reply of the User
service has no transport error and a 2xx status, its body unmarshals into the
map, and the `Data` of the map, marshalled again, unmarshals into "Granted".
In every other case it returns a non-nil error: the permission-not-allowed
code with "no permission" when the reply decoded but is not "Granted", and the
error of `SendAndParseResponseData` when the call failed. In every other case
`GetProjectFile` answers, whatever the file system holds, with the bad-request
error of that message and code, and the permission request is the only thing
it has done: no file is read or served. When the permission is granted the
handler goes on to serve the file. -/
theorem download_requires_granted_permission {Value : Type}
    (json : EncodingJSON Value Str) (env : Env) (user : UserService)
    (req : DownloadRequest) (fs : FS) (projectID : UUID)
    (hid : env.uuidParse req.projectID = some projectID) :
    ((callValidatePermission json env user projectID).1 = (0, none) ↔
      ((helpers.SendAndParseResponseData json true (user.ValidatePermission projectID)
          []).1.2 = none ∧
        (helpers.SendAndParseResponseData json true (user.ValidatePermission projectID)
          []).2 = "Granted".toList)) ∧
    ((callValidatePermission json env user projectID).1 = (0, none) ↔
      (user.ValidatePermission projectID).granted json) ∧
    (¬ (user.ValidatePermission projectID).granted json →
      ∃ err, (callValidatePermission json env user projectID).1.2 = some err) ∧
    ((helpers.SendAndParseResponseData json true (user.ValidatePermission projectID)
        []).1.2 = none →
      (helpers.SendAndParseResponseData json true (user.ValidatePermission projectID)
        []).2 ≠ "Granted".toList →
      (callValidatePermission json env user projectID).1 =
        (env.ERR_COMMON_PERMISSION_NOT_ALLOWED, some "no permission".toList)) ∧
    (∀ e, (helpers.SendAndParseResponseData json true (user.ValidatePermission projectID)
        []).1.2 = some e →
      (callValidatePermission json env user projectID).1 =
        ((helpers.SendAndParseResponseData json true (user.ValidatePermission projectID)
          []).1.1, some e)) ∧
    (¬ (user.ValidatePermission projectID).granted json →
      ∃ msg code, (callValidatePermission json env user projectID).1 = (code, some msg) ∧
        ∀ fs1 : FS, GetProjectFile json env user req fs1 =
          (DownloadResponse.BadRequest msg code,
            [DownloadEffect.validatePermission projectID])) ∧
    ((user.ValidatePermission projectID).granted json →
      (GetProjectFile json env user req fs).2 =
        [DownloadEffect.validatePermission projectID,
          DownloadEffect.sendFile (GetFileSystemRootLocation env)
            (slash (slash (slash req.companyID projectID.str) req.iterationID) req.file)]) := by
  obtain ⟨heff, h1, h2, h3⟩ := callValidatePermission_cases json env user projectID
  obtain ⟨hiff, hnil⟩ := callValidatePermission_granted_iff json env user projectID
  have hsp := sendAndParse_granted_iff json (user.ValidatePermission projectID)
  refine ⟨hiff.trans hsp.symm, hiff, ?_, h2, h1, ?_, ?_⟩
  · intro hng
    cases he : (callValidatePermission json env user projectID).1.2 with
    | none => exact absurd (hnil.mp he) hng
    | some err => exact ⟨err, rfl⟩
  · intro hng
    cases hcv : callValidatePermission json env user projectID with
    | mk r eff =>
      obtain ⟨code, err⟩ := r
      rw [hcv] at heff hnil
      cases err with
      | none => exact absurd (hnil.mp rfl) hng
      | some msg =>
        refine ⟨msg, code, rfl, ?_⟩
        intro fs1
        unfold GetProjectFile
        rw [hid]
        simp only [hcv]
        simp only at heff
        rw [heff]
  · intro hg
    cases hcv : callValidatePermission json env user projectID with
    | mk r eff =>
      obtain ⟨code, err⟩ := r
      rw [hcv] at heff hiff
      have h0 := hiff.mpr hg
      simp only [Prod.mk.injEq] at h0
      obtain ⟨hcode, herr⟩ := h0
      subst hcode
      subst herr
      simp only at heff
      unfold GetProjectFile
      rw [hid]
      simp only [hcv]
      cases SendFile fs (GetFileSystemRootLocation env)
          (slash (slash (slash req.companyID projectID.str) req.iterationID) req.file) with
      | error e => simp only [heff, List.singleton_append]
      | ok content => simp only [heff, List.singleton_append]

theorem download_requires_granted_permission_witness :
    (sampleEnv sampleRemote).uuidParse sampleDownload.projectID = some ⟨"p".toList⟩ ∧
    ¬ (denyingUser.ValidatePermission ⟨"p".toList⟩).granted sampleJSON ∧
    (callValidatePermission sampleJSON (sampleEnv sampleRemote) denyingUser ⟨"p".toList⟩).1 =
      (5, some "no permission".toList) ∧
    GetProjectFile sampleJSON (sampleEnv sampleRemote) denyingUser sampleDownload sampleFS =
      (DownloadResponse.BadRequest "no permission".toList 5,
        [DownloadEffect.validatePermission ⟨"p".toList⟩]) ∧
    (callValidatePermission sampleJSON (sampleEnv sampleRemote) grantingUser ⟨"p".toList⟩).1 =
      (0, none) :=
  ⟨rfl,
   fun hg => by
    have h := ((download_requires_granted_permission sampleJSON (sampleEnv sampleRemote)
      denyingUser sampleDownload sampleFS ⟨"p".toList⟩ rfl).2.1).mpr hg
    revert h
    decide,
   (download_requires_granted_permission sampleJSON (sampleEnv sampleRemote) denyingUser
      sampleDownload sampleFS ⟨"p".toList⟩ rfl).2.2.2.1 (by decide) (by decide),
   by decide,
   ((download_requires_granted_permission sampleJSON (sampleEnv sampleRemote) grantingUser
      sampleDownload sampleFS ⟨"p".toList⟩ rfl).1).mpr ⟨by decide, by decide⟩⟩

end FileManager
